import Mathlib

/-!
# Syllable graph construction and the translations built on it

A shallow embedding of `src/algo/syllabifier.cc` (`Syllabifier::BuildSyllableGraph`,
`Syllabifier::CheckOverlappedSpellings`, `Syllabifier::Transpose`), of
`src/gear/script_translator.cc` (`DelimitSyllablesDfs`, the methods of
`ScriptTranslation`, `ScriptTranslator::Query` and `ScriptTranslator::Memorize`) and of
`src/gear/table_translator.cc` (the methods of `TableTranslation`, of
`SentenceTranslation` and of `SentenceSyllabification`, the loop of
`TableTranslator::MakeSentence`,
`TableTranslator::Query` and `TableTranslator::Memorize`), and the proofs of what the
specification says about them. `UserDbValue::Pack` and `UserDbValue::Unpack`, which
`user_db.h` declares, are modelled from the specification.

* `std::map` is a list of key/value pairs kept in strictly increasing key order;
  iteration order of the map is the order of the list.
* `std::string` is a `List Char`, one element per byte.
* `std::priority_queue<Vertex, ..., std::greater<Vertex>>` is a list kept in
  non-decreasing order, so that `top()` is the head.
* `double credibility` is an exact rational.
* `BuildSyllableGraph` returns an `Except`: `input.substr(pos)` throws when `pos` lies
  beyond the input. The `while` loop over the queue runs on a bound computed from the
  prism (`loopBound`), which `mainLoop_terminates` shows to suffice.
* The prism is a parameter: three functions, as the code uses them. So are the
  dictionary, the user dictionary, the unity encoder, the poet and `Sentence::Extend`.
* A `size_t` difference wraps around (`sizeSub`); sums of positions are taken not to
  overflow. Weights and qualities (`double`) are exact rationals.
* The translators return an `Except`: `Fault` lists an exception thrown by `at` or
  `substr`, a null pointer dereferenced and a vector indexed past its end.
* The calls that `Memorize` makes on the user dictionary and on the encoder are
  returned as a list, in the order they are made; the commit history of the context
  and `utf8::unchecked::distance` are parameters.
* The translation that `Query` returns is a tree of the translations it composes; the
  filters and the union, which are defined outside the sources, are read through a
  parameter.
-/

namespace Rime

/-! ## Ordered maps -/

/-- A `std::map<κ, β>`: the entries in iteration order. -/
abbrev Map (κ : Type) (β : Type) := List (κ × β)

namespace Map

variable {κ β : Type}

/-- The lookup `m.find(k)`: the value bound to `k`, if any. -/
def find? [DecidableEq κ] : Map κ β → κ → Option β
  | [], _ => none
  | (k', v) :: m, k => if k' = k then some v else find? m k

/-- The assignment `m[k] = v`: bind `k` to `v`, replacing an existing binding. -/
def set [LinearOrder κ] : Map κ β → κ → β → Map κ β
  | [], k, v => [(k, v)]
  | (k', v') :: m, k, v =>
    if k < k' then (k, v) :: (k', v') :: m
    else if k = k' then (k, v) :: m
    else (k', v') :: set m k v

/-- The call `m.insert(k, v)`: bind `k` to `v` unless `k` is already bound. -/
def insert [LinearOrder κ] (m : Map κ β) (k : κ) (v : β) : Map κ β :=
  match find? m k with
  | some _ => m
  | none => set m k v

/-- The call `m.erase(k)`. -/
def erase [DecidableEq κ] : Map κ β → κ → Map κ β
  | [], _ => []
  | (k', v) :: m, k => if k' = k then erase m k else (k', v) :: erase m k

/-- The keys in iteration order. -/
def keys (m : Map κ β) : List κ := m.map Prod.fst

/-- The representation invariant of `std::map`: keys strictly increasing. -/
def WF [LT κ] (m : Map κ β) : Prop := List.Pairwise (fun a b => a < b) (keys m)

end Map

/-! ## Data model -/

/-- Modelled from the spec: the `SpellingType` enum (its header is not among the
sources), `Normal < Fuzzy < Abbreviation < Completion < Ambiguous < Invalid`. -/
inductive SpellingType
  | kNormalSpelling
  | kFuzzySpelling
  | kAbbreviation
  | kCompletion
  | kAmbiguousSpelling
  | kInvalidSpelling
  deriving DecidableEq, Repr

namespace SpellingType

/-- The integer value of the enumerator. -/
def toNat : SpellingType → Nat
  | kNormalSpelling => 0
  | kFuzzySpelling => 1
  | kAbbreviation => 2
  | kCompletion => 3
  | kAmbiguousSpelling => 4
  | kInvalidSpelling => 5

instance : LT SpellingType := ⟨fun a b => a.toNat < b.toNat⟩
instance : LE SpellingType := ⟨fun a b => a.toNat ≤ b.toNat⟩
instance (a b : SpellingType) : Decidable (a < b) := Nat.decLt _ _
instance (a b : SpellingType) : Decidable (a ≤ b) := Nat.decLe _ _

/-- The call `std::max(a, b)`, which is `(a < b) ? b : a`. -/
def max (a b : SpellingType) : SpellingType := if a < b then b else a

end SpellingType

open SpellingType

/-- Modelled from the spec: `SyllableId`, an opaque small integer. -/
abbrev SyllableId := Int

/-- Modelled from the spec: `SpellingProperties`, `{ type, end_pos, credibility }`
with credibility defaulting to 1. -/
structure SpellingProperties where
  type : SpellingType := kNormalSpelling
  end_pos : Nat := 0
  credibility : ℚ := 1
  deriving DecidableEq, Repr

/-- The type `SpellingMap`: one map per graph edge. -/
abbrev SpellingMap := Map SyllableId SpellingProperties

/-- The type `EndVertexMap`: the edges leaving one position, keyed by end position. -/
abbrev EndVertexMap := Map Nat SpellingMap

/-- The type `SpellingIndex`: per syllable id, the properties of the spellings found. -/
abbrev SpellingIndex := Map SyllableId (List SpellingProperties)

/-- Modelled from the spec: `SyllableGraph` (its header is not among the sources);
a default-constructed graph is empty with both lengths zero. The pointers kept in
`indices` are modelled by the properties they point to. -/
structure SyllableGraph where
  input_length : Nat := 0
  interpreted_length : Nat := 0
  vertices : Map Nat SpellingType := []
  edges : Map Nat EndVertexMap := []
  indices : Map Nat SpellingIndex := []
  deriving DecidableEq, Repr

/-- The type `Prism::Match`: a trie value and the length of the matched key. -/
structure Match where
  value : Int
  length : Nat
  deriving DecidableEq, Repr

/-- Modelled from the spec: the prism, consumed only through `CommonPrefixSearch`,
`ExpandSearch` and `QuerySpelling`; the spelling accessor is the list of the
`(syllable_id, properties)` pairs it yields until exhausted. -/
structure Prism where
  CommonPrefixSearch : List Char → List Match
  ExpandSearch : List Char → Nat → List Match
  QuerySpelling : Int → List (SyllableId × SpellingProperties)

/-- The data members of `Syllabifier`. -/
structure Syllabifier where
  delimiters_ : List Char
  enable_completion_ : Bool
  strict_spelling_ : Bool

/-- The type `Vertex = std::pair<size_t, SpellingType>`. -/
abbrev Vertex := Nat × SpellingType

/-- The type `VertexQueue`: a min-priority queue of vertices, smallest first. -/
abbrev VertexQueue := List Vertex

/-- The `operator<` of `std::pair`: lexicographic. -/
def Vertex.lt (a b : Vertex) : Bool :=
  decide (a.1 < b.1) || (decide (a.1 = b.1) && decide (a.2 < b.2))

/-- The call `queue.push(v)`. -/
def VertexQueue.push : VertexQueue → Vertex → VertexQueue
  | [], v => [v]
  | w :: q, v => if Vertex.lt v w then v :: w :: q else w :: VertexQueue.push q v

/-- The ways `BuildSyllableGraph` can fail to return: `input.substr(pos)` throws
`std::out_of_range` when `pos > input.length()`; `fuel` is the loop bound of the
embedding running out. -/
inductive BuildError
  | outOfRange
  | fuel
  deriving DecidableEq, Repr

/-- The local state of the construction loop. -/
structure LoopState where
  graph : SyllableGraph
  queue : VertexQueue
  farthest : Nat

namespace Syllabifier

/-- Lines 56-58: `while (end_pos < input.length() && delimiters_.find(input[end_pos])
!= npos) ++end_pos;`, run on the part of the input that starts at `end_pos`. -/
def consumeDelimiters (delimiters : List Char) : List Char → Nat → Nat
  | [], end_pos => end_pos
  | c :: rest, end_pos =>
    if c ∈ delimiters then consumeDelimiters delimiters rest (end_pos + 1) else end_pos

/-- Lines 67-87: the accessor loop filling `spellings` and `end_vertex_type`. -/
def collectSpellings (strict_spelling matches_input : Bool) (end_pos : Nat) :
    List (SyllableId × SpellingProperties) → SpellingMap × SpellingType →
    SpellingMap × SpellingType
  | [], acc => acc
  | (syllable_id, props) :: rest, (spellings, end_vertex_type) =>
    if strict_spelling && matches_input && decide (props.type ≠ kNormalSpelling) then
      collectSpellings strict_spelling matches_input end_pos rest (spellings, end_vertex_type)
    else
      let props1 : SpellingProperties := { props with end_pos := end_pos }
      collectSpellings strict_spelling matches_input end_pos rest
        (Map.insert spellings syllable_id props1,
          if props1.type < end_vertex_type then props1.type else end_vertex_type)

/-- Lines 54-58: the end position of the edge for the match `m` found at `current_pos`,
trailing delimiters consumed. -/
def endPosOf (s : Syllabifier) (input : List Char) (current_pos : Nat) (m : Match) : Nat :=
  consumeDelimiters s.delimiters_ (input.drop (current_pos + m.length))
    (current_pos + m.length)

/-- Lines 60-87: `spellings` and `end_vertex_type` for the match `m` found at
`current_pos`. -/
def spellingsOf (s : Syllabifier) (input : List Char) (prism : Prism) (current_pos : Nat)
    (m : Match) : SpellingMap × SpellingType :=
  let end_pos := endPosOf s input current_pos m
  let matches_input := decide (current_pos = 0) && decide (end_pos = input.length)
  collectSpellings s.strict_spelling_ matches_input end_pos
    (prism.QuerySpelling m.value) ([], kInvalidSpelling)

/-- Lines 52-102: the loop over the matches found at `vertex`. -/
def addMatches (s : Syllabifier) (input : List Char) (prism : Prism) (vertex : Vertex) :
    List Match → EndVertexMap × VertexQueue → EndVertexMap × VertexQueue
  | [], acc => acc
  | m :: ms, (end_vertices, queue) =>
    if m.length = 0 then addMatches s input prism vertex ms (end_vertices, queue)
    else
      let end_pos := endPosOf s input vertex.1 m
      let r := spellingsOf s input prism vertex.1 m
      if r.1.isEmpty then addMatches s input prism vertex ms (end_vertices, queue)
      else
        addMatches s input prism vertex ms
          (Map.set end_vertices end_pos r.1,
            queue.push (end_pos, if r.2 < vertex.2 then vertex.2 else r.2))

/-- Lines 35-103: the body of the construction loop for the vertex just popped;
`queue` is the queue after the pop. -/
def visit (s : Syllabifier) (input : List Char) (prism : Prism) (st : LoopState)
    (vertex : Vertex) (queue : VertexQueue) : Except BuildError LoopState :=
  if (st.graph.vertices.find? vertex.1).isSome then .ok { st with queue := queue }
  else
    let vertices := Map.insert st.graph.vertices vertex.1 vertex.2
    let farthest := if vertex.1 > st.farthest then vertex.1 else st.farthest
    if vertex.1 > input.length then .error .outOfRange
    else
      let found := prism.CommonPrefixSearch (input.drop vertex.1)
      if found.isEmpty then
        .ok { graph := { st.graph with vertices := vertices }, queue := queue,
              farthest := farthest }
      else
        let r := addMatches s input prism vertex found
          ((st.graph.edges.find? vertex.1).getD [], queue)
        .ok { graph := { st.graph with
                vertices := vertices, edges := Map.set st.graph.edges vertex.1 r.1 },
              queue := r.2, farthest := farthest }

/-- Lines 32-104: the construction loop, `while (!queue.empty())`. -/
def mainLoop (s : Syllabifier) (input : List Char) (prism : Prism) :
    Nat → LoopState → Except BuildError LoopState
  | 0, _ => .error .fuel
  | fuel + 1, st =>
    match st.queue with
    | [] => .ok st
    | vertex :: queue =>
      match visit s input prism st vertex queue with
      | .error e => .error e
      | .ok st1 => mainLoop s input prism fuel st1

/-- Lines 222-229: the scan of the edges leaving `joint`. -/
def scanXs (end_ joint : Nat) : List (Nat × SpellingMap) → SyllableGraph → SyllableGraph
  | [], graph => graph
  | x :: xs, graph =>
    if x.1 < end_ then scanXs end_ joint xs graph
    else if x.1 = end_ then
      { graph with vertices := Map.set graph.vertices joint kAmbiguousSpelling }
    else graph

/-- Lines 215-230: the scan of the edges leaving `start`. -/
def scanYs (end_ : Nat) : List (Nat × SpellingMap) → SyllableGraph → SyllableGraph
  | [], graph => graph
  | y :: ys, graph =>
    if y.1 ≥ end_ then graph
    else
      match graph.edges.find? y.1 with
      | none => scanYs end_ ys graph
      | some x_end_vertices => scanYs end_ ys (scanXs end_ y.1 x_end_vertices graph)

/-- The method `Syllabifier::CheckOverlappedSpellings(graph, start, end)`. -/
def CheckOverlappedSpellings (graph : SyllableGraph) (start end_ : Nat) : SyllableGraph :=
  match graph.edges.find? start with
  | none => graph
  | some y_end_vertices => scanYs end_ y_end_vertices graph

/-- Lines 124-134: drop the spellings worse than `last_type`, computing the best
remaining type. -/
def pruneSpellings (last_type : SpellingType) :
    List (SyllableId × SpellingProperties) → SpellingType → SpellingMap × SpellingType
  | [], edge_type => ([], edge_type)
  | k :: rest, edge_type =>
    if last_type < k.2.type then pruneSpellings last_type rest edge_type
    else
      let r := pruneSpellings last_type rest
        (if k.2.type < edge_type then k.2.type else edge_type)
      (k :: r.1, r.2)

/-- The statement `graph->edges[i].erase(j)`. -/
def eraseEdge (graph : SyllableGraph) (i j : Nat) : SyllableGraph :=
  { graph with
    edges := Map.set graph.edges i (Map.erase ((graph.edges.find? i).getD []) j) }

/-- The statement `graph->edges[i][j] = spellings`. -/
def setEdge (graph : SyllableGraph) (i j : Nat) (spellings : SpellingMap) : SyllableGraph :=
  { graph with
    edges := Map.set graph.edges i (Map.set ((graph.edges.find? i).getD []) j spellings) }

/-- Lines 116-143: the loop over the edges leaving `i`; the list is `graph->edges[i]`
as it stood when the loop began (the loop only ever changes the entry it stands on). -/
def pruneEdges (last_type : SpellingType) (good : List Nat) (i : Nat) :
    List (Nat × SpellingMap) → SyllableGraph → SyllableGraph
  | [], graph => graph
  | j :: rest, graph =>
    if j.1 ∉ good then pruneEdges last_type good i rest (eraseEdge graph i j.1)
    else
      let r := pruneSpellings last_type j.2 kInvalidSpelling
      if r.1.isEmpty then pruneEdges last_type good i rest (eraseEdge graph i j.1)
      else
        let graph1 := setEdge graph i j.1 r.1
        pruneEdges last_type good i rest
          (if r.2 < kAbbreviation then CheckOverlappedSpellings graph1 i j.1 else graph1)

/-- Lines 113-151: the body of the pruning loop for position `i`. -/
def pruneVertex (last_type : SpellingType) (i : Nat) (graph : SyllableGraph)
    (good : List Nat) : SyllableGraph × List Nat :=
  if (graph.vertices.find? i).isNone then (graph, good)
  else
    let graph0 : SyllableGraph := { graph with edges := Map.insert graph.edges i [] }
    let graph1 := pruneEdges last_type good i ((graph0.edges.find? i).getD []) graph0
    if last_type < (graph1.vertices.find? i).getD kNormalSpelling
        || ((graph1.edges.find? i).getD []).isEmpty then
      ({ graph1 with
          vertices := Map.erase (Map.insert graph1.vertices i kNormalSpelling) i,
          edges := Map.erase graph1.edges i }, good)
    else
      ({ graph1 with
          vertices := Map.insert graph1.vertices i kNormalSpelling,
          edges := Map.insert graph1.edges i [] }, i :: good)

/-- Lines 112-152: `for (int i = farthest - 1; i >= 0; --i)`; the counter is `i + 1`. -/
def pruneLoop (last_type : SpellingType) :
    Nat → SyllableGraph × List Nat → SyllableGraph × List Nat
  | 0, acc => acc
  | i + 1, acc => pruneLoop last_type i (pruneVertex last_type i acc.1 acc.2)

/-- Lines 106-152: the pruning pass. -/
def prune (graph : SyllableGraph) (farthest : Nat) : SyllableGraph :=
  let graph0 : SyllableGraph :=
    { graph with vertices := Map.insert graph.vertices farthest kNormalSpelling }
  let last_type := SpellingType.max ((graph0.vertices.find? farthest).getD kNormalSpelling)
    kFuzzySpelling
  (pruneLoop last_type farthest (graph0, [farthest])).1

/-- Lines 171-183: the accessor loop of the completion step. -/
def completeSpellings (end_pos : Nat) :
    List (SyllableId × SpellingProperties) → SpellingMap → SpellingMap
  | [], spellings => spellings
  | (syllable_id, props) :: rest, spellings =>
    if props.type < kAbbreviation then
      completeSpellings end_pos rest
        (Map.insert spellings syllable_id
          { type := kCompletion, end_pos := end_pos,
            credibility := props.credibility * (1 / 2) })
    else completeSpellings end_pos rest spellings

/-- Lines 165-184: the loop over the expansion keys. -/
def completeKeys (prism : Prism) (code_length end_pos : Nat) :
    List Match → SpellingMap → SpellingMap
  | [], spellings => spellings
  | m :: ms, spellings =>
    if m.length < code_length then completeKeys prism code_length end_pos ms spellings
    else
      completeKeys prism code_length end_pos ms
        (completeSpellings end_pos (prism.QuerySpelling m.value) spellings)

/-- Lines 154-195: the completion step; yields the graph and the new `farthest`. -/
def complete (s : Syllabifier) (input : List Char) (prism : Prism)
    (graph : SyllableGraph) (farthest : Nat) : SyllableGraph × Nat :=
  if s.enable_completion_ && decide (farthest < input.length) then
    let keys := prism.ExpandSearch (input.drop farthest) 512
    if keys.isEmpty then (graph, farthest)
    else
      let end_pos := input.length
      let end_vertices := (graph.edges.find? farthest).getD []
      let spellings := completeKeys prism (end_pos - farthest) end_pos keys
        ((end_vertices.find? end_pos).getD [])
      if spellings.isEmpty then
        ({ graph with
            edges := Map.set graph.edges farthest (Map.erase end_vertices end_pos) }, farthest)
      else
        ({ graph with
            edges := Map.set graph.edges farthest (Map.set end_vertices end_pos spellings) },
          end_pos)
  else (graph, farthest)

/-- Lines 237-240: append the spellings of one edge to the index. -/
def transposeSpellings :
    List (SyllableId × SpellingProperties) → SpellingIndex → SpellingIndex
  | [], index => index
  | spelling :: rest, index =>
    transposeSpellings rest
      (Map.set index spelling.1 ((index.find? spelling.1).getD [] ++ [spelling.2]))

/-- Lines 236-241: the loop over the edges of one start position, given in the
order of iteration (the caller passes the reversed map). -/
def transposeEnds : List (Nat × SpellingMap) → SpellingIndex → SpellingIndex
  | [], index => index
  | e :: rest, index => transposeEnds rest (transposeSpellings e.2 index)

/-- Lines 234-242: the loop over the start positions. -/
def transposeStarts :
    List (Nat × EndVertexMap) → Map Nat SpellingIndex → Map Nat SpellingIndex
  | [], indices => indices
  | start :: rest, indices =>
    transposeStarts rest
      (Map.set indices start.1
        (transposeEnds start.2.reverse ((indices.find? start.1).getD [])))

/-- The method `Syllabifier::Transpose(graph)`. -/
def Transpose (graph : SyllableGraph) : SyllableGraph :=
  { graph with indices := transposeStarts graph.edges graph.indices }

/-- A number of iterations the construction loop cannot exceed: one pop for the
start vertex and one for each match of each position of the input. -/
def loopBound (input : List Char) (prism : Prism) : Nat :=
  2 + ((List.range (input.length + 1)).map
    (fun p => (prism.CommonPrefixSearch (input.drop p)).length)).sum

/-- The method `Syllabifier::BuildSyllableGraph(input, prism, graph)`: the graph as left
behind and the value returned. -/
def BuildSyllableGraph (s : Syllabifier) (input : List Char) (prism : Prism)
    (graph : SyllableGraph) : Except BuildError (SyllableGraph × Nat) :=
  if input.isEmpty then .ok (graph, 0)
  else
    match mainLoop s input prism (loopBound input prism)
        { graph := graph, queue := [(0, kNormalSpelling)], farthest := 0 } with
    | .error e => .error e
    | .ok st =>
      let r := complete s input prism (prune st.graph st.farthest) st.farthest
      .ok (Transpose
        { r.1 with input_length := input.length, interpreted_length := r.2 }, r.2)

end Syllabifier

/-! ## Vocabulary of the statements -/

/-- The spelling map on the edge from `i` to `j`, if the graph has that edge. -/
def SyllableGraph.edge? (g : SyllableGraph) (i j : Nat) : Option SpellingMap :=
  (g.edges.find? i).bind (fun row => row.find? j)

/-- The graph has an edge from `i` to `j`. -/
def SyllableGraph.hasEdge (g : SyllableGraph) (i j : Nat) : Prop :=
  ∃ spellings, g.edge? i j = some spellings

/-- The list `indices[i][sid]`, if `sid` is a key of `indices[i]`. -/
def SyllableGraph.index? (g : SyllableGraph) (i : Nat) (sid : SyllableId) :
    Option (List SpellingProperties) :=
  (g.indices.find? i).bind (fun index => index.find? sid)

/-- The representation invariant of `graph.edges`: the three levels of `std::map` all
have strictly increasing keys. -/
def SyllableGraph.EdgesWF (g : SyllableGraph) : Prop :=
  Map.WF g.edges ∧ ∀ start ∈ g.edges, Map.WF start.2 ∧ ∀ e ∈ start.2, Map.WF e.2

/-- The spellings no worse than `last_type`: what lines 124-134 leave on an edge. -/
def keepSpellings (last_type : SpellingType) (spellings : SpellingMap) : SpellingMap :=
  spellings.filter (fun k => !decide (last_type < k.2.type))

/-- What lines 116-143 leave of the edges of one start position. -/
def prunedRow (last_type : SpellingType) (good : List Nat) (row : EndVertexMap) :
    EndVertexMap :=
  row.filterMap (fun j =>
    if j.1 ∈ good ∧ keepSpellings last_type j.2 ≠ [] then
      some (j.1, keepSpellings last_type j.2)
    else none)

/-- The type `t` was pushed for position `p` while the matches of a visited
position `u` were processed (line 99). -/
def VertexFrom (s : Syllabifier) (input : List Char) (prism : Prism) (g : SyllableGraph)
    (p : Nat) (t : SpellingType) : Prop :=
  ∃ u tu m, g.vertices.find? u = some tu ∧ m ∈ prism.CommonPrefixSearch (input.drop u) ∧
    m.length ≠ 0 ∧ p = Syllabifier.endPosOf s input u m ∧
    (Syllabifier.spellingsOf s input prism u m).1 ≠ [] ∧
    t = (if (Syllabifier.spellingsOf s input prism u m).2 < tu then tu
          else (Syllabifier.spellingsOf s input prism u m).2)

/-- What holds of the state of the construction loop when it was started on an
empty graph. -/
structure LoopInv (s : Syllabifier) (input : List Char) (prism : Prism)
    (st : LoopState) : Prop where
  wfE : Map.WF st.graph.edges
  wfRow : ∀ i row, st.graph.edges.find? i = some row → Map.WF row
  src : ∀ i row, st.graph.edges.find? i = some row →
    ∃ t, st.graph.vertices.find? i = some t
  prov : ∀ i row j sm, st.graph.edges.find? i = some row → row.find? j = some sm →
    ∃ m ∈ prism.CommonPrefixSearch (input.drop i), m.length ≠ 0 ∧ i ≤ input.length ∧
      j = Syllabifier.endPosOf s input i m ∧
      sm = (Syllabifier.spellingsOf s input prism i m).1 ∧ sm ≠ []
  complete : ∀ i t, st.graph.vertices.find? i = some t →
    ∀ m ∈ prism.CommonPrefixSearch (input.drop i), m.length ≠ 0 →
      (Syllabifier.spellingsOf s input prism i m).1 ≠ [] →
      ∃ sm, st.graph.edge? i (Syllabifier.endPosOf s input i m) = some sm
  tgt : ∀ i row j, st.graph.edges.find? i = some row → j ∈ Map.keys row →
    (∃ t, st.graph.vertices.find? j = some t) ∨ ∃ t, (j, t) ∈ st.queue
  vle : ∀ p t, st.graph.vertices.find? p = some t → p ≤ st.farthest
  far : st.farthest = 0 ∨ ∃ t, st.graph.vertices.find? st.farthest = some t
  zero : (∃ t, st.graph.vertices.find? 0 = some t) ∨ (0, kNormalSpelling) ∈ st.queue
  vprov : ∀ p t, st.graph.vertices.find? p = some t →
    (p = 0 ∧ t = kNormalSpelling) ∨ VertexFrom s input prism st.graph p t
  qprov : ∀ p t, (p, t) ∈ st.queue →
    (p = 0 ∧ t = kNormalSpelling) ∨ VertexFrom s input prism st.graph p t
  untouched : st.graph.indices = [] ∧ st.graph.input_length = 0 ∧
    st.graph.interpreted_length = 0

/-- What holds of the graph and of `farthest` when the construction loop has ended,
started on an empty graph. -/
structure Built (g : SyllableGraph) (farthest : Nat) : Prop where
  wfRow : ∀ i row, g.edges.find? i = some row → Map.WF row
  src : ∀ i row, g.edges.find? i = some row → ∃ t, g.vertices.find? i = some t
  fwd : ∀ i row j, g.edges.find? i = some row → j ∈ Map.keys row → i < j
  tgt : ∀ i row j, g.edges.find? i = some row → j ∈ Map.keys row →
    ∃ t, g.vertices.find? j = some t
  vle : ∀ p t, g.vertices.find? p = some t → p ≤ farthest
  far : ∃ t, g.vertices.find? farthest = some t

/-- What holds of the pruning loop when the positions `n`, ..., `farthest - 1` have been
dealt with: `g0` is the graph the loop started from, `g` and `good` its current state. -/
structure PruneInv (g0 : SyllableGraph) (last_type : SpellingType) (farthest n : Nat)
    (g : SyllableGraph) (good : List Nat) : Prop where
  hn : n ≤ farthest
  f_good : farthest ∈ good
  wfRow : ∀ p row, g.edges.find? p = some row → Map.WF row
  low_v : ∀ p, p < n → g.vertices.find? p = g0.vertices.find? p
  low_e : ∀ p, p < n → g.edges.find? p = g0.edges.find? p
  top_e : ∀ p, farthest ≤ p → g.edges.find? p = g0.edges.find? p
  good_iff : ∀ p, p ∈ good ↔ n ≤ p ∧ ∃ t, g.vertices.find? p = some t
  v_sub : ∀ p t, g.vertices.find? p = some t →
    ∃ t0, g0.vertices.find? p = some t0 ∧ (t = t0 ∨ t = kAmbiguousSpelling)
  mid_e : ∀ p j sm, n ≤ p → p < farthest →
    (g.edge? p j = some sm ↔
      p ∈ good ∧ j ∈ good ∧
        ∃ sm0, g0.edge? p j = some sm0 ∧ sm = keepSpellings last_type sm0 ∧ sm ≠ [])
  good_char : ∀ p, n ≤ p → p < farthest →
    (p ∈ good ↔
      ∃ t0, g0.vertices.find? p = some t0 ∧ ¬ last_type < t0 ∧
        ∃ j sm0, j ∈ good ∧ g0.edge? p j = some sm0 ∧ keepSpellings last_type sm0 ≠ [])
  amb : ∀ i m j sm, n ≤ i → i < farthest → g.edge? i m ≠ none → g.edge? m j ≠ none →
    g.edge? i j = some sm → (∃ sp ∈ sm, sp.2.type < kAbbreviation) →
    g.vertices.find? m = some kAmbiguousSpelling
  other : g.indices = g0.indices ∧ g.input_length = g0.input_length ∧
    g.interpreted_length = g0.interpreted_length

/-! ## Example prisms and inputs -/

namespace Examples

/-- The delimiter `'` (ASCII 39). -/
def apostrophe : Char := Char.ofNat 39

/-- A prism backed by a table: each entry is a key, its trie value and the spellings the
accessor yields for that value. `CommonPrefixSearch` lists the keys that are prefixes of
its argument, `ExpandSearch` the first `limit` keys that its argument is a prefix of. -/
def tablePrism (table : List (List Char × Int × List (SyllableId × SpellingProperties))) :
    Prism where
  CommonPrefixSearch := fun key =>
    table.filterMap (fun e => if e.1.isPrefixOf key then some ⟨e.2.1, e.1.length⟩ else none)
  ExpandSearch := fun key limit =>
    (table.filterMap
      (fun e => if key.isPrefixOf e.1 then some ⟨e.2.1, e.1.length⟩ else none)).take limit
  QuerySpelling := fun value =>
    match table.find? (fun e => decide (e.2.1 = value)) with
    | some e => e.2.2
    | none => []

/-- The input `ni'hao`. -/
def niHao : List Char := ['n', 'i', apostrophe, 'h', 'a', 'o']

/-- A prism whose only keys are `ni` and `hao`, each one Normal syllable. -/
def niHaoPrism : Prism :=
  tablePrism [(['n', 'i'], 1, [(1, {})]), (['h', 'a', 'o'], 2, [(2, {})])]

/-- The graph built for `ni'hao` with the delimiter `'`. -/
def niHaoGraph : SyllableGraph where
  input_length := 6
  interpreted_length := 6
  vertices := [(0, kNormalSpelling), (3, kNormalSpelling), (6, kNormalSpelling)]
  edges := [(0, [(3, [(1, { end_pos := 3 })])]), (3, [(6, [(2, { end_pos := 6 })])])]
  indices := [(0, [(1, [{ end_pos := 3 }])]), (3, [(2, [{ end_pos := 6 }])])]

/-- The input `xian`. -/
def xian : List Char := ['x', 'i', 'a', 'n']

/-- A prism with the keys `xi`, `xian` and `an`, each one Normal syllable. -/
def xianPrism : Prism :=
  tablePrism [(['x', 'i'], 1, [(1, {})]), (['x', 'i', 'a', 'n'], 2, [(2, {})]),
    (['a', 'n'], 3, [(3, {})])]

/-- The graph built for `xian`. -/
def xianGraph : SyllableGraph where
  input_length := 4
  interpreted_length := 4
  vertices := [(0, kNormalSpelling), (2, kAmbiguousSpelling), (4, kNormalSpelling)]
  edges := [(0, [(2, [(1, { end_pos := 2 })]), (4, [(2, { end_pos := 4 })])]),
    (2, [(4, [(3, { end_pos := 4 })])])]
  indices := [(0, [(1, [{ end_pos := 2 }]), (2, [{ end_pos := 4 }])]),
    (2, [(3, [{ end_pos := 4 }])])]

/-- The input `ab'c`. -/
def abQuoteC : List Char := ['a', 'b', apostrophe, 'c']

/-- A prism with the keys `ab` (Normal), `ab'` (Abbreviation only) and `c` (Normal): the
two matches found at position 0 of `ab'c` end at the same position 3. -/
def abQuoteCPrism : Prism :=
  tablePrism [(['a', 'b'], 1, [(1, {})]),
    (['a', 'b', apostrophe], 2, [(2, { type := kAbbreviation })]), (['c'], 3, [(3, {})])]

/-- The graph built for `ab'c` with that prism. -/
def abQuoteCGraph : SyllableGraph where
  input_length := 4
  interpreted_length := 4
  vertices := [(3, kNormalSpelling), (4, kNormalSpelling)]
  edges := [(3, [(4, [(3, { end_pos := 4 })])])]
  indices := [(3, [(3, [{ end_pos := 4 }])])]

/-- The input `abc`. -/
def abc : List Char := ['a', 'b', 'c']

/-- A prism with the keys `a` (Abbreviation only), `ab`, `b`, `bc` and `c` (Normal). -/
def abcPrism : Prism :=
  tablePrism [(['a'], 1, [(1, { type := kAbbreviation })]), (['a', 'b'], 2, [(2, {})]),
    (['b'], 3, [(3, {})]), (['b', 'c'], 4, [(4, {})]), (['c'], 5, [(5, {})])]

/-- The graph built for `abc` with that prism. -/
def abcGraph : SyllableGraph where
  input_length := 3
  interpreted_length := 3
  vertices := [(0, kNormalSpelling), (2, kAmbiguousSpelling), (3, kNormalSpelling)]
  edges := [(0, [(2, [(2, { end_pos := 2 })])]), (2, [(3, [(5, { end_pos := 3 })])])]
  indices := [(0, [(2, [{ end_pos := 2 }])]), (2, [(5, [{ end_pos := 3 }])])]

/-- The graph built for the input `a` when the prism has no key at all. -/
def loneGraph : SyllableGraph where
  input_length := 1
  interpreted_length := 0
  vertices := [(0, kNormalSpelling)]

/-- The input `nh`. -/
def nh : List Char := ['n', 'h']

/-- A prism where `n` is an abbreviation and `nh` is both an abbreviation of one syllable
and the Normal spelling of another. -/
def nhPrism : Prism :=
  tablePrism [(['n'], 1, [(1, { type := kAbbreviation })]),
    (['n', 'h'], 2, [(2, { type := kAbbreviation }), (3, {})])]

/-- The graph built for `nh` with strict spelling. -/
def nhGraph : SyllableGraph where
  input_length := 2
  interpreted_length := 2
  vertices := [(0, kNormalSpelling), (2, kNormalSpelling)]
  edges := [(0, [(2, [(3, { end_pos := 2 })])])]
  indices := [(0, [(3, [{ end_pos := 2 }])])]

/-- The input `zho`. -/
def zho : List Char := ['z', 'h', 'o']

/-- A prism whose only key is `zhong`, one Normal syllable. -/
def zhongPrism : Prism :=
  tablePrism [(['z', 'h', 'o', 'n', 'g'], 1, [(7, {})])]

/-- The graph built for `zho` with completion enabled. -/
def zhoGraph : SyllableGraph where
  input_length := 3
  interpreted_length := 3
  vertices := [(0, kNormalSpelling)]
  edges := [(0, [(3, [(7, { type := kCompletion, end_pos := 3, credibility := 1 * (1 / 2) })])])]
  indices := [(0, [(7, [{ type := kCompletion, end_pos := 3, credibility := 1 * (1 / 2) }])])]

end Examples

end Rime

namespace Rime
open SpellingType

/-! ## script_translator.cc -/

/-- The ways the code of the translators can fail to return a value: an exception
`std::out_of_range` (thrown by `at` and `substr`), a null pointer dereferenced, a vector
indexed past its end, or the syllabifier failing. -/
inductive Fault
  | outOfRange
  | nullDeref
  | badIndex
  | build (e : BuildError)
  deriving DecidableEq, Repr

/-- The difference `a - b` of two `size_t` values below `2 ^ 64`: it wraps around when
`b > a`. -/
def sizeSub (a b : Nat) : Nat :=
  if b ≤ a then a - b else 2 ^ 64 - (b - a)

/-- The call `s.substr(pos, n)`: it throws when `pos > s.length()`. -/
def substr (s : List Char) (pos n : Nat) : Except Fault (List Char) :=
  if s.length < pos then .error .outOfRange else .ok ((s.drop pos).take n)

/-- The call `s.resize(n)`: the string is cut, or padded with null characters. -/
def resize (s : List Char) (n : Nat) : List Char :=
  s.take n ++ List.replicate (n - s.length) (Char.ofNat 0)

/-- The type `Code`: the syllable ids of an entry. -/
abbrev Code := List SyllableId

/-- Modelled from the spec: `DictEntry`,
`{ text, code, custom_code, weight, remaining_code_length, comment }`, with the
`preedit` that a `Phrase` made of the entry starts with; weights are rationals. -/
structure DictEntry where
  text : List Char := []
  code : Code := []
  custom_code : List Char := []
  weight : ℚ := 0
  remaining_code_length : Int := 0
  comment : List Char := []
  preedit : List Char := []
  deriving DecidableEq, Repr

/-- Modelled from the spec: `DictEntryIterator` and `UserDictEntryIterator`, ordered and
exhaustible; the model is the list of the entries not yet passed, `Peek` its head. -/
abbrev DictEntryIterator := List DictEntry

/-- The type `DictEntryList`: a vector of entries. -/
abbrev DictEntryList := List DictEntry

/-- The type `DictEntryCollector = std::map<size_t, DictEntryIterator>`. -/
abbrev DictEntryCollector := Map Nat DictEntryIterator

/-- The type `UserDictEntryCollector = std::map<size_t, DictEntryList>`. -/
abbrev UserDictEntryCollector := Map Nat DictEntryList

/-- The type `WordGraph = std::map<int, UserDictEntryCollector>` as
`ScriptTranslation::MakeSentence` fills it; an entry is a pointer, `none` when null. -/
abbrev WordGraph := Map Nat (Map Nat (List (Option DictEntry)))

/-- Modelled from the spec: `Candidate`, `Phrase` and `Sentence`,
`{ start, end, text, preedit, comment, quality, code }` with the type tag; text, code
and weight are those of the entry held, and a sentence has `syllable_lengths` too. -/
structure Candidate where
  type : String := ""
  start : Nat := 0
  end_ : Nat := 0
  entry : DictEntry := {}
  preedit : List Char := []
  comment : List Char := []
  quality : ℚ := 0
  syllable_lengths : List Nat := []
  deriving DecidableEq, Repr

/-- The class `Phrase`. -/
abbrev Phrase := Candidate

/-- The class `Sentence`. -/
abbrev Sentence := Candidate

/-- Modelled from the spec: the constructor `Phrase(language, type, start, end, entry)`;
comment and preedit are read from the entry. -/
def Phrase.new (type : String) (start end_ : Nat) (entry : DictEntry) : Phrase :=
  { type := type, start := start, end_ := end_, entry := entry,
    preedit := entry.preedit, comment := entry.comment }

/-- Modelled from the spec: `Sentence::weight()`, the weight of the entry held. -/
def Candidate.weight (c : Candidate) : ℚ := c.entry.weight

/-- Modelled from the spec: `Sentence::Offset(start)` moves both ends by `start`. -/
def Candidate.Offset (c : Candidate) (offset : Nat) : Candidate :=
  { c with start := c.start + offset, end_ := c.end_ + offset }

/-- Modelled from the spec: the dictionary, consumed through its prism, its lookups
and `Decode`. `Lookup(graph, start_pos, credibility)` yields a collector or null;
`LookupWords(key, predictive, limit)` the iterator it fills. -/
structure Dictionary where
  loaded : Bool
  prism : Prism
  Lookup : SyllableGraph → Nat → ℚ → Option DictEntryCollector
  Decode : Code → Option (List (List Char))
  LookupWords : List Char → Bool → Nat → DictEntryIterator

/-- Modelled from the spec: the user dictionary.
`Lookup(graph, start_pos, depth_limit, credibility)` yields a collector or null;
`LookupWords(key, predictive, limit)` the iterator it fills and the resume key. -/
structure UserDictionary where
  loaded : Bool
  Lookup : SyllableGraph → Nat → Nat → ℚ → Option UserDictEntryCollector
  LookupWords : List Char → Bool → Nat → DictEntryIterator × List Char

/-- Modelled from the spec: `Poet::MakeSentence(graph, total_length)`. -/
structure Poet where
  MakeSentence : WordGraph → Nat → Option Sentence

/-- The members of `ScriptTranslator` (with those of `TranslatorOptions`) that the
translation reads; the two formatters are the functions they apply to a string. -/
structure ScriptTranslator where
  dict_ : Option Dictionary
  user_dict_ : Option UserDictionary
  poet : Poet
  delimiters_ : List Char
  enable_completion_ : Bool
  strict_spelling_ : Bool
  initial_quality_ : ℚ
  spelling_hints_ : Int
  preedit_formatter_ : List Char → List Char
  comment_formatter_ : List Char → List Char

/-- The struct `DelimitSyllableState`. -/
structure DelimitSyllableState where
  input : List Char
  delimiters : List Char
  graph : SyllableGraph
  code : Code
  end_pos : Nat
  output : List Char

/-- Lines 52-70: the loop over the edges `ys` leaving `current_pos`, longest first;
`next` is the recursive call of line 66 for the rest of the code. The result is the
value returned and the output as left behind. -/
def delimitRow (input delimiters : List Char) (end_pos : Nat) (syllable_id : SyllableId)
    (current_pos depth : Nat) (next : Nat → List Char → Except Fault (Bool × List Char)) :
    List (Nat × SpellingMap) → List Char → Except Fault (Bool × List Char)
  | [], output => .ok (false, output)
  | y :: ys, output =>
    if end_pos < y.1 then
      delimitRow input delimiters end_pos syllable_id current_pos depth next ys output
    else
      match Map.find? y.2 syllable_id with
      | none =>
        delimitRow input delimiters end_pos syllable_id current_pos depth next ys output
      | some _ =>
        let len := output.length
        match
          (if 0 < depth ∧ 0 < len ∧ output.getD (len - 1) default ∉ delimiters then
            match delimiters.head? with
            | none => Except.error Fault.outOfRange
            | some d => Except.ok (output ++ [d])
          else Except.ok output) with
        | .error e => .error e
        | .ok output1 =>
          match substr input current_pos (sizeSub y.1 current_pos) with
          | .error e => .error e
          | .ok segment =>
            match next y.1 (output1 ++ segment) with
            | .error e => .error e
            | .ok (true, output2) => .ok (true, output2)
            | .ok (false, output2) =>
              delimitRow input delimiters end_pos syllable_id current_pos depth next ys
                (resize output2 len)

/-- Lines 44-71 for the syllables `code[depth..]` still to spell. -/
def delimitFrom (input delimiters : List Char) (graph : SyllableGraph) (end_pos : Nat) :
    Code → Nat → Nat → List Char → Except Fault (Bool × List Char)
  | [], _, current_pos, output => .ok (decide (current_pos = end_pos), output)
  | syllable_id :: rest, depth, current_pos, output =>
    match Map.find? graph.edges current_pos with
    | none => .ok (false, output)
    | some z =>
      delimitRow input delimiters end_pos syllable_id current_pos depth
        (delimitFrom input delimiters graph end_pos rest (depth + 1)) z.reverse output

/-- The function `DelimitSyllablesDfs(state, current_pos, depth)`: the value returned
and the state as left behind; `code->at(depth)` throws when `depth > code->size()`. -/
def DelimitSyllablesDfs (state : DelimitSyllableState) (current_pos depth : Nat) :
    Except Fault (Bool × DelimitSyllableState) :=
  if state.code.length < depth then .error .outOfRange
  else
    match delimitFrom state.input state.delimiters state.graph state.end_pos
        (state.code.drop depth) depth current_pos state.output with
    | .error e => .error e
    | .ok (b, output) => .ok (b, { state with output := output })

end Rime

namespace Rime
open SpellingType

/-- The data members of `ScriptTranslation`. A collector pointer and its reverse
iterator are modelled together: `none` is the null pointer, otherwise the list holds
the buckets from the iterator to `rend()`, in the order of the iteration (largest key
first). -/
structure ScriptTranslation where
  input_ : List Char
  start_ : Nat
  syllable_graph_ : SyllableGraph := {}
  phrase_ : Option (List (Nat × DictEntryIterator)) := none
  user_phrase_ : Option (List (Nat × DictEntryList)) := none
  sentence_ : Option Sentence := none
  user_phrase_index_ : Nat := 0
  exhausted_ : Bool := true

namespace ScriptTranslator

/-- The method `ScriptTranslator::FormatPreedit`. -/
def FormatPreedit (t : ScriptTranslator) (preedit : List Char) : List Char :=
  t.preedit_formatter_ preedit

/-- The method `ScriptTranslator::Spell`; `delimiters_.at(0)` throws on an empty
string. -/
def Spell (t : ScriptTranslator) (code : Code) : Except Fault (List Char) :=
  match t.dict_ with
  | none => .ok []
  | some dict =>
    match dict.Decode code with
    | none => .ok []
    | some syllables =>
      if syllables.isEmpty then .ok []
      else
        match t.delimiters_.head? with
        | none => .error .outOfRange
        | some d => .ok (t.comment_formatter_ (List.intercalate [d] syllables))

end ScriptTranslator

namespace ScriptTranslation

/-- The method `ScriptTranslation::CheckEmpty`: the value returned and the
translation with its flag set. -/
def CheckEmpty (self : ScriptTranslation) : Bool × ScriptTranslation :=
  let is_empty :=
    (match self.phrase_ with
      | none => true
      | some r => r.isEmpty) &&
    (match self.user_phrase_ with
      | none => true
      | some r => r.isEmpty)
  (is_empty, { self with exhausted_ := is_empty })

/-- The method `ScriptTranslation::IsNormalSpelling`. -/
def IsNormalSpelling (self : ScriptTranslation) : Bool :=
  match self.syllable_graph_.vertices.getLast? with
  | none => false
  | some x => decide (x.2 = kNormalSpelling)

/-- The method `ScriptTranslation::GetPreeditString(cand)`. -/
def GetPreeditString (t : ScriptTranslator) (self : ScriptTranslation) (cand : Candidate) :
    Except Fault (List Char) :=
  let state : DelimitSyllableState :=
    { input := self.input_, delimiters := t.delimiters_, graph := self.syllable_graph_,
      code := cand.entry.code, end_pos := sizeSub cand.end_ self.start_, output := [] }
  match DelimitSyllablesDfs state (sizeSub cand.start self.start_) 0 with
  | .error e => .error e
  | .ok (true, state1) => .ok (t.FormatPreedit state1.output)
  | .ok (false, _) => .ok []

/-- The method `ScriptTranslation::GetOriginalSpelling(cand)`. -/
def GetOriginalSpelling (t : ScriptTranslator) (cand : Candidate) :
    Except Fault (List Char) :=
  if (cand.entry.code.length : Int) ≤ t.spelling_hints_ then t.Spell cand.entry.code
  else .ok []

/-- Lines 296-305 and 346-354: the preedit and the comment are filled in when empty. -/
def fillPreeditAndComment (t : ScriptTranslator) (self : ScriptTranslation)
    (cand : Candidate) : Except Fault Candidate :=
  match
    (if cand.preedit.isEmpty then
      match GetPreeditString t self cand with
      | .error e => Except.error e
      | .ok preedit => Except.ok { cand with preedit := preedit }
    else Except.ok cand) with
  | .error e => .error e
  | .ok cand1 =>
    if cand1.comment.isEmpty then
      match GetOriginalSpelling t cand1 with
      | .error e => .error e
      | .ok spelling =>
        if ¬ spelling.isEmpty ∧ spelling ≠ cand1.preedit then
          .ok { cand1 with comment := spelling }
        else .ok cand1
    else .ok cand1

/-- Lines 262-265 and 308-311: the key of the bucket the user-phrase iterator is at,
0 when there is none. -/
def user_phrase_code_length (self : ScriptTranslation) : Nat :=
  match self.user_phrase_ with
  | some (b :: _) => b.1
  | _ => 0

/-- Lines 266-269 and 312-315: the key of the bucket the phrase iterator is at, 0 when
there is none. -/
def phrase_code_length (self : ScriptTranslation) : Nat :=
  match self.phrase_ with
  | some (b :: _) => b.1
  | _ => 0

/-- The method `ScriptTranslation::Next`: the value returned and the translation as
left behind. -/
def Next (self : ScriptTranslation) : Bool × ScriptTranslation :=
  if self.exhausted_ then (false, self)
  else
    match self.sentence_ with
    | some _ =>
      let r := CheckEmpty { self with sentence_ := none }
      (!r.1, r.2)
    | none =>
      let self1 : ScriptTranslation :=
        if 0 < self.user_phrase_code_length ∧
            self.phrase_code_length ≤ self.user_phrase_code_length then
          match self.user_phrase_ with
          | some (b :: rest) =>
            if b.2.length ≤ self.user_phrase_index_ + 1 then
              { self with user_phrase_ := some rest, user_phrase_index_ := 0 }
            else { self with user_phrase_index_ := self.user_phrase_index_ + 1 }
          | _ => self
        else if 0 < self.phrase_code_length then
          match self.phrase_ with
          | some (b :: rest) =>
            if b.2.tail.isEmpty then { self with phrase_ := some rest }
            else { self with phrase_ := some ((b.1, b.2.tail) :: rest) }
          | _ => self
        else self
      let r := CheckEmpty self1
      (!r.1, r.2)

/-- The method `ScriptTranslation::Peek`: the candidate returned (`none` for a null
pointer) and the translation as left behind (the preedit and the comment of a queued
sentence are filled in). -/
def Peek (t : ScriptTranslator) (self : ScriptTranslation) :
    Except Fault (Option Candidate × ScriptTranslation) :=
  if self.exhausted_ then .ok (none, self)
  else
    match self.sentence_ with
    | some sentence =>
      match fillPreeditAndComment t self sentence with
      | .error e => .error e
      | .ok sentence1 => .ok (some sentence1, { self with sentence_ := some sentence1 })
    | none =>
      match
        (if 0 < self.user_phrase_code_length ∧
            self.phrase_code_length ≤ self.user_phrase_code_length then
          match self.user_phrase_ with
          | some (b :: _) =>
            match b.2.get? self.user_phrase_index_ with
            | none => Except.error Fault.badIndex
            | some entry =>
              Except.ok { Phrase.new "phrase" self.start_
                  (self.start_ + self.user_phrase_code_length) entry with
                quality := entry.weight + t.initial_quality_ +
                  (if self.IsNormalSpelling then 1 / 2 else -(1 / 2)) }
          | _ => Except.error Fault.nullDeref
        else if 0 < self.phrase_code_length then
          match self.phrase_ with
          | some (b :: _) =>
            match b.2.head? with
            | none => Except.error Fault.nullDeref
            | some entry =>
              Except.ok { Phrase.new "phrase" self.start_
                  (self.start_ + self.phrase_code_length) entry with
                quality := entry.weight + t.initial_quality_ +
                  (if self.IsNormalSpelling then 0 else -1) }
          | _ => Except.error Fault.nullDeref
        else Except.error Fault.nullDeref) with
      | .error e => .error e
      | .ok cand =>
        match fillPreeditAndComment t self cand with
        | .error e => .error e
        | .ok cand1 => .ok (some cand1, self)

/-- Lines 385-391: the first entry of each bucket of a dictionary lookup is added
where the word graph has none. -/
def mergePhrases : List (Nat × DictEntryIterator) → Map Nat (List (Option DictEntry)) →
    Map Nat (List (Option DictEntry))
  | [], dest => dest
  | y :: ys, dest =>
    mergePhrases ys
      (match Map.find? dest y.1 with
        | some (_ :: _) => dest
        | _ => Map.set dest y.1 [y.2.head?])

/-- Lines 370-393: the loop over the start positions `xs` of the edges; reading
`vertices[x.first]` adds the position to the vertices when it is missing. -/
def collectWords (dict : Dictionary) (user_dict : Option UserDictionary) :
    List (Nat × EndVertexMap) → SyllableGraph × WordGraph →
    SyllableGraph × WordGraph
  | [], acc => acc
  | x :: xs, (syllable_graph, graph) =>
    let syllable_graph1 : SyllableGraph :=
      { syllable_graph with
        vertices := Map.insert syllable_graph.vertices x.1 kNormalSpelling }
    let type := (Map.find? syllable_graph1.vertices x.1).getD kNormalSpelling
    let credibility : ℚ := if kAmbiguousSpelling ≤ type then 1 / 10 ^ 10 else 1
    let dest : Map Nat (List (Option DictEntry)) :=
      match user_dict with
      | none => (Map.find? graph x.1).getD []
      | some u =>
        match u.Lookup syllable_graph1 x.1 5 credibility with
        | none => (Map.find? graph x.1).getD []
        | some user_phrase => user_phrase.map (fun b => (b.1, b.2.map some))
    let dest1 :=
      match dict.Lookup syllable_graph1 x.1 credibility with
      | none => dest
      | some phrase => mergePhrases phrase dest
    collectWords dict user_dict xs (syllable_graph1, Map.set graph x.1 dest1)

/-- The method `ScriptTranslation::MakeSentence`: the sentence returned and the
translation as left behind. -/
def MakeSentence (t : ScriptTranslator) (self : ScriptTranslation) (dict : Dictionary)
    (user_dict : Option UserDictionary) : Option Sentence × ScriptTranslation :=
  let r := collectWords dict user_dict self.syllable_graph_.edges (self.syllable_graph_, [])
  ((t.poet.MakeSentence r.2 r.1.interpreted_length).map (fun s => s.Offset self.start_),
    { self with syllable_graph_ := r.1 })

/-- Lines 208-225 of `ScriptTranslation::Evaluate`: what follows the two lookups;
`phrase` and `user_phrase` are the collectors found, `none` for a null pointer. -/
def finishEvaluate (t : ScriptTranslator) (self : ScriptTranslation) (dict : Dictionary)
    (user_dict : Option UserDictionary) (consumed : Nat)
    (phrase : Option DictEntryCollector) (user_phrase : Option UserDictEntryCollector) :
    Bool × ScriptTranslation :=
  if phrase.isNone ∧ user_phrase.isNone then
    (false, { self with phrase_ := none, user_phrase_ := none })
  else
    let translated_len1 :=
      match phrase with
      | some c => (c.getLast?.map (fun b => Nat.max 0 b.1)).getD 0
      | none => 0
    let translated_len :=
      match user_phrase with
      | some c => (c.getLast?.map (fun b => Nat.max translated_len1 b.1)).getD translated_len1
      | none => translated_len1
    let r : Option Sentence × ScriptTranslation :=
      if translated_len < consumed ∧ 1 < self.syllable_graph_.edges.length then
        MakeSentence t self dict user_dict
      else (self.sentence_, self)
    let e := CheckEmpty
      { r.2 with sentence_ := r.1, phrase_ := phrase.map List.reverse,
                 user_phrase_ := user_phrase.map List.reverse }
    (!e.1, e.2)

/-- Lines 205-207 of `ScriptTranslation::Evaluate`: the user-phrase collector after the
lookup in the user dictionary, if there is one. A collector already held is taken with
its iterator at `rbegin()`; a translation as constructed holds none. -/
def lookupUserPhrase (self : ScriptTranslation) (user_dict : Option UserDictionary)
    (syllable_graph : SyllableGraph) : Option UserDictEntryCollector :=
  match user_dict with
  | none => self.user_phrase_.map List.reverse
  | some u => u.Lookup syllable_graph 0 0 1

/-- The method `ScriptTranslation::Evaluate(dict, user_dict)`: the value returned and
the translation as left behind. -/
def Evaluate (t : ScriptTranslator) (self : ScriptTranslation) (dict : Dictionary)
    (user_dict : Option UserDictionary) : Except Fault (Bool × ScriptTranslation) :=
  match Syllabifier.BuildSyllableGraph
      ⟨t.delimiters_, t.enable_completion_, t.strict_spelling_⟩ self.input_ dict.prism
      self.syllable_graph_ with
  | .error e => .error (.build e)
  | .ok (syllable_graph, consumed) =>
    .ok (finishEvaluate t { self with syllable_graph_ := syllable_graph } dict user_dict
      consumed (dict.Lookup syllable_graph 0 1)
      (lookupUserPhrase self user_dict syllable_graph))

/-- The method `ScriptTranslation::PreviousStop(caret_pos)`. -/
def PreviousStop (self : ScriptTranslation) (caret_pos : Nat) : Nat :=
  let offset := sizeSub caret_pos self.start_
  match List.find? (fun x => decide (x.1 < offset)) self.syllable_graph_.vertices.reverse with
  | some x => x.1 + self.start_
  | none => caret_pos

/-- The method `ScriptTranslation::NextStop(caret_pos)`. -/
def NextStop (self : ScriptTranslation) (caret_pos : Nat) : Nat :=
  let offset := sizeSub caret_pos self.start_
  match List.find? (fun x => decide (offset < x.1)) self.syllable_graph_.vertices with
  | some x => x.1 + self.start_
  | none => caret_pos

end ScriptTranslation
end Rime

namespace Rime
open SpellingType

/-! ## table_translator.cc -/

/-- The constant `kUnitySymbol`, the bytes of `" \xe2\x98\xaf "`. -/
def kUnitySymbol : List Char :=
  [' ', Char.ofNat 226, Char.ofNat 152, Char.ofNat 175, ' ']

/-- Modelled from the spec: the unity-encoder prefix `UNITY_PREFIX`, a constant byte
sequence that cannot appear in real codes. -/
def UNITY_PREFIX : List Char :=
  [Char.ofNat 127, 'e', 'n', 'c', Char.ofNat 31]

/-- Modelled from the spec: the unity encoder. `LookupPhrases(key, predictive, limit)`
yields the iterator it fills and the resume key. -/
structure UnityTableEncoder where
  loaded : Bool
  LookupPhrases : List Char → Bool → Nat → DictEntryIterator × List Char

/-- Modelled from the spec: `UnityTableEncoder::HasPrefix(key)`, whether the key
begins with `UNITY_PREFIX`. -/
def UnityTableEncoder.HasPrefix (key : List Char) : Bool :=
  UNITY_PREFIX.isPrefixOf key

/-- Modelled from the spec: `UnityTableEncoder::AddPrefix(key)` puts `UNITY_PREFIX`
before the key. -/
def UnityTableEncoder.AddPrefix (key : List Char) : List Char :=
  UNITY_PREFIX ++ key

/-- The members of `TranslatorOptions` that a `TableTranslation` reads; the two
formatters are the functions they apply to a string. -/
structure TranslatorOptions where
  delimiters_ : List Char
  initial_quality_ : ℚ
  preedit_formatter_ : List Char → List Char
  comment_formatter_ : List Char → List Char

/-- The data members of `TableTranslation`; `options_` is `none` when null. -/
structure TableTranslation where
  options_ : Option TranslatorOptions
  input_ : List Char
  start_ : Nat
  end_ : Nat
  preedit_ : List Char
  iter_ : DictEntryIterator := []
  uter_ : DictEntryIterator := []
  exhausted_ : Bool := true

/-- The function `is_constructed(e)`. -/
def is_constructed (e : DictEntry) : Bool :=
  UnityTableEncoder.HasPrefix e.custom_code

namespace TableTranslation

/-- The method `TableTranslation::CheckEmpty`: the value returned and the translation
with its flag set. -/
def CheckEmpty (self : TableTranslation) : Bool × TableTranslation :=
  let is_empty := self.iter_.isEmpty && self.uter_.isEmpty
  (is_empty, { self with exhausted_ := is_empty })

/-- The method `TableTranslation::PreferUserPhrase`; the heads are read only when
both iterators were found not to be exhausted. -/
def PreferUserPhrase (self : TableTranslation) : Bool :=
  match self.uter_, self.iter_ with
  | [], _ => false
  | _ :: _, [] => true
  | u :: _, i :: _ =>
    if i.remaining_code_length = 0 ∧
        (u.remaining_code_length ≠ 0 ∨ is_constructed u = true) then false
    else true

/-- Modelled from the spec: `PreferedEntry(prefer_user_phrase)`, the head of the user
iterator when the flag is set and of the dict iterator otherwise; `none` when null. -/
def PreferedEntry (self : TableTranslation) (prefer_user_phrase : Bool) : Option DictEntry :=
  if prefer_user_phrase then self.uter_.head? else self.iter_.head?

/-- The method `TableTranslation::Next`: the value returned and the translation as
left behind. The hooks `FetchMoreUserPhrases` and `FetchMoreTableEntries` are those
of `TableTranslation` itself, which fetch nothing. -/
def Next (self : TableTranslation) : Bool × TableTranslation :=
  if self.exhausted_ then (false, self)
  else
    let self1 : TableTranslation :=
      if self.PreferUserPhrase then { self with uter_ := self.uter_.tail }
      else { self with iter_ := self.iter_.tail }
    let r := CheckEmpty self1
    (!r.1, r.2)

/-- The method `TableTranslation::Peek`: the candidate returned, `none` for a null
pointer. -/
def Peek (self : TableTranslation) : Except Fault (Option Candidate) :=
  if self.exhausted_ then .ok none
  else
    let is_user_phrase := self.PreferUserPhrase
    match self.PreferedEntry is_user_phrase with
    | none => .error .nullDeref
    | some e =>
      let comment := if is_constructed e then kUnitySymbol else e.comment
      let comment1 :=
        match self.options_ with
        | some options => options.comment_formatter_ comment
        | none => comment
      let phrase := Phrase.new (if e.remaining_code_length = 0 then "table" else "completion")
        self.start_ self.end_ e
      match self.options_ with
      | none => .error .nullDeref
      | some options =>
        let incomplete := decide (e.remaining_code_length ≠ 0)
        .ok (some { phrase with
          comment := comment1, preedit := self.preedit_,
          quality := e.weight + options.initial_quality_ +
            (if incomplete then -1 else 0) + (if is_user_phrase then 1 / 2 else 0) })

end TableTranslation

/-- The function `consume_trailing_delimiters(pos, input, delimiters)`. -/
def consume_trailing_delimiters (pos : Nat) (input delimiters : List Char) : Nat :=
  Syllabifier.consumeDelimiters delimiters (input.drop pos) pos

/-- The members of `TableTranslator` that `MakeSentence` reads, with the context
option `extended_charset`, the predicate `CharsetFilter::FilterDictEntry` and,
modelled from the spec, `Sentence::Extend(entry, end_pos)` as a function. -/
structure TableTranslator where
  dict_ : Option Dictionary
  user_dict_ : Option UserDictionary
  encoder_ : Option UnityTableEncoder
  delimiters_ : List Char
  enable_charset_filter_ : Bool
  extended_charset : Bool
  FilterDictEntry : DictEntry → Bool
  Extend : Sentence → DictEntry → Nat → Sentence

/-- The locals of `TableTranslator::MakeSentence` that outlive one start position;
`generated` is a record of the extensions made at line 662, latest last, kept to state
what the sentences installed are: the source has no such variable. -/
structure SentenceState where
  sentences : Map Nat Sentence
  collector : DictEntryCollector := []
  user_phrase_collector : UserDictEntryCollector := []
  generated : List (Nat × Sentence) := []

namespace TableTranslator

/-- Lines 578-601 and 605-628: the loop over `len` of a lookup in the user dictionary
or the encoder; `lookup` is the call of line 587 or 614 for a key. -/
def lookupUserPhrases (lookup : List Char → DictEntryIterator × List Char)
    (filter_by_charset : Bool) (FilterDictEntry : DictEntry → Bool) (start_pos : Nat)
    (active_input active_key delimiters : List Char) :
    List Nat → List (Option DictEntry) × UserDictEntryCollector →
    List (Option DictEntry) × UserDictEntryCollector
  | [], acc => acc
  | len :: lens, (entries, user_phrase_collector) =>
    let consumed_length := consume_trailing_delimiters len active_input delimiters
    if (entries.getD consumed_length none).isSome then
      lookupUserPhrases lookup filter_by_charset FilterDictEntry start_pos active_input
        active_key delimiters lens (entries, user_phrase_collector)
    else
      let r := lookup (active_input.take len)
      let uter := if filter_by_charset then r.1.filter FilterDictEntry else r.1
      let entries1 := entries.set consumed_length uter.head?
      let user_phrase_collector1 :=
        if start_pos = 0 ∧ ¬ uter.isEmpty then
          Map.set user_phrase_collector consumed_length uter
        else user_phrase_collector
      if active_key < r.2 ∧ ¬ active_key.isPrefixOf r.2 then
        (entries1, user_phrase_collector1)
      else
        lookupUserPhrases lookup filter_by_charset FilterDictEntry start_pos active_input
          active_key delimiters lens (entries1, user_phrase_collector1)

/-- Lines 635-654: the loop over the matches of the prism, longest first; indexing
`entries` past its end is a fault. -/
def lookupMatches (dict : Dictionary) (filter_by_charset : Bool)
    (FilterDictEntry : DictEntry → Bool) (start_pos : Nat)
    (active_input delimiters : List Char) :
    List Match → List (Option DictEntry) × DictEntryCollector →
    Except Fault (List (Option DictEntry) × DictEntryCollector)
  | [], acc => .ok acc
  | m :: ms, (entries, collector) =>
    if m.length = 0 then
      lookupMatches dict filter_by_charset FilterDictEntry start_pos active_input
        delimiters ms (entries, collector)
    else
      let consumed_length := consume_trailing_delimiters m.length active_input delimiters
      if entries.length ≤ consumed_length then .error .badIndex
      else if (entries.getD consumed_length none).isSome then
        lookupMatches dict filter_by_charset FilterDictEntry start_pos active_input
          delimiters ms (entries, collector)
      else
        let found := dict.LookupWords (active_input.take m.length) false 0
        let iter := if filter_by_charset then found.filter FilterDictEntry else found
        lookupMatches dict filter_by_charset FilterDictEntry start_pos active_input
          delimiters ms
          (entries.set consumed_length iter.head?,
            if start_pos = 0 ∧ ¬ iter.isEmpty then Map.set collector consumed_length iter
            else collector)

/-- Lines 664-667: the new sentence is compared with the one installed at `end_pos`,
if any, and installed when it is not worse. -/
def installSentence (sentences : Map Nat Sentence) (end_pos : Nat) (new_sentence : Sentence) :
    Map Nat Sentence :=
  match Map.find? sentences end_pos with
  | none => Map.set sentences end_pos new_sentence
  | some old =>
    if old.weight ≤ new_sentence.weight then Map.set sentences end_pos new_sentence
    else sentences

/-- Lines 656-668: the loop that extends `sentences[start_pos]` by the entries found;
`sentences[start_pos]` missing would be a null pointer dereferenced. -/
def extendSentences (Extend : Sentence → DictEntry → Nat → Sentence) (start_pos : Nat)
    (entries : List (Option DictEntry)) :
    List Nat → Map Nat Sentence × List (Nat × Sentence) →
    Except Fault (Map Nat Sentence × List (Nat × Sentence))
  | [], acc => .ok acc
  | len :: lens, (sentences, generated) =>
    match entries.getD len none with
    | none => extendSentences Extend start_pos entries lens (sentences, generated)
    | some entry =>
      let end_pos := start_pos + len
      match Map.find? sentences start_pos with
      | none => .error .nullDeref
      | some base =>
        let new_sentence := Extend base entry end_pos
        extendSentences Extend start_pos entries lens
          (installSentence sentences end_pos new_sentence,
            generated ++ [(end_pos, new_sentence)])

/-- Lines 573-655: the lookups at one start position. The result is the state with the
collectors updated and the entries found, or `none` in their place when line 634 ends
the iteration. -/
def lookupAt (t : TableTranslator) (input : List Char) (filter_by_charset : Bool)
    (start_pos : Nat) (st : SentenceState) :
    Except Fault (SentenceState × Option (List (Option DictEntry))) :=
  let active_input := input.drop start_pos
  let active_key := active_input ++ [' ']
  let lens := List.range' 1 active_input.length
  let entries : List (Option DictEntry) := List.replicate (active_input.length + 1) none
  let r1 :=
    match t.user_dict_ with
    | some user_dict =>
      if user_dict.loaded then
        lookupUserPhrases (fun key => user_dict.LookupWords key false 0)
          filter_by_charset t.FilterDictEntry start_pos active_input active_key
          t.delimiters_ lens (entries, st.user_phrase_collector)
      else (entries, st.user_phrase_collector)
    | none => (entries, st.user_phrase_collector)
  let r2 :=
    match t.encoder_ with
    | some encoder =>
      if encoder.loaded then
        lookupUserPhrases (fun key => encoder.LookupPhrases key false 0)
          filter_by_charset t.FilterDictEntry start_pos active_input
          (UnityTableEncoder.AddPrefix active_key) t.delimiters_ lens r1
      else r1
    | none => r1
  let st1 : SentenceState := { st with user_phrase_collector := r2.2 }
  match t.dict_ with
  | some dict =>
    if dict.loaded then
      let matches_ := dict.prism.CommonPrefixSearch (input.drop start_pos)
      if matches_.isEmpty then .ok (st1, none)
      else
        match lookupMatches dict filter_by_charset t.FilterDictEntry start_pos
            active_input t.delimiters_ matches_.reverse (r2.1, st.collector) with
        | .error e => .error e
        | .ok r3 => .ok ({ st1 with collector := r3.2 }, some r3.1)
    else .ok (st1, some r2.1)
  | none => .ok (st1, some r2.1)

/-- Lines 570-669: the loop over the start positions. -/
def makeSentencesFrom (t : TableTranslator) (input : List Char) (filter_by_charset : Bool) :
    List Nat → SentenceState → Except Fault SentenceState
  | [], st => .ok st
  | start_pos :: rest, st =>
    match Map.find? st.sentences start_pos with
    | none => makeSentencesFrom t input filter_by_charset rest st
    | some _ =>
      match lookupAt t input filter_by_charset start_pos st with
      | .error e => .error e
      | .ok (st1, none) => makeSentencesFrom t input filter_by_charset rest st1
      | .ok (st1, some entries) =>
        match extendSentences t.Extend start_pos entries
            (List.range' 1 (input.drop start_pos).length) (st1.sentences, st1.generated) with
        | .error e => .error e
        | .ok r =>
          makeSentencesFrom t input filter_by_charset rest
            { st1 with sentences := r.1, generated := r.2 }

/-- Modelled from the spec: the constructor `Sentence(language)`, an empty sentence. -/
def emptySentence : Sentence := { type := "sentence" }

/-- Lines 564-669 of `TableTranslator::MakeSentence(input, start, ...)`: the sentences
and the collectors when the loop over the start positions has ended. -/
def MakeSentenceLoop (t : TableTranslator) (input : List Char) : Except Fault SentenceState :=
  makeSentencesFrom t input (t.enable_charset_filter_ && !t.extended_charset)
    (List.range input.length) { sentences := [(0, emptySentence)] }

end TableTranslator
end Rime

namespace Rime
open SpellingType

/-! ## Vocabulary of the statements on the translators -/

/-- The edges of the graph go forward and start inside an input of length `n`, and
the edges leaving one position are a map: their end positions are strictly increasing. -/
def SyllableGraph.ForwardWithin (g : SyllableGraph) (n : Nat) : Prop :=
  ∀ i row, Map.find? g.edges i = some row →
    Map.WF row ∧ ∀ j sm, Map.find? row j = some sm → i < j ∧ i ≤ n

/-- The positions `p < p1 < ... < pn = end_pos`, with `ps = [p1, ..., pn]` and
`n = |code|`, are a path that spells `code`: for every `k` the graph has the edge
`(p_k, p_{k+1})` and its spelling map contains `code[k]`. -/
def SpellsFrom (g : SyllableGraph) (end_pos : Nat) : Code → Nat → List Nat → Prop
  | [], p, [] => p = end_pos
  | syllable_id :: rest, p, q :: ps =>
    p < q ∧ (∃ sm props, g.edge? p q = some sm ∧ Map.find? sm syllable_id = some props) ∧
      SpellsFrom g end_pos rest q ps
  | _, _, _ => False

/-- The text of the path `p, p1, ..., pn` appended to `output`: the segments
`input[p_k, p_{k+1})` in order, `delimiters[0]` put before a segment `k ≥ 1` exactly
when the output so far is not empty and does not end in a delimiter. The first
segment has number `k`. -/
def joinSegments (input delimiters : List Char) : Nat → Nat → List Nat → List Char →
    List Char
  | _, _, [], output => output
  | k, p, q :: ps, output =>
    let ends_in_other : Bool :=
      match output.getLast? with
      | some c => !delimiters.contains c
      | none => false
    let output1 := if 0 < k ∧ ends_in_other = true then output ++ delimiters.take 1 else output
    joinSegments input delimiters (k + 1) q ps (output1 ++ (input.drop p).take (q - p))

/-- What a call of `DelimitSyllablesDfs` at depth `depth` does, `f` being the call as
a function of the position and of the output so far: it returns, a failed call leaves
the output as it was and there is no path, a successful call has appended the text of
a path. -/
def DelimitSpec (input D : List Char) (g : SyllableGraph) (E : Nat) (code : Code)
    (depth : Nat) (f : Nat → List Char → Except Fault (Bool × List Char)) : Prop :=
  ∀ pos out, ∃ b out', f pos out = .ok (b, out') ∧
    (b = false → out' = out ∧ ¬ ∃ qs, SpellsFrom g E code pos qs) ∧
    (b = true → ∃ qs, SpellsFrom g E code pos qs ∧
      out' = joinSegments input D depth pos qs out)

end Rime

namespace Rime
open SpellingType
namespace Examples

/-- A script translator with the delimiter `'`, no dictionary, and formatters that
change nothing. -/
def plainTranslator : ScriptTranslator where
  dict_ := none
  user_dict_ := none
  poet := ⟨fun _ _ => none⟩
  delimiters_ := [apostrophe]
  enable_completion_ := false
  strict_spelling_ := false
  initial_quality_ := 0
  spelling_hints_ := 0
  preedit_formatter_ := fun preedit => preedit
  comment_formatter_ := fun comment => comment

/-- A translation of the input `xian`, holding the graph built for it. -/
def xianTranslation : ScriptTranslation where
  input_ := xian
  start_ := 0
  syllable_graph_ := xianGraph

/-- A candidate over the whole of `xian` whose code is the two syllables `xi` and
`an`. -/
def xiAn : Candidate where
  type := "phrase"
  start := 0
  end_ := 4
  entry := { code := [1, 3] }

end Examples
end Rime

namespace Rime
open SpellingType

/-- The constructor `ScriptTranslation(translator, input, start)`: no graph, no
collector, no sentence, and the flag `exhausted` set. -/
def ScriptTranslation.new (input : List Char) (start : Nat) : ScriptTranslation :=
  { input_ := input, start_ := start }

/-- The dict collector is drained: the pointer is null or the iterator stands at
`rend()`. -/
def ScriptTranslation.phraseDrained (self : ScriptTranslation) : Prop :=
  self.phrase_ = none ∨ self.phrase_ = some []

/-- The user-phrase collector is drained: the pointer is null or the iterator stands at
`rend()`. -/
def ScriptTranslation.userPhraseDrained (self : ScriptTranslation) : Prop :=
  self.user_phrase_ = none ∨ self.user_phrase_ = some []

/-- The translation after `n` calls of `Next`. -/
def ScriptTranslation.afterNext (self : ScriptTranslation) : Nat → ScriptTranslation
  | 0 => self
  | n + 1 => ScriptTranslation.afterNext (self.Next).2 n

namespace Examples

/-- A dictionary over the prism of `xian` whose lookups find a collector with no
bucket. -/
def emptyDictionary : Dictionary where
  loaded := true
  prism := xianPrism
  Lookup := fun _ _ _ => some []
  Decode := fun _ => none
  LookupWords := fun _ _ _ => []

/-- The sentence `xi an` over the whole of `xian`. -/
def xiAnSentence : Sentence where
  type := "sentence"
  start := 0
  end_ := 4
  entry := { code := [1, 3] }
  syllable_lengths := [2, 2]

/-- A script translator of `emptyDictionary` whose poet always makes the sentence
`xiAnSentence`. -/
def sentenceOnlyTranslator : ScriptTranslator :=
  { plainTranslator with dict_ := some emptyDictionary, poet := ⟨fun _ _ => some xiAnSentence⟩ }

/-- The translation that `Evaluate` leaves behind for `xian` with
`sentenceOnlyTranslator`. -/
def sentenceOnlyTranslation : ScriptTranslation where
  input_ := xian
  start_ := 0
  syllable_graph_ := xianGraph
  phrase_ := some []
  user_phrase_ := none
  sentence_ := some xiAnSentence
  exhausted_ := true

end Examples
end Rime

namespace Rime
open SpellingType

/-- The extensions generated for the position `e`, in the order of their generation. -/
def generatedFor (generated : List (Nat × Sentence)) (e : Nat) : List Sentence :=
  (generated.filter (fun x => decide (x.1 = e))).map (fun x => x.2)

/-- The sentence installed at each position is the best of the extensions generated for
it so far, the latest among those of the greatest weight; position 0 holds the empty
sentence the loop starts from as long as nothing was generated for it. -/
def BestInstalled (sentences : Map Nat Sentence) (generated : List (Nat × Sentence)) : Prop :=
  ∀ e, (Map.find? sentences e = none → generatedFor generated e = []) ∧
    ∀ s, Map.find? sentences e = some s →
      (e = 0 ∧ generatedFor generated e = []) ∨
      ∃ l1 l2, generatedFor generated e = l1 ++ s :: l2 ∧
        (∀ x ∈ l1, x.weight ≤ s.weight) ∧ ∀ x ∈ l2, x.weight < s.weight

end Rime

namespace Rime
open SpellingType
namespace Examples

/-- A dict entry for the syllable `xi`. -/
def phraseXi : DictEntry := { text := ['X'], code := [1] }

/-- A user-dict entry for the syllable `xi`. -/
def userXi : DictEntry := { text := ['U'], code := [1], weight := 1 }

/-- A dictionary over the prism of `xian` whose lookups find the one entry `phraseXi`,
of code length 2. -/
def xiDictionary : Dictionary where
  loaded := true
  prism := xianPrism
  Lookup := fun _ _ _ => some [(2, [phraseXi])]
  Decode := fun _ => none
  LookupWords := fun _ _ _ => []

/-- A user dictionary whose lookups find the one entry `userXi`, of code length 2. -/
def xiUserDictionary : UserDictionary where
  loaded := true
  Lookup := fun _ _ _ _ => some [(2, [userXi])]
  LookupWords := fun _ _ _ => ([], [])

/-- A script translator of these two dictionaries whose poet always makes the sentence
`xiAnSentence`. -/
def xiTranslator : ScriptTranslator :=
  { plainTranslator with
    dict_ := some xiDictionary, user_dict_ := some xiUserDictionary,
    poet := ⟨fun _ _ => some xiAnSentence⟩ }

/-- The translation that `Evaluate` leaves behind for `xian` with `xiTranslator`: a
sentence is queued, and each collector has one bucket. -/
def liveTranslation : ScriptTranslation where
  input_ := xian
  start_ := 0
  syllable_graph_ := xianGraph
  phrase_ := some [(2, [phraseXi])]
  user_phrase_ := some [(2, [userXi])]
  sentence_ := some xiAnSentence
  exhausted_ := false

/-- The translation `liveTranslation` moved to start at position 5 of a longer input. -/
def shiftedTranslation : ScriptTranslation :=
  { liveTranslation with start_ := 5 }

/-- A complete-match entry of the dictionary. -/
def tableEntry : DictEntry := { text := ['T'] }

/-- A complete-match entry of the user dictionary, not constructed. -/
def userEntry : DictEntry := { text := ['U'] }

/-- An entry of the user dictionary made by the unity encoder. -/
def constructedEntry : DictEntry := { text := ['C'], custom_code := UNITY_PREFIX ++ ['a'] }

/-- Options with formatters that change nothing. -/
def plainOptions : TranslatorOptions where
  delimiters_ := [' ']
  initial_quality_ := 0
  preedit_formatter_ := fun preedit => preedit
  comment_formatter_ := fun comment => comment

/-- A table translation with one dict entry and one user entry, both complete
matches. -/
def bothComplete : TableTranslation where
  options_ := some plainOptions
  input_ := ['a']
  start_ := 0
  end_ := 1
  preedit_ := ['a']
  iter_ := [tableEntry]
  uter_ := [userEntry]
  exhausted_ := false

/-- A table translation with one dict entry, a complete match, and one constructed
user entry. -/
def withConstructed : TableTranslation :=
  { bothComplete with uter_ := [constructedEntry] }

/-- The words `a`, `b` (weight 1 each) and `ab` (weight 3). -/
def wordA : DictEntry := { text := ['A'], weight := 1 }

/-- The word `b`. -/
def wordB : DictEntry := { text := ['B'], weight := 1 }

/-- The word `ab`. -/
def wordAB : DictEntry := { text := ['A', 'B'], weight := 3 }

/-- A user dictionary that holds `wordA` for the key `a`, `wordB` for `b` and `wordAB`
for `ab`. -/
def abUserDictionary : UserDictionary where
  loaded := true
  Lookup := fun _ _ _ _ => none
  LookupWords := fun key _ _ =>
    if key = ['a'] then ([wordA], [])
    else if key = ['b'] then ([wordB], [])
    else if key = ['a', 'b'] then ([wordAB], [])
    else ([], [])

/-- A dictionary that is loaded and whose prism has no key. -/
def noKeyDictionary : Dictionary where
  loaded := true
  prism := tablePrism []
  Lookup := fun _ _ _ => none
  Decode := fun _ => none
  LookupWords := fun _ _ _ => []

/-- An `Extend` for the examples: the text of the entry is appended, the sentence takes
the weight of the entry and ends at `end_pos`. -/
def appendEntry (s : Sentence) (e : DictEntry) (end_pos : Nat) : Sentence :=
  { s with
    end_ := end_pos,
    entry := { s.entry with text := s.entry.text ++ e.text, weight := e.weight },
    syllable_lengths := s.syllable_lengths ++ [end_pos - s.end_] }

/-- A table translator of `noKeyDictionary` and `abUserDictionary`, without encoder. -/
def abTranslator : TableTranslator where
  dict_ := some noKeyDictionary
  user_dict_ := some abUserDictionary
  encoder_ := none
  delimiters_ := [' ']
  enable_charset_filter_ := false
  extended_charset := false
  FilterDictEntry := fun _ => true
  Extend := appendEntry

/-- The translator `abTranslator` without its dictionary. -/
def abUserOnlyTranslator : TableTranslator :=
  { abTranslator with dict_ := none }

end Examples
end Rime

namespace Rime
open SpellingType

/-! ## Vocabulary of the statements on the search order and on the vertex types -/

/-- The path `qs` from `pos` spells `code` and no path from `pos` that spells `code`
is lexicographically greater. -/
def GreatestPath (g : SyllableGraph) (E : Nat) (code : Code) (pos : Nat) (qs : List Nat) :
    Prop :=
  SpellsFrom g E code pos qs ∧
    ∀ qs', SpellsFrom g E code pos qs' → qs' = qs ∨ List.Lex (fun a b : Nat => a < b) qs' qs

/-- What a call of `DelimitSyllablesDfs` at depth `depth` does, as `DelimitSpec`, and
the path whose text a successful call appends is the greatest one. -/
def GreatestSpec (input D : List Char) (g : SyllableGraph) (E : Nat) (code : Code)
    (depth : Nat) (f : Nat → List Char → Except Fault (Bool × List Char)) : Prop :=
  ∀ pos out, ∃ b out', f pos out = .ok (b, out') ∧
    (b = false → out' = out ∧ ¬ ∃ qs, SpellsFrom g E code pos qs) ∧
    (b = true → ∃ qs, GreatestPath g E code pos qs ∧
      out' = joinSegments input D depth pos qs out)

/-- The best spelling type on an edge: the least type among its spellings, Invalid
when there is none. -/
def bestType : SpellingMap → SpellingType
  | [] => kInvalidSpelling
  | sp :: rest => if sp.2.type < bestType rest then sp.2.type else bestType rest

namespace Examples

/-- The input `aaa`. -/
def aaa : List Char := ['a', 'a', 'a']

/-- A prism with the keys `a` and `aa`, two Normal spellings of the syllable 7. -/
def aaaPrism : Prism :=
  tablePrism [(['a'], 1, [(7, {})]), (['a', 'a'], 2, [(7, {})])]

/-- The graph built for `aaa` with that prism. -/
def aaaGraph : SyllableGraph where
  input_length := 3
  interpreted_length := 3
  vertices := [(0, kNormalSpelling), (1, kAmbiguousSpelling), (2, kAmbiguousSpelling),
    (3, kNormalSpelling)]
  edges := [(0, [(1, [(7, { end_pos := 1 })]), (2, [(7, { end_pos := 2 })])]),
    (1, [(2, [(7, { end_pos := 2 })]), (3, [(7, { end_pos := 3 })])]),
    (2, [(3, [(7, { end_pos := 3 })])])]
  indices := [(0, [(7, [{ end_pos := 2 }, { end_pos := 1 }])]),
    (1, [(7, [{ end_pos := 3 }, { end_pos := 2 }])]), (2, [(7, [{ end_pos := 3 }])])]

end Examples

end Rime

namespace Rime
open SpellingType

namespace Examples

end Examples

end Rime

namespace Rime
open SpellingType

end Rime

namespace Rime
open SpellingType

/-! ## Memorize -/

/-- Modelled from the spec: `CommitEntry`, a `DictEntry` (the phrase committed) with
the entries it is composed of. -/
structure CommitEntry where
  entry : DictEntry
  elements : List DictEntry
  deriving DecidableEq, Repr

/-- Modelled from the spec: `CommitRecord`, an item `{ type, text }` of the commit
history. -/
structure CommitRecord where
  type : String
  text : List Char
  deriving DecidableEq, Repr

/-- The calls that `Memorize` makes on the user dictionary (`UpdateEntry(entry,
commits)`) and on the encoder (`EncodePhrase(phrase, value)`); the effect of
`Memorize` is the list of its calls, in order. -/
inductive MemoryCall
  | UpdateEntry (entry : DictEntry) (commits : Int)
  | EncodePhrase (phrase : List Char) (value : String)
  deriving DecidableEq, Repr

namespace ScriptTranslator

/-- Lines 177-184: whether the loop finds an element whose code is longer than one
syllable (it breaks at the first one). -/
def hasLongCode : List DictEntry → Bool
  | [] => false
  | e :: rest => if 1 < e.code.length then true else hasLongCode rest

/-- Lines 186-188: the loop that updates the elements. -/
def updateElements : List DictEntry → List MemoryCall → List MemoryCall
  | [], calls => calls
  | e :: rest, calls => updateElements rest (calls ++ [MemoryCall.UpdateEntry e 0])

/-- The method `ScriptTranslator::Memorize(commit_entry)`: the value returned and the
calls made; `user_dict_` is dereferenced unchecked. -/
def Memorize (t : ScriptTranslator) (commit_entry : CommitEntry) :
    Except Fault (Bool × List MemoryCall) :=
  let update_elements :=
    if 1 < commit_entry.elements.length then hasLongCode commit_entry.elements else false
  match t.user_dict_ with
  | none => .error .nullDeref
  | some _ =>
    let calls := if update_elements then updateElements commit_entry.elements [] else []
    .ok (true, calls ++ [MemoryCall.UpdateEntry commit_entry.entry 1])

end ScriptTranslator

/-- Modelled from the spec: `UnityTableEncoder::RemovePrefix(key)` strips
`UNITY_PREFIX` from a key that begins with it. -/
def UnityTableEncoder.RemovePrefix (key : List Char) : List Char :=
  if UnityTableEncoder.HasPrefix key then key.drop UNITY_PREFIX.length else key

/-- The members of `TableTranslator` that its constructor reads from the configuration
(lines 216-229), and the members of its base `TranslatorOptions` other than
`delimiters_`: `enable_completion_`, `initial_quality_`, the two formatters as the
functions they apply to a string, and the method `IsUserDictDisabledFor` as a
predicate. -/
structure TableTranslatorSettings where
  enable_completion_ : Bool
  enable_sentence_ : Bool
  sentence_over_completion_ : Bool
  encode_commit_history_ : Bool
  max_phrase_length_ : Int
  initial_quality_ : ℚ := 0
  preedit_formatter_ : List Char → List Char := fun preedit => preedit
  comment_formatter_ : List Char → List Char := fun comment => comment
  IsUserDictDisabledFor : List Char → Bool := fun _ => false

namespace TableTranslator

/-- Lines 325-334: the loop that updates the elements. -/
def updateElements : List DictEntry → List MemoryCall → List MemoryCall
  | [], calls => calls
  | e :: rest, calls =>
    if is_constructed e then
      let blessed : DictEntry :=
        { e with custom_code := UnityTableEncoder.RemovePrefix e.custom_code }
      updateElements rest (calls ++ [MemoryCall.UpdateEntry blessed 1])
    else updateElements rest (calls ++ [MemoryCall.UpdateEntry e 1])

/-- Lines 348-361: the loop over the commit history from the iterator `it` to
`rend()`; the list holds the items from `it` on, latest first. The number of code
points `utf8::unchecked::distance` counts in a string is the parameter `distance`. -/
def encodeHistory (distance : List Char → Nat) (max_phrase_length_ : Int) :
    List CommitRecord → List Char → List MemoryCall → List MemoryCall
  | [], _, calls => calls
  | it :: rest, phrase, calls =>
    if it.type ≠ "table" ∧ it.type ≠ "sentence" then calls
    else if phrase.isEmpty then
      encodeHistory distance max_phrase_length_ rest it.text calls
    else
      let phrase1 := it.text ++ phrase
      if (distance phrase1 : Int) > max_phrase_length_ then calls
      else
        encodeHistory distance max_phrase_length_ rest phrase1
          (calls ++ [MemoryCall.EncodePhrase phrase1 "0"])

/-- Lines 339-363: what is done when `encode_commit_history_` is set; `history` is
the commit history of the context, oldest item first. -/
def encodeCommitHistory (distance : List Char → Nat) (max_phrase_length_ : Int)
    (history : List CommitRecord) (calls : List MemoryCall) : List MemoryCall :=
  match history.reverse with
  | [] => calls
  | it :: rest =>
    encodeHistory distance max_phrase_length_
      (if it.type = "punct" then rest else it :: rest) [] calls

/-- The method `TableTranslator::Memorize(commit_entry)`: the value returned and the
calls made. -/
def Memorize (t : TableTranslator) (settings : TableTranslatorSettings)
    (distance : List Char → Nat) (history : List CommitRecord)
    (commit_entry : CommitEntry) : Bool × List MemoryCall :=
  match t.user_dict_ with
  | none => (false, [])
  | some _ =>
    let calls := updateElements commit_entry.elements []
    match t.encoder_ with
    | none => (true, calls)
    | some encoder =>
      if encoder.loaded then
        let calls1 :=
          if 1 < commit_entry.elements.length then
            calls ++ [MemoryCall.EncodePhrase commit_entry.entry.text "1"]
          else calls
        if settings.encode_commit_history_ then
          (true, encodeCommitHistory distance settings.max_phrase_length_ history calls1)
        else (true, calls1)
      else (true, calls)

end TableTranslator

/-! ## Vocabulary of the statements on Memorize -/

/-- The items of the commit history that the walk starts from, latest first: one
trailing item of type `punct` is skipped. -/
def historyItems (history : List CommitRecord) : List CommitRecord :=
  match history.reverse with
  | [] => []
  | it :: rest => if it.type = "punct" then rest else it :: rest

/-- The concatenation, in history order, of the last `k` items. -/
def lastWords (items : List CommitRecord) (k : Nat) : List Char :=
  ((items.take k).reverse.map CommitRecord.text).flatten

/-- An item made by a table translator: its type is `table` or `sentence`. -/
def CommitRecord.isWord (r : CommitRecord) : Bool :=
  decide (r.type = "table") || decide (r.type = "sentence")

/-- Following the words of the specification: the phrases for `k`, `k + 1`, ... up to
the first `k` whose item is missing or has another type, or whose concatenation has
more than `max_phrase_length` code points; `n` bounds the number of phrases. -/
def phrasesFrom (distance : List Char → Nat) (max_phrase_length : Int)
    (items : List CommitRecord) : Nat → Nat → List (List Char)
  | 0, _ => []
  | n + 1, k =>
    match items.get? (k - 1) with
    | none => []
    | some it =>
      if it.isWord ∧ (distance (lastWords items k) : Int) ≤ max_phrase_length then
        lastWords items k :: phrasesFrom distance max_phrase_length items n (k + 1)
      else []

/-- Following the words of the specification: the phrases to encode for a commit
history, those of `k = 2, 3, ...` when the last item is a word. -/
def historyPhrases (distance : List Char → Nat) (max_phrase_length : Int)
    (history : List CommitRecord) : List (List Char) :=
  match historyItems history with
  | [] => []
  | it :: rest =>
    if it.isWord then
      phrasesFrom distance max_phrase_length (it :: rest) (it :: rest).length 2
    else []

/-- The phrases passed to `EncodePhrase(phrase, "0")` among the calls, in order. -/
def encodedWithZero : List MemoryCall → List (List Char)
  | [] => []
  | MemoryCall.EncodePhrase phrase value :: rest =>
    if value = "0" then phrase :: encodedWithZero rest else encodedWithZero rest
  | MemoryCall.UpdateEntry _ _ :: rest => encodedWithZero rest

namespace Examples

/-- A commit of the two single-syllable entries `wordA` and `wordB`. -/
def commitAB : CommitEntry := { entry := wordAB, elements := [wordA, wordB] }

/-- An entry with a code of two syllables. -/
def wordLong : DictEntry := { text := ['L'], code := [1, 2] }

/-- A commit of `wordA` and an entry with a code of two syllables. -/
def commitLong : CommitEntry := { entry := wordAB, elements := [wordA, wordLong] }

/-- A user dictionary that holds nothing. -/
def emptyUserDictionary : UserDictionary where
  loaded := true
  Lookup := fun _ _ _ _ => none
  LookupWords := fun _ _ _ => ([], [])

/-- An encoder that is loaded and holds nothing. -/
def emptyEncoder : UnityTableEncoder where
  loaded := true
  LookupPhrases := fun _ _ _ => ([], [])

/-- A table translator with a user dictionary and a loaded encoder. -/
def encodingTranslator : TableTranslator :=
  { abTranslator with encoder_ := some emptyEncoder }

/-- Settings that encode the commit history, phrases of at most 3 code points. -/
def historySettings : TableTranslatorSettings where
  enable_completion_ := false
  enable_sentence_ := false
  sentence_over_completion_ := false
  encode_commit_history_ := true
  max_phrase_length_ := 3

/-- A commit history: a raw item, then the words `A`, `B`, `AB`, then punctuation. -/
def someHistory : List CommitRecord :=
  [⟨"raw", ['x']⟩, ⟨"table", ['A']⟩, ⟨"table", ['B']⟩, ⟨"sentence", ['A', 'B']⟩,
    ⟨"punct", ['.']⟩]

/-- A commit history of two words, the last of them with an empty text. -/
def emptyLastHistory : List CommitRecord :=
  [⟨"table", ['A']⟩, ⟨"table", []⟩]

end Examples

end Rime

namespace Rime
open SpellingType

/-! ## SentenceTranslation -/

/-- The read `s[pos]` of a `std::string`: the byte at `pos`, the null character when
`pos` is the length of the string, undefined beyond it. -/
def stringAt (s : List Char) (pos : Nat) : Except Fault Char :=
  match s.get? pos with
  | some c => .ok c
  | none => if pos = s.length then .ok (Char.ofNat 0) else .error .badIndex

/-- The call `s.insert(pos, 1, c)`: it throws when `pos > s.length()`. -/
def stringInsert (s : List Char) (pos : Nat) (c : Char) : Except Fault (List Char) :=
  if s.length < pos then .error .outOfRange else .ok (s.take pos ++ c :: s.drop pos)

/-- The data members of `SentenceTranslation`, with the flag `exhausted_` of
`Translation`; `translator_` is `none` when null and holds the options of the
translator that the translation reads, `sentence_` is `none` when null. -/
structure SentenceTranslation where
  translator_ : Option TranslatorOptions
  sentence_ : Option Sentence
  collector_ : DictEntryCollector := []
  user_phrase_collector_ : UserDictEntryCollector := []
  user_phrase_index_ : Nat := 0
  input_ : List Char
  start_ : Nat
  exhausted_ : Bool := false

/-- Lines 510-517: the key of `rbegin()`, the largest of the map, when the map is not
empty, and 0 otherwise. -/
def largestKey {β : Type} (m : Map Nat β) : Nat :=
  match m.getLast? with
  | some r => r.1
  | none => 0

namespace SentenceTranslation

/-- Lines 489-496 of `PrepareSentence`: the loop over the syllable lengths that puts
the spaces in; `pos` and `preedit` are the locals of that name. -/
def splitSyllables (input_ delimiters : List Char) :
    List Nat → Nat → List Char → Except Fault (List Char)
  | [], _, preedit => .ok preedit
  | len :: lens, pos, preedit =>
    if 0 < pos then
      match stringAt input_ (pos - 1) with
      | .error e => .error e
      | .ok c =>
        if c ∉ delimiters then
          match stringInsert preedit pos ' ' with
          | .error e => .error e
          | .ok preedit1 => splitSyllables input_ delimiters lens (pos + 1 + len) preedit1
        else splitSyllables input_ delimiters lens (pos + len) preedit
    else splitSyllables input_ delimiters lens (pos + len) preedit

/-- The method `SentenceTranslation::PrepareSentence`: the translation as left
behind. -/
def PrepareSentence (self : SentenceTranslation) : Except Fault SentenceTranslation :=
  match self.sentence_ with
  | none => .ok self
  | some sentence =>
    let sentence1 : Sentence := { sentence.Offset self.start_ with comment := kUnitySymbol }
    match self.translator_ with
    | none => .ok { self with sentence_ := some sentence1 }
    | some translator =>
      match splitSyllables self.input_ translator.delimiters_ sentence1.syllable_lengths 0
          self.input_ with
      | .error e => .error e
      | .ok preedit =>
        .ok { self with
          sentence_ := some { sentence1 with preedit := translator.preedit_formatter_ preedit } }

/-- The method `SentenceTranslation::CheckEmpty`: the value returned and the
translation with its flag set. -/
def CheckEmpty (self : SentenceTranslation) : Bool × SentenceTranslation :=
  let is_empty := self.sentence_.isNone && self.collector_.isEmpty &&
    self.user_phrase_collector_.isEmpty
  (is_empty, { self with exhausted_ := is_empty })

/-- The method `SentenceTranslation::PreferUserPhrase`. -/
def PreferUserPhrase (self : SentenceTranslation) : Bool :=
  let user_phrase_code_length := largestKey self.user_phrase_collector_
  let table_code_length := largestKey self.collector_
  if 0 < user_phrase_code_length ∧ table_code_length ≤ user_phrase_code_length then true
  else false

/-- The constructor of `SentenceTranslation`; a collector pointer is `none` when
null. -/
def new (translator : Option TranslatorOptions) (sentence : Option Sentence)
    (collector : Option DictEntryCollector) (ucollector : Option UserDictEntryCollector)
    (input : List Char) (start : Nat) : Except Fault SentenceTranslation :=
  let self : SentenceTranslation :=
    { translator_ := translator, sentence_ := sentence, collector_ := collector.getD [],
      user_phrase_collector_ := ucollector.getD [], input_ := input, start_ := start }
  match PrepareSentence self with
  | .error e => .error e
  | .ok self1 => .ok (CheckEmpty self1).2

/-- The method `SentenceTranslation::Next`: the value returned and the translation as
left behind. Dereferencing `rbegin()` of an empty map is reported as a null pointer
dereferenced. -/
def Next (self : SentenceTranslation) : Except Fault (Bool × SentenceTranslation) :=
  match self.sentence_ with
  | some _ =>
    let r := CheckEmpty { self with sentence_ := none }
    .ok (!r.1, r.2)
  | none =>
    if self.PreferUserPhrase then
      match self.user_phrase_collector_.getLast? with
      | none => .error .nullDeref
      | some r =>
        let self1 : SentenceTranslation :=
          if r.2.length ≤ self.user_phrase_index_ + 1 then
            { self with
              user_phrase_collector_ := Map.erase self.user_phrase_collector_ r.1,
              user_phrase_index_ := 0 }
          else { self with user_phrase_index_ := self.user_phrase_index_ + 1 }
        let c := CheckEmpty self1
        .ok (!c.1, c.2)
    else
      match self.collector_.getLast? with
      | none => .error .nullDeref
      | some r =>
        let self1 : SentenceTranslation :=
          if r.2.tail.isEmpty then { self with collector_ := Map.erase self.collector_ r.1 }
          else { self with collector_ := Map.set self.collector_ r.1 r.2.tail }
        let c := CheckEmpty self1
        .ok (!c.1, c.2)

/-- The method `SentenceTranslation::Peek`: the candidate returned, `none` for a null
pointer. -/
def Peek (self : SentenceTranslation) : Except Fault (Option Candidate) :=
  if self.exhausted_ then .ok none
  else
    match self.sentence_ with
    | some sentence => .ok (some sentence)
    | none =>
      match
        (if self.PreferUserPhrase then
          match self.user_phrase_collector_.getLast? with
          | none => Except.error Fault.nullDeref
          | some r =>
            match r.2.get? self.user_phrase_index_ with
            | none => Except.error Fault.badIndex
            | some entry => Except.ok (r.1, entry)
        else
          match self.collector_.getLast? with
          | none => Except.error Fault.nullDeref
          | some r =>
            match r.2.head? with
            | none => Except.error Fault.nullDeref
            | some entry => Except.ok (r.1, entry)) with
      | .error e => .error e
      | .ok (code_length, entry) =>
        let result := Phrase.new "table" self.start_ (self.start_ + code_length) entry
        match self.translator_ with
        | none => .ok (some result)
        | some translator =>
          .ok (some { result with
            preedit := translator.preedit_formatter_ (self.input_.take code_length) })

end SentenceTranslation

/-! ## Vocabulary of the statements on SentenceTranslation -/

/-- Following the words of the specification: the input from the boundary `b` on, cut
at the syllable lengths, with one space put in at each inner boundary whose preceding
input byte is not a delimiter. -/
def spacedFrom (input delimiters : List Char) : List Nat → Nat → List Char
  | [], _ => []
  | len :: lens, b =>
    (if 0 < b ∧ input.getD (b - 1) ' ' ∉ delimiters then [' '] else []) ++
      (input.drop b).take len ++ spacedFrom input delimiters lens (b + len)

namespace Examples

/-- The input `abc'd`. -/
def abcQuoteD : List Char := ['a', 'b', 'c', apostrophe, 'd']

/-- Options with the delimiter `'` and formatters that change nothing. -/
def quoteOptions : TranslatorOptions :=
  { plainOptions with delimiters_ := [apostrophe] }

/-- A sentence of the three words `ab`, `c'` and `d`. -/
def threeWords : Sentence := { type := "sentence", end_ := 5, syllable_lengths := [2, 2, 1] }

/-- The sentence translation made for `abc'd` and that sentence. -/
def threeWordsTranslation : SentenceTranslation where
  translator_ := some quoteOptions
  sentence_ := some threeWords
  input_ := abcQuoteD
  start_ := 0

/-- A sentence translation with a sentence, one bucket of dict entries and two buckets
of user phrases. -/
def sentenceAndWords : SentenceTranslation where
  translator_ := some plainOptions
  sentence_ := some { type := "sentence", end_ := 2, syllable_lengths := [1, 1] }
  collector_ := [(2, [wordAB])]
  user_phrase_collector_ := [(1, [wordA]), (2, [wordB, wordA])]
  input_ := ['a', 'b']
  start_ := 0

/-- The translation `sentenceAndWords` once its sentence has been passed. -/
def wordsOnly : SentenceTranslation :=
  { sentenceAndWords with sentence_ := none }

end Examples

end Rime

namespace Rime
open SpellingType

/-! ## Query -/

/-- Modelled from the spec: `UniqueFilter`, the translation that `Query` wraps its
result in; it passes on the candidates of the translation it holds, so that it is
exhausted when made exactly when that translation is. -/
structure UniqueFilter (τ : Type) where
  translation_ : τ

/-- The method `ScriptTranslator::Query(input, segment, prompt)`; `has_tag` is
`segment.HasTag(tag_)`, `segment_start` is `segment.start` and
`IsUserDictDisabledFor` the method of that name of `TranslatorOptions`. -/
def ScriptTranslator.Query (t : ScriptTranslator) (IsUserDictDisabledFor : List Char → Bool)
    (input : List Char) (segment_start : Nat) (has_tag : Bool) :
    Except Fault (Option (UniqueFilter ScriptTranslation)) :=
  match t.dict_ with
  | none => .ok none
  | some dict =>
    if !dict.loaded then .ok none
    else if !has_tag then .ok none
    else
      let enable_user_dict :=
        (match t.user_dict_ with
          | some user_dict => user_dict.loaded
          | none => false) && !IsUserDictDisabledFor input
      let result := ScriptTranslation.new input segment_start
      match ScriptTranslation.Evaluate t result dict
          (if enable_user_dict then t.user_dict_ else none) with
      | .error e => .error e
      | .ok (false, _) => .ok none
      | .ok (true, result1) => .ok (some ⟨result1⟩)

/-- The `TranslatorOptions` base of a table translator. -/
def TableTranslator.options (t : TableTranslator) (settings : TableTranslatorSettings) :
    TranslatorOptions :=
  { delimiters_ := t.delimiters_, initial_quality_ := settings.initial_quality_,
    preedit_formatter_ := settings.preedit_formatter_,
    comment_formatter_ := settings.comment_formatter_ }

/-- Lines 29-39: the constructor of `TableTranslation` without iterators. -/
def TableTranslation.new (options : Option TranslatorOptions) (input : List Char)
    (start end_ : Nat) (preedit : List Char) : TableTranslation :=
  { options_ := options, input_ := input, start_ := start, end_ := end_,
    preedit_ :=
      match options with
      | some o => o.preedit_formatter_ preedit
      | none => preedit,
    exhausted_ := true }

/-- Lines 41-54: the constructor of `TableTranslation` with iterators. -/
def TableTranslation.newWith (options : Option TranslatorOptions) (input : List Char)
    (start end_ : Nat) (preedit : List Char) (iter uter : DictEntryIterator) :
    TableTranslation :=
  (TableTranslation.CheckEmpty
    { options_ := options, input_ := input, start_ := start, end_ := end_,
      preedit_ :=
        match options with
        | some o => o.preedit_formatter_ preedit
        | none => preedit,
      iter_ := iter, uter_ := uter }).2

/-- The data members of `LazyTableTranslation`: the `TableTranslation` it is, and its
own. -/
structure LazyTableTranslation where
  table : TableTranslation
  dict_ : Option Dictionary
  user_dict_ : Option UserDictionary
  limit_ : Nat
  user_dict_limit_ : Nat
  user_dict_key_ : List Char := []

namespace LazyTableTranslation

/-- The constant `kInitialSearchLimit`. -/
def kInitialSearchLimit : Nat := 10

/-- The constant `kExpandingFactor`. -/
def kExpandingFactor : Nat := 10

/-- The method `LazyTableTranslation::FetchUserPhrases(translator)`: the value
returned and the translation as left behind. A lookup appends what it finds to the
iterator it is given. -/
def FetchUserPhrases (self : LazyTableTranslation) (encoder : Option UnityTableEncoder) :
    Bool × LazyTableTranslation :=
  match self.user_dict_ with
  | none => (false, self)
  | some user_dict =>
    let found := user_dict.LookupWords self.table.input_ false 0
    let uter := self.table.uter_ ++ found.1
    let uter1 :=
      match encoder with
      | some e => if e.loaded then uter ++ (e.LookupPhrases self.table.input_ false 0).1 else uter
      | none => uter
    (!uter1.isEmpty,
      { self with table := { self.table with uter_ := uter1 }, user_dict_key_ := found.2 })

/-- The method `LazyTableTranslation::FetchMoreUserPhrases`; the count that
`LookupWords` returns is the number of entries it finds. -/
def FetchMoreUserPhrases (self : LazyTableTranslation) : Bool × LazyTableTranslation :=
  match self.user_dict_ with
  | none => (false, self)
  | some user_dict =>
    if self.user_dict_limit_ = 0 then (false, self)
    else
      let found := user_dict.LookupWords self.table.input_ true self.user_dict_limit_
      let uter := self.table.uter_ ++ found.1
      (!uter.isEmpty,
        { self with
          table := { self.table with uter_ := uter },
          user_dict_key_ := found.2,
          user_dict_limit_ :=
            if found.1.length < self.user_dict_limit_ then 0
            else self.user_dict_limit_ * kExpandingFactor })

/-- The method `LazyTableTranslation::FetchMoreTableEntries`, called on an iterator
none of whose entries has been passed; the count that `LookupWords` returns is the
number of entries it finds. -/
def FetchMoreTableEntries (self : LazyTableTranslation) : Bool × LazyTableTranslation :=
  match self.dict_ with
  | none => (false, self)
  | some dict =>
    if self.limit_ = 0 then (false, self)
    else
      let previous_entry_count := self.table.iter_.length
      let more := dict.LookupWords self.table.input_ true self.limit_
      let limit := if more.length < self.limit_ then 0 else self.limit_ * kExpandingFactor
      (true,
        { self with
          limit_ := limit,
          table :=
            if previous_entry_count < more.length then
              { self.table with iter_ := more.drop previous_entry_count }
            else self.table })

/-- The constructor of `LazyTableTranslation`. -/
def new (t : TableTranslator) (settings : TableTranslatorSettings) (input : List Char)
    (start end_ : Nat) (preedit : List Char) (enable_user_dict : Bool) : LazyTableTranslation :=
  let self : LazyTableTranslation :=
    { table := TableTranslation.new (some (t.options settings)) input start end_ preedit,
      dict_ := t.dict_,
      user_dict_ := if enable_user_dict then t.user_dict_ else none,
      limit_ := kInitialSearchLimit, user_dict_limit_ := kInitialSearchLimit }
  let r := FetchUserPhrases self t.encoder_
  let self1 := if r.1 then r.2 else (FetchMoreUserPhrases r.2).2
  let self2 := (FetchMoreTableEntries self1).2
  { self2 with table := (TableTranslation.CheckEmpty self2.table).2 }

end LazyTableTranslation

/-- The translations that `TableTranslator::Query` makes, before the `UniqueFilter`:
a `CharsetFilter` holds the translation it filters, the union of two translations
holds both. -/
inductive Translation
  | table (t : TableTranslation)
  | lazyTable (t : LazyTableTranslation)
  | sentence (t : SentenceTranslation)
  | charsetFilter (inner : Translation)
  | union (first second : Translation)

namespace Translation

/-- The method `exhausted()`. Modelled from the spec: for a `CharsetFilter`, whether
it is exhausted when made for a translation is the parameter `filter`, with the first
candidate it then offers; a union is exhausted when both its parts are. -/
def exhausted (filter : Translation → Bool × Option Candidate) : Translation → Bool
  | table t => t.exhausted_
  | lazyTable t => t.table.exhausted_
  | sentence t => t.exhausted_
  | charsetFilter inner => (filter inner).1
  | union first second => exhausted filter first && exhausted filter second

/-- The method `Peek()`; for a `CharsetFilter` and a union as for `exhausted`. -/
def Peek (filter : Translation → Bool × Option Candidate) :
    Translation → Except Fault (Option Candidate)
  | table t => t.Peek
  | lazyTable t => t.table.Peek
  | sentence t => t.Peek
  | charsetFilter inner => .ok (filter inner).2
  | union first second =>
    if exhausted filter first then Peek filter second else Peek filter first

end Translation

/-- The function `starts_with_completion(translation)`. -/
def starts_with_completion (filter : Translation → Bool × Option Candidate)
    (translation : Option Translation) : Except Fault Bool :=
  match translation with
  | none => .ok false
  | some tr =>
    match tr.Peek filter with
    | .error e => .error e
    | .ok none => .ok false
    | .ok (some cand) => .ok (decide (cand.type = "completion"))

/-- The call `boost::trim_right_if(code, boost::is_any_of(delimiters))`. -/
def trim_right (code delimiters : List Char) : List Char :=
  (code.reverse.dropWhile (fun c => decide (c ∈ delimiters))).reverse

namespace TableTranslator

/-- Lines 670-682 of `TableTranslator::MakeSentence(input, start,
include_prefix_phrases)`, after the loop: the translation returned, `none` for a null
pointer. -/
def MakeSentence (t : TableTranslator) (settings : TableTranslatorSettings)
    (input : List Char) (start : Nat) (include_prefix_phrases : Bool) :
    Except Fault (Option Translation) :=
  let filter_by_charset := t.enable_charset_filter_ && !t.extended_charset
  match MakeSentenceLoop t input with
  | .error e => .error e
  | .ok st =>
    match Map.find? st.sentences input.length with
    | none => .ok none
    | some sentence =>
      match SentenceTranslation.new (some (t.options settings)) (some sentence)
          (if include_prefix_phrases then some st.collector else none)
          (if include_prefix_phrases then some st.user_phrase_collector else none)
          input start with
      | .error e => .error e
      | .ok result =>
        if filter_by_charset then .ok (some (Translation.charsetFilter (.sentence result)))
        else .ok (some (.sentence result))

/-- Lines 254-255 of `Query`: the local `enable_user_dict`. -/
def enable_user_dict (t : TableTranslator) (settings : TableTranslatorSettings)
    (input : List Char) : Bool :=
  (match t.user_dict_ with
    | some user_dict => user_dict.loaded
    | none => false) && !settings.IsUserDictDisabledFor input

/-- Lines 277-285 of `Query`: the two lookups of the eager mode. -/
def lookupWords (t : TableTranslator) (code : List Char) (enable_user_dict : Bool) :
    DictEntryIterator × DictEntryIterator :=
  let iter : DictEntryIterator :=
    match t.dict_ with
    | some dict => if dict.loaded then dict.LookupWords code false 0 else []
    | none => []
  let uter : DictEntryIterator :=
    if enable_user_dict then
      match t.user_dict_ with
      | some user_dict =>
        (user_dict.LookupWords code false 0).1 ++
          (match t.encoder_ with
            | some encoder => if encoder.loaded then (encoder.LookupPhrases code false 0).1 else []
            | none => [])
      | none => []
    else []
  (iter, uter)

/-- Lines 262-297 of `Query`: the translation made from the lookups, filtered and
discarded when futile. -/
def primaryTranslation (t : TableTranslator) (settings : TableTranslatorSettings)
    (filter : Translation → Bool × Option Candidate) (input : List Char)
    (segment_start : Nat) (enable_user_dict : Bool) : Option Translation :=
  let preedit := input
  let code := trim_right input t.delimiters_
  let translation : Option Translation :=
    if settings.enable_completion_ then
      some (.lazyTable (LazyTableTranslation.new t settings code segment_start
        (segment_start + input.length) preedit enable_user_dict))
    else
      let r := lookupWords t code enable_user_dict
      if !r.1.isEmpty || !r.2.isEmpty then
        some (.table (TableTranslation.newWith (some (t.options settings)) code segment_start
          (segment_start + input.length) preedit r.1 r.2))
      else none
  let filter_by_charset := t.enable_charset_filter_ && !t.extended_charset
  let translation1 : Option Translation :=
    match translation with
    | some tr => if filter_by_charset then some (.charsetFilter tr) else some tr
    | none => none
  match translation1 with
  | some tr => if tr.exhausted filter then none else some tr
  | none => none

/-- The method `TableTranslator::Query(input, segment, prompt)`; `has_tag` is
`segment.HasTag(tag_)` and `segment_start` is `segment.start`. -/
def Query (t : TableTranslator) (settings : TableTranslatorSettings)
    (filter : Translation → Bool × Option Candidate) (input : List Char)
    (segment_start : Nat) (has_tag : Bool) :
    Except Fault (Option (UniqueFilter Translation)) :=
  if !has_tag then .ok none
  else
    let translation := primaryTranslation t settings filter input segment_start
      (enable_user_dict t settings input)
    match
      (if settings.enable_sentence_ && translation.isNone then
        MakeSentence t settings input segment_start true
      else if settings.sentence_over_completion_ then
        match starts_with_completion filter translation with
        | .error e => Except.error e
        | .ok false => Except.ok translation
        | .ok true =>
          match MakeSentence t settings input segment_start false with
          | .error e => Except.error e
          | .ok none => Except.ok translation
          | .ok (some sentence) =>
            match translation with
            | some tr => Except.ok (some (Translation.union sentence tr))
            | none => Except.ok none
      else Except.ok translation) with
    | .error e => .error e
    | .ok none => .ok none
    | .ok (some tr) => if tr.exhausted filter then .ok none else .ok (some ⟨tr⟩)

end TableTranslator

namespace Examples

/-- Settings with every option off. -/
def plainSettings : TableTranslatorSettings where
  enable_completion_ := false
  enable_sentence_ := false
  sentence_over_completion_ := false
  encode_commit_history_ := false
  max_phrase_length_ := 5

/-- A charset filter that lets every candidate through, as far as `Query` looks. -/
def noFilter (tr : Translation) : Bool × Option Candidate :=
  (tr.exhausted (fun _ => (true, none)), none)

/-- The script translator `xiTranslator` without its dictionary. -/
def xiUserOnlyTranslator : ScriptTranslator :=
  { xiTranslator with dict_ := none }

end Examples

end Rime

namespace Rime
open SpellingType

/-! ## user_db.h -/

/-- The struct `UserDbValue` (lines 21-31): `commits`, `dee` and `tick`, all zero by
default; `dee` (a `double`) is an exact rational. -/
structure UserDbValue where
  commits : Int := 0
  dee : ℚ := 0
  tick : Nat := 0
  deriving DecidableEq

/-- Modelled from the spec: the text `<float>` that stands for a `double` in a packed
value, as the function that writes it and the function that reads it; the
specification does not say how many digits are written. -/
structure DoubleText where
  write : ℚ → List Char
  read : List Char → Option ℚ

/-- The decimal digit of a number below ten. -/
def digitChar (d : Nat) : Char := Char.ofNat (48 + d)

/-- The number a decimal digit stands for, if the character is one. -/
def charDigit (c : Char) : Option Nat :=
  if 48 ≤ c.toNat ∧ c.toNat ≤ 57 then some (c.toNat - 48) else none

/-- The decimal digits of `n`, most significant first, put before `acc`; `fuel` bounds
the number of digits. -/
def writeDigits : Nat → Nat → List Char → List Char
  | 0, _, acc => acc
  | fuel + 1, n, acc =>
    if n / 10 = 0 then digitChar (n % 10) :: acc
    else writeDigits fuel (n / 10) (digitChar (n % 10) :: acc)

/-- Modelled from the spec: the text `<uint64>`, the decimal digits of the number. -/
def writeNat (n : Nat) : List Char := writeDigits (n + 1) n []

/-- The number that a list of decimal digits, most significant first, stands for,
added to `acc` shifted. -/
def readDigits : List Char → Nat → Option Nat
  | [], acc => some acc
  | c :: cs, acc =>
    match charDigit c with
    | none => none
    | some d => readDigits cs (10 * acc + d)

/-- Modelled from the spec: the reading of `<uint64>`, a non-empty string of decimal
digits. -/
def readNat (s : List Char) : Option Nat :=
  if s.isEmpty then none else readDigits s 0

/-- Modelled from the spec: the text `<int>`, with a minus sign for a negative number. -/
def writeInt (i : Int) : List Char :=
  if i < 0 then '-' :: writeNat i.natAbs else writeNat i.natAbs

/-- Modelled from the spec: the reading of `<int>`. -/
def readInt (s : List Char) : Option Int :=
  match s with
  | '-' :: rest =>
    match readNat rest with
    | some n => some (-(Int.ofNat n))
    | none => none
  | _ =>
    match readNat s with
    | some n => some (Int.ofNat n)
    | none => none

/-- The fields of a whitespace-delimited string: the maximal runs between blanks. -/
def splitFields : List Char → List (List Char)
  | [] => [[]]
  | c :: cs =>
    if c = ' ' then [] :: splitFields cs
    else
      match splitFields cs with
      | [] => [[c]]
      | w :: ws => (c :: w) :: ws

/-- A field `key=value` cut at its first `=`; `none` when it has none. -/
def splitKeyValue : List Char → Option (List Char × List Char)
  | [] => none
  | c :: cs =>
    if c = '=' then some ([], cs)
    else (splitKeyValue cs).map (fun kv => (c :: kv.1, kv.2))

namespace UserDbValue

/-- Modelled from the spec: `UserDbValue::Pack`, which is declared in `user_db.h` and
defined outside the sources; the value is serialized as
`c=<int> d=<float> t=<uint64>`. -/
def Pack (text : DoubleText) (v : UserDbValue) : List Char :=
  ['c', '='] ++ writeInt v.commits ++ [' ', 'd', '='] ++ text.write v.dee ++
    [' ', 't', '='] ++ writeNat v.tick

/-- The reading of one field into the value: a field without `=` or with an unknown
key is ignored, a known key whose value does not read fails. -/
def readField (text : DoubleText) (field : List Char) (v : UserDbValue) :
    Option UserDbValue :=
  match splitKeyValue field with
  | none => some v
  | some (key, value) =>
    if key = ['c'] then
      match readInt value with
      | some commits => some { v with commits := commits }
      | none => none
    else if key = ['d'] then
      match text.read value with
      | some dee => some { v with dee := dee }
      | none => none
    else if key = ['t'] then
      match readNat value with
      | some tick => some { v with tick := tick }
      | none => none
    else some v

/-- The fields read one after the other. -/
def readFields (text : DoubleText) : List (List Char) → UserDbValue → Option UserDbValue
  | [], v => some v
  | field :: rest, v =>
    match readField text field v with
    | none => none
    | some v1 => readFields text rest v1

/-- Modelled from the spec: `UserDbValue::Unpack`, which is declared in `user_db.h` and
defined outside the sources; the string is whitespace-delimited, unknown fields are
ignored and missing fields default to 0. The result is `none` when `Unpack` fails. -/
def Unpack (text : DoubleText) (value : List Char) : Option UserDbValue :=
  readFields text (splitFields value) {}

end UserDbValue

namespace Examples

/-- A text for the doubles that are whole numbers: their integer part is written, and
read back. -/
def wholeText : DoubleText where
  write := fun x => writeInt x.num
  read := fun s =>
    match readInt s with
    | some i => some (Rat.ofInt i)
    | none => none

/-- A user-dictionary value. -/
def someValue : UserDbValue := { commits := -3, dee := 12, tick := 2024 }

end Examples

end Rime

namespace Rime
open SpellingType

/-! ## SentenceSyllabification -/

namespace SentenceSyllabification

/-- Lines 528-533 of `PreviousStop`: the loop over the syllable lengths, `stop` being
the local of that name; the value is what the function returns. -/
def previousStopFrom (caret_pos : Nat) : List Nat → Nat → Nat
  | [], _ => caret_pos
  | len :: lens, stop =>
    if caret_pos ≤ stop + len then stop else previousStopFrom caret_pos lens (stop + len)

/-- The method `SentenceSyllabification::PreviousStop(caret_pos)`; `syllabified_` is
`none` when the sentence has been released and `lock()` yields a null pointer. -/
def PreviousStop (syllabified_ : Option Sentence) (caret_pos : Nat) : Nat :=
  match syllabified_ with
  | some sentence => previousStopFrom caret_pos sentence.syllable_lengths sentence.start
  | none => caret_pos

/-- Lines 541-546 of `NextStop`: the loop over the syllable lengths, `stop` being the
local of that name; the value is what the function returns. -/
def nextStopFrom (caret_pos : Nat) : List Nat → Nat → Nat
  | [], _ => caret_pos
  | len :: lens, stop =>
    if caret_pos < stop + len then stop + len else nextStopFrom caret_pos lens (stop + len)

/-- The method `SentenceSyllabification::NextStop(caret_pos)`. -/
def NextStop (syllabified_ : Option Sentence) (caret_pos : Nat) : Nat :=
  match syllabified_ with
  | some sentence => nextStopFrom caret_pos sentence.syllable_lengths sentence.start
  | none => caret_pos

end SentenceSyllabification

/-! ## Vocabulary of the statements on the stops and on the reads of PrepareSentence -/

/-- The boundary `b_k` of a sentence: its start plus its first `k` syllable lengths. -/
def Candidate.boundary (sentence : Candidate) (k : Nat) : Nat :=
  sentence.start + (sentence.syllable_lengths.take k).sum

/-- The indices `pos - 1` at which the loop of lines 489-496 of `PrepareSentence` reads
`input_`, in the order of the reads; `pos` is the local of that name, which the loop
moves on by one for every space it puts in. -/
def SentenceTranslation.readPositions (input_ delimiters : List Char) :
    List Nat → Nat → List Nat
  | [], _ => []
  | len :: lens, pos =>
    if 0 < pos then
      (pos - 1) ::
        (match stringAt input_ (pos - 1) with
          | .error _ => []
          | .ok c =>
            if c ∉ delimiters then readPositions input_ delimiters lens (pos + 1 + len)
            else readPositions input_ delimiters lens (pos + len))
    else readPositions input_ delimiters lens (pos + len)

namespace Examples

/-- The input `abcde`. -/
def abcde : List Char := ['a', 'b', 'c', 'd', 'e']

/-- A sentence of the five words `a`, `b`, `c`, `d` and `e`. -/
def fiveLetters : Sentence :=
  { type := "sentence", end_ := 5, syllable_lengths := [1, 1, 1, 1, 1] }

/-- The sentence translation made for `abcde` and that sentence. -/
def fiveLettersTranslation : SentenceTranslation where
  translator_ := some quoteOptions
  sentence_ := some fiveLetters
  input_ := abcde
  start_ := 0

/-- A sentence that starts at 3, of syllables of lengths 2, 1 and 3. -/
def stopsSentence : Sentence :=
  { type := "sentence", start := 3, end_ := 9, syllable_lengths := [2, 1, 3] }

end Examples

end Rime

namespace Rime
open SpellingType

/-! ## Vocabulary of the statements on the candidate streams -/

/-- The candidates a caller draws from a `TableTranslation`: `Peek`, then `Next`, until
`Peek` returns a null pointer; `fuel` bounds the number of candidates drawn. -/
def TableTranslation.candidates : Nat → TableTranslation → Except Fault (List Candidate)
  | 0, _ => .ok []
  | fuel + 1, self =>
    match self.Peek with
    | .error e => .error e
    | .ok none => .ok []
    | .ok (some cand) =>
      match candidates fuel (self.Next).2 with
      | .error e => .error e
      | .ok rest => .ok (cand :: rest)

/-- An iterator lists every entry that matches the whole code
(`remaining_code_length == 0`) before any entry that does not. -/
def ExactFirst (entries : DictEntryIterator) : Prop :=
  entries.Pairwise (fun a b => a.remaining_code_length ≠ 0 → b.remaining_code_length ≠ 0)

namespace Examples

/-- An entry for a longer code, of which two more bytes remain. -/
def wordFar : DictEntry := { text := ['F'], remaining_code_length := 2 }

end Examples

end Rime

namespace Rime
open SpellingType

/-- The buckets of the dict collector from its iterator on, largest key first; none
when the pointer is null. -/
def ScriptTranslation.phraseBuckets (self : ScriptTranslation) :
    List (Nat × DictEntryIterator) :=
  self.phrase_.getD []

/-- The buckets of the user-phrase collector from its iterator on, largest key first;
none when the pointer is null. -/
def ScriptTranslation.userBuckets (self : ScriptTranslation) : List (Nat × DictEntryList) :=
  self.user_phrase_.getD []

/-- The entries of a list of buckets, each with the key of its bucket, in the order of
the iteration. -/
def bucketEntries (buckets : List (Nat × List DictEntry)) : List (Nat × DictEntry) :=
  (buckets.map (fun b => b.2.map (fun e => (b.1, e)))).flatten

/-- A collector as its reverse iterator runs through it, with only positive keys and
no empty bucket: the keys are strictly decreasing. -/
def ProperBuckets (buckets : List (Nat × List DictEntry)) : Prop :=
  buckets.Pairwise (fun a b => b.1 < a.1) ∧ ∀ b ∈ buckets, 0 < b.1 ∧ b.2 ≠ []

/-- The entries the translation has not passed yet, each with its code length: those
of the dict buckets, and those of the user buckets from `user_phrase_index_` on. -/
def ScriptTranslation.remaining (self : ScriptTranslation) : List (Nat × DictEntry) :=
  bucketEntries self.phraseBuckets ++
    (bucketEntries self.userBuckets).drop self.user_phrase_index_

/-- What holds of a translation that emits its phrase candidates: no sentence is
queued, the flag is as `CheckEmpty` leaves it, the buckets of both collectors are
proper and the index stands inside the user bucket the iterator is at. -/
structure ScriptTranslation.Ready (tr : ScriptTranslation) : Prop where
  sentence : tr.sentence_ = none
  flag : tr.exhausted_ = true ↔ tr.phraseDrained ∧ tr.userPhraseDrained
  phrase : ProperBuckets tr.phraseBuckets
  user : ProperBuckets tr.userBuckets
  index : ∀ b ∈ tr.userBuckets.head?, tr.user_phrase_index_ < b.2.length

/-- The number of calls of `Next` that pass the sentence: one if a sentence is queued. -/
def ScriptTranslation.sentenceCalls (self : ScriptTranslation) : Nat :=
  if self.sentence_.isSome then 1 else 0

namespace Examples

/-- A translation for `xian` with a sentence queued, two dict buckets and one user
bucket. -/
def threeBuckets : ScriptTranslation :=
  { liveTranslation with
    phrase_ := some [(4, [phraseXi]), (2, [phraseXi, userXi])] }

end Examples

end Rime

/-! ## Lemmas -/

namespace Rime
namespace Map
variable {κ β : Type}

theorem find?_set [LinearOrder κ] (m : Map κ β) (k k' : κ) (v : β) :
    find? (set m k v) k' = if k = k' then some v else find? m k' := by
  induction m with
  | nil => simp [set, find?]
  | cons e m ih =>
    obtain ⟨a, b⟩ := e
    simp only [set]
    by_cases h1 : k < a
    · simp only [h1, if_true, find?]
    · simp only [h1, if_false]
      by_cases h2 : k = a
      · subst h2
        simp only [if_true, find?]
        by_cases h3 : k = k' <;> simp [h3]
      · simp only [h2, if_false, find?, ih]
        by_cases h3 : a = k'
        · subst h3; simp [h2]
        · simp [h3]

theorem find?_insert [LinearOrder κ] (m : Map κ β) (k k' : κ) (v : β) :
    find? (insert m k v) k' =
      if k = k' then some ((find? m k).getD v) else find? m k' := by
  unfold insert
  cases h : find? m k with
  | none =>
    simp only [find?_set, Option.getD_none]
  | some w =>
    by_cases h3 : k = k'
    · subst h3; simp [h]
    · simp [h3]

theorem find?_erase [DecidableEq κ] (m : Map κ β) (k k' : κ) :
    find? (erase m k) k' = if k = k' then none else find? m k' := by
  induction m with
  | nil => simp [erase, find?]
  | cons e m ih =>
    obtain ⟨a, b⟩ := e
    simp only [erase]
    by_cases h1 : a = k
    · subst h1
      simp only [if_true, ih, find?]
      by_cases h3 : a = k' <;> simp [h3]
    · simp only [h1, if_false, find?, ih]
      by_cases h3 : a = k'
      · subst h3; simp [Ne.symm h1]
      · simp [h3]

theorem mem_keys_iff [DecidableEq κ] (m : Map κ β) (k : κ) :
    k ∈ keys m ↔ ∃ v, find? m k = some v := by
  induction m with
  | nil => simp [keys, find?]
  | cons e m ih =>
    obtain ⟨a, b⟩ := e
    simp only [keys, List.map_cons, List.mem_cons, find?] at ih ⊢
    by_cases h : a = k
    · subst h; simp
    · simp only [h, if_false]
      rw [← ih]
      constructor
      · rintro (h1 | h1)
        · exact absurd h1.symm h
        · exact h1
      · intro h1; exact Or.inr h1

theorem not_mem_keys_iff [DecidableEq κ] (m : Map κ β) (k : κ) :
    k ∉ keys m ↔ find? m k = none := by
  rw [mem_keys_iff]
  cases find? m k <;> simp

theorem mem_of_find? [DecidableEq κ] {m : Map κ β} {k : κ} {v : β}
    (h : find? m k = some v) : (k, v) ∈ m := by
  induction m with
  | nil => simp [find?] at h
  | cons e m ih =>
    obtain ⟨a, b⟩ := e
    simp only [find?] at h
    by_cases h1 : a = k
    · subst h1
      simp only [if_true, Option.some.injEq] at h
      subst h; exact List.mem_cons_self _ _
    · simp only [h1, if_false] at h
      exact List.mem_cons_of_mem _ (ih h)

theorem mem_keys_of_mem {m : Map κ β} {e : κ × β} (h : e ∈ m) : e.1 ∈ keys m :=
  List.mem_map_of_mem Prod.fst h

theorem WF_nil [LT κ] : WF ([] : Map κ β) := List.Pairwise.nil

theorem WF_cons [LT κ] {e : κ × β} {m : Map κ β} :
    WF (e :: m) ↔ (∀ x ∈ keys m, e.1 < x) ∧ WF m := by
  simp [WF, keys, List.pairwise_cons]

theorem find?_of_mem [LinearOrder κ] {m : Map κ β} (hm : WF m) {k : κ} {v : β}
    (h : (k, v) ∈ m) : find? m k = some v := by
  induction m with
  | nil => simp at h
  | cons e m ih =>
    obtain ⟨a, b⟩ := e
    rw [WF_cons] at hm
    simp only [find?]
    rcases List.mem_cons.mp h with h1 | h1
    · injection h1 with h2 h3
      subst h2; subst h3; simp
    · have h2 : a < k := hm.1 k (mem_keys_of_mem h1)
      simp only [ne_of_lt h2, if_false]
      exact ih hm.2 h1

theorem WF_set [LinearOrder κ] {m : Map κ β} (hm : WF m) (k : κ) (v : β) :
    WF (set m k v) := by
  induction m with
  | nil => simp [set, WF, keys]
  | cons e m ih =>
    obtain ⟨a, b⟩ := e
    have hm' := WF_cons.mp hm
    simp only [set]
    by_cases h1 : k < a
    · simp only [h1, if_true]
      rw [WF_cons]
      refine ⟨?_, hm⟩
      intro x hx
      simp only [keys, List.map_cons, List.mem_cons] at hx
      rcases hx with hx | hx
      · subst hx; exact h1
      · exact lt_trans h1 (hm'.1 x hx)
    · simp only [h1, if_false]
      by_cases h2 : k = a
      · subst h2
        simp only [if_true]
        rw [WF_cons]
        exact ⟨hm'.1, hm'.2⟩
      · simp only [h2, if_false]
        rw [WF_cons]
        refine ⟨?_, ih hm'.2⟩
        intro x hx
        rw [mem_keys_iff] at hx
        obtain ⟨w, hw⟩ := hx
        rw [find?_set] at hw
        by_cases h3 : k = x
        · subst h3
          exact lt_of_le_of_ne (not_lt.mp h1) (Ne.symm h2)
        · simp only [h3, if_false] at hw
          exact hm'.1 x ((mem_keys_iff m x).mpr ⟨w, hw⟩)

theorem WF_insert [LinearOrder κ] {m : Map κ β} (hm : WF m) (k : κ) (v : β) :
    WF (insert m k v) := by
  unfold insert
  cases find? m k with
  | none => exact WF_set hm k v
  | some w => exact hm

theorem erase_sublist [DecidableEq κ] (m : Map κ β) (k : κ) : List.Sublist (erase m k) m := by
  induction m with
  | nil => simp [erase]
  | cons e m ih =>
    obtain ⟨a, b⟩ := e
    simp only [erase]
    by_cases h : a = k
    · simp only [h, if_true]; exact List.Sublist.cons _ (h ▸ ih)
    · simp only [h, if_false]; exact List.Sublist.cons₂ _ ih

theorem WF_of_sublist [LT κ] {m m' : Map κ β} (h : List.Sublist m' m) (hm : WF m) : WF m' :=
  List.Pairwise.sublist (List.Sublist.map Prod.fst h) hm

theorem WF_erase [LinearOrder κ] {m : Map κ β} (hm : WF m) (k : κ) : WF (erase m k) :=
  WF_of_sublist (erase_sublist m k) hm

end Map

namespace SpellingType

theorem lt_def (a b : SpellingType) : a < b ↔ a.toNat < b.toNat := Iff.rfl
theorem le_def (a b : SpellingType) : a ≤ b ↔ a.toNat ≤ b.toNat := Iff.rfl

theorem toNat_inj {a b : SpellingType} (h : a.toNat = b.toNat) : a = b := by
  cases a <;> cases b <;> simp [toNat] at h <;> rfl

theorem toNat_le_five (a : SpellingType) : a.toNat ≤ 5 := by
  cases a <;> simp [toNat]

end SpellingType

theorem VertexQueue.mem_push (q : VertexQueue) (v x : Vertex) :
    x ∈ q.push v ↔ x = v ∨ x ∈ q := by
  induction q with
  | nil => simp [VertexQueue.push]
  | cons w q ih =>
    simp only [VertexQueue.push]
    by_cases h : Vertex.lt v w = true
    · rw [if_pos h]; simp only [List.mem_cons]
    · rw [if_neg h]; simp only [List.mem_cons, ih]
      tauto

theorem VertexQueue.length_push (q : VertexQueue) (v : Vertex) :
    (q.push v).length = q.length + 1 := by
  induction q with
  | nil => simp [VertexQueue.push]
  | cons w q ih =>
    simp only [VertexQueue.push]
    by_cases h : Vertex.lt v w = true
    · simp [h]
    · simp [h, ih]

end Rime

namespace Rime
open SpellingType
namespace Syllabifier

theorem consumeDelimiters_ge (D : List Char) (rest : List Char) (e : Nat) :
    e ≤ consumeDelimiters D rest e := by
  induction rest generalizing e with
  | nil => simp [consumeDelimiters]
  | cons c rest ih =>
    simp only [consumeDelimiters]
    split
    · exact Nat.le_trans (Nat.le_succ e) (ih (e + 1))
    · exact Nat.le_refl e

theorem endPosOf_gt (s : Syllabifier) (input : List Char) (p : Nat) (m : Match)
    (h : m.length ≠ 0) : p < endPosOf s input p m := by
  have := consumeDelimiters_ge s.delimiters_ (input.drop (p + m.length)) (p + m.length)
  unfold endPosOf
  omega

theorem addMatches_spec (s : Syllabifier) (input : List Char) (prism : Prism)
    (vertex : Vertex) (ms : List Match) (acc : EndVertexMap × VertexQueue) :
    (Map.WF acc.1 → Map.WF (addMatches s input prism vertex ms acc).1) ∧
    (∀ j sm, (addMatches s input prism vertex ms acc).1.find? j = some sm →
      acc.1.find? j = some sm ∨ ∃ m ∈ ms, m.length ≠ 0 ∧ j = endPosOf s input vertex.1 m ∧
        sm = (spellingsOf s input prism vertex.1 m).1 ∧ sm ≠ []) ∧
    (∀ j, j ∈ Map.keys acc.1 → j ∈ Map.keys (addMatches s input prism vertex ms acc).1) ∧
    (∀ m ∈ ms, m.length ≠ 0 → (spellingsOf s input prism vertex.1 m).1 ≠ [] →
      endPosOf s input vertex.1 m ∈ Map.keys (addMatches s input prism vertex ms acc).1 ∧
      (endPosOf s input vertex.1 m,
        if (spellingsOf s input prism vertex.1 m).2 < vertex.2 then vertex.2
        else (spellingsOf s input prism vertex.1 m).2) ∈
          (addMatches s input prism vertex ms acc).2) ∧
    (∀ x, x ∈ (addMatches s input prism vertex ms acc).2 →
      x ∈ acc.2 ∨ ∃ m ∈ ms, m.length ≠ 0 ∧ (spellingsOf s input prism vertex.1 m).1 ≠ [] ∧
        x = (endPosOf s input vertex.1 m,
          if (spellingsOf s input prism vertex.1 m).2 < vertex.2 then vertex.2
          else (spellingsOf s input prism vertex.1 m).2)) ∧
    (∀ x, x ∈ acc.2 → x ∈ (addMatches s input prism vertex ms acc).2) ∧
    (addMatches s input prism vertex ms acc).2.length ≤ acc.2.length + ms.length := by
  induction ms generalizing acc with
  | nil =>
    simp [addMatches]
  | cons m ms ih =>
    obtain ⟨ev, q⟩ := acc
    simp only [addMatches]
    by_cases h0 : m.length = 0
    · simp only [h0, if_true]
      obtain ⟨i1, i2, i3, i4, i5, i6, i7⟩ := ih (ev, q)
      refine ⟨i1, ?_, i3, ?_, ?_, i6, ?_⟩
      · intro j sm h
        rcases i2 j sm h with h | ⟨m', hm', h⟩
        · exact Or.inl h
        · exact Or.inr ⟨m', List.mem_cons_of_mem _ hm', h⟩
      · intro m' hm' hl hne
        rcases List.mem_cons.mp hm' with h | h
        · subst h; exact absurd h0 hl
        · exact i4 m' h hl hne
      · intro x hx
        rcases i5 x hx with h | ⟨m', hm', h⟩
        · exact Or.inl h
        · exact Or.inr ⟨m', List.mem_cons_of_mem _ hm', h⟩
      · simp only [List.length_cons] at i7 ⊢; omega
    · simp only [h0, if_false]
      by_cases he : (spellingsOf s input prism vertex.1 m).1 = []
      · simp only [he, List.isEmpty_nil, if_true]
        obtain ⟨i1, i2, i3, i4, i5, i6, i7⟩ := ih (ev, q)
        refine ⟨i1, ?_, i3, ?_, ?_, i6, ?_⟩
        · intro j sm h
          rcases i2 j sm h with h | ⟨m', hm', h⟩
          · exact Or.inl h
          · exact Or.inr ⟨m', List.mem_cons_of_mem _ hm', h⟩
        · intro m' hm' hl hne
          rcases List.mem_cons.mp hm' with h | h
          · subst h; exact absurd he hne
          · exact i4 m' h hl hne
        · intro x hx
          rcases i5 x hx with h | ⟨m', hm', h⟩
          · exact Or.inl h
          · exact Or.inr ⟨m', List.mem_cons_of_mem _ hm', h⟩
        · simp only [List.length_cons] at i7 ⊢; omega
      · have he' : (spellingsOf s input prism vertex.1 m).1.isEmpty = false := by
          cases h : (spellingsOf s input prism vertex.1 m).1 with
          | nil => exact absurd h he
          | cons a l => rfl
        simp only [he', Bool.false_eq_true, if_false]
        obtain ⟨i1, i2, i3, i4, i5, i6, i7⟩ := ih
          (Map.set ev (endPosOf s input vertex.1 m) (spellingsOf s input prism vertex.1 m).1,
            q.push (endPosOf s input vertex.1 m,
              if (spellingsOf s input prism vertex.1 m).2 < vertex.2 then vertex.2
              else (spellingsOf s input prism vertex.1 m).2))
        refine ⟨fun h => i1 (Map.WF_set h _ _), ?_, ?_, ?_, ?_, ?_, ?_⟩
        · intro j sm h
          rcases i2 j sm h with h | ⟨m', hm', h⟩
          · simp only [Map.find?_set] at h
            by_cases hj : endPosOf s input vertex.1 m = j
            · simp only [hj, if_true, Option.some.injEq] at h
              exact Or.inr ⟨m, List.mem_cons_self _ _, h0, hj.symm, h.symm, h ▸ he⟩
            · simp only [hj, if_false] at h
              exact Or.inl h
          · exact Or.inr ⟨m', List.mem_cons_of_mem _ hm', h⟩
        · intro j hj
          apply i3
          rw [Map.mem_keys_iff] at hj ⊢
          obtain ⟨v, hv⟩ := hj
          simp only [Map.find?_set]
          by_cases hj : endPosOf s input vertex.1 m = j
          · simp [hj]
          · simp [hj, hv]
        · intro m' hm' hl hne
          rcases List.mem_cons.mp hm' with h | h
          · subst h
            refine ⟨i3 _ ?_, i6 _ ?_⟩
            · rw [Map.mem_keys_iff]
              simp [Map.find?_set]
            · simp [VertexQueue.mem_push]
          · exact i4 m' h hl hne
        · intro x hx
          rcases i5 x hx with h | ⟨m', hm', h⟩
          · simp only [VertexQueue.mem_push] at h
            rcases h with h | h
            · exact Or.inr ⟨m, List.mem_cons_self _ _, h0, he, h⟩
            · exact Or.inl h
          · exact Or.inr ⟨m', List.mem_cons_of_mem _ hm', h⟩
        · intro x hx
          apply i6
          simp only [VertexQueue.mem_push]
          exact Or.inr hx
        · simp only [VertexQueue.length_push, List.length_cons] at i7 ⊢; omega

theorem mainLoop_induct (s : Syllabifier) (input : List Char) (prism : Prism)
    (Inv : LoopState → Prop)
    (hstep : ∀ st v q st1, Inv st → st.queue = v :: q →
      visit s input prism st v q = .ok st1 → Inv st1) :
    ∀ fuel st st', Inv st → mainLoop s input prism fuel st = .ok st' →
      Inv st' ∧ st'.queue = [] := by
  intro fuel
  induction fuel with
  | zero => intro st st' _ h; simp [mainLoop] at h
  | succ fuel ih =>
    intro st st' hinv h
    unfold mainLoop at h
    cases hq : st.queue with
    | nil =>
      simp only [hq] at h
      injection h with h
      subst h
      exact ⟨hinv, hq⟩
    | cons v q =>
      simp only [hq] at h
      cases hv : visit s input prism st v q with
      | error e => simp [hv] at h
      | ok st1 =>
        simp only [hv] at h
        exact ih st1 st' (hstep st v q st1 hinv hq hv) h

end Syllabifier
end Rime

namespace Rime
open SpellingType
namespace Syllabifier

theorem VertexFrom_mono (s : Syllabifier) (input : List Char) (prism : Prism)
    (g g' : SyllableGraph) (p : Nat) (t : SpellingType)
    (hmono : ∀ k t, g.vertices.find? k = some t → g'.vertices.find? k = some t)
    (h : VertexFrom s input prism g p t) : VertexFrom s input prism g' p t := by
  obtain ⟨u, tu, m, h1, h2⟩ := h
  exact ⟨u, tu, m, hmono u tu h1, h2⟩

theorem LoopInv_init (s : Syllabifier) (input : List Char) (prism : Prism) :
    LoopInv s input prism { graph := {}, queue := [(0, kNormalSpelling)], farthest := 0 } where
  wfE := Map.WF_nil
  wfRow := by intro i row h; simp [Map.find?] at h
  src := by intro i row h; simp [Map.find?] at h
  prov := by intro i row j sm h; simp [Map.find?] at h
  complete := by intro i t h; simp [Map.find?] at h
  tgt := by intro i row j h; simp [Map.find?] at h
  vle := by intro p t h; simp [Map.find?] at h
  far := Or.inl rfl
  zero := Or.inr (List.mem_singleton.mpr rfl)
  vprov := by intro p t h; simp [Map.find?] at h
  qprov := by
    intro p t h
    simp only [List.mem_singleton, Prod.mk.injEq] at h
    exact Or.inl h
  untouched := ⟨rfl, rfl, rfl⟩

theorem LoopInv_visit (s : Syllabifier) (input : List Char) (prism : Prism)
    (st : LoopState) (v : Vertex) (q : VertexQueue) (st1 : LoopState)
    (inv : LoopInv s input prism st) (hq : st.queue = v :: q)
    (h : visit s input prism st v q = .ok st1) : LoopInv s input prism st1 := by
  unfold visit at h
  by_cases hvis : (st.graph.vertices.find? v.1).isSome = true
  · -- the position was visited before: the vertex is discarded
    simp only [hvis, if_true] at h
    injection h with h
    subst h
    obtain ⟨tv, htv⟩ := Option.isSome_iff_exists.mp hvis
    exact {
      wfE := inv.wfE
      wfRow := inv.wfRow
      src := inv.src
      prov := inv.prov
      complete := inv.complete
      tgt := by
        intro i row j h1 h2
        rcases inv.tgt i row j h1 h2 with h3 | ⟨t, h3⟩
        · exact Or.inl h3
        · rw [hq] at h3
          rcases List.mem_cons.mp h3 with h4 | h4
          · left
            have : j = v.1 := by rw [← h4]
            subst this
            exact ⟨tv, htv⟩
          · exact Or.inr ⟨t, h4⟩
      vle := inv.vle
      far := inv.far
      zero := by
        rcases inv.zero with h3 | h3
        · exact Or.inl h3
        · rw [hq] at h3
          rcases List.mem_cons.mp h3 with h4 | h4
          · left
            have : v.1 = 0 := by rw [← h4]
            rw [this] at htv
            exact ⟨tv, htv⟩
          · exact Or.inr h4
      vprov := inv.vprov
      qprov := by
        intro p t hp
        exact inv.qprov p t (by rw [hq]; exact List.mem_cons_of_mem _ hp)
      untouched := inv.untouched }
  · simp only [hvis, Bool.false_eq_true, if_false] at h
    have hnone : st.graph.vertices.find? v.1 = none := by
      cases hx : st.graph.vertices.find? v.1 with
      | none => rfl
      | some x => simp [hx] at hvis
    have hv' : ∀ k, (Map.insert st.graph.vertices v.1 v.2).find? k =
        if v.1 = k then some v.2 else st.graph.vertices.find? k := by
      intro k
      rw [Map.find?_insert, hnone]
      rfl
    have hmono : ∀ k t, st.graph.vertices.find? k = some t →
        (Map.insert st.graph.vertices v.1 v.2).find? k = some t := by
      intro k t hk
      rw [hv']
      by_cases hvk : v.1 = k
      · rw [← hvk, hnone] at hk; cases hk
      · simp only [hvk, if_false]; exact hk
    have hrow0 : st.graph.edges.find? v.1 = none := by
      cases hx : st.graph.edges.find? v.1 with
      | none => rfl
      | some row =>
        obtain ⟨t, ht⟩ := inv.src v.1 row hx
        rw [hnone] at ht; cases ht
    have hfar : ∀ p t, (Map.insert st.graph.vertices v.1 v.2).find? p = some t →
        p ≤ (if v.1 > st.farthest then v.1 else st.farthest) := by
      intro p t hp
      rw [hv'] at hp
      by_cases hvk : v.1 = p
      · subst hvk; split <;> omega
      · simp only [hvk, if_false] at hp
        have := inv.vle p t hp
        split <;> omega
    have hfar2 : (if v.1 > st.farthest then v.1 else st.farthest) = 0 ∨
        ∃ t, (Map.insert st.graph.vertices v.1 v.2).find?
          (if v.1 > st.farthest then v.1 else st.farthest) = some t := by
      by_cases hgt : v.1 > st.farthest
      · simp only [hgt, if_true]
        right; exact ⟨v.2, by rw [hv']; simp⟩
      · simp only [hgt, if_false]
        rcases inv.far with h1 | ⟨t, h1⟩
        · exact Or.inl h1
        · exact Or.inr ⟨t, hmono _ _ h1⟩
    have hzero : ∀ q' : VertexQueue, (∀ x ∈ q, x ∈ q') →
        (∃ t, (Map.insert st.graph.vertices v.1 v.2).find? 0 = some t) ∨
          (0, kNormalSpelling) ∈ q' := by
      intro q' hsub
      rcases inv.zero with ⟨t, h3⟩ | h3
      · exact Or.inl ⟨t, hmono _ _ h3⟩
      · rw [hq] at h3
        rcases List.mem_cons.mp h3 with h4 | h4
        · left
          have : v.1 = 0 := by rw [← h4]
          exact ⟨v.2, by rw [hv', this]; simp⟩
        · exact Or.inr (hsub _ h4)
    by_cases hlen : v.1 > input.length
    · simp only [hlen, if_true] at h
      cases h
    · simp only [hlen, if_false] at h
      have hle : v.1 ≤ input.length := Nat.le_of_not_gt hlen
      by_cases hfound : (prism.CommonPrefixSearch (input.drop v.1)).isEmpty = true
      · simp only [hfound, if_true] at h
        injection h with h
        subst h
        have hfound' : prism.CommonPrefixSearch (input.drop v.1) = [] :=
          List.isEmpty_iff.mp hfound
        exact {
          wfE := inv.wfE
          wfRow := inv.wfRow
          src := by
            intro i row h1
            obtain ⟨t, ht⟩ := inv.src i row h1
            exact ⟨t, hmono _ _ ht⟩
          prov := inv.prov
          complete := by
            intro i t h1 m hm hl hne
            simp only [hv'] at h1
            by_cases hvi : v.1 = i
            · subst hvi
              rw [hfound'] at hm
              cases hm
            · simp only [hvi, if_false] at h1
              exact inv.complete i t h1 m hm hl hne
          tgt := by
            intro i row j h1 h2
            rcases inv.tgt i row j h1 h2 with ⟨t, h3⟩ | ⟨t, h3⟩
            · exact Or.inl ⟨t, hmono _ _ h3⟩
            · rw [hq] at h3
              rcases List.mem_cons.mp h3 with h4 | h4
              · left
                have : j = v.1 := by rw [← h4]
                subst this
                exact ⟨v.2, by rw [hv']; simp⟩
              · exact Or.inr ⟨t, h4⟩
          vle := hfar
          far := hfar2
          zero := hzero q (fun x hx => hx)
          vprov := by
            intro p t hp
            simp only [hv'] at hp
            by_cases hvi : v.1 = p
            · simp only [hvi, if_true, Option.some.injEq] at hp
              have hmem : (p, t) ∈ st.queue := by
                rw [hq, ← hvi, ← hp]; exact List.mem_cons_self _ _
              rcases inv.qprov p t hmem with h1 | h1
              · exact Or.inl h1
              · exact Or.inr (VertexFrom_mono s input prism _ _ p t hmono h1)
            · simp only [hvi, if_false] at hp
              rcases inv.vprov p t hp with h1 | h1
              · exact Or.inl h1
              · exact Or.inr (VertexFrom_mono s input prism _ _ p t hmono h1)
          qprov := by
            intro p t hp
            rcases inv.qprov p t (by rw [hq]; exact List.mem_cons_of_mem _ hp) with h1 | h1
            · exact Or.inl h1
            · exact Or.inr (VertexFrom_mono s input prism _ _ p t hmono h1)
          untouched := inv.untouched }
      · simp only [hfound, Bool.false_eq_true, if_false] at h
        injection h with h
        subst h
        simp only [hrow0, Option.getD_none]
        obtain ⟨a1, a2, a3, a4, a5, a6, a7⟩ := addMatches_spec s input prism v
          (prism.CommonPrefixSearch (input.drop v.1)) ([], q)
        have he' : ∀ i, (Map.set st.graph.edges v.1
            (addMatches s input prism v (prism.CommonPrefixSearch (input.drop v.1))
              ([], q)).1).find? i =
            if v.1 = i then some (addMatches s input prism v
              (prism.CommonPrefixSearch (input.drop v.1)) ([], q)).1
            else st.graph.edges.find? i := fun i => Map.find?_set _ _ _ _
        exact {
          wfE := Map.WF_set inv.wfE _ _
          wfRow := by
            intro i row h1
            simp only [he'] at h1
            by_cases hvi : v.1 = i
            · subst hvi
              simp only [↓reduceIte, Option.some.injEq] at h1
              rw [← h1]; exact a1 Map.WF_nil
            · simp only [hvi, if_false] at h1
              exact inv.wfRow i row h1
          src := by
            intro i row h1
            simp only [he'] at h1
            by_cases hvi : v.1 = i
            · subst hvi
              exact ⟨v.2, by simp only [hv', ↓reduceIte]⟩
            · simp only [hvi, if_false] at h1
              obtain ⟨t, ht⟩ := inv.src i row h1
              exact ⟨t, hmono _ _ ht⟩
          prov := by
            intro i row j sm h1 h2
            simp only [he'] at h1
            by_cases hvi : v.1 = i
            · subst hvi
              simp only [↓reduceIte, Option.some.injEq] at h1
              rw [← h1] at h2
              rcases a2 j sm h2 with h3 | ⟨m, hm, hl, h3, h4, h5⟩
              · simp [Map.find?] at h3
              · exact ⟨m, hm, hl, hle, h3, h4, h5⟩
            · simp only [hvi, if_false] at h1
              exact inv.prov i row j sm h1 h2
          complete := by
            intro i t h1 m hm hl hne
            simp only [hv'] at h1
            simp only [SyllableGraph.edge?, he']
            by_cases hvi : v.1 = i
            · subst hvi
              simp only [↓reduceIte, Option.some_bind]
              have := (a4 m hm hl hne).1
              rw [Map.mem_keys_iff] at this
              exact this
            · simp only [hvi, if_false] at h1 ⊢
              exact inv.complete i t h1 m hm hl hne
          tgt := by
            intro i row j h1 h2
            simp only [he'] at h1
            by_cases hvi : v.1 = i
            · subst hvi
              simp only [↓reduceIte, Option.some.injEq] at h1
              rw [← h1, Map.mem_keys_iff] at h2
              obtain ⟨sm, hsm⟩ := h2
              rcases a2 j sm hsm with h3 | ⟨m, hm, hl, h3, h4, h5⟩
              · simp [Map.find?] at h3
              · right
                rw [h4] at h5
                rw [h3]
                exact ⟨_, (a4 m hm hl h5).2⟩
            · simp only [hvi, if_false] at h1
              rcases inv.tgt i row j h1 h2 with ⟨t, h3⟩ | ⟨t, h3⟩
              · exact Or.inl ⟨t, hmono _ _ h3⟩
              · rw [hq] at h3
                rcases List.mem_cons.mp h3 with h4 | h4
                · left
                  have : j = v.1 := by rw [← h4]
                  subst this
                  exact ⟨v.2, by rw [hv']; simp⟩
                · exact Or.inr ⟨t, a6 _ h4⟩
          vle := hfar
          far := hfar2
          zero := hzero _ a6
          vprov := by
            intro p t hp
            simp only [hv'] at hp
            by_cases hvi : v.1 = p
            · simp only [hvi, if_true, Option.some.injEq] at hp
              have hmem : (p, t) ∈ st.queue := by
                rw [hq, ← hvi, ← hp]; exact List.mem_cons_self _ _
              rcases inv.qprov p t hmem with h1 | h1
              · exact Or.inl h1
              · exact Or.inr (VertexFrom_mono s input prism _ _ p t hmono h1)
            · simp only [hvi, if_false] at hp
              rcases inv.vprov p t hp with h1 | h1
              · exact Or.inl h1
              · exact Or.inr (VertexFrom_mono s input prism _ _ p t hmono h1)
          qprov := by
            intro p t hp
            rcases a5 _ hp with h1 | ⟨m, hm, hl, hne, hx⟩
            · rcases inv.qprov p t (by rw [hq]; exact List.mem_cons_of_mem _ h1) with h2 | h2
              · exact Or.inl h2
              · exact Or.inr (VertexFrom_mono s input prism _ _ p t hmono h2)
            · right
              injection hx with hx1 hx2
              exact ⟨v.1, v.2, m, by simp only [hv', ↓reduceIte], hm, hl, hx1, hne, hx2⟩
          untouched := inv.untouched }

end Syllabifier
end Rime

namespace Rime
open SpellingType
namespace Map
variable {κ β : Type}

theorem keys_append (a b : Map κ β) : keys (a ++ b) = keys a ++ keys b := by
  simp [keys]

theorem keys_cons (e : κ × β) (m : Map κ β) : keys (e :: m) = e.1 :: keys m := rfl

theorem erase_of_not_mem [DecidableEq κ] (m : Map κ β) (k : κ) (h : k ∉ keys m) :
    erase m k = m := by
  induction m with
  | nil => rfl
  | cons e m ih =>
    obtain ⟨a, b⟩ := e
    simp only [keys_cons, List.mem_cons, not_or] at h
    simp only [erase, Ne.symm h.1, if_false, ih h.2]

theorem WF_append [LT κ] {a b : Map κ β} (h : WF (a ++ b)) :
    WF a ∧ WF b ∧ ∀ x ∈ keys a, ∀ y ∈ keys b, x < y := by
  unfold WF at *
  rw [keys_append, List.pairwise_append] at h
  exact h

theorem erase_mid [LinearOrder κ] (done rest : Map κ β) (j : κ) (v : β)
    (h : WF (done ++ (j, v) :: rest)) : erase (done ++ (j, v) :: rest) j = done ++ rest := by
  induction done with
  | nil =>
    simp only [List.nil_append] at h ⊢
    have h' := WF_cons.mp h
    simp only [erase, if_true]
    apply erase_of_not_mem
    intro hj
    exact lt_irrefl _ (h'.1 j hj)
  | cons e done ih =>
    obtain ⟨a, b⟩ := e
    simp only [List.cons_append] at h ⊢
    have h' := WF_cons.mp h
    have hlt : a < j := h'.1 j (by simp [keys])
    simp only [erase, ne_of_lt hlt, if_false, ih h'.2]

theorem set_mid [LinearOrder κ] (done rest : Map κ β) (j : κ) (v v' : β)
    (h : WF (done ++ (j, v) :: rest)) :
    set (done ++ (j, v) :: rest) j v' = done ++ (j, v') :: rest := by
  induction done with
  | nil =>
    simp only [List.nil_append]
    simp [set]
  | cons e done ih =>
    obtain ⟨a, b⟩ := e
    simp only [List.cons_append] at h ⊢
    have h' := WF_cons.mp h
    have hlt : a < j := h'.1 j (by simp [keys])
    simp only [set, not_lt_of_gt hlt, if_false, ne_of_gt hlt, ih h'.2]

end Map

namespace Syllabifier

theorem pruneSpellings_fst (L : SpellingType) (sm : SpellingMap) (et : SpellingType) :
    (pruneSpellings L sm et).1 = keepSpellings L sm := by
  induction sm generalizing et with
  | nil => rfl
  | cons k rest ih =>
    simp only [pruneSpellings, keepSpellings, List.filter]
    by_cases h : L < k.2.type
    · simp only [h, if_true, decide_True, Bool.not_true]
      exact ih et
    · simp only [h, if_false, decide_False, Bool.not_false]
      rw [ih]
      rfl

theorem pruneSpellings_snd_lt (L : SpellingType) (sm : SpellingMap) (et t : SpellingType) :
    (pruneSpellings L sm et).2 < t ↔ et < t ∨ ∃ sp ∈ keepSpellings L sm, sp.2.type < t := by
  induction sm generalizing et with
  | nil => simp [pruneSpellings, keepSpellings]
  | cons k rest ih =>
    simp only [pruneSpellings, keepSpellings, List.filter]
    by_cases h : L < k.2.type
    · simp only [h, if_true, decide_True, Bool.not_true]
      exact ih et
    · simp only [h, if_false, decide_False, Bool.not_false, List.mem_cons]
      rw [ih]
      simp only [keepSpellings]
      by_cases h2 : k.2.type < et
      · simp only [h2, if_true]
        constructor
        · rintro (h3 | ⟨sp, h3, h4⟩)
          · exact Or.inr ⟨k, Or.inl rfl, h3⟩
          · exact Or.inr ⟨sp, Or.inr h3, h4⟩
        · rintro (h3 | ⟨sp, h3 | h3, h4⟩)
          · left
            simp only [SpellingType.lt_def] at *
            omega
          · subst h3; exact Or.inl h4
          · exact Or.inr ⟨sp, h3, h4⟩
      · simp only [h2, if_false]
        constructor
        · rintro (h3 | ⟨sp, h3, h4⟩)
          · exact Or.inl h3
          · exact Or.inr ⟨sp, Or.inr h3, h4⟩
        · rintro (h3 | ⟨sp, h3 | h3, h4⟩)
          · exact Or.inl h3
          · subst h3
            left
            simp only [SpellingType.lt_def] at *
            omega
          · exact Or.inr ⟨sp, h3, h4⟩

theorem scanXs_eq (e joint : Nat) (xs : EndVertexMap) (g : SyllableGraph) (h : Map.WF xs) :
    scanXs e joint xs g =
      if e ∈ Map.keys xs then
        { g with vertices := Map.set g.vertices joint kAmbiguousSpelling }
      else g := by
  induction xs with
  | nil => simp [scanXs, Map.keys]
  | cons x xs ih =>
    have h' := Map.WF_cons.mp h
    simp only [scanXs, Map.keys_cons, List.mem_cons]
    by_cases h1 : x.1 < e
    · simp only [h1, if_true, ih h'.2]
      have : e ≠ x.1 := by omega
      simp only [this, false_or]
    · simp only [h1, if_false]
      by_cases h2 : x.1 = e
      · simp [h2]
      · simp only [h2, if_false]
        have h3 : ¬ (e = x.1 ∨ e ∈ Map.keys xs) := by
          rintro (h3 | h3)
          · exact h2 h3.symm
          · have := h'.1 e h3
            omega
        simp only [h3, if_false]

theorem scanXs_cases (e joint : Nat) (xs : EndVertexMap) (g : SyllableGraph) :
    scanXs e joint xs g = g ∨
      (e ∈ Map.keys xs ∧
        scanXs e joint xs g =
          { g with vertices := Map.set g.vertices joint kAmbiguousSpelling }) := by
  induction xs with
  | nil => simp [scanXs]
  | cons x xs ih =>
    simp only [scanXs, Map.keys_cons, List.mem_cons]
    by_cases h1 : x.1 < e
    · simp only [h1, if_true]
      rcases ih with h2 | ⟨h2, h3⟩
      · exact Or.inl h2
      · exact Or.inr ⟨Or.inr h2, h3⟩
    · simp only [h1, if_false]
      by_cases h2 : x.1 = e
      · simp [h2]
      · simp [h2]

theorem scanYs_edges (e : Nat) (ys : EndVertexMap) (g : SyllableGraph) :
    (scanYs e ys g).edges = g.edges ∧ (scanYs e ys g).indices = g.indices ∧
    (scanYs e ys g).input_length = g.input_length ∧
    (scanYs e ys g).interpreted_length = g.interpreted_length := by
  induction ys generalizing g with
  | nil => simp [scanYs]
  | cons y ys ih =>
    simp only [scanYs]
    by_cases h1 : y.1 ≥ e
    · simp [h1]
    · simp only [h1, if_false]
      cases hf : g.edges.find? y.1 with
      | none => exact ih g
      | some row =>
        simp only
        rcases scanXs_cases e y.1 row g with h2 | ⟨_, h2⟩
        · rw [h2]; exact ih g
        · rw [h2]
          exact ih _

theorem scanYs_keep (e : Nat) (ys : EndVertexMap) (g : SyllableGraph) (p : Nat)
    (t : SpellingType) (h : g.vertices.find? p = some t) :
    (scanYs e ys g).vertices.find? p = some t ∨
      (scanYs e ys g).vertices.find? p = some kAmbiguousSpelling := by
  induction ys generalizing g t with
  | nil => exact Or.inl h
  | cons y ys ih =>
    simp only [scanYs]
    by_cases h1 : y.1 ≥ e
    · simp only [h1, if_true]; exact Or.inl h
    · simp only [h1, if_false]
      cases hf : g.edges.find? y.1 with
      | none => exact ih g t h
      | some row =>
        simp only
        rcases scanXs_cases e y.1 row g with h2 | ⟨_, h2⟩
        · rw [h2]; exact ih g t h
        · rw [h2]
          by_cases hp : y.1 = p
          · right
            have : (Map.set g.vertices y.1 kAmbiguousSpelling).find? p =
                some kAmbiguousSpelling := by
              rw [Map.find?_set]; simp [hp]
            rcases ih { g with vertices := Map.set g.vertices y.1 kAmbiguousSpelling }
              kAmbiguousSpelling this with h3 | h3 <;> exact h3
          · have : (Map.set g.vertices y.1 kAmbiguousSpelling).find? p = some t := by
              rw [Map.find?_set]; simp [hp, h]
            exact ih { g with vertices := Map.set g.vertices y.1 kAmbiguousSpelling } t this

theorem scanYs_sound (e : Nat) (ys : EndVertexMap) (g : SyllableGraph) (p : Nat)
    (t : SpellingType) (h : (scanYs e ys g).vertices.find? p = some t) :
    g.vertices.find? p = some t ∨
      (t = kAmbiguousSpelling ∧ p ∈ Map.keys ys ∧ p < e ∧
        ∃ rowp, g.edges.find? p = some rowp ∧ e ∈ Map.keys rowp) := by
  induction ys generalizing g with
  | nil => exact Or.inl h
  | cons y ys ih =>
    simp only [scanYs] at h
    by_cases h1 : y.1 ≥ e
    · simp only [h1, if_true] at h; exact Or.inl h
    · simp only [h1, if_false] at h
      cases hf : g.edges.find? y.1 with
      | none =>
        simp only [hf] at h
        rcases ih g h with h2 | ⟨h2, h3, h4⟩
        · exact Or.inl h2
        · exact Or.inr ⟨h2, List.mem_cons_of_mem _ h3, h4⟩
      | some row =>
        simp only [hf] at h
        rcases scanXs_cases e y.1 row g with h2 | ⟨h2, h3⟩
        · rw [h2] at h
          rcases ih g h with h2 | ⟨h2, h3, h4⟩
          · exact Or.inl h2
          · exact Or.inr ⟨h2, List.mem_cons_of_mem _ h3, h4⟩
        · rw [h3] at h
          rcases ih _ h with h4 | ⟨h4, h5, h6⟩
          · simp only [Map.find?_set] at h4
            by_cases hp : y.1 = p
            · simp only [hp, if_true, Option.some.injEq] at h4
              right
              refine ⟨h4.symm, ?_, ?_, row, ?_, h2⟩
              · rw [← hp]; exact List.mem_cons_self _ _
              · omega
              · rw [← hp]; exact hf
            · simp only [hp, if_false] at h4
              exact Or.inl h4
          · exact Or.inr ⟨h4, List.mem_cons_of_mem _ h5, h6⟩

theorem scanYs_mark (e : Nat) (ys : EndVertexMap) (g : SyllableGraph) (p : Nat)
    (rowp : EndVertexMap) (hys : Map.WF ys) (hp : p ∈ Map.keys ys) (hlt : p < e)
    (hrow : g.edges.find? p = some rowp) (hwf : Map.WF rowp) (he : e ∈ Map.keys rowp) :
    (scanYs e ys g).vertices.find? p = some kAmbiguousSpelling := by
  induction ys generalizing g with
  | nil => simp [Map.keys] at hp
  | cons y ys ih =>
    have h' := Map.WF_cons.mp hys
    simp only [scanYs]
    have h1 : ¬ y.1 ≥ e := by
      rcases List.mem_cons.mp hp with h2 | h2
      · omega
      · have := h'.1 p h2
        omega
    simp only [h1, if_false]
    rcases List.mem_cons.mp hp with h2 | h2
    · subst h2
      simp only [hrow]
      rw [scanXs_eq e y.1 rowp g hwf]
      simp only [he, if_true]
      have : (Map.set g.vertices y.1 kAmbiguousSpelling).find? y.1 =
          some kAmbiguousSpelling := by
        rw [Map.find?_set]; simp
      rcases scanYs_keep e ys
        { g with vertices := Map.set g.vertices y.1 kAmbiguousSpelling } y.1
        kAmbiguousSpelling this with h3 | h3 <;> exact h3
    · cases hf : g.edges.find? y.1 with
      | none => exact ih g h'.2 h2 hrow
      | some row =>
        simp only
        rcases scanXs_cases e y.1 row g with h3 | ⟨_, h3⟩
        · rw [h3]; exact ih g h'.2 h2 hrow
        · rw [h3]
          exact ih _ h'.2 h2 hrow

end Syllabifier
end Rime

namespace Rime
open SpellingType
namespace Syllabifier

theorem prunedRow_cons (L : SpellingType) (good : List Nat) (j : Nat × SpellingMap)
    (rest : EndVertexMap) :
    prunedRow L good (j :: rest) =
      if j.1 ∈ good ∧ keepSpellings L j.2 ≠ [] then
        (j.1, keepSpellings L j.2) :: prunedRow L good rest
      else prunedRow L good rest := by
  unfold prunedRow
  rw [List.filterMap_cons]
  by_cases h : j.1 ∈ good ∧ keepSpellings L j.2 ≠ []
  · simp only [h, and_self, if_true, ne_eq, not_false_eq_true]
  · simp only [h, if_false]

theorem keys_prunedRow_subset (L : SpellingType) (good : List Nat) (row : EndVertexMap)
    (k : Nat) (h : k ∈ Map.keys (prunedRow L good row)) : k ∈ Map.keys row ∧ k ∈ good := by
  induction row with
  | nil => simp [prunedRow, Map.keys] at h
  | cons j rest ih =>
    rw [prunedRow_cons] at h
    by_cases hc : j.1 ∈ good ∧ keepSpellings L j.2 ≠ []
    · simp only [hc, and_self, if_true, ne_eq, not_false_eq_true, Map.keys_cons,
        List.mem_cons] at h
      rcases h with h | h
      · subst h; exact ⟨List.mem_cons_self _ _, hc.1⟩
      · exact ⟨List.mem_cons_of_mem _ (ih h).1, (ih h).2⟩
    · simp only [hc, if_false] at h
      exact ⟨List.mem_cons_of_mem _ (ih h).1, (ih h).2⟩

theorem prunedRow_sublist_keys (L : SpellingType) (good : List Nat) (row : EndVertexMap) :
    List.Sublist (Map.keys (prunedRow L good row)) (Map.keys row) := by
  induction row with
  | nil => simp [prunedRow, Map.keys]
  | cons j rest ih =>
    rw [prunedRow_cons]
    by_cases hc : j.1 ∈ good ∧ keepSpellings L j.2 ≠ []
    · simp only [hc, and_self, if_true, ne_eq, not_false_eq_true, Map.keys_cons]
      exact List.Sublist.cons₂ _ ih
    · simp only [hc, if_false, Map.keys_cons]
      exact List.Sublist.cons _ ih

theorem WF_done_prunedRow (L : SpellingType) (good : List Nat) (done rest : EndVertexMap)
    (h : Map.WF (done ++ rest)) : Map.WF (done ++ prunedRow L good rest) := by
  unfold Map.WF at *
  rw [Map.keys_append] at *
  exact List.Pairwise.sublist
    (List.Sublist.append (List.Sublist.refl _) (prunedRow_sublist_keys L good rest)) h

theorem CheckOverlappedSpellings_edges (g : SyllableGraph) (a e : Nat) :
    (CheckOverlappedSpellings g a e).edges = g.edges ∧
    (CheckOverlappedSpellings g a e).indices = g.indices ∧
    (CheckOverlappedSpellings g a e).input_length = g.input_length ∧
    (CheckOverlappedSpellings g a e).interpreted_length = g.interpreted_length := by
  unfold CheckOverlappedSpellings
  cases g.edges.find? a with
  | none => simp
  | some ys => exact scanYs_edges e ys g

theorem CheckOverlappedSpellings_keep (g : SyllableGraph) (a e p : Nat) (t : SpellingType)
    (h : g.vertices.find? p = some t) :
    (CheckOverlappedSpellings g a e).vertices.find? p = some t ∨
      (CheckOverlappedSpellings g a e).vertices.find? p = some kAmbiguousSpelling := by
  unfold CheckOverlappedSpellings
  cases g.edges.find? a with
  | none => exact Or.inl h
  | some ys => exact scanYs_keep e ys g p t h

theorem pruneEdges_cons (L : SpellingType) (good : List Nat) (i : Nat)
    (j : Nat × SpellingMap) (rest : EndVertexMap) (g : SyllableGraph) :
    pruneEdges L good i (j :: rest) g =
      pruneEdges L good i rest
        (if j.1 ∈ good ∧ keepSpellings L j.2 ≠ [] then
          (if ∃ sp ∈ keepSpellings L j.2, sp.2.type < kAbbreviation then
            CheckOverlappedSpellings (setEdge g i j.1 (keepSpellings L j.2)) i j.1
          else setEdge g i j.1 (keepSpellings L j.2))
        else eraseEdge g i j.1) := by
  simp only [pruneEdges, pruneSpellings_fst]
  by_cases h1 : j.1 ∈ good
  · simp only [h1, not_true_eq_false, if_false, true_and]
    by_cases h2 : keepSpellings L j.2 = []
    · simp [h2]
    · have h2' : (keepSpellings L j.2).isEmpty = false := by
        cases h : keepSpellings L j.2 with
        | nil => exact absurd h h2
        | cons a l => rfl
      simp only [h2', Bool.false_eq_true, if_false, ne_eq, h2, not_false_eq_true, if_true]
      have h3 : (pruneSpellings L j.2 kInvalidSpelling).2 < kAbbreviation ↔
          ∃ sp ∈ keepSpellings L j.2, sp.2.type < kAbbreviation := by
        rw [pruneSpellings_snd_lt]
        constructor
        · rintro (h | h)
          · exact absurd h (by decide)
          · exact h
        · exact Or.inr
      by_cases h4 : ∃ sp ∈ keepSpellings L j.2, sp.2.type < kAbbreviation
      · rw [if_pos (h3.mpr h4), if_pos h4]
      · rw [if_neg (fun h => h4 (h3.mp h)), if_neg h4]
  · simp [h1]

theorem eraseEdge_eq (g : SyllableGraph) (i : Nat) (done rest : EndVertexMap)
    (j : Nat × SpellingMap) (hrow : g.edges.find? i = some (done ++ j :: rest))
    (hwf : Map.WF (done ++ j :: rest)) :
    eraseEdge g i j.1 = { g with edges := Map.set g.edges i (done ++ rest) } := by
  unfold eraseEdge
  rw [hrow, Option.getD_some]
  obtain ⟨a, b⟩ := j
  rw [Map.erase_mid done rest a b hwf]

theorem setEdge_eq (g : SyllableGraph) (i : Nat) (done rest : EndVertexMap)
    (j : Nat × SpellingMap) (sm : SpellingMap)
    (hrow : g.edges.find? i = some (done ++ j :: rest))
    (hwf : Map.WF (done ++ j :: rest)) :
    setEdge g i j.1 sm = { g with edges := Map.set g.edges i (done ++ (j.1, sm) :: rest) } := by
  unfold setEdge
  rw [hrow, Option.getD_some]
  obtain ⟨a, b⟩ := j
  rw [Map.set_mid done rest a b sm hwf]

theorem WF_replace_mid (done rest : EndVertexMap) (j : Nat × SpellingMap) (sm : SpellingMap)
    (h : Map.WF (done ++ j :: rest)) : Map.WF (done ++ (j.1, sm) :: rest) := by
  unfold Map.WF at *
  simpa [Map.keys] using h

theorem WF_drop_mid (done rest : EndVertexMap) (j : Nat × SpellingMap)
    (h : Map.WF (done ++ j :: rest)) : Map.WF (done ++ rest) := by
  unfold Map.WF at *
  rw [Map.keys_append] at *
  exact List.Pairwise.sublist
    (List.Sublist.append (List.Sublist.refl _) (List.sublist_cons_self _ _)) h

/-- The graph handed to the rest of the loop over the edges of `i`, after the edge `j`. -/
theorem pruneEdges_step (L : SpellingType) (good : List Nat) (i : Nat)
    (j : Nat × SpellingMap) (done rest : EndVertexMap) (g : SyllableGraph)
    (hrow : g.edges.find? i = some (done ++ j :: rest))
    (hwf : Map.WF (done ++ j :: rest)) :
    ∃ g2 done2, pruneEdges L good i (j :: rest) g = pruneEdges L good i rest g2 ∧
      done2 ++ prunedRow L good rest = done ++ prunedRow L good (j :: rest) ∧
      g2.edges = Map.set g.edges i (done2 ++ rest) ∧ Map.WF (done2 ++ rest) ∧
      g2.indices = g.indices ∧ g2.input_length = g.input_length ∧
      g2.interpreted_length = g.interpreted_length ∧
      (∀ k, k ∈ Map.keys (done2 ++ rest) → k ∈ Map.keys (done ++ j :: rest)) ∧
      ((done2 = done ∧ ¬ (j.1 ∈ good ∧ keepSpellings L j.2 ≠ []) ∧ g2.vertices = g.vertices) ∨
       (done2 = done ++ [(j.1, keepSpellings L j.2)] ∧
         (j.1 ∈ good ∧ keepSpellings L j.2 ≠ []) ∧
         ((¬ (∃ sp ∈ keepSpellings L j.2, sp.2.type < kAbbreviation) ∧
             g2.vertices = g.vertices) ∨
          ((∃ sp ∈ keepSpellings L j.2, sp.2.type < kAbbreviation) ∧
            g2.vertices = (scanYs j.1 (done ++ (j.1, keepSpellings L j.2) :: rest)
              { g with
                edges := Map.set g.edges i (done ++ (j.1, keepSpellings L j.2) :: rest)
              }).vertices)))) := by
  rw [pruneEdges_cons, prunedRow_cons]
  by_cases hc : j.1 ∈ good ∧ keepSpellings L j.2 ≠ []
  · rw [if_pos hc, if_pos hc]
    have hs := setEdge_eq g i done rest j (keepSpellings L j.2) hrow hwf
    have hwf2 := WF_replace_mid done rest j (keepSpellings L j.2) hwf
    have hkeys : ∀ k, k ∈ Map.keys ((done ++ [(j.1, keepSpellings L j.2)]) ++ rest) →
        k ∈ Map.keys (done ++ j :: rest) := by
      intro k hk
      simpa [Map.keys] using hk
    by_cases h4 : ∃ sp ∈ keepSpellings L j.2, sp.2.type < kAbbreviation
    · rw [if_pos h4]
      refine ⟨_, done ++ [(j.1, keepSpellings L j.2)], rfl, by simp, ?_, by simpa using hwf2,
        ?_, ?_, ?_, hkeys, ?_⟩
      · rw [(CheckOverlappedSpellings_edges _ _ _).1, hs]; simp
      · rw [(CheckOverlappedSpellings_edges _ _ _).2.1, hs]
      · rw [(CheckOverlappedSpellings_edges _ _ _).2.2.1, hs]
      · rw [(CheckOverlappedSpellings_edges _ _ _).2.2.2, hs]
      · right
        refine ⟨rfl, hc, Or.inr ⟨h4, ?_⟩⟩
        rw [hs]
        unfold CheckOverlappedSpellings
        simp only [Map.find?_set, if_true]
    · rw [if_neg h4]
      refine ⟨_, done ++ [(j.1, keepSpellings L j.2)], rfl, by simp, ?_, by simpa using hwf2,
        ?_, ?_, ?_, hkeys, ?_⟩
      · rw [hs]; simp
      · rw [hs]
      · rw [hs]
      · rw [hs]
      · right
        refine ⟨rfl, hc, Or.inl ⟨h4, ?_⟩⟩
        rw [hs]
  · rw [if_neg hc, if_neg hc]
    have hs := eraseEdge_eq g i done rest j hrow hwf
    refine ⟨_, done, rfl, rfl, ?_, WF_drop_mid done rest j hwf, ?_, ?_, ?_, ?_, ?_⟩
    · rw [hs]
    · rw [hs]
    · rw [hs]
    · rw [hs]
    · intro k hk
      simp only [Map.keys_append, Map.keys_cons, List.mem_append, List.mem_cons] at hk ⊢
      tauto
    · left
      refine ⟨rfl, hc, ?_⟩
      rw [hs]

end Syllabifier
end Rime

namespace Rime
open SpellingType

theorem Map.keys_nil {κ β : Type} : Map.keys ([] : Map κ β) = [] := rfl

namespace Syllabifier

theorem pruneEdges_spec (L : SpellingType) (good : List Nat) (i : Nat) :
    ∀ (rest done : EndVertexMap) (g : SyllableGraph),
      g.edges.find? i = some (done ++ rest) → Map.WF (done ++ rest) →
      (∀ p, (pruneEdges L good i rest g).edges.find? p =
        if i = p then some (done ++ prunedRow L good rest) else g.edges.find? p) ∧
      (pruneEdges L good i rest g).indices = g.indices ∧
      (pruneEdges L good i rest g).input_length = g.input_length ∧
      (pruneEdges L good i rest g).interpreted_length = g.interpreted_length ∧
      (∀ p t, g.vertices.find? p = some t →
        (pruneEdges L good i rest g).vertices.find? p = some t ∨
        (pruneEdges L good i rest g).vertices.find? p = some kAmbiguousSpelling) ∧
      (∀ p t, (pruneEdges L good i rest g).vertices.find? p = some t →
        g.vertices.find? p = some t ∨
        (t = kAmbiguousSpelling ∧ p ∈ Map.keys (done ++ prunedRow L good rest))) := by
  intro rest
  induction rest with
  | nil =>
    intro done g hrow _
    have e1 : pruneEdges L good i [] g = g := rfl
    have e2 : prunedRow L good [] = [] := rfl
    rw [e1, e2, List.append_nil]
    refine ⟨?_, rfl, rfl, rfl, fun p t h => Or.inl h, fun p t h => Or.inl h⟩
    intro p
    by_cases hp : i = p
    · subst hp; simp only [if_true]; rw [hrow, List.append_nil]
    · simp only [hp, if_false]
  | cons j rest ih =>
    intro done g hrow hwf
    obtain ⟨g2, done2, e1, e2, e3, e4, e5, e6, e7, _, e9⟩ :=
      pruneEdges_step L good i j done rest g hrow hwf
    have hrow2 : g2.edges.find? i = some (done2 ++ rest) := by
      rw [e3, Map.find?_set]; simp
    obtain ⟨a1, a2, a3, a4, a5, a6⟩ := ih done2 g2 hrow2 e4
    rw [e1]
    have hkeep : ∀ p t, g.vertices.find? p = some t →
        g2.vertices.find? p = some t ∨ g2.vertices.find? p = some kAmbiguousSpelling := by
      intro p t h
      rcases e9 with ⟨_, _, h1⟩ | ⟨_, _, ⟨_, h1⟩ | ⟨_, h1⟩⟩
      · rw [h1]; exact Or.inl h
      · rw [h1]; exact Or.inl h
      · rw [h1]; exact scanYs_keep _ _ _ p t h
    have hsound : ∀ p t, g2.vertices.find? p = some t → g.vertices.find? p = some t ∨
        (t = kAmbiguousSpelling ∧ p ∈ Map.keys (done ++ prunedRow L good (j :: rest))) := by
      intro p t h
      rcases e9 with ⟨_, _, h1⟩ | ⟨hd, _, ⟨_, h1⟩ | ⟨_, h1⟩⟩
      · rw [h1] at h; exact Or.inl h
      · rw [h1] at h; exact Or.inl h
      · rw [h1] at h
        rcases scanYs_sound _ _ _ p t h with h2 | ⟨h2, h3, h4, _⟩
        · exact Or.inl h2
        · right
          refine ⟨h2, ?_⟩
          rw [← e2, hd]
          have hwf2 := WF_replace_mid done rest j (keepSpellings L j.2) hwf
          obtain ⟨_, w2, w3⟩ := Map.WF_append hwf2
          simp only [Map.keys_append, Map.keys_cons, List.mem_append, List.mem_cons,
            Map.keys_nil, List.not_mem_nil, or_false] at h3 ⊢
          rcases h3 with h3 | h3 | h3
          · exact Or.inl (Or.inl h3)
          · omega
          · have := (Map.WF_cons.mp w2).1 p h3
            simp only at this
            omega
    refine ⟨?_, ?_, ?_, ?_, ?_, ?_⟩
    · intro p
      rw [a1 p, e2, e3, Map.find?_set]
      by_cases hp : i = p
      · simp only [hp, if_true]
      · simp only [hp, if_false]
    · rw [a2, e5]
    · rw [a3, e6]
    · rw [a4, e7]
    · intro p t h
      rcases hkeep p t h with h1 | h1
      · exact a5 p t h1
      · rcases a5 p _ h1 with h2 | h2 <;> exact Or.inr h2
    · intro p t h
      rcases a6 p t h with h1 | ⟨h1, h2⟩
      · exact hsound p t h1
      · right
        rw [e2] at h2
        exact ⟨h1, h2⟩

theorem pruneEdges_mark (L : SpellingType) (good : List Nat) (i : Nat) :
    ∀ (rest done : EndVertexMap) (g : SyllableGraph),
      g.edges.find? i = some (done ++ rest) → Map.WF (done ++ rest) →
      i ∉ Map.keys (done ++ rest) →
      (∀ p rowp, p ≠ i → g.edges.find? p = some rowp → Map.WF rowp) →
      ∀ j sm, (j, sm) ∈ prunedRow L good rest →
        (∃ sp ∈ sm, sp.2.type < kAbbreviation) →
        ∀ m, m ∈ Map.keys (done ++ prunedRow L good rest) → m < j →
        ∀ rowm, g.edges.find? m = some rowm → j ∈ Map.keys rowm →
          (pruneEdges L good i rest g).vertices.find? m = some kAmbiguousSpelling := by
  intro rest
  induction rest with
  | nil =>
    intro done g _ _ _ _ j sm h
    simp [prunedRow] at h
  | cons j0 rest ih =>
    intro done g hrow hwf hi hrows j sm hj hsp m hm hlt rowm hrowm hjm
    obtain ⟨g2, done2, e1, e2, e3, e4, _, _, _, e8, e9⟩ :=
      pruneEdges_step L good i j0 done rest g hrow hwf
    have hrow2 : g2.edges.find? i = some (done2 ++ rest) := by
      rw [e3, Map.find?_set]; simp
    have hi2 : i ∉ Map.keys (done2 ++ rest) := fun h => hi (e8 i h)
    have hother : ∀ p, p ≠ i → g2.edges.find? p = g.edges.find? p := by
      intro p hp
      rw [e3, Map.find?_set]
      simp [Ne.symm hp]
    have hrows2 : ∀ p rowp, p ≠ i → g2.edges.find? p = some rowp → Map.WF rowp := by
      intro p rowp hp h
      rw [hother p hp] at h
      exact hrows p rowp hp h
    have hmi : m ≠ i := by
      intro h
      subst h
      apply hi
      simp only [Map.keys_append, List.mem_append] at hm ⊢
      rcases hm with hm | hm
      · exact Or.inl hm
      · exact Or.inr (keys_prunedRow_subset L good _ m hm).1
    have hrowm2 : g2.edges.find? m = some rowm := by rw [hother m hmi]; exact hrowm
    have hm2 : m ∈ Map.keys (done2 ++ prunedRow L good rest) := by rw [e2]; exact hm
    rw [e1]
    rcases e9 with ⟨hd, hc, _⟩ | ⟨hd, hc, hv⟩
    · rw [prunedRow_cons, if_neg hc] at hj
      exact ih done2 g2 hrow2 e4 hi2 hrows2 j sm hj hsp m hm2 hlt rowm hrowm2 hjm
    · rw [prunedRow_cons, if_pos hc] at hj
      rcases List.mem_cons.mp hj with hj | hj
      · injection hj with hj1 hj2
        subst hj1
        subst hj2
        rcases hv with ⟨hno, _⟩ | ⟨_, hv⟩
        · exact absurd hsp hno
        · have hwf2 := WF_replace_mid done rest j0 (keepSpellings L j0.2) hwf
          have hmk : m ∈ Map.keys (done ++ (j0.1, keepSpellings L j0.2) :: rest) := by
            rw [prunedRow_cons, if_pos hc] at hm
            simp only [Map.keys_append, Map.keys_cons, List.mem_append, List.mem_cons] at hm ⊢
            rcases hm with hm | hm | hm
            · exact Or.inl hm
            · exact Or.inr (Or.inl hm)
            · exact Or.inr (Or.inr (keys_prunedRow_subset L good _ m hm).1)
          have hmark := scanYs_mark j0.1 (done ++ (j0.1, keepSpellings L j0.2) :: rest)
            { g with
              edges := Map.set g.edges i (done ++ (j0.1, keepSpellings L j0.2) :: rest) }
            m rowm hwf2 hmk hlt
            (by
              show (Map.set g.edges i _).find? m = some rowm
              rw [Map.find?_set]; simp [Ne.symm hmi, hrowm])
            (hrows m rowm hmi hrowm) hjm
          rw [← hv] at hmark
          rcases (pruneEdges_spec L good i rest done2 g2 hrow2 e4).2.2.2.2.1 m _ hmark
            with h | h <;> exact h
      · exact ih done2 g2 hrow2 e4 hi2 hrows2 j sm hj hsp m hm2 hlt rowm hrowm2 hjm

end Syllabifier
end Rime

namespace Rime
open SpellingType

theorem Map.insert_of_find? {κ β : Type} [LinearOrder κ] {m : Map κ β} {k : κ} {v : β}
    (v' : β) (h : Map.find? m k = some v) : Map.insert m k v' = m := by
  unfold Map.insert
  rw [h]

theorem Map.find?_cons {κ β : Type} [DecidableEq κ] (e : κ × β) (m : Map κ β) (k : κ) :
    Map.find? (e :: m) k = if e.1 = k then some e.2 else Map.find? m k := by
  obtain ⟨a, b⟩ := e
  rfl

namespace Syllabifier

theorem find?_prunedRow (L : SpellingType) (good : List Nat) (row : EndVertexMap)
    (hwf : Map.WF row) (j : Nat) (sm : SpellingMap) :
    (prunedRow L good row).find? j = some sm ↔
      j ∈ good ∧ ∃ sm0, row.find? j = some sm0 ∧ sm = keepSpellings L sm0 ∧ sm ≠ [] := by
  induction row with
  | nil => simp [prunedRow, Map.find?]
  | cons j0 rest ih =>
    have h' := Map.WF_cons.mp hwf
    rw [prunedRow_cons, Map.find?_cons]
    by_cases hc : j0.1 ∈ good ∧ keepSpellings L j0.2 ≠ []
    · rw [if_pos hc, Map.find?_cons]
      by_cases hj : j0.1 = j
      · simp only [hj, if_true, Option.some.injEq]
        constructor
        · intro h
          subst h
          exact ⟨hj ▸ hc.1, j0.2, rfl, rfl, hc.2⟩
        · rintro ⟨_, sm0, h1, h2, _⟩
          rw [h2, ← h1]
      · simp only [hj, if_false]
        exact ih h'.2
    · rw [if_neg hc]
      by_cases hj : j0.1 = j
      · simp only [hj, if_true, Option.some.injEq]
        have hnone : (prunedRow L good rest).find? j = none := by
          rw [← Map.not_mem_keys_iff]
          intro hk
          have := h'.1 j (keys_prunedRow_subset L good rest j hk).1
          omega
        rw [hnone]
        constructor
        · intro h; cases h
        · rintro ⟨h0, sm0, h1, h2, h3⟩
          exfalso
          apply hc
          subst h1
          subst h2
          exact ⟨hj ▸ h0, h3⟩
      · simp only [hj, if_false]
        exact ih h'.2

/-- What the loop over the edges of `i` does to the graph, when it runs on the whole
of `graph->edges[i]`. -/
theorem pruneEdges_row (L : SpellingType) (good : List Nat) (i : Nat) (g : SyllableGraph)
    (row0 : EndVertexMap) (hrow : g.edges.find? i = some row0) (hwf : Map.WF row0) :
    (∀ p, (pruneEdges L good i row0 g).edges.find? p =
      if i = p then some (prunedRow L good row0) else g.edges.find? p) ∧
    (pruneEdges L good i row0 g).indices = g.indices ∧
    (pruneEdges L good i row0 g).input_length = g.input_length ∧
    (pruneEdges L good i row0 g).interpreted_length = g.interpreted_length ∧
    (∀ p, p ∉ Map.keys (prunedRow L good row0) →
      (pruneEdges L good i row0 g).vertices.find? p = g.vertices.find? p) ∧
    (∀ p t, g.vertices.find? p = some t →
      (pruneEdges L good i row0 g).vertices.find? p = some t ∨
      (pruneEdges L good i row0 g).vertices.find? p = some kAmbiguousSpelling) ∧
    (∀ p t, (pruneEdges L good i row0 g).vertices.find? p = some t →
      g.vertices.find? p = some t ∨
      (t = kAmbiguousSpelling ∧ p ∈ Map.keys (prunedRow L good row0))) := by
  obtain ⟨a1, a2, a3, a4, a5, a6⟩ := pruneEdges_spec L good i row0 [] g hrow hwf
  simp only [List.nil_append] at a1 a6
  refine ⟨a1, a2, a3, a4, ?_, a5, a6⟩
  intro p hp
  cases hg : g.vertices.find? p with
  | none =>
    cases h1 : (pruneEdges L good i row0 g).vertices.find? p with
    | none => rfl
    | some t =>
      rcases a6 p t h1 with h2 | ⟨_, h2⟩
      · rw [hg] at h2; cases h2
      · exact absurd h2 hp
  | some t =>
    rcases a5 p t hg with h1 | h1
    · exact h1
    · rcases a6 p _ h1 with h2 | ⟨_, h2⟩
      · rw [hg] at h2
        rw [h1, h2]
      · exact absurd h2 hp

end Syllabifier
end Rime

namespace Rime
open SpellingType

theorem SyllableGraph.edge?_eq_some (g : SyllableGraph) (i j : Nat) (sm : SpellingMap) :
    g.edge? i j = some sm ↔ ∃ row, g.edges.find? i = some row ∧ row.find? j = some sm := by
  unfold SyllableGraph.edge?
  cases g.edges.find? i with
  | none => simp
  | some row => simp

theorem SyllableGraph.edge?_of_row (g : SyllableGraph) (i j : Nat) (row : EndVertexMap)
    (h : g.edges.find? i = some row) : g.edge? i j = row.find? j := by
  unfold SyllableGraph.edge?
  rw [h]; rfl

theorem SyllableGraph.edge?_of_no_row (g : SyllableGraph) (i j : Nat)
    (h : g.edges.find? i = none) : g.edge? i j = none := by
  unfold SyllableGraph.edge?
  rw [h]; rfl

theorem SyllableGraph.edge?_congr (g g' : SyllableGraph) (i j : Nat)
    (h : g.edges.find? i = g'.edges.find? i) : g.edge? i j = g'.edge? i j := by
  unfold SyllableGraph.edge?
  rw [h]

namespace Syllabifier

theorem Built_fwd_edge {g : SyllableGraph} {f : Nat} (hb : Built g f) {i j : Nat}
    {sm : SpellingMap} (h : g.edge? i j = some sm) : i < j := by
  obtain ⟨row, h1, h2⟩ := (SyllableGraph.edge?_eq_some g i j sm).mp h
  exact hb.fwd i row j h1 ((Map.mem_keys_iff row j).mpr ⟨sm, h2⟩)

theorem PruneInv_skip (g0 : SyllableGraph) (L : SpellingType) (f i : Nat)
    (g : SyllableGraph) (good : List Nat) (hb : Built g0 f)
    (inv : PruneInv g0 L f (i + 1) g good) (hv : g.vertices.find? i = none) :
    PruneInv g0 L f i g good := by
  have hif : i < f := inv.hn
  have hv0 : g.vertices.find? i = g0.vertices.find? i := inv.low_v i (Nat.lt_succ_self i)
  have he0 : g.edges.find? i = g0.edges.find? i := inv.low_e i (Nat.lt_succ_self i)
  have hinot : i ∉ good := fun h => by
    have := ((inv.good_iff i).mp h).1
    omega
  have hrow : g.edges.find? i = none := by
    cases hr : g.edges.find? i with
    | none => rfl
    | some row =>
      rw [he0] at hr
      obtain ⟨t, ht⟩ := hb.src i row hr
      rw [← hv0, hv] at ht
      cases ht
  exact {
    hn := le_of_lt hif
    f_good := inv.f_good
    wfRow := inv.wfRow
    low_v := fun p hp => inv.low_v p (by omega)
    low_e := fun p hp => inv.low_e p (by omega)
    top_e := inv.top_e
    good_iff := by
      intro p
      rw [inv.good_iff]
      constructor
      · rintro ⟨h1, h2⟩; exact ⟨by omega, h2⟩
      · rintro ⟨h1, t, h2⟩
        refine ⟨?_, t, h2⟩
        by_contra hlt
        have : p = i := by omega
        subst this
        rw [hv] at h2
        cases h2
    v_sub := inv.v_sub
    mid_e := by
      intro p j sm h1 h2
      by_cases hp : p = i
      · subst hp
        constructor
        · intro h
          rw [SyllableGraph.edge?_of_no_row g p j hrow] at h
          cases h
        · rintro ⟨h, _⟩; exact absurd h hinot
      · exact inv.mid_e p j sm (by omega) h2
    good_char := by
      intro p h1 h2
      by_cases hp : p = i
      · subst hp
        constructor
        · intro h; exact absurd h hinot
        · rintro ⟨t0, h, _⟩
          rw [← hv0, hv] at h
          cases h
      · exact inv.good_char p (by omega) h2
    amb := by
      intro i' m j sm h1 h2 h3 h4 h5 h6
      by_cases hp : i' = i
      · subst hp
        rw [SyllableGraph.edge?_of_no_row g i' m hrow] at h3
        exact absurd rfl h3
      · exact inv.amb i' m j sm (by omega) h2 h3 h4 h5 h6
    other := inv.other }

end Syllabifier
end Rime

namespace Rime
open SpellingType
namespace Syllabifier

theorem prune_row_common (g0 : SyllableGraph) (L : SpellingType) (f i : Nat)
    (g : SyllableGraph) (good : List Nat) (hb : Built g0 f)
    (inv : PruneInv g0 L f (i + 1) g good) (row0 : EndVertexMap)
    (hrow0 : row0 = (g.edges.find? i).getD []) (g1 : SyllableGraph)
    (r5 : ∀ p, p ∉ Map.keys (prunedRow L good row0) →
      g1.vertices.find? p = g.vertices.find? p)
    (r6 : ∀ p t, g.vertices.find? p = some t →
      g1.vertices.find? p = some t ∨ g1.vertices.find? p = some kAmbiguousSpelling)
    (r7 : ∀ p t, g1.vertices.find? p = some t → g.vertices.find? p = some t ∨
      (t = kAmbiguousSpelling ∧ p ∈ Map.keys (prunedRow L good row0))) :
    (∀ j, row0.find? j = g0.edge? i j) ∧ Map.WF row0 ∧
    (∀ k, k ∈ Map.keys row0 → i < k) ∧
    (∀ k, k ∈ Map.keys (prunedRow L good row0) → i < k ∧ k ∈ good) ∧
    (∀ p, (∃ t, g1.vertices.find? p = some t) ↔ (∃ t, g.vertices.find? p = some t)) ∧
    (∀ p t, g1.vertices.find? p = some t →
      ∃ t0, g0.vertices.find? p = some t0 ∧ (t = t0 ∨ t = kAmbiguousSpelling)) ∧
    (∀ p, p ≤ i → g1.vertices.find? p = g.vertices.find? p) ∧
    (∀ p, g.vertices.find? p = some kAmbiguousSpelling →
      g1.vertices.find? p = some kAmbiguousSpelling) := by
  have he0 : g.edges.find? i = g0.edges.find? i := inv.low_e i (Nat.lt_succ_self i)
  have c6 : ∀ j, row0.find? j = g0.edge? i j := by
    intro j
    rw [hrow0, he0]
    unfold SyllableGraph.edge?
    cases g0.edges.find? i with
    | none => rfl
    | some row => rfl
  have cwf : Map.WF row0 := by
    rw [hrow0]
    cases hr : g.edges.find? i with
    | none => exact Map.WF_nil
    | some row => exact inv.wfRow i row hr
  have c0 : ∀ k, k ∈ Map.keys row0 → i < k := by
    intro k hk
    obtain ⟨sm, hsm⟩ := (Map.mem_keys_iff row0 k).mp hk
    rw [c6] at hsm
    exact Built_fwd_edge hb hsm
  have c1 : ∀ k, k ∈ Map.keys (prunedRow L good row0) → i < k ∧ k ∈ good := by
    intro k hk
    have := keys_prunedRow_subset L good row0 k hk
    exact ⟨c0 k this.1, this.2⟩
  refine ⟨c6, cwf, c0, c1, ?_, ?_, ?_, ?_⟩
  · intro p
    constructor
    · rintro ⟨t, ht⟩
      rcases r7 p t ht with h | ⟨_, h⟩
      · exact ⟨t, h⟩
      · exact ((inv.good_iff p).mp (c1 p h).2).2
    · rintro ⟨t, ht⟩
      rcases r6 p t ht with h | h
      · exact ⟨t, h⟩
      · exact ⟨_, h⟩
  · intro p t ht
    rcases r7 p t ht with h | ⟨h1, h⟩
    · exact inv.v_sub p t h
    · obtain ⟨t', ht'⟩ := ((inv.good_iff p).mp (c1 p h).2).2
      obtain ⟨t0, h0, _⟩ := inv.v_sub p t' ht'
      exact ⟨t0, h0, Or.inr h1⟩
  · intro p hp
    apply r5
    intro hk
    have := (c1 p hk).1
    omega
  · intro p hp
    rcases r6 p _ hp with h | h <;> exact h

theorem PruneInv_drop (g0 : SyllableGraph) (L : SpellingType) (f i : Nat)
    (g : SyllableGraph) (good : List Nat) (hb : Built g0 f)
    (inv : PruneInv g0 L f (i + 1) g good) (t0 : SpellingType)
    (hv : g.vertices.find? i = some t0) (row0 : EndVertexMap)
    (hrow0 : row0 = (g.edges.find? i).getD []) (g1 : SyllableGraph)
    (r1 : ∀ p, g1.edges.find? p =
      if i = p then some (prunedRow L good row0) else g.edges.find? p)
    (r2 : g1.indices = g.indices ∧ g1.input_length = g.input_length ∧
      g1.interpreted_length = g.interpreted_length)
    (r5 : ∀ p, p ∉ Map.keys (prunedRow L good row0) →
      g1.vertices.find? p = g.vertices.find? p)
    (r6 : ∀ p t, g.vertices.find? p = some t →
      g1.vertices.find? p = some t ∨ g1.vertices.find? p = some kAmbiguousSpelling)
    (r7 : ∀ p t, g1.vertices.find? p = some t → g.vertices.find? p = some t ∨
      (t = kAmbiguousSpelling ∧ p ∈ Map.keys (prunedRow L good row0)))
    (hc : L < t0 ∨ prunedRow L good row0 = [])
    (g' : SyllableGraph)
    (hv' : ∀ p, g'.vertices.find? p = if i = p then none else g1.vertices.find? p)
    (he' : ∀ p, g'.edges.find? p = if i = p then none else g1.edges.find? p)
    (ho : g'.indices = g1.indices ∧ g'.input_length = g1.input_length ∧
      g'.interpreted_length = g1.interpreted_length) :
    PruneInv g0 L f i g' good := by
  have hif : i < f := inv.hn
  have hv0 : g.vertices.find? i = g0.vertices.find? i := inv.low_v i (Nat.lt_succ_self i)
  have hinot : i ∉ good := fun h => by
    have := ((inv.good_iff i).mp h).1
    omega
  obtain ⟨c6, cwf, c0, c1, c2, c3, c4, c5⟩ :=
    prune_row_common g0 L f i g good hb inv row0 hrow0 g1 r5 r6 r7
  have he'' : ∀ p, p ≠ i → g'.edges.find? p = g.edges.find? p := by
    intro p hp
    rw [he', r1]
    simp only [Ne.symm hp, if_false]
  have hv'' : ∀ p, p ≠ i → g'.vertices.find? p = g1.vertices.find? p := by
    intro p hp
    rw [hv']
    simp only [Ne.symm hp, if_false]
  have hrow : g'.edges.find? i = none := by rw [he']; simp
  exact {
    hn := le_of_lt hif
    f_good := inv.f_good
    wfRow := by
      intro p row h
      by_cases hp : p = i
      · subst hp; rw [hrow] at h; cases h
      · rw [he'' p hp] at h; exact inv.wfRow p row h
    low_v := by
      intro p hp
      rw [hv'' p (by omega), c4 p (by omega)]
      exact inv.low_v p (by omega)
    low_e := by
      intro p hp
      rw [he'' p (by omega)]
      exact inv.low_e p (by omega)
    top_e := by
      intro p hp
      rw [he'' p (by omega)]
      exact inv.top_e p hp
    good_iff := by
      intro p
      rw [inv.good_iff]
      by_cases hp : p = i
      · subst hp
        rw [hv']
        simp
      · rw [hv'' p hp, c2 p]
        constructor
        · rintro ⟨h1, h2⟩; exact ⟨by omega, h2⟩
        · rintro ⟨h1, h2⟩; exact ⟨by omega, h2⟩
    v_sub := by
      intro p t h
      by_cases hp : p = i
      · subst hp; rw [hv'] at h; simp at h
      · rw [hv'' p hp] at h; exact c3 p t h
    mid_e := by
      intro p j sm h1 h2
      by_cases hp : p = i
      · subst hp
        constructor
        · intro h
          rw [SyllableGraph.edge?_of_no_row g' p j hrow] at h
          cases h
        · rintro ⟨h, _⟩; exact absurd h hinot
      · rw [SyllableGraph.edge?_congr g' g p j (he'' p hp)]
        exact inv.mid_e p j sm (by omega) h2
    good_char := by
      intro p h1 h2
      by_cases hp : p = i
      · subst hp
        constructor
        · intro h; exact absurd h hinot
        · rintro ⟨t1, ht1, hlt, j, sm0, hj, hsm0, hne⟩
          exfalso
          rw [← hv0, hv] at ht1
          injection ht1 with ht1
          subst ht1
          rcases hc with hc | hc
          · exact hlt hc
          · have : (prunedRow L good row0).find? j = some (keepSpellings L sm0) := by
              rw [find?_prunedRow L good row0 cwf]
              exact ⟨hj, sm0, by rw [c6]; exact hsm0, rfl, hne⟩
            rw [hc] at this
            simp [Map.find?] at this
      · exact inv.good_char p (by omega) h2
    amb := by
      intro i' m j sm h1 h2 h3 h4 h5 h6
      by_cases hp : i' = i
      · subst hp
        rw [SyllableGraph.edge?_of_no_row g' i' m hrow] at h3
        exact absurd rfl h3
      · have hm : m ≠ i := by
          intro hm
          subst hm
          rw [SyllableGraph.edge?_of_no_row g' m j hrow] at h4
          exact absurd rfl h4
        rw [SyllableGraph.edge?_congr g' g i' m (he'' i' hp)] at h3
        rw [SyllableGraph.edge?_congr g' g m j (he'' m hm)] at h4
        rw [SyllableGraph.edge?_congr g' g i' j (he'' i' hp)] at h5
        rw [hv'' m hm]
        exact c5 m (inv.amb i' m j sm (by omega) h2 h3 h4 h5 h6)
    other := by
      obtain ⟨o1, o2, o3⟩ := inv.other
      obtain ⟨p1, p2, p3⟩ := ho
      obtain ⟨q1, q2, q3⟩ := r2
      exact ⟨by rw [p1, q1, o1], by rw [p2, q2, o2], by rw [p3, q3, o3]⟩ }

end Syllabifier
end Rime

namespace Rime
open SpellingType
namespace Syllabifier

theorem PruneInv_keep (g0 : SyllableGraph) (L : SpellingType) (f i : Nat)
    (g : SyllableGraph) (good : List Nat) (hb : Built g0 f)
    (inv : PruneInv g0 L f (i + 1) g good) (t0 : SpellingType)
    (hv : g.vertices.find? i = some t0) (row0 : EndVertexMap)
    (hrow0 : row0 = (g.edges.find? i).getD []) (g1 : SyllableGraph)
    (r1 : ∀ p, g1.edges.find? p =
      if i = p then some (prunedRow L good row0) else g.edges.find? p)
    (r2 : g1.indices = g.indices ∧ g1.input_length = g.input_length ∧
      g1.interpreted_length = g.interpreted_length)
    (r5 : ∀ p, p ∉ Map.keys (prunedRow L good row0) →
      g1.vertices.find? p = g.vertices.find? p)
    (r6 : ∀ p t, g.vertices.find? p = some t →
      g1.vertices.find? p = some t ∨ g1.vertices.find? p = some kAmbiguousSpelling)
    (r7 : ∀ p t, g1.vertices.find? p = some t → g.vertices.find? p = some t ∨
      (t = kAmbiguousSpelling ∧ p ∈ Map.keys (prunedRow L good row0)))
    (rmark : ∀ j sm, (j, sm) ∈ prunedRow L good row0 →
      (∃ sp ∈ sm, sp.2.type < kAbbreviation) →
      ∀ m, m ∈ Map.keys (prunedRow L good row0) → m < j →
      ∀ rowm, g.edges.find? m = some rowm → j ∈ Map.keys rowm →
        g1.vertices.find? m = some kAmbiguousSpelling)
    (hc : ¬ L < t0 ∧ prunedRow L good row0 ≠ []) :
    PruneInv g0 L f i g1 (i :: good) := by
  have hif : i < f := inv.hn
  have hv0 : g.vertices.find? i = g0.vertices.find? i := inv.low_v i (Nat.lt_succ_self i)
  have hinot : i ∉ good := fun h => by
    have := ((inv.good_iff i).mp h).1
    omega
  obtain ⟨c6, cwf, c0, c1, c2, c3, c4, c5⟩ :=
    prune_row_common g0 L f i g good hb inv row0 hrow0 g1 r5 r6 r7
  have he'' : ∀ p, p ≠ i → g1.edges.find? p = g.edges.find? p := by
    intro p hp
    rw [r1]
    simp only [Ne.symm hp, if_false]
  have hrow : g1.edges.find? i = some (prunedRow L good row0) := by rw [r1]; simp
  have hwfp : Map.WF (prunedRow L good row0) := by
    have := WF_done_prunedRow L good [] row0 (by simpa using cwf)
    simpa using this
  have hgood_of_edge : ∀ p j sm0, i < p → g0.edge? p j = some sm0 → j ∈ i :: good →
      j ∈ good := by
    intro p j sm0 hp h hj
    rcases List.mem_cons.mp hj with hj | hj
    · have := Built_fwd_edge hb h
      omega
    · exact hj
  have hfwd_g : ∀ m rowm j, i < m → g.edges.find? m = some rowm → j ∈ Map.keys rowm →
      m < j := by
    intro m rowm j hm hr hj
    obtain ⟨smj, hsmj⟩ := (Map.mem_keys_iff rowm j).mp hj
    by_cases hmf : m < f
    · have h1 : g.edge? m j = some smj := by
        rw [SyllableGraph.edge?_of_row g m j rowm hr]; exact hsmj
      obtain ⟨_, _, sm0, h2, _⟩ := (inv.mid_e m j smj (by omega) hmf).mp h1
      exact Built_fwd_edge hb h2
    · rw [inv.top_e m (by omega)] at hr
      exact hb.fwd m rowm j hr hj
  exact {
    hn := le_of_lt hif
    f_good := List.mem_cons_of_mem _ inv.f_good
    wfRow := by
      intro p row h
      by_cases hp : p = i
      · subst hp
        rw [hrow] at h
        injection h with h
        rw [← h]; exact hwfp
      · rw [he'' p hp] at h; exact inv.wfRow p row h
    low_v := by
      intro p hp
      rw [c4 p (by omega)]
      exact inv.low_v p (by omega)
    low_e := by
      intro p hp
      rw [he'' p (by omega)]
      exact inv.low_e p (by omega)
    top_e := by
      intro p hp
      rw [he'' p (by omega)]
      exact inv.top_e p hp
    good_iff := by
      intro p
      by_cases hp : p = i
      · subst hp
        rw [c4 p (le_refl p), hv]
        simp
      · simp only [List.mem_cons, hp, false_or]
        rw [inv.good_iff, c2 p]
        constructor
        · rintro ⟨h1, h2⟩; exact ⟨by omega, h2⟩
        · rintro ⟨h1, h2⟩; exact ⟨by omega, h2⟩
    v_sub := c3
    mid_e := by
      intro p j sm h1 h2
      by_cases hp : p = i
      · subst hp
        rw [SyllableGraph.edge?_of_row g1 p j _ hrow, find?_prunedRow L good row0 cwf]
        constructor
        · rintro ⟨hj, sm0, h3, h4⟩
          exact ⟨List.mem_cons_self _ _, List.mem_cons_of_mem _ hj, sm0, by rw [← c6]; exact h3,
            h4⟩
        · rintro ⟨_, hj, sm0, h3, h4⟩
          refine ⟨?_, sm0, by rw [c6]; exact h3, h4⟩
          rcases List.mem_cons.mp hj with hj | hj
          · have := Built_fwd_edge hb h3
            omega
          · exact hj
      · rw [SyllableGraph.edge?_congr g1 g p j (he'' p hp), inv.mid_e p j sm (by omega) h2]
        constructor
        · rintro ⟨hp', hj, h3⟩
          exact ⟨List.mem_cons_of_mem _ hp', List.mem_cons_of_mem _ hj, h3⟩
        · rintro ⟨hp', hj, sm0, h3, h4⟩
          refine ⟨?_, hgood_of_edge p j sm0 (by omega) h3 hj, sm0, h3, h4⟩
          rcases List.mem_cons.mp hp' with h | h
          · exact absurd h hp
          · exact h
    good_char := by
      intro p h1 h2
      by_cases hp : p = i
      · subst hp
        constructor
        · intro _
          cases hpr : prunedRow L good row0 with
          | nil => exact absurd hpr hc.2
          | cons e rest =>
            have hk : e.1 ∈ Map.keys (prunedRow L good row0) := by
              rw [hpr]; exact List.mem_cons_self _ _
            obtain ⟨sm, hsm⟩ := (Map.mem_keys_iff _ _).mp hk
            obtain ⟨hj, sm0, h3, h4, h5⟩ := (find?_prunedRow L good row0 cwf e.1 sm).mp hsm
            refine ⟨t0, by rw [← hv0]; exact hv, hc.1, e.1, sm0, List.mem_cons_of_mem _ hj,
              by rw [← c6]; exact h3, ?_⟩
            rw [← h4]; exact h5
        · intro _; exact List.mem_cons_self _ _
      · simp only [List.mem_cons, hp, false_or]
        rw [inv.good_char p (by omega) h2]
        constructor
        · rintro ⟨t1, h3, h4, j, sm0, hj, h5⟩
          exact ⟨t1, h3, h4, j, sm0, Or.inr hj, h5⟩
        · rintro ⟨t1, h3, h4, j, sm0, hj, h5, h6⟩
          exact ⟨t1, h3, h4, j, sm0,
            hgood_of_edge p j sm0 (by omega) h5 (List.mem_cons.mpr hj), h5, h6⟩
    amb := by
      intro i' m j sm h1 h2 h3 h4 h5 h6
      by_cases hp : i' = i
      · subst hp
        rw [SyllableGraph.edge?_of_row g1 i' m _ hrow] at h3
        rw [SyllableGraph.edge?_of_row g1 i' j _ hrow] at h5
        have hmk : m ∈ Map.keys (prunedRow L good row0) := by
          rw [Map.mem_keys_iff]
          cases hx : (prunedRow L good row0).find? m with
          | none => exact absurd hx h3
          | some x => exact ⟨x, rfl⟩
        have hmi : i' < m := (c1 m hmk).1
        have hmne : m ≠ i' := by omega
        unfold SyllableGraph.edge? at h4
        rw [he'' m hmne] at h4
        cases hr : g.edges.find? m with
        | none => rw [hr] at h4; exact absurd rfl h4
        | some rowm =>
          rw [hr] at h4
          have hjk : j ∈ Map.keys rowm := by
            rw [Map.mem_keys_iff]
            cases hx : rowm.find? j with
            | none => exact absurd (by simp [hx]) h4
            | some x => exact ⟨x, rfl⟩
          exact rmark j sm (Map.mem_of_find? h5) h6 m hmk (hfwd_g m rowm j hmi hr hjk)
            rowm hr hjk
      · have hi' : i + 1 ≤ i' := by omega
        rw [SyllableGraph.edge?_congr g1 g i' m (he'' i' hp)] at h3
        rw [SyllableGraph.edge?_congr g1 g i' j (he'' i' hp)] at h5
        have hm : m ≠ i := by
          intro hm
          subst hm
          cases hx : g.edge? i' m with
          | none => exact h3 hx
          | some x =>
            have := ((inv.mid_e i' m x hi' h2).mp hx).2.1
            exact hinot this
        rw [SyllableGraph.edge?_congr g1 g m j (he'' m hm)] at h4
        exact c5 m (inv.amb i' m j sm hi' h2 h3 h4 h5 h6)
    other := by
      obtain ⟨o1, o2, o3⟩ := inv.other
      obtain ⟨q1, q2, q3⟩ := r2
      exact ⟨by rw [q1, o1], by rw [q2, o2], by rw [q3, o3]⟩ }

end Syllabifier
end Rime

namespace Rime
open SpellingType
namespace Syllabifier

theorem PruneInv_step (g0 : SyllableGraph) (L : SpellingType) (f i : Nat)
    (g : SyllableGraph) (good : List Nat) (hb : Built g0 f)
    (inv : PruneInv g0 L f (i + 1) g good) :
    PruneInv g0 L f i (pruneVertex L i g good).1 (pruneVertex L i g good).2 := by
  unfold pruneVertex
  cases hv : g.vertices.find? i with
  | none =>
    simp only [Option.isNone_none, if_true]
    exact PruneInv_skip g0 L f i g good hb inv hv
  | some t0 =>
    simp only [Option.isNone_some, Bool.false_eq_true, if_false]
    have hins : ∀ p, (Map.insert g.edges i []).find? p =
        if i = p then some ((g.edges.find? i).getD []) else g.edges.find? p :=
      fun p => Map.find?_insert _ _ _ _
    have hrowa : (Map.insert g.edges i []).find? i = some ((g.edges.find? i).getD []) := by
      rw [hins]; simp
    rw [hrowa, Option.getD_some]
    have hwf0 : Map.WF ((g.edges.find? i).getD []) := by
      cases hr : g.edges.find? i with
      | none => exact Map.WF_nil
      | some row => exact inv.wfRow i row hr
    obtain ⟨r1, r2, r3, r4, r5, r6, r7⟩ := pruneEdges_row L good i
      { g with edges := Map.insert g.edges i [] } ((g.edges.find? i).getD []) hrowa hwf0
    have hkeys0 : ∀ k, k ∈ Map.keys ((g.edges.find? i).getD []) → i < k := by
      intro k hk
      cases hr : g.edges.find? i with
      | none => rw [hr] at hk; simp [Map.keys] at hk
      | some row =>
        rw [hr] at hk
        rw [inv.low_e i (Nat.lt_succ_self i)] at hr
        exact hb.fwd i row k hr hk
    have rmark := pruneEdges_mark L good i ((g.edges.find? i).getD []) []
      { g with edges := Map.insert g.edges i [] } hrowa (by simpa using hwf0)
      (by
        intro h
        have := hkeys0 i (by simpa using h)
        omega)
      (by
        intro p rowp hp h
        have h' : (Map.insert g.edges i []).find? p = some rowp := h
        rw [hins] at h'
        simp only [Ne.symm hp, if_false] at h'
        exact inv.wfRow p rowp h')
    generalize pruneEdges L good i ((g.edges.find? i).getD [])
      { g with edges := Map.insert g.edges i [] } = g1 at r1 r2 r3 r4 r5 r6 r7 rmark ⊢
    have r1' : ∀ p, g1.edges.find? p =
        if i = p then some (prunedRow L good ((g.edges.find? i).getD []))
        else g.edges.find? p := by
      intro p
      rw [r1 p]
      by_cases hp : i = p
      · simp only [hp, if_true]
      · simp only [hp, if_false]
        have := hins p
        simp only [hp, if_false] at this
        exact this
    have hg1i : g1.vertices.find? i = some t0 := by
      rw [r5 i, ← hv]
      intro hk
      have := hkeys0 i (keys_prunedRow_subset L good _ i hk).1
      omega
    have hg1e : g1.edges.find? i = some (prunedRow L good ((g.edges.find? i).getD [])) := by
      rw [r1']; simp
    rw [hg1i, hg1e]
    simp only [Option.getD_some]
    have rmark' : ∀ j sm, (j, sm) ∈ prunedRow L good ((g.edges.find? i).getD []) →
        (∃ sp ∈ sm, sp.2.type < kAbbreviation) →
        ∀ m, m ∈ Map.keys (prunedRow L good ((g.edges.find? i).getD [])) → m < j →
        ∀ rowm, g.edges.find? m = some rowm → j ∈ Map.keys rowm →
          g1.vertices.find? m = some kAmbiguousSpelling := by
      intro j sm hj hsp m hm hlt rowm hrowm hjm
      have hmi : i ≠ m := by
        have := hkeys0 m (keys_prunedRow_subset L good _ m hm).1
        omega
      refine rmark j sm hj hsp m (by simpa using hm) hlt rowm ?_ hjm
      show (Map.insert g.edges i []).find? m = some rowm
      rw [hins]
      simp only [hmi, if_false]
      exact hrowm
    by_cases hc : (decide (L < t0) ||
        (prunedRow L good ((g.edges.find? i).getD [])).isEmpty) = true
    · rw [if_pos hc]
      refine PruneInv_drop g0 L f i g good hb inv t0 hv _ rfl g1 r1' ⟨r2, r3, r4⟩ r5 r6 r7
        ?_ _ ?_ ?_ ⟨rfl, rfl, rfl⟩
      · simp only [Bool.or_eq_true, decide_eq_true_eq, List.isEmpty_iff] at hc
        exact hc
      · intro p
        show (Map.erase (Map.insert g1.vertices i kNormalSpelling) i).find? p = _
        rw [Map.find?_erase, Map.find?_insert]
        by_cases hp : i = p
        · simp only [hp, if_true]
        · simp only [hp, if_false]
      · intro p
        show (Map.erase g1.edges i).find? p = _
        rw [Map.find?_erase]
    · rw [if_neg hc]
      rw [Map.insert_of_find? kNormalSpelling hg1i, Map.insert_of_find? [] hg1e]
      refine PruneInv_keep g0 L f i g good hb inv t0 hv _ rfl g1 r1' ⟨r2, r3, r4⟩ r5 r6 r7
        rmark' ?_
      simp only [Bool.or_eq_true, decide_eq_true_eq, List.isEmpty_iff, not_or] at hc
      exact hc

theorem pruneLoop_inv (g0 : SyllableGraph) (L : SpellingType) (f : Nat) (hb : Built g0 f) :
    ∀ n g good, PruneInv g0 L f n g good →
      PruneInv g0 L f 0 (pruneLoop L n (g, good)).1 (pruneLoop L n (g, good)).2 := by
  intro n
  induction n with
  | zero => intro g good h; exact h
  | succ i ih =>
    intro g good h
    show PruneInv g0 L f 0 (pruneLoop L i (pruneVertex L i g good)).1
      (pruneLoop L i (pruneVertex L i g good)).2
    exact ih _ _ (PruneInv_step g0 L f i g good hb h)

theorem PruneInv_init (g0 : SyllableGraph) (L : SpellingType) (f : Nat) (hb : Built g0 f) :
    PruneInv g0 L f f g0 [f] where
  hn := le_refl f
  f_good := List.mem_singleton.mpr rfl
  wfRow := hb.wfRow
  low_v := fun _ _ => rfl
  low_e := fun _ _ => rfl
  top_e := fun _ _ => rfl
  good_iff := by
    intro p
    simp only [List.mem_singleton]
    constructor
    · intro h; subst h; exact ⟨le_refl _, hb.far⟩
    · rintro ⟨h1, t, h2⟩
      have := hb.vle p t h2
      omega
  v_sub := fun p t h => ⟨t, h, Or.inl rfl⟩
  mid_e := by intro p j sm h1 h2; omega
  good_char := by intro p h1 h2; omega
  amb := by intro i m j sm h1 h2; omega
  other := ⟨rfl, rfl, rfl⟩

/-- The pruning pass, run on the graph the construction loop leaves behind. -/
theorem prune_inv (g0 : SyllableGraph) (f : Nat) (hb : Built g0 f) :
    ∃ good, PruneInv g0
      (SpellingType.max ((g0.vertices.find? f).getD kNormalSpelling) kFuzzySpelling) f 0
      (prune g0 f) good := by
  obtain ⟨t, ht⟩ := hb.far
  have h := pruneLoop_inv g0
    (SpellingType.max ((g0.vertices.find? f).getD kNormalSpelling) kFuzzySpelling) f hb f g0 [f]
    (PruneInv_init g0 _ f hb)
  refine ⟨(pruneLoop (SpellingType.max ((g0.vertices.find? f).getD kNormalSpelling)
    kFuzzySpelling) f (g0, [f])).2, ?_⟩
  unfold prune
  simp only [Map.insert_of_find? kNormalSpelling ht]
  exact h

end Syllabifier
end Rime

namespace Rime
open SpellingType

namespace Map
variable {κ β : Type}

theorem mem_set [LinearOrder κ] (m : Map κ β) (k : κ) (v : β) (x : κ × β)
    (h : x ∈ set m k v) : x = (k, v) ∨ x ∈ m := by
  induction m with
  | nil =>
    simp only [set, List.mem_singleton] at h
    exact Or.inl h
  | cons e m ih =>
    obtain ⟨a, b⟩ := e
    simp only [set] at h
    by_cases h1 : k < a
    · simp only [h1, if_true, List.mem_cons] at h
      rcases h with h | h | h
      · exact Or.inl h
      · exact Or.inr (List.mem_cons.mpr (Or.inl h))
      · exact Or.inr (List.mem_cons_of_mem _ h)
    · simp only [h1, if_false] at h
      by_cases h2 : k = a
      · simp only [h2, if_true, List.mem_cons] at h
        rcases h with h | h
        · exact Or.inl (by rw [h, h2])
        · exact Or.inr (List.mem_cons_of_mem _ h)
      · simp only [h2, if_false, List.mem_cons] at h
        rcases h with h | h
        · exact Or.inr (List.mem_cons.mpr (Or.inl h))
        · rcases ih h with h3 | h3
          · exact Or.inl h3
          · exact Or.inr (List.mem_cons_of_mem _ h3)

theorem mem_set_self [LinearOrder κ] (m : Map κ β) (k : κ) (v : β) : (k, v) ∈ set m k v := by
  induction m with
  | nil => simp [set]
  | cons e m ih =>
    obtain ⟨a, b⟩ := e
    simp only [set]
    by_cases h1 : k < a
    · simp [h1]
    · simp only [h1, if_false]
      by_cases h2 : k = a
      · simp [h2]
      · simp only [h2, if_false]
        exact List.mem_cons_of_mem _ ih

theorem mem_set_of_ne [LinearOrder κ] (m : Map κ β) (k : κ) (v : β) (x : κ × β)
    (h : x ∈ m) (hne : x.1 ≠ k) : x ∈ set m k v := by
  induction m with
  | nil => simp at h
  | cons e m ih =>
    obtain ⟨a, b⟩ := e
    simp only [set]
    by_cases h1 : k < a
    · simp only [h1, if_true]
      exact List.mem_cons_of_mem _ h
    · simp only [h1, if_false]
      by_cases h2 : k = a
      · simp only [h2, if_true]
        rcases List.mem_cons.mp h with h3 | h3
        · exfalso; apply hne; rw [h3, h2]
        · exact List.mem_cons_of_mem _ h3
      · simp only [h2, if_false]
        rcases List.mem_cons.mp h with h3 | h3
        · rw [h3]; exact List.mem_cons_self _ _
        · exact List.mem_cons_of_mem _ (ih h3)

theorem mem_insert [LinearOrder κ] (m : Map κ β) (k : κ) (v : β) (x : κ × β)
    (h : x ∈ insert m k v) : x = (k, v) ∨ x ∈ m := by
  unfold insert at h
  cases hf : find? m k with
  | none => rw [hf] at h; exact mem_set m k v x h
  | some w => rw [hf] at h; exact Or.inr h

theorem mem_insert_of_mem [LinearOrder κ] (m : Map κ β) (k : κ) (v : β) (x : κ × β)
    (h : x ∈ m) : x ∈ insert m k v := by
  unfold insert
  cases hf : find? m k with
  | none =>
    apply mem_set_of_ne m k v x h
    intro hx
    have : x.1 ∈ keys m := mem_keys_of_mem h
    rw [hx, mem_keys_iff] at this
    obtain ⟨w, hw⟩ := this
    rw [hf] at hw; cases hw
  | some w => exact h

theorem mem_insert_self [LinearOrder κ] (m : Map κ β) (k : κ) (v : β)
    (h : find? m k = none) : (k, v) ∈ insert m k v := by
  unfold insert
  rw [h]
  exact mem_set_self m k v

theorem insert_ne_nil [LinearOrder κ] (m : Map κ β) (k : κ) (v : β) : insert m k v ≠ [] := by
  unfold insert
  cases hf : find? m k with
  | none =>
    intro h
    have := mem_set_self m k v
    simp only at h
    rw [h] at this
    cases this
  | some w =>
    intro h
    simp only at h
    rw [h] at hf
    simp [find?] at hf

end Map

namespace Syllabifier

theorem Built_of_loop (s : Syllabifier) (input : List Char) (prism : Prism) (st : LoopState)
    (inv : LoopInv s input prism st) (hq : st.queue = []) : Built st.graph st.farthest where
  wfRow := inv.wfRow
  src := inv.src
  fwd := by
    intro i row j h hj
    obtain ⟨sm, hsm⟩ := (Map.mem_keys_iff row j).mp hj
    obtain ⟨m, _, hl, _, he, _⟩ := inv.prov i row j sm h hsm
    rw [he]
    exact endPosOf_gt s input i m hl
  tgt := by
    intro i row j h hj
    rcases inv.tgt i row j h hj with h1 | ⟨t, h1⟩
    · exact h1
    · rw [hq] at h1; cases h1
  vle := inv.vle
  far := by
    rcases inv.far with h | h
    · rw [h]
      rcases inv.zero with h1 | h1
      · exact h1
      · rw [hq] at h1; cases h1
    · exact h

theorem mainLoop_fresh (s : Syllabifier) (input : List Char) (prism : Prism) (fuel : Nat)
    (st : LoopState)
    (h : mainLoop s input prism fuel
      { graph := {}, queue := [(0, kNormalSpelling)], farthest := 0 } = .ok st) :
    LoopInv s input prism st ∧ st.queue = [] :=
  mainLoop_induct s input prism (LoopInv s input prism)
    (fun st v q st1 hi hq hv => LoopInv_visit s input prism st v q st1 hi hq hv)
    fuel _ st (LoopInv_init s input prism) h

theorem Build_ok (s : Syllabifier) (input : List Char) (prism : Prism) (graph : SyllableGraph)
    (g : SyllableGraph) (r : Nat) (hne : input ≠ [])
    (h : BuildSyllableGraph s input prism graph = .ok (g, r)) :
    ∃ st, mainLoop s input prism (loopBound input prism)
        { graph := graph, queue := [(0, kNormalSpelling)], farthest := 0 } = .ok st ∧
      r = (complete s input prism (prune st.graph st.farthest) st.farthest).2 ∧
      g = Transpose
        { (complete s input prism (prune st.graph st.farthest) st.farthest).1 with
          input_length := input.length, interpreted_length := r } := by
  unfold BuildSyllableGraph at h
  have hne' : input.isEmpty = false := by
    cases input with
    | nil => exact absurd rfl hne
    | cons a l => rfl
  simp only [hne', Bool.false_eq_true, if_false] at h
  cases hm : mainLoop s input prism (loopBound input prism)
      { graph := graph, queue := [(0, kNormalSpelling)], farthest := 0 } with
  | error e => rw [hm] at h; cases h
  | ok st =>
    rw [hm] at h
    simp only [Except.ok.injEq, Prod.mk.injEq] at h
    exact ⟨st, rfl, h.2.symm, by rw [← h.2]; exact h.1.symm⟩

/-- The accessor loop of the completion step only adds `Completion` spellings that
end at `end_pos`. -/
theorem completeSpellings_mem (end_pos : Nat) (l : List (SyllableId × SpellingProperties))
    (init : SpellingMap) (sp : SyllableId × SpellingProperties)
    (h : sp ∈ completeSpellings end_pos l init) :
    sp ∈ init ∨ (sp.2.type = kCompletion ∧ sp.2.end_pos = end_pos) := by
  induction l generalizing init with
  | nil => exact Or.inl h
  | cons e l ih =>
    obtain ⟨sid, props⟩ := e
    simp only [completeSpellings] at h
    by_cases hc : props.type < kAbbreviation
    · simp only [hc, if_true] at h
      rcases ih _ h with h1 | h1
      · rcases Map.mem_insert _ _ _ _ h1 with h2 | h2
        · right; rw [h2]; exact ⟨rfl, rfl⟩
        · exact Or.inl h2
      · exact Or.inr h1
    · simp only [hc, if_false] at h
      exact ih _ h

theorem completeSpellings_ne_nil (end_pos : Nat) (l : List (SyllableId × SpellingProperties))
    (init : SpellingMap) :
    completeSpellings end_pos l init ≠ [] ↔
      init ≠ [] ∨ ∃ sp ∈ l, sp.2.type < kAbbreviation := by
  induction l generalizing init with
  | nil => simp [completeSpellings]
  | cons e l ih =>
    obtain ⟨sid, props⟩ := e
    simp only [completeSpellings]
    by_cases hc : props.type < kAbbreviation
    · simp only [hc, if_true, ih]
      constructor
      · intro _; exact Or.inr ⟨(sid, props), List.mem_cons_self _ _, hc⟩
      · intro _; exact Or.inl (Map.insert_ne_nil _ _ _)
    · simp only [hc, if_false, ih, List.mem_cons]
      constructor
      · rintro (h | ⟨sp, h1, h2⟩)
        · exact Or.inl h
        · exact Or.inr ⟨sp, Or.inr h1, h2⟩
      · rintro (h | ⟨sp, h1 | h1, h2⟩)
        · exact Or.inl h
        · subst h1; exact absurd h2 hc
        · exact Or.inr ⟨sp, h1, h2⟩

theorem completeKeys_mem (prism : Prism) (code_length end_pos : Nat) (ms : List Match)
    (init : SpellingMap) (sp : SyllableId × SpellingProperties)
    (h : sp ∈ completeKeys prism code_length end_pos ms init) :
    sp ∈ init ∨ (sp.2.type = kCompletion ∧ sp.2.end_pos = end_pos) := by
  induction ms generalizing init with
  | nil => exact Or.inl h
  | cons m ms ih =>
    simp only [completeKeys] at h
    by_cases hc : m.length < code_length
    · simp only [hc, if_true] at h
      exact ih _ h
    · simp only [hc, if_false] at h
      rcases ih _ h with h1 | h1
      · exact completeSpellings_mem end_pos _ init sp h1
      · exact Or.inr h1

theorem completeKeys_ne_nil (prism : Prism) (code_length end_pos : Nat) (ms : List Match)
    (init : SpellingMap) :
    completeKeys prism code_length end_pos ms init ≠ [] ↔
      init ≠ [] ∨ ∃ m ∈ ms, code_length ≤ m.length ∧
        ∃ sp ∈ prism.QuerySpelling m.value, sp.2.type < kAbbreviation := by
  induction ms generalizing init with
  | nil => simp [completeKeys]
  | cons m ms ih =>
    simp only [completeKeys]
    by_cases hc : m.length < code_length
    · simp only [hc, if_true, ih, List.mem_cons]
      constructor
      · rintro (h | ⟨m', h1, h2⟩)
        · exact Or.inl h
        · exact Or.inr ⟨m', Or.inr h1, h2⟩
      · rintro (h | ⟨m', h1 | h1, h2, h3⟩)
        · exact Or.inl h
        · subst h1; omega
        · exact Or.inr ⟨m', h1, h2, h3⟩
    · simp only [hc, if_false, ih, completeSpellings_ne_nil, List.mem_cons]
      constructor
      · rintro ((h | h) | ⟨m', h1, h2⟩)
        · exact Or.inl h
        · exact Or.inr ⟨m, Or.inl rfl, Nat.le_of_not_lt hc, h⟩
        · exact Or.inr ⟨m', Or.inr h1, h2⟩
      · rintro (h | ⟨m', h1 | h1, h2, h3⟩)
        · exact Or.inl (Or.inl h)
        · subst h1; exact Or.inl (Or.inr h3)
        · exact Or.inr ⟨m', h1, h2, h3⟩

end Syllabifier
end Rime

namespace Rime
open SpellingType
namespace Syllabifier

theorem consumeDelimiters_spec (D : List Char) (input : List Char) :
    ∀ (rest : List Char) (e : Nat), input.drop e = rest → e ≤ input.length →
      consumeDelimiters D rest e = input.length ∨
      (consumeDelimiters D rest e < input.length ∧
        ∀ c, input[consumeDelimiters D rest e]? = some c → c ∉ D) := by
  intro rest
  induction rest with
  | nil =>
    intro e he hle
    left
    simp only [consumeDelimiters]
    have := List.drop_eq_nil_iff.mp he
    omega
  | cons c rest ih =>
    intro e he hle
    have hlt : e < input.length := by
      by_contra hge
      have : input.drop e = [] := List.drop_eq_nil_iff.mpr (by omega)
      rw [this] at he
      cases he
    have hc : input[e]? = some c := by
      have := List.getElem?_drop input e 0
      rw [he] at this
      simpa using this.symm
    have hrest : input.drop (e + 1) = rest := by
      have : (input.drop e).drop 1 = rest := by rw [he]; rfl
      rw [List.drop_drop] at this
      rw [← this]
    simp only [consumeDelimiters]
    by_cases hd : c ∈ D
    · simp only [hd, if_true]
      exact ih (e + 1) hrest (by omega)
    · simp only [hd, if_false]
      right
      refine ⟨hlt, ?_⟩
      intro c' hc'
      rw [hc] at hc'
      injection hc' with hc'
      rw [← hc']; exact hd

theorem endPosOf_spec (s : Syllabifier) (input : List Char) (p : Nat) (m : Match)
    (h : p + m.length ≤ input.length) :
    endPosOf s input p m = input.length ∨
      (endPosOf s input p m < input.length ∧
        ∀ c, input[endPosOf s input p m]? = some c → c ∉ s.delimiters_) :=
  consumeDelimiters_spec s.delimiters_ input _ _ rfl h

theorem complete_fields (s : Syllabifier) (input : List Char) (prism : Prism)
    (g : SyllableGraph) (f : Nat) :
    (complete s input prism g f).1.vertices = g.vertices ∧
    (complete s input prism g f).1.indices = g.indices ∧
    (complete s input prism g f).1.input_length = g.input_length ∧
    (complete s input prism g f).1.interpreted_length = g.interpreted_length := by
  unfold complete
  split
  · simp only
    split
    · exact ⟨rfl, rfl, rfl, rfl⟩
    · split <;> exact ⟨rfl, rfl, rfl, rfl⟩
  · exact ⟨rfl, rfl, rfl, rfl⟩

theorem edge?_set_row (g : SyllableGraph) (f : Nat) (row : EndVertexMap) (i j : Nat) :
    ({ g with edges := Map.set g.edges f row } : SyllableGraph).edge? i j =
      if f = i then row.find? j else g.edge? i j := by
  unfold SyllableGraph.edge?
  simp only [Map.find?_set]
  by_cases h : f = i
  · simp [h]
  · simp [h]

theorem getD_row_find? (g : SyllableGraph) (f j : Nat) :
    ((g.edges.find? f).getD []).find? j = g.edge? f j := by
  unfold SyllableGraph.edge?
  cases g.edges.find? f with
  | none => rfl
  | some row => rfl

/-- The three ways the completion step can end. -/
theorem complete_cases (s : Syllabifier) (input : List Char) (prism : Prism)
    (g : SyllableGraph) (f : Nat) :
    (¬ (s.enable_completion_ = true ∧ f < input.length ∧
        prism.ExpandSearch (input.drop f) 512 ≠ []) ∧
      complete s input prism g f = (g, f)) ∨
    ((s.enable_completion_ = true ∧ f < input.length ∧
        prism.ExpandSearch (input.drop f) 512 ≠ []) ∧
      ((completeKeys prism (input.length - f) input.length
          (prism.ExpandSearch (input.drop f) 512) ((g.edge? f input.length).getD []) = [] ∧
        (complete s input prism g f).2 = f ∧
        (complete s input prism g f).1.edge? f input.length = none) ∨
       (completeKeys prism (input.length - f) input.length
          (prism.ExpandSearch (input.drop f) 512) ((g.edge? f input.length).getD []) ≠ [] ∧
        (complete s input prism g f).2 = input.length ∧
        (complete s input prism g f).1.edge? f input.length =
          some (completeKeys prism (input.length - f) input.length
            (prism.ExpandSearch (input.drop f) 512) ((g.edge? f input.length).getD []))))) := by
  unfold complete
  by_cases h1 : (s.enable_completion_ && decide (f < input.length)) = true
  · rw [if_pos h1]
    simp only [Bool.and_eq_true, decide_eq_true_eq] at h1
    by_cases h2 : (prism.ExpandSearch (input.drop f) 512).isEmpty = true
    · rw [if_pos h2]
      left
      refine ⟨?_, rfl⟩
      rintro ⟨_, _, h3⟩
      exact h3 (List.isEmpty_iff.mp h2)
    · simp only [h2, Bool.false_eq_true, if_false]
      right
      refine ⟨⟨h1.1, h1.2, fun h => h2 (List.isEmpty_iff.mpr h)⟩, ?_⟩
      rw [getD_row_find?]
      by_cases h3 : completeKeys prism (input.length - f) input.length
          (prism.ExpandSearch (input.drop f) 512) ((g.edge? f input.length).getD []) = []
      · left
        simp only [h3, List.isEmpty_nil, if_true, true_and]
        rw [edge?_set_row]
        simp only [if_true, Map.find?_erase]
      · right
        have h3' : (completeKeys prism (input.length - f) input.length
          (prism.ExpandSearch (input.drop f) 512)
            ((g.edge? f input.length).getD [])).isEmpty = false := by
          cases hx : completeKeys prism (input.length - f) input.length
            (prism.ExpandSearch (input.drop f) 512) ((g.edge? f input.length).getD []) with
          | nil => exact absurd hx h3
          | cons a l => rfl
        simp only [h3', Bool.false_eq_true, if_false, ne_eq, h3, not_false_eq_true, true_and]
        rw [edge?_set_row]
        simp only [if_true, Map.find?_set]
  · rw [if_neg h1]
    left
    refine ⟨?_, rfl⟩
    rintro ⟨h2, h3, _⟩
    apply h1
    simp [h2, h3]

theorem complete_edge_other (s : Syllabifier) (input : List Char) (prism : Prism)
    (g : SyllableGraph) (f i j : Nat) (h : i ≠ f ∨ j ≠ input.length) :
    (complete s input prism g f).1.edge? i j = g.edge? i j := by
  unfold complete
  split
  · simp only
    split
    · rfl
    · split
      · rw [edge?_set_row]
        by_cases hi : f = i
        · simp only [hi, if_true, Map.find?_erase]
          have hj : input.length ≠ j := by
            rcases h with h | h
            · exact absurd hi.symm h
            · exact Ne.symm h
          simp only [hj, if_false]
          rw [getD_row_find?]
        · simp only [hi, if_false]
      · rw [edge?_set_row]
        by_cases hi : f = i
        · simp only [hi, if_true, Map.find?_set]
          have hj : input.length ≠ j := by
            rcases h with h | h
            · exact absurd hi.symm h
            · exact Ne.symm h
          simp only [hj, if_false]
          rw [getD_row_find?]
        · simp only [hi, if_false]
  · rfl

end Syllabifier
end Rime

namespace Rime
open SpellingType
namespace Syllabifier

theorem Built_no_edge_from {g : SyllableGraph} {f : Nat} (hb : Built g f) (p j : Nat)
    (hp : f ≤ p) : g.edge? p j = none := by
  cases h : g.edge? p j with
  | none => rfl
  | some sm =>
    exfalso
    obtain ⟨row, h1, h2⟩ := (SyllableGraph.edge?_eq_some g p j sm).mp h
    have hj : j ∈ Map.keys row := (Map.mem_keys_iff row j).mpr ⟨sm, h2⟩
    have h3 := hb.fwd p row j h1 hj
    obtain ⟨t, ht⟩ := hb.tgt p row j h1 hj
    have h4 := hb.vle j t ht
    omega

theorem PruneInv_no_edge_from {g0 g : SyllableGraph} {L : SpellingType} {f n : Nat}
    {good : List Nat} (hb : Built g0 f) (inv : PruneInv g0 L f n g good) (p j : Nat)
    (hp : f ≤ p) : g.edge? p j = none := by
  rw [SyllableGraph.edge?_congr g g0 p j (inv.top_e p hp)]
  exact Built_no_edge_from hb p j hp

/-- The edges of the pruned graph are edges of the graph before pruning, with the
spellings worse than `last_type` removed. -/
theorem PruneInv_edge_sub {g0 g : SyllableGraph} {L : SpellingType} {f : Nat}
    {good : List Nat} (hb : Built g0 f) (inv : PruneInv g0 L f 0 g good) (p j : Nat)
    (sm : SpellingMap) (h : g.edge? p j = some sm) :
    p < f ∧ p ∈ good ∧ j ∈ good ∧
      ∃ sm0, g0.edge? p j = some sm0 ∧ sm = keepSpellings L sm0 ∧ sm ≠ [] := by
  by_cases hp : p < f
  · exact ⟨hp, (inv.mid_e p j sm (Nat.zero_le p) hp).mp h⟩
  · rw [PruneInv_no_edge_from hb inv p j (by omega)] at h
    cases h

/-- How a graph returned for a non-empty input, built from an empty graph, comes about:
the state `st` the construction loop ends in, the pruning of its graph, the completion
step and the transposition. -/
theorem Build_fresh (s : Syllabifier) (input : List Char) (prism : Prism)
    (g : SyllableGraph) (r : Nat) (hne : input ≠ [])
    (h : BuildSyllableGraph s input prism {} = .ok (g, r)) :
    ∃ st good, LoopInv s input prism st ∧ st.queue = [] ∧ Built st.graph st.farthest ∧
      PruneInv st.graph
        (SpellingType.max ((st.graph.vertices.find? st.farthest).getD kNormalSpelling)
          kFuzzySpelling) st.farthest 0 (prune st.graph st.farthest) good ∧
      r = (complete s input prism (prune st.graph st.farthest) st.farthest).2 ∧
      g.vertices = (prune st.graph st.farthest).vertices ∧
      (∀ i j, g.edge? i j =
        (complete s input prism (prune st.graph st.farthest) st.farthest).1.edge? i j) ∧
      g.input_length = input.length ∧ g.interpreted_length = r := by
  obtain ⟨st, h1, h2, h3⟩ := Build_ok s input prism {} g r hne h
  obtain ⟨inv, hq⟩ := mainLoop_fresh s input prism _ st h1
  have hb := Built_of_loop s input prism st inv hq
  obtain ⟨good, pinv⟩ := prune_inv st.graph st.farthest hb
  refine ⟨st, good, inv, hq, hb, pinv, h2, ?_, ?_, ?_, ?_⟩
  · rw [h3]
    exact (complete_fields s input prism _ _).1
  · intro i j
    rw [h3]
    rfl
  · rw [h3]; rfl
  · rw [h3]; rfl

end Syllabifier

end Rime

namespace Rime
open SpellingType
namespace Syllabifier

theorem sum_filter_insert (n : Nat) (cnt : Nat → Nat) (vs : Map Nat SpellingType)
    (p : Nat) (t : SpellingType) (hp : p ≤ n) (hnone : vs.find? p = none) :
    (∑ x in (Finset.range (n + 1)).filter (fun x => (Map.insert vs p t).find? x = none),
        cnt x) + cnt p =
      ∑ x in (Finset.range (n + 1)).filter (fun x => vs.find? x = none), cnt x := by
  have hmem : p ∈ (Finset.range (n + 1)).filter (fun x => vs.find? x = none) := by
    simp only [Finset.mem_filter, Finset.mem_range]
    exact ⟨by omega, hnone⟩
  have hS : (Finset.range (n + 1)).filter (fun x => (Map.insert vs p t).find? x = none) =
      ((Finset.range (n + 1)).filter (fun x => vs.find? x = none)).erase p := by
    ext x
    simp only [Finset.mem_filter, Finset.mem_range, Finset.mem_erase, Map.find?_insert]
    by_cases hx : p = x
    · subst hx; simp
    · simp only [hx, if_false]
      constructor
      · rintro ⟨h1, h2⟩; exact ⟨Ne.symm hx, h1, h2⟩
      · rintro ⟨_, h1, h2⟩; exact ⟨h1, h2⟩
  rw [hS, add_comm]
  exact Finset.add_sum_erase _ cnt hmem

theorem visit_ok (s : Syllabifier) (input : List Char) (prism : Prism)
    (hprism : ∀ p, p ≤ input.length → ∀ m ∈ prism.CommonPrefixSearch (input.drop p),
      p + m.length ≤ input.length)
    (st : LoopState) (v : Vertex) (q : VertexQueue) (hq : st.queue = v :: q)
    (hbound : ∀ x ∈ st.queue, x.1 ≤ input.length) (hfar : st.farthest ≤ input.length) :
    ∃ st1, visit s input prism st v q = .ok st1 ∧
      (∀ x ∈ st1.queue, x.1 ≤ input.length) ∧ st1.farthest ≤ input.length ∧
      st1.queue.length +
        (∑ x in (Finset.range (input.length + 1)).filter
          (fun x => st1.graph.vertices.find? x = none),
          (prism.CommonPrefixSearch (input.drop x)).length) <
      st.queue.length +
        (∑ x in (Finset.range (input.length + 1)).filter
          (fun x => st.graph.vertices.find? x = none),
          (prism.CommonPrefixSearch (input.drop x)).length) := by
  have hv : v.1 ≤ input.length := hbound v (by rw [hq]; exact List.mem_cons_self _ _)
  have hqb : ∀ x ∈ q, x.1 ≤ input.length :=
    fun x hx => hbound x (by rw [hq]; exact List.mem_cons_of_mem _ hx)
  unfold visit
  by_cases hvis : (st.graph.vertices.find? v.1).isSome = true
  · rw [if_pos hvis]
    refine ⟨_, rfl, hqb, hfar, ?_⟩
    simp only [hq, List.length_cons]
    omega
  · rw [if_neg hvis]
    have hnone : st.graph.vertices.find? v.1 = none := by
      cases hx : st.graph.vertices.find? v.1 with
      | none => rfl
      | some x => simp [hx] at hvis
    have hlen : ¬ v.1 > input.length := by omega
    simp only [hlen, if_false]
    have hfar' : (if v.1 > st.farthest then v.1 else st.farthest) ≤ input.length := by
      split <;> omega
    have hsum := sum_filter_insert input.length
      (fun x => (prism.CommonPrefixSearch (input.drop x)).length) st.graph.vertices v.1 v.2
      hv hnone
    by_cases hfound : (prism.CommonPrefixSearch (input.drop v.1)).isEmpty = true
    · rw [if_pos hfound]
      refine ⟨_, rfl, hqb, hfar', ?_⟩
      simp only [hq, List.length_cons]
      simp only at hsum
      omega
    · rw [if_neg hfound]
      obtain ⟨_, _, _, _, a5, _, a7⟩ := addMatches_spec s input prism v
        (prism.CommonPrefixSearch (input.drop v.1))
        ((st.graph.edges.find? v.1).getD [], q)
      refine ⟨_, rfl, ?_, hfar', ?_⟩
      · intro x hx
        rcases a5 x hx with h1 | ⟨m, hm, _, _, hx'⟩
        · exact hqb x h1
        · rw [hx']
          simp only
          rcases endPosOf_spec s input v.1 m (hprism v.1 hv m hm) with h2 | h2
          · omega
          · omega
      · simp only [hq, List.length_cons]
        simp only at hsum a7
        omega

theorem mainLoop_ok (s : Syllabifier) (input : List Char) (prism : Prism)
    (hprism : ∀ p, p ≤ input.length → ∀ m ∈ prism.CommonPrefixSearch (input.drop p),
      p + m.length ≤ input.length) :
    ∀ (fuel : Nat) (st : LoopState),
      (∀ x ∈ st.queue, x.1 ≤ input.length) → st.farthest ≤ input.length →
      st.queue.length +
        (∑ x in (Finset.range (input.length + 1)).filter
          (fun x => st.graph.vertices.find? x = none),
          (prism.CommonPrefixSearch (input.drop x)).length) < fuel →
      ∃ st', mainLoop s input prism fuel st = .ok st' ∧ st'.farthest ≤ input.length := by
  intro fuel
  induction fuel with
  | zero => intro st _ _ h; omega
  | succ fuel ih =>
    intro st hb hf hfuel
    unfold mainLoop
    cases hq : st.queue with
    | nil => exact ⟨st, rfl, hf⟩
    | cons v q =>
      obtain ⟨st1, h1, h2, h3, h4⟩ := visit_ok s input prism hprism st v q hq hb hf
      simp only [h1]
      exact ih st1 h2 h3 (by omega)

theorem list_sum_range_eq (n : Nat) (cnt : Nat → Nat) :
    ((List.range n).map cnt).sum = ∑ x in Finset.range n, cnt x := by
  induction n with
  | zero => simp
  | succ n ih =>
    rw [List.range_succ, List.map_append, List.sum_append, ih, Finset.sum_range_succ]
    simp

/-- With a prism whose matches stay inside the input, the construction loop ends
within `loopBound` iterations and never looks beyond the input. -/
theorem mainLoop_terminates (s : Syllabifier) (input : List Char) (prism : Prism)
    (hprism : ∀ p, p ≤ input.length → ∀ m ∈ prism.CommonPrefixSearch (input.drop p),
      p + m.length ≤ input.length) (graph : SyllableGraph) :
    ∃ st, mainLoop s input prism (loopBound input prism)
        { graph := graph, queue := [(0, kNormalSpelling)], farthest := 0 } = .ok st ∧
      st.farthest ≤ input.length := by
  apply mainLoop_ok s input prism hprism
  · intro x hx
    simp only [List.mem_singleton] at hx
    rw [hx]
    exact Nat.zero_le _
  · exact Nat.zero_le _
  · unfold loopBound
    rw [list_sum_range_eq]
    have : (∑ x in (Finset.range (input.length + 1)).filter
          (fun x => graph.vertices.find? x = none),
          (prism.CommonPrefixSearch (input.drop x)).length) ≤
        ∑ x in Finset.range (input.length + 1),
          (prism.CommonPrefixSearch (input.drop x)).length :=
      Finset.sum_le_sum_of_subset (Finset.filter_subset _ _)
    simp only [List.length_singleton]
    omega

end Syllabifier
end Rime

namespace Rime
open SpellingType
namespace Syllabifier

theorem collectSpellings_mem (strict mi : Bool) (e : Nat)
    (l : List (SyllableId × SpellingProperties)) (acc : SpellingMap × SpellingType)
    (sp : SyllableId × SpellingProperties)
    (h : sp ∈ (collectSpellings strict mi e l acc).1) :
    sp ∈ acc.1 ∨ ∃ x ∈ l, ¬ (strict = true ∧ mi = true ∧ x.2.type ≠ kNormalSpelling) ∧
      sp = (x.1, { x.2 with end_pos := e }) := by
  induction l generalizing acc with
  | nil => exact Or.inl h
  | cons x l ih =>
    obtain ⟨sid, props⟩ := x
    obtain ⟨spellings, evt⟩ := acc
    simp only [collectSpellings] at h
    by_cases hc : (strict && mi && decide (props.type ≠ kNormalSpelling)) = true
    · rw [if_pos hc] at h
      rcases ih _ h with h1 | ⟨x, hx, h1⟩
      · exact Or.inl h1
      · exact Or.inr ⟨x, List.mem_cons_of_mem _ hx, h1⟩
    · rw [if_neg hc] at h
      rcases ih _ h with h1 | ⟨x, hx, h1⟩
      · rcases Map.mem_insert _ _ _ _ h1 with h2 | h2
        · right
          refine ⟨(sid, props), List.mem_cons_self _ _, ?_, h2⟩
          intro h3
          apply hc
          simp [h3.1, h3.2.1, h3.2.2]
        · exact Or.inl h2
      · exact Or.inr ⟨x, List.mem_cons_of_mem _ hx, h1⟩

/-- When the accessor yields every syllable id once, the best type computed for an edge
is the type of one of the spellings put on it. -/
theorem collectSpellings_best (strict mi : Bool) (e : Nat) :
    ∀ (l : List (SyllableId × SpellingProperties)) (acc : SpellingMap × SpellingType),
      (l.map Prod.fst).Nodup → (∀ x ∈ l, acc.1.find? x.1 = none) →
      ((∃ sp ∈ acc.1, sp.2.type ≤ acc.2) ∨ (acc.1 = [] ∧ acc.2 = kInvalidSpelling)) →
      ((∃ sp ∈ (collectSpellings strict mi e l acc).1,
          sp.2.type ≤ (collectSpellings strict mi e l acc).2) ∨
        ((collectSpellings strict mi e l acc).1 = [] ∧
          (collectSpellings strict mi e l acc).2 = kInvalidSpelling)) := by
  intro l
  induction l with
  | nil => intro acc _ _ h; exact h
  | cons x l ih =>
    intro acc hnd hkeys hacc
    obtain ⟨sid, props⟩ := x
    obtain ⟨spellings, evt⟩ := acc
    simp only [List.map_cons, List.nodup_cons] at hnd
    simp only [collectSpellings]
    by_cases hc : (strict && mi && decide (props.type ≠ kNormalSpelling)) = true
    · rw [if_pos hc]
      exact ih _ hnd.2 (fun y hy => hkeys y (List.mem_cons_of_mem _ hy)) hacc
    · rw [if_neg hc]
      have hnone : Map.find? spellings sid = none :=
        hkeys (sid, props) (List.mem_cons_self _ _)
      apply ih _ hnd.2
      · intro y hy
        simp only [Map.find?_insert]
        have hne : sid ≠ y.1 := by
          intro heq
          apply hnd.1
          rw [heq]
          exact List.mem_map_of_mem Prod.fst hy
        simp only [hne, if_false]
        exact hkeys y (List.mem_cons_of_mem _ hy)
      · left
        simp only
        by_cases hlt : props.type < evt
        · simp only [hlt, if_true]
          exact ⟨_, Map.mem_insert_self spellings sid _ hnone, Nat.le_refl _⟩
        · simp only [hlt, if_false]
          rcases hacc with ⟨sp, h1, h2⟩ | ⟨_, h2⟩
          · exact ⟨sp, Map.mem_insert_of_mem _ _ _ _ h1, h2⟩
          · refine ⟨_, Map.mem_insert_self spellings sid _ hnone, ?_⟩
            simp only at h2
            rw [h2]
            exact SpellingType.toNat_le_five _

theorem mem_keepSpellings (L : SpellingType) (sm : SpellingMap)
    (sp : SyllableId × SpellingProperties) :
    sp ∈ keepSpellings L sm ↔ sp ∈ sm ∧ ¬ L < sp.2.type := by
  unfold keepSpellings
  simp [List.mem_filter]

theorem keepSpellings_ne_nil (L : SpellingType) (sm : SpellingMap) :
    keepSpellings L sm ≠ [] ↔ ∃ sp ∈ sm, ¬ L < sp.2.type := by
  constructor
  · intro h
    cases hk : keepSpellings L sm with
    | nil => exact absurd hk h
    | cons a l =>
      have : a ∈ keepSpellings L sm := by rw [hk]; exact List.mem_cons_self _ _
      exact ⟨a, (mem_keepSpellings L sm a).mp this⟩
  · rintro ⟨sp, h1, h2⟩ hnil
    have := (mem_keepSpellings L sm sp).mpr ⟨h1, h2⟩
    rw [hnil] at this
    cases this

/-- An edge of the graph returned is the completion edge `farthest → |input|`, or
an edge the pruning pass left. -/
theorem final_edge (s : Syllabifier) (input : List Char) (prism : Prism)
    (g0 g' : SyllableGraph) (L : SpellingType) (f : Nat) (good : List Nat)
    (hb : Built g0 f) (pinv : PruneInv g0 L f 0 g' good) (a b : Nat) (sm : SpellingMap)
    (h : (complete s input prism g' f).1.edge? a b = some sm) :
    (a = f ∧ b = input.length ∧ f < input.length) ∨ g'.edge? a b = some sm := by
  by_cases hab : a = f ∧ b = input.length
  · left
    refine ⟨hab.1, hab.2, ?_⟩
    rcases complete_cases s input prism g' f with ⟨_, h1⟩ | ⟨h1, _⟩
    · rw [h1, hab.1, PruneInv_no_edge_from hb pinv f b (le_refl f)] at h
      cases h
    · exact h1.2.1
  · right
    rw [complete_edge_other s input prism g' f a b (by tauto)] at h
    exact h

end Syllabifier
end Rime

namespace Rime
open SpellingType

theorem SpellingType.not_max_lt (a b : SpellingType) : ¬ SpellingType.max a b < a := by
  unfold SpellingType.max
  split
  · rename_i h
    simp only [SpellingType.lt_def] at *
    omega
  · simp only [SpellingType.lt_def]
    omega

namespace Syllabifier

/-- With the two conditions on the prism, the edge through which a vertex got its type
is in the graph and carries a spelling no worse than that type. -/
theorem vertex_in_edge (s : Syllabifier) (input : List Char) (prism : Prism)
    (st : LoopState) (inv : LoopInv s input prism st)
    (hends : ∀ p, p ≤ input.length →
      (((prism.CommonPrefixSearch (input.drop p)).filter (fun m => m.length ≠ 0)).map
        (endPosOf s input p)).Nodup)
    (hids : ∀ p, p ≤ input.length → ∀ m ∈ prism.CommonPrefixSearch (input.drop p),
      ((prism.QuerySpelling m.value).map Prod.fst).Nodup)
    (p : Nat) (t : SpellingType) (hp : 0 < p) (hv : st.graph.vertices.find? p = some t) :
    ∃ u tu sm sp, u < p ∧ st.graph.vertices.find? u = some tu ∧
      st.graph.edge? u p = some sm ∧ sp ∈ sm ∧ tu ≤ t ∧ sp.2.type ≤ t := by
  rcases inv.vprov p t hv with ⟨h0, _⟩ | ⟨u, tu, m, hu, hm, hl, hpe, hne, ht⟩
  · omega
  · obtain ⟨sm, hsm⟩ := inv.complete u tu hu m hm hl hne
    rw [← hpe] at hsm
    obtain ⟨row, h1, h2⟩ := (SyllableGraph.edge?_eq_some _ u p sm).mp hsm
    obtain ⟨m', hm', hl', hun, hpe', hsm', _⟩ := inv.prov u row p sm h1 h2
    have hmm : m' = m := by
      apply List.inj_on_of_nodup_map (hends u hun)
      · simp only [List.mem_filter, decide_eq_true_eq]
        exact ⟨hm', hl'⟩
      · simp only [List.mem_filter, decide_eq_true_eq]
        exact ⟨hm, hl⟩
      · rw [← hpe, ← hpe']
    subst hmm
    have hbest := collectSpellings_best s.strict_spelling_
      (decide (u = 0) && decide (endPosOf s input u m' = input.length))
      (endPosOf s input u m') (prism.QuerySpelling m'.value) ([], kInvalidSpelling)
      (hids u hun m' hm') (fun _ _ => rfl) (Or.inr ⟨rfl, rfl⟩)
    have hbest' : (∃ sp ∈ (spellingsOf s input prism u m').1,
          sp.2.type ≤ (spellingsOf s input prism u m').2) ∨
        ((spellingsOf s input prism u m').1 = [] ∧
          (spellingsOf s input prism u m').2 = kInvalidSpelling) := hbest
    rcases hbest' with ⟨sp, hsp1, hsp2⟩ | ⟨hnil, _⟩
    · refine ⟨u, tu, sm, sp, ?_, hu, hsm, by rw [hsm']; exact hsp1, ?_, ?_⟩
      · rw [hpe]; exact endPosOf_gt s input u m' hl
      · rw [ht]
        split
        · exact Nat.le_refl _
        · rename_i hlt
          simp only [SpellingType.lt_def, SpellingType.le_def] at *
          omega
      · rw [ht]
        split
        · rename_i hlt
          simp only [SpellingType.lt_def, SpellingType.le_def] at *
          omega
        · exact hsp2
    · exact absurd hnil hne

/-- Every vertex the pruning pass keeps is reached from position 0 through edges it
keeps. -/
theorem pruned_path_from_zero (s : Syllabifier) (input : List Char) (prism : Prism)
    (st : LoopState) (inv : LoopInv s input prism st) (hb : Built st.graph st.farthest)
    (good : List Nat) (g' : SyllableGraph)
    (pinv : PruneInv st.graph
      (SpellingType.max ((st.graph.vertices.find? st.farthest).getD kNormalSpelling)
        kFuzzySpelling) st.farthest 0 g' good)
    (hends : ∀ p, p ≤ input.length →
      (((prism.CommonPrefixSearch (input.drop p)).filter (fun m => m.length ≠ 0)).map
        (endPosOf s input p)).Nodup)
    (hids : ∀ p, p ≤ input.length → ∀ m ∈ prism.CommonPrefixSearch (input.drop p),
      ((prism.QuerySpelling m.value).map Prod.fst).Nodup)
    (R : Nat → Nat → Prop)
    (hR : ∀ a b sm, a < st.farthest → g'.edge? a b = some sm → R a b) :
    ∀ n p, p ≤ n → p ∈ good → Relation.ReflTransGen R 0 p := by
  intro n
  induction n with
  | zero =>
    intro p hp _
    have : p = 0 := by omega
    subst this
    exact Relation.ReflTransGen.refl
  | succ n ih =>
    intro p hp hg
    by_cases hp0 : p = 0
    · subst hp0; exact Relation.ReflTransGen.refl
    · obtain ⟨t, ht⟩ := ((pinv.good_iff p).mp hg).2
      obtain ⟨t0, ht0, _⟩ := pinv.v_sub p t ht
      have hpf : p ≤ st.farthest := hb.vle p t0 ht0
      have hL : ¬ SpellingType.max ((st.graph.vertices.find? st.farthest).getD kNormalSpelling)
          kFuzzySpelling < t0 := by
        by_cases hlt : p < st.farthest
        · obtain ⟨t1, ht1, h1, _⟩ := (pinv.good_char p (Nat.zero_le p) hlt).mp hg
          rw [ht0] at ht1
          injection ht1 with ht1
          rw [ht1]; exact h1
        · have : p = st.farthest := by omega
          rw [← this, ht0]
          exact SpellingType.not_max_lt _ _
      obtain ⟨u, tu, sm, sp, hup, hu, hsm, hsp, h1, h2⟩ :=
        vertex_in_edge s input prism st inv hends hids p t0 (Nat.pos_of_ne_zero hp0) ht0
      have huf : u < st.farthest := by omega
      have hk : keepSpellings (SpellingType.max
          ((st.graph.vertices.find? st.farthest).getD kNormalSpelling) kFuzzySpelling) sm ≠ [] := by
        rw [keepSpellings_ne_nil]
        refine ⟨sp, hsp, ?_⟩
        simp only [SpellingType.lt_def, SpellingType.le_def] at *
        omega
      have hug : u ∈ good := by
        rw [pinv.good_char u (Nat.zero_le u) huf]
        refine ⟨tu, hu, ?_, p, sm, hg, hsm, hk⟩
        simp only [SpellingType.lt_def, SpellingType.le_def] at *
        omega
      have hedge := (pinv.mid_e u p _ (Nat.zero_le u) huf).mpr ⟨hug, hg, sm, hsm, rfl, hk⟩
      exact Relation.ReflTransGen.tail (ih u (by omega) hug) (hR u p _ huf hedge)

/-- From every vertex the pruning pass keeps, the edges it keeps lead to `farthest`. -/
theorem pruned_path_to_farthest (g0 : SyllableGraph) (L : SpellingType) (f : Nat)
    (hb : Built g0 f) (good : List Nat) (g' : SyllableGraph)
    (pinv : PruneInv g0 L f 0 g' good) (R : Nat → Nat → Prop)
    (hR : ∀ a b sm, a < f → g'.edge? a b = some sm → R a b) :
    ∀ n p, f - p ≤ n → p ∈ good → Relation.ReflTransGen R p f := by
  intro n
  induction n with
  | zero =>
    intro p hp hg
    obtain ⟨t, ht⟩ := ((pinv.good_iff p).mp hg).2
    obtain ⟨t0, ht0, _⟩ := pinv.v_sub p t ht
    have := hb.vle p t0 ht0
    have : p = f := by omega
    subst this
    exact Relation.ReflTransGen.refl
  | succ n ih =>
    intro p hp hg
    by_cases hpf : p < f
    · obtain ⟨t0, _, _, j, sm0, hj, hsm0, hk⟩ := (pinv.good_char p (Nat.zero_le p) hpf).mp hg
      have hedge := (pinv.mid_e p j _ (Nat.zero_le p) hpf).mpr ⟨hg, hj, sm0, hsm0, rfl, hk⟩
      have hlt := Built_fwd_edge hb hsm0
      exact Relation.ReflTransGen.head (hR p j _ hpf hedge) (ih j (by omega) hj)
    · obtain ⟨t, ht⟩ := ((pinv.good_iff p).mp hg).2
      obtain ⟨t0, ht0, _⟩ := pinv.v_sub p t ht
      have := hb.vle p t0 ht0
      have : p = f := by omega
      subst this
      exact Relation.ReflTransGen.refl

end Syllabifier
end Rime

namespace Rime
open SpellingType
namespace Syllabifier

theorem transposeSpellings_find? (sm : SpellingMap) (index : SpellingIndex)
    (hwf : Map.WF sm) (sid : SyllableId) :
    (transposeSpellings sm index).find? sid =
      match sm.find? sid with
      | none => index.find? sid
      | some p => some ((index.find? sid).getD [] ++ [p]) := by
  induction sm generalizing index with
  | nil => rfl
  | cons e rest ih =>
    have h' := Map.WF_cons.mp hwf
    simp only [transposeSpellings]
    rw [ih _ h'.2, Map.find?_cons]
    by_cases hk : e.1 = sid
    · subst hk
      have hnone : Map.find? rest e.1 = none := by
        rw [← Map.not_mem_keys_iff]
        intro hmem
        exact lt_irrefl _ (h'.1 e.1 hmem)
      simp only [hnone, if_true, Map.find?_set]
    · simp only [hk, if_false, Map.find?_set]

theorem transposeEnds_find? (ends : List (Nat × SpellingMap)) (index : SpellingIndex)
    (hwf : ∀ e ∈ ends, Map.WF e.2) (sid : SyllableId) :
    (transposeEnds ends index).find? sid =
      if ends.filterMap (fun e => e.2.find? sid) = [] then index.find? sid
      else some ((index.find? sid).getD [] ++ ends.filterMap (fun e => e.2.find? sid)) := by
  induction ends generalizing index with
  | nil => simp [transposeEnds]
  | cons e rest ih =>
    simp only [transposeEnds]
    rw [ih _ (fun x hx => hwf x (List.mem_cons_of_mem _ hx)),
      transposeSpellings_find? e.2 index (hwf e (List.mem_cons_self _ _)) sid,
      List.filterMap_cons]
    cases hf : Map.find? e.2 sid with
    | none => simp only
    | some p =>
      simp only [Option.getD_some, List.append_assoc, List.singleton_append]
      by_cases hr : rest.filterMap (fun e => Map.find? e.2 sid) = []
      · simp [hr]
      · simp [hr]

theorem transposeStarts_find? (starts : List (Nat × EndVertexMap))
    (indices : Map Nat SpellingIndex) (hwf : Map.WF starts) (i : Nat) :
    (transposeStarts starts indices).find? i =
      match Map.find? starts i with
      | none => indices.find? i
      | some row => some (transposeEnds row.reverse ((indices.find? i).getD [])) := by
  induction starts generalizing indices with
  | nil => rfl
  | cons e rest ih =>
    have h' := Map.WF_cons.mp hwf
    simp only [transposeStarts]
    rw [ih _ h'.2, Map.find?_cons]
    by_cases hk : e.1 = i
    · subst hk
      have hnone : Map.find? rest e.1 = none := by
        rw [← Map.not_mem_keys_iff]
        intro hmem
        exact lt_irrefl _ (h'.1 e.1 hmem)
      simp only [hnone, if_true, Map.find?_set]
    · simp only [hk, if_false, Map.find?_set]

/-- The index that `Transpose` builds from empty indices: per start position and
syllable id, the properties found on the edges of that start, longest edge first. -/
theorem Transpose_index? (g : SyllableGraph) (hidx : g.indices = []) (hwf : g.EdgesWF)
    (i : Nat) (sid : SyllableId) :
    (Transpose g).index? i sid =
      if ((g.edges.find? i).getD []).reverse.filterMap (fun e => e.2.find? sid) = [] then none
      else some (((g.edges.find? i).getD []).reverse.filterMap (fun e => e.2.find? sid)) := by
  unfold SyllableGraph.index? Transpose
  simp only
  rw [transposeStarts_find? g.edges g.indices hwf.1 i, hidx]
  cases hrow : g.edges.find? i with
  | none => simp [Map.find?]
  | some row =>
    simp only [Option.some_bind, Option.getD_some]
    have hmem : (i, row) ∈ g.edges := Map.mem_of_find? hrow
    rw [transposeEnds_find? row.reverse _
      (fun e he => (hwf.2 (i, row) hmem).2 e (List.mem_reverse.mp he)) sid]
    simp [Map.find?]

end Syllabifier
end Rime

namespace Rime
open SpellingType
namespace Syllabifier

/-- With a prism whose matches stay inside the input, `BuildSyllableGraph` returns. -/
theorem Build_returns (s : Syllabifier) (input : List Char) (prism : Prism)
    (graph : SyllableGraph)
    (hprism : ∀ p, p ≤ input.length → ∀ m ∈ prism.CommonPrefixSearch (input.drop p),
      p + m.length ≤ input.length) :
    ∃ g r, s.BuildSyllableGraph input prism graph = .ok (g, r) := by
  obtain ⟨st, h1, _⟩ := mainLoop_terminates s input prism hprism graph
  unfold BuildSyllableGraph
  by_cases hne : input.isEmpty = true
  · rw [if_pos hne]
    exact ⟨_, _, rfl⟩
  · rw [if_neg hne]
    simp only [h1]
    exact ⟨_, _, rfl⟩

end Syllabifier
end Rime

namespace Rime
open SpellingType

/-! ## The claims -/

/-- Claim C1. For a non-empty input and a prism whose matches are no longer than the
remaining input, `BuildSyllableGraph` returns on an empty graph, and every edge `(i, j)`
of the graph it produces ends at `j = |input|`, or at a `j < |input|` where `input[j]`
is not a delimiter. -/
theorem C1_edge_ends_after_delimiters (s : Syllabifier) (input : List Char) (prism : Prism)
    (hne : input ≠ [])
    (hprism : ∀ p, p ≤ input.length → ∀ m ∈ prism.CommonPrefixSearch (input.drop p),
      p + m.length ≤ input.length) :
    ∃ g r, s.BuildSyllableGraph input prism {} = .ok (g, r) ∧
      ∀ i j, g.hasEdge i j →
        j = input.length ∨
          (j < input.length ∧ ∀ c, input[j]? = some c → c ∉ s.delimiters_) := by
  obtain ⟨g, r, h⟩ := Syllabifier.Build_returns s input prism {} hprism
  refine ⟨g, r, h, ?_⟩
  obtain ⟨st, good, inv, _, hb, pinv, _, _, he, _, _⟩ :=
    Syllabifier.Build_fresh s input prism g r hne h
  rintro i j ⟨sm, hsm⟩
  by_cases hj : j = input.length
  · exact Or.inl hj
  · rw [he, Syllabifier.complete_edge_other s input prism _ _ i j (Or.inr hj)] at hsm
    obtain ⟨_, _, _, sm0, h0, _, _⟩ := Syllabifier.PruneInv_edge_sub hb pinv i j sm hsm
    obtain ⟨row, h1, h2⟩ := (SyllableGraph.edge?_eq_some _ i j sm0).mp h0
    obtain ⟨m, hm, _, hi, hjm, _⟩ := inv.prov i row j sm0 h1 h2
    rw [hjm]
    exact Syllabifier.endPosOf_spec s input i m (hprism i hi m hm)

/-- Claim C1 on the input `ni'hao`, whose graph has the edges `0 → 3` (the delimiter
consumed) and `3 → 6`. -/
theorem C1_edge_ends_after_delimiters_witness :
    Examples.niHao ≠ [] ∧
    (∀ p, p ≤ Examples.niHao.length →
      ∀ m ∈ Examples.niHaoPrism.CommonPrefixSearch (Examples.niHao.drop p),
        p + m.length ≤ Examples.niHao.length) ∧
    ∃ g r, Syllabifier.BuildSyllableGraph ⟨[Examples.apostrophe], false, false⟩
        Examples.niHao Examples.niHaoPrism {} = .ok (g, r) ∧
      ∀ i j, g.hasEdge i j →
        j = Examples.niHao.length ∨
          (j < Examples.niHao.length ∧
            ∀ c, Examples.niHao[j]? = some c → c ∉ [Examples.apostrophe]) :=
  ⟨by decide, by decide,
    C1_edge_ends_after_delimiters ⟨[Examples.apostrophe], false, false⟩ Examples.niHao
      Examples.niHaoPrism (by decide) (by decide)⟩

/-- Claim C6, as the code has it. For the input `ni'hao` with the delimiter `'` and a
prism whose only matches are `ni` and `hao`, one Normal syllable each,
`BuildSyllableGraph` yields the vertices `{0, 3, 6}`, all Normal, the edges `0 → 3` and
`3 → 6`, and `interpreted_length = 6`, whatever the two other knobs are: the delimiter
is consumed into the first edge. -/
theorem C6_ni_hao (enable_completion strict_spelling : Bool) :
    Syllabifier.BuildSyllableGraph ⟨[Examples.apostrophe], enable_completion, strict_spelling⟩
      Examples.niHao Examples.niHaoPrism {} = .ok (Examples.niHaoGraph, 6) := by
  cases enable_completion <;> cases strict_spelling <;> rfl

/-- Claim C6 as stated fails: the graph built for `ni'hao` has no vertex at position 2
and no edge `0 → 2`. -/
theorem C6_ni_hao_counterexample :
    ¬ ∃ g r, Syllabifier.BuildSyllableGraph ⟨[Examples.apostrophe], false, false⟩
        Examples.niHao Examples.niHaoPrism {} = .ok (g, r) ∧
      g.vertices = [(0, kNormalSpelling), (2, kNormalSpelling), (6, kNormalSpelling)] ∧
      g.hasEdge 0 2 ∧ g.hasEdge 2 6 ∧ g.interpreted_length = 6 := by
  rintro ⟨g, r, h, hv, _⟩
  have h' : Syllabifier.BuildSyllableGraph ⟨[Examples.apostrophe], false, false⟩
      Examples.niHao Examples.niHaoPrism {} = .ok (Examples.niHaoGraph, 6) := rfl
  rw [h'] at h
  injection h with h
  injection h with h1 h2
  rw [← h1] at hv
  revert hv
  decide

/-- Claim C5 at its failing input. For the input `abc` and a prism with the keys `a`
(an abbreviation), `ab`, `b`, `bc` and `c`, the graph returned marks vertex 2 Ambiguous
although its only edges are `0 → 2` and `2 → 3`: the mark was set while the edges `1 → 2`
and `1 → 3` were still there, and position 1 was dropped afterwards. -/
theorem C5_stale_ambiguous_mark :
    Syllabifier.BuildSyllableGraph ⟨[Examples.apostrophe], false, false⟩ Examples.abc
      Examples.abcPrism {} = .ok (Examples.abcGraph, 3) ∧
    Examples.abcGraph.vertices.find? 2 = some kAmbiguousSpelling ∧
    ¬ ∃ i k, i < 2 ∧ 2 < k ∧ Examples.abcGraph.hasEdge i 2 ∧ Examples.abcGraph.hasEdge 2 k ∧
      Examples.abcGraph.hasEdge i k := by
  refine ⟨rfl, rfl, ?_⟩
  rintro ⟨i, k, hi, _, _, _, ⟨sm, h⟩⟩
  have hi' : i = 0 ∨ i = 1 := by omega
  rcases hi' with hi' | hi' <;> subst hi'
  · have h2 : Examples.abcGraph.edge? 0 k = if 2 = k then some [(2, { end_pos := 2 })]
        else none := by
      by_cases hk : 2 = k
      · subst hk; rfl
      · simp [SyllableGraph.edge?, Examples.abcGraph, Map.find?, hk]
    rw [h2] at h
    split at h
    · omega
    · cases h
  · have h2 : Examples.abcGraph.edge? 1 k = none := rfl
    rw [h2] at h
    cases h

/-- Claim C8. For a non-empty input and a prism whose matches are no longer than the
remaining input, `BuildSyllableGraph` returns, with `graph.input_length = |input|`,
`graph.interpreted_length` the value returned, and
`interpreted_length ≤ input_length`, whatever graph it is given. -/
theorem C8_lengths (s : Syllabifier) (input : List Char) (prism : Prism)
    (graph : SyllableGraph) (hne : input ≠ [])
    (hprism : ∀ p, p ≤ input.length → ∀ m ∈ prism.CommonPrefixSearch (input.drop p),
      p + m.length ≤ input.length) :
    ∃ g r, s.BuildSyllableGraph input prism graph = .ok (g, r) ∧
      g.input_length = input.length ∧ g.interpreted_length = r ∧
      g.interpreted_length ≤ g.input_length := by
  obtain ⟨st, h1, h2⟩ := Syllabifier.mainLoop_terminates s input prism hprism graph
  have hne' : input.isEmpty = false := by
    cases input with
    | nil => exact absurd rfl hne
    | cons a l => rfl
  refine ⟨Syllabifier.Transpose
      { (Syllabifier.complete s input prism
          (Syllabifier.prune st.graph st.farthest) st.farthest).1 with
        input_length := input.length
        interpreted_length := (Syllabifier.complete s input prism
          (Syllabifier.prune st.graph st.farthest) st.farthest).2 },
    (Syllabifier.complete s input prism
      (Syllabifier.prune st.graph st.farthest) st.farthest).2, ?_, rfl, rfl, ?_⟩
  · unfold Syllabifier.BuildSyllableGraph
    simp only [hne', Bool.false_eq_true, if_false, h1]
  · show (Syllabifier.complete s input prism
      (Syllabifier.prune st.graph st.farthest) st.farthest).2 ≤ input.length
    rcases Syllabifier.complete_cases s input prism
      (Syllabifier.prune st.graph st.farthest) st.farthest with ⟨_, h3⟩ | ⟨_, h3 | h3⟩
    · rw [h3]; exact h2
    · rw [h3.2.1]; exact h2
    · rw [h3.2.1]

/-- Claim C8 on the input `ni'hao`. -/
theorem C8_lengths_witness :
    Examples.niHao ≠ [] ∧
    (∀ p, p ≤ Examples.niHao.length →
      ∀ m ∈ Examples.niHaoPrism.CommonPrefixSearch (Examples.niHao.drop p),
        p + m.length ≤ Examples.niHao.length) ∧
    ∃ g r, Syllabifier.BuildSyllableGraph ⟨[Examples.apostrophe], false, false⟩
        Examples.niHao Examples.niHaoPrism {} = .ok (g, r) ∧
      g.input_length = Examples.niHao.length ∧ g.interpreted_length = r ∧
      g.interpreted_length ≤ g.input_length :=
  ⟨by decide, by decide,
    C8_lengths ⟨[Examples.apostrophe], false, false⟩ Examples.niHao Examples.niHaoPrism {}
      (by decide) (by decide)⟩

/-- Claim C10 as stated fails: when nothing matches, vertex 0 is there and no edge
leaves it. -/
theorem C10_vertex_zero_counterexample :
    Syllabifier.BuildSyllableGraph ⟨[Examples.apostrophe], false, false⟩ ['a']
      (Examples.tablePrism []) {} = .ok (Examples.loneGraph, 0) ∧
    ¬ ((∃ t, Examples.loneGraph.vertices.find? 0 = some t) ↔
      ∃ j, Examples.loneGraph.hasEdge 0 j) := by
  refine ⟨rfl, ?_⟩
  intro h
  obtain ⟨j, sm, hj⟩ := h.mp ⟨kNormalSpelling, rfl⟩
  simp [SyllableGraph.edge?, Examples.loneGraph, Map.find?] at hj

/-- Claim C7. With strict spelling on and completion off, for a non-empty input, every
spelling on the edge from 0 to `|input|` of the graph built from an empty graph is
Normal; and when every match found at position 0 that ends at `|input|` has only
non-Normal spellings in the prism, the graph has no edge from 0 to `|input|`. -/
theorem C7_strict_whole_input (s : Syllabifier) (input : List Char) (prism : Prism)
    (g : SyllableGraph) (r : Nat) (hstrict : s.strict_spelling_ = true)
    (hcompletion : s.enable_completion_ = false) (hne : input ≠ [])
    (h : s.BuildSyllableGraph input prism {} = .ok (g, r)) :
    (∀ sm, g.edge? 0 input.length = some sm → ∀ sp ∈ sm, sp.2.type = kNormalSpelling) ∧
    ((∀ m ∈ prism.CommonPrefixSearch input, m.length ≠ 0 →
        Syllabifier.endPosOf s input 0 m = input.length →
        ∀ sp ∈ prism.QuerySpelling m.value, sp.2.type ≠ kNormalSpelling) →
      ¬ g.hasEdge 0 input.length) := by
  obtain ⟨st, good, inv, _, hb, pinv, _, _, he, _, _⟩ :=
    Syllabifier.Build_fresh s input prism g r hne h
  have key : ∀ sm, g.edge? 0 input.length = some sm →
      sm ≠ [] ∧ ∃ m ∈ prism.CommonPrefixSearch input, m.length ≠ 0 ∧
        Syllabifier.endPosOf s input 0 m = input.length ∧
        ∀ sp ∈ sm, sp.2.type = kNormalSpelling ∧
          ∃ x ∈ prism.QuerySpelling m.value, x.2.type = kNormalSpelling := by
    intro sm hsm
    rw [he] at hsm
    rcases Syllabifier.complete_cases s input prism
      (Syllabifier.prune st.graph st.farthest) st.farthest with ⟨_, h1⟩ | ⟨h1, _⟩
    · rw [h1] at hsm
      obtain ⟨_, _, _, sm0, h0, hk, hnil⟩ :=
        Syllabifier.PruneInv_edge_sub hb pinv 0 input.length sm hsm
      obtain ⟨row, h2, h3⟩ := (SyllableGraph.edge?_eq_some _ 0 input.length sm0).mp h0
      obtain ⟨m, hm, hl, _, hjm, hsm0, _⟩ := inv.prov 0 row input.length sm0 h2 h3
      refine ⟨hnil, m, hm, hl, hjm.symm, ?_⟩
      intro sp hsp
      rw [hk, Syllabifier.mem_keepSpellings] at hsp
      have hsp0 := hsp.1
      rw [hsm0] at hsp0
      unfold Syllabifier.spellingsOf at hsp0
      rcases Syllabifier.collectSpellings_mem _ _ _ _ _ sp hsp0 with h4 | ⟨x, hx, h4, h5⟩
      · cases h4
      · have hx' : x.2.type = kNormalSpelling := by
          by_contra hxn
          apply h4
          refine ⟨hstrict, ?_, hxn⟩
          simp [← hjm]
        refine ⟨?_, x, hx, hx'⟩
        rw [h5]
        exact hx'
    · rw [hcompletion] at h1
      exact absurd h1.1 (by decide)
  refine ⟨fun sm hsm sp hsp => (((key sm hsm).2.choose_spec).2.2.2 sp hsp).1, ?_⟩
  rintro hall ⟨sm, hsm⟩
  obtain ⟨hnil, m, hm, hl, hend, hsp⟩ := key sm hsm
  cases sm with
  | nil => exact hnil rfl
  | cons a l =>
    obtain ⟨_, x, hx, hxn⟩ := hsp a (List.mem_cons_self _ _)
    exact hall m hm hl hend x hx hxn

/-- Claim C7 on the input `nh`, where `nh` spells one syllable as an abbreviation and
another normally: only the Normal spelling is on the edge `0 → 2`. -/
theorem C7_strict_whole_input_witness :
    (⟨[Examples.apostrophe], false, true⟩ : Syllabifier).strict_spelling_ = true ∧
    (⟨[Examples.apostrophe], false, true⟩ : Syllabifier).enable_completion_ = false ∧
    Examples.nh ≠ [] ∧
    Syllabifier.BuildSyllableGraph ⟨[Examples.apostrophe], false, true⟩ Examples.nh
      Examples.nhPrism {} = .ok (Examples.nhGraph, 2) ∧
    (∀ sm, Examples.nhGraph.edge? 0 Examples.nh.length = some sm →
      ∀ sp ∈ sm, sp.2.type = kNormalSpelling) ∧
    ((∀ m ∈ Examples.nhPrism.CommonPrefixSearch Examples.nh, m.length ≠ 0 →
        Syllabifier.endPosOf ⟨[Examples.apostrophe], false, true⟩ Examples.nh 0 m =
          Examples.nh.length →
        ∀ sp ∈ Examples.nhPrism.QuerySpelling m.value, sp.2.type ≠ kNormalSpelling) →
      ¬ Examples.nhGraph.hasEdge 0 Examples.nh.length) :=
  ⟨rfl, rfl, by decide, rfl,
    C7_strict_whole_input ⟨[Examples.apostrophe], false, true⟩ Examples.nh Examples.nhPrism
      Examples.nhGraph 2 rfl rfl (by decide) rfl⟩

/-- Claim C9. Let `v` be the largest position in the vertices of the graph built from
an empty graph for a non-empty input. If completion is enabled, `v < |input|` and
`ExpandSearch` yields a key of length at least `|input| - v` with a spelling better than
Abbreviation, the value returned is `|input|` and the graph has an edge `v → |input|`
all of whose spellings are of type Completion with `end_pos = |input|`; otherwise the
value returned is `v` and the graph has no edge `v → |input|`. -/
theorem C9_completion (s : Syllabifier) (input : List Char) (prism : Prism)
    (g : SyllableGraph) (r v : Nat) (hne : input ≠ [])
    (h : s.BuildSyllableGraph input prism {} = .ok (g, r))
    (hv : ∃ t, g.vertices.find? v = some t)
    (hmax : ∀ p t, g.vertices.find? p = some t → p ≤ v) :
    ((s.enable_completion_ = true ∧ v < input.length ∧
        ∃ m ∈ prism.ExpandSearch (input.drop v) 512, input.length - v ≤ m.length ∧
          ∃ sp ∈ prism.QuerySpelling m.value, sp.2.type < kAbbreviation) →
      r = input.length ∧ ∃ sm, g.edge? v input.length = some sm ∧
        ∀ sp ∈ sm, sp.2.type = kCompletion ∧ sp.2.end_pos = input.length) ∧
    (¬ (s.enable_completion_ = true ∧ v < input.length ∧
        ∃ m ∈ prism.ExpandSearch (input.drop v) 512, input.length - v ≤ m.length ∧
          ∃ sp ∈ prism.QuerySpelling m.value, sp.2.type < kAbbreviation) →
      r = v ∧ ¬ g.hasEdge v input.length) := by
  obtain ⟨st, good, inv, _, hb, pinv, hr, hvs, he, _, _⟩ :=
    Syllabifier.Build_fresh s input prism g r hne h
  rw [hvs] at hv hmax
  have hvf : v = st.farthest := by
    obtain ⟨t, ht⟩ := ((pinv.good_iff st.farthest).mp pinv.f_good).2
    have h1 := hmax _ t ht
    obtain ⟨t', ht'⟩ := hv
    obtain ⟨t0, h0, _⟩ := pinv.v_sub v t' ht'
    have h2 := hb.vle v t0 h0
    omega
  subst hvf
  have hnone := Syllabifier.PruneInv_no_edge_from hb pinv st.farthest input.length (le_refl _)
  have hck := Syllabifier.completeKeys_ne_nil prism (input.length - st.farthest) input.length
    (prism.ExpandSearch (input.drop st.farthest) 512) []
  rcases Syllabifier.complete_cases s input prism
    (Syllabifier.prune st.graph st.farthest) st.farthest with ⟨h1, h2⟩ | ⟨h1, h2 | h2⟩
  · have hno : ¬ (s.enable_completion_ = true ∧ st.farthest < input.length ∧
        ∃ m ∈ prism.ExpandSearch (input.drop st.farthest) 512,
          input.length - st.farthest ≤ m.length ∧
          ∃ sp ∈ prism.QuerySpelling m.value, sp.2.type < kAbbreviation) := by
      rintro ⟨c1, c2, m, hm, _⟩
      apply h1
      refine ⟨c1, c2, ?_⟩
      intro hnil
      rw [hnil] at hm
      cases hm
    refine ⟨fun hc => absurd hc hno, fun _ => ?_⟩
    rw [h2] at hr
    refine ⟨hr, ?_⟩
    rintro ⟨sm, hsm⟩
    rw [he, h2, hnone] at hsm
    cases hsm
  · rw [hnone, Option.getD_none] at h2
    have hno : ¬ (s.enable_completion_ = true ∧ st.farthest < input.length ∧
        ∃ m ∈ prism.ExpandSearch (input.drop st.farthest) 512,
          input.length - st.farthest ≤ m.length ∧
          ∃ sp ∈ prism.QuerySpelling m.value, sp.2.type < kAbbreviation) := by
      rintro ⟨_, _, hex⟩
      exact (hck.mpr (Or.inr hex)) h2.1
    refine ⟨fun hc => absurd hc hno, fun _ => ?_⟩
    rw [h2.2.1] at hr
    refine ⟨hr, ?_⟩
    rintro ⟨sm, hsm⟩
    rw [he, h2.2.2] at hsm
    cases hsm
  · rw [hnone, Option.getD_none] at h2
    have hyes : s.enable_completion_ = true ∧ st.farthest < input.length ∧
        ∃ m ∈ prism.ExpandSearch (input.drop st.farthest) 512,
          input.length - st.farthest ≤ m.length ∧
          ∃ sp ∈ prism.QuerySpelling m.value, sp.2.type < kAbbreviation := by
      refine ⟨h1.1, h1.2.1, ?_⟩
      rcases hck.mp h2.1 with h3 | h3
      · exact absurd rfl h3
      · exact h3
    refine ⟨fun _ => ?_, fun hc => absurd hyes hc⟩
    rw [h2.2.1] at hr
    refine ⟨hr, _, by rw [he]; exact h2.2.2, ?_⟩
    intro sp hsp
    rcases Syllabifier.completeKeys_mem prism _ _ _ [] sp hsp with h3 | h3
    · cases h3
    · exact h3

/-- Claim C9 on the input `zho` with the single key `zhong`: nothing matches, so the
largest vertex is 0, and the completion step adds the edge `0 → 3`. -/
theorem C9_completion_witness :
    Examples.zho ≠ [] ∧
    Syllabifier.BuildSyllableGraph ⟨[Examples.apostrophe], true, false⟩ Examples.zho
      Examples.zhongPrism {} = .ok (Examples.zhoGraph, 3) ∧
    (∃ t, Examples.zhoGraph.vertices.find? 0 = some t) ∧
    (∀ p t, Examples.zhoGraph.vertices.find? p = some t → p ≤ 0) ∧
    (((⟨[Examples.apostrophe], true, false⟩ : Syllabifier).enable_completion_ = true ∧
        0 < Examples.zho.length ∧
        ∃ m ∈ Examples.zhongPrism.ExpandSearch (Examples.zho.drop 0) 512,
          Examples.zho.length - 0 ≤ m.length ∧
          ∃ sp ∈ Examples.zhongPrism.QuerySpelling m.value, sp.2.type < kAbbreviation) →
      3 = Examples.zho.length ∧ ∃ sm, Examples.zhoGraph.edge? 0 Examples.zho.length = some sm ∧
        ∀ sp ∈ sm, sp.2.type = kCompletion ∧ sp.2.end_pos = Examples.zho.length) ∧
    (¬ ((⟨[Examples.apostrophe], true, false⟩ : Syllabifier).enable_completion_ = true ∧
        0 < Examples.zho.length ∧
        ∃ m ∈ Examples.zhongPrism.ExpandSearch (Examples.zho.drop 0) 512,
          Examples.zho.length - 0 ≤ m.length ∧
          ∃ sp ∈ Examples.zhongPrism.QuerySpelling m.value, sp.2.type < kAbbreviation) →
      3 = 0 ∧ ¬ Examples.zhoGraph.hasEdge 0 Examples.zho.length) :=
  have hmax : ∀ p t, Examples.zhoGraph.vertices.find? p = some t → p ≤ 0 := by
    intro p t hp
    by_contra hlt
    have hp0 : (0 : Nat) ≠ p := by omega
    simp [Examples.zhoGraph, Map.find?, hp0] at hp
  ⟨by decide, rfl, ⟨kNormalSpelling, rfl⟩, hmax,
    C9_completion ⟨[Examples.apostrophe], true, false⟩ Examples.zho Examples.zhongPrism
      Examples.zhoGraph 3 0 (by decide) rfl ⟨kNormalSpelling, rfl⟩ hmax⟩

/-- Claim C10, amended. In the graph built from an empty graph for a non-empty input,
`vertices[0]` exists if and only if an edge leaves position 0 or 0 is the only vertex
of the graph. -/
theorem C10_vertex_zero (s : Syllabifier) (input : List Char) (prism : Prism)
    (g : SyllableGraph) (r : Nat) (hne : input ≠ [])
    (h : s.BuildSyllableGraph input prism {} = .ok (g, r)) :
    (∃ t, g.vertices.find? 0 = some t) ↔
      ((∃ j, g.hasEdge 0 j) ∨
        ((∃ t, g.vertices.find? 0 = some t) ∧ ∀ p t, g.vertices.find? p = some t → p = 0)) := by
  obtain ⟨st, good, inv, _, hb, pinv, hr, hvs, he, _, _⟩ :=
    Syllabifier.Build_fresh s input prism g r hne h
  rw [hvs]
  constructor
  · intro h0
    by_cases hf : st.farthest = 0
    · right
      refine ⟨h0, ?_⟩
      intro p t hp
      obtain ⟨t0, ht0, _⟩ := pinv.v_sub p t hp
      have := hb.vle p t0 ht0
      omega
    · left
      have hlt : 0 < st.farthest := Nat.pos_of_ne_zero hf
      have hg : 0 ∈ good := (pinv.good_iff 0).mpr ⟨le_refl 0, h0⟩
      obtain ⟨t0, _, _, j, sm0, hj, hsm0, hk⟩ := (pinv.good_char 0 (le_refl 0) hlt).mp hg
      refine ⟨j, keepSpellings (SpellingType.max
        ((st.graph.vertices.find? st.farthest).getD kNormalSpelling) kFuzzySpelling) sm0, ?_⟩
      rw [he, Syllabifier.complete_edge_other s input prism _ _ 0 j (Or.inl (Ne.symm hf))]
      exact (pinv.mid_e 0 j _ (le_refl 0) hlt).mpr ⟨hg, hj, sm0, hsm0, rfl, hk⟩
  · rintro (⟨j, sm, hsm⟩ | ⟨h0, _⟩)
    · rw [he] at hsm
      rcases Syllabifier.final_edge s input prism st.graph _ _ st.farthest good hb pinv 0 j sm hsm
        with ⟨h1, _, _⟩ | h1
      · rw [h1]
        exact ((pinv.good_iff st.farthest).mp pinv.f_good).2
      · obtain ⟨_, hg, _⟩ := Syllabifier.PruneInv_edge_sub hb pinv 0 j sm h1
        exact ((pinv.good_iff 0).mp hg).2
    · exact h0

/-- Claim C10, amended, on the input `xian`: vertex 0 is there and the edges `0 → 2` and
`0 → 4` leave it. -/
theorem C10_vertex_zero_witness :
    Examples.xian ≠ [] ∧
    Syllabifier.BuildSyllableGraph ⟨[Examples.apostrophe], false, false⟩ Examples.xian
      Examples.xianPrism {} = .ok (Examples.xianGraph, 4) ∧
    ((∃ t, Examples.xianGraph.vertices.find? 0 = some t) ↔
      ((∃ j, Examples.xianGraph.hasEdge 0 j) ∨
        ((∃ t, Examples.xianGraph.vertices.find? 0 = some t) ∧
          ∀ p t, Examples.xianGraph.vertices.find? p = some t → p = 0))) :=
  ⟨by decide, rfl,
    C10_vertex_zero ⟨[Examples.apostrophe], false, false⟩ Examples.xian Examples.xianPrism
      Examples.xianGraph 4 (by decide) rfl⟩

/-- Claim C4. In the graph built from an empty graph for a non-empty input, whenever the
edges `(i, m)`, `(m, j)` and `(i, j)` are all present for positions `i < m < j` and
some spelling on the edge `(i, j)` is better than Abbreviation, `vertices[m]` is
Ambiguous, and the long edge `(i, j)` is present. -/
theorem C4_ambiguous_joint (s : Syllabifier) (input : List Char) (prism : Prism)
    (g : SyllableGraph) (r : Nat) (hne : input ≠ [])
    (h : s.BuildSyllableGraph input prism {} = .ok (g, r)) (i m j : Nat)
    (_him : i < m) (hmj : m < j) (h1 : g.hasEdge i m) (h2 : g.hasEdge m j)
    (sm : SpellingMap) (h3 : g.edge? i j = some sm)
    (h4 : ∃ sp ∈ sm, sp.2.type < kAbbreviation) :
    g.vertices.find? m = some kAmbiguousSpelling ∧ g.hasEdge i j := by
  obtain ⟨st, good, inv, _, hb, pinv, hr, hvs, he, _, _⟩ :=
    Syllabifier.Build_fresh s input prism g r hne h
  refine ⟨?_, sm, h3⟩
  obtain ⟨sm1, h1⟩ := h1
  obtain ⟨sm2, h2⟩ := h2
  rw [he] at h1 h2 h3
  rw [hvs]
  have e1 : (Syllabifier.prune st.graph st.farthest).edge? i m = some sm1 := by
    rcases Syllabifier.final_edge s input prism st.graph _ _ st.farthest good hb pinv i m sm1 h1
      with ⟨c1, c2, _⟩ | c
    · exfalso
      rw [Syllabifier.complete_edge_other s input prism _ _ i j (Or.inr (by omega))] at h3
      rw [c1, Syllabifier.PruneInv_no_edge_from hb pinv st.farthest j (le_refl _)] at h3
      cases h3
    · exact c
  obtain ⟨hif, _, _, _⟩ := Syllabifier.PruneInv_edge_sub hb pinv i m sm1 e1
  have e3 : (Syllabifier.prune st.graph st.farthest).edge? i j = some sm := by
    rw [Syllabifier.complete_edge_other s input prism _ _ i j (Or.inl (by omega))] at h3
    exact h3
  have e2 : (Syllabifier.prune st.graph st.farthest).edge? m j = some sm2 := by
    rcases Syllabifier.final_edge s input prism st.graph _ _ st.farthest good hb pinv m j sm2 h2
      with ⟨_, c2, c3⟩ | c
    · exfalso
      obtain ⟨_, _, hj, _⟩ := Syllabifier.PruneInv_edge_sub hb pinv i j sm e3
      obtain ⟨t, ht⟩ := ((pinv.good_iff j).mp hj).2
      obtain ⟨t0, ht0, _⟩ := pinv.v_sub j t ht
      have := hb.vle j t0 ht0
      omega
    · exact c
  exact pinv.amb i m j sm (Nat.zero_le i) hif (by rw [e1]; simp) (by rw [e2]; simp) e3 h4

/-- Claim C4 on the input `xian` with `xian`, `xi` and `an` in the prism: vertex 2 is
Ambiguous and the edge `0 → 4` is kept. -/
theorem C4_ambiguous_joint_witness :
    Examples.xian ≠ [] ∧
    Syllabifier.BuildSyllableGraph ⟨[Examples.apostrophe], false, false⟩ Examples.xian
      Examples.xianPrism {} = .ok (Examples.xianGraph, 4) ∧
    0 < 2 ∧ 2 < 4 ∧ Examples.xianGraph.hasEdge 0 2 ∧ Examples.xianGraph.hasEdge 2 4 ∧
    Examples.xianGraph.edge? 0 4 = some [(2, { end_pos := 4 })] ∧
    (∃ sp ∈ ([(2, { end_pos := 4 })] : SpellingMap), sp.2.type < kAbbreviation) ∧
    Examples.xianGraph.vertices.find? 2 = some kAmbiguousSpelling ∧
    Examples.xianGraph.hasEdge 0 4 :=
  ⟨by decide, rfl, by decide, by decide, ⟨_, rfl⟩, ⟨_, rfl⟩, rfl, by decide,
    C4_ambiguous_joint ⟨[Examples.apostrophe], false, false⟩ Examples.xian Examples.xianPrism
      Examples.xianGraph 4 (by decide) rfl 0 2 4 (by decide) (by decide) ⟨_, rfl⟩ ⟨_, rfl⟩
      [(2, { end_pos := 4 })] rfl (by decide)⟩

/-- Claim C2 as stated fails: for the input `ab'c` and a prism with the keys `ab`
(Normal) and `ab'` (an abbreviation), which both end at position 3, the graph returned
keeps vertex 3 and has no edge into it. -/
theorem C2_vertices_on_path_counterexample :
    Syllabifier.BuildSyllableGraph ⟨[Examples.apostrophe], false, false⟩ Examples.abQuoteC
      Examples.abQuoteCPrism {} = .ok (Examples.abQuoteCGraph, 4) ∧
    Examples.abQuoteCGraph.vertices.find? 3 = some kNormalSpelling ∧
    ¬ Relation.ReflTransGen Examples.abQuoteCGraph.hasEdge 0 3 := by
  refine ⟨rfl, rfl, ?_⟩
  intro hpath
  rcases Relation.ReflTransGen.cases_head hpath with h | ⟨c, ⟨sm, hsm⟩, _⟩
  · cases h
  · have : Examples.abQuoteCGraph.edge? 0 c = none := rfl
    rw [this] at hsm
    cases hsm

/-- Claim C2, amended. When the matches found at any one position of the input end at
distinct positions and every spelling accessor yields each syllable id once, every
position in the vertices of the graph built from an empty graph for a non-empty input
lies on a path of graph edges from position 0 to the position returned. -/
theorem C2_vertices_on_path (s : Syllabifier) (input : List Char) (prism : Prism)
    (g : SyllableGraph) (r : Nat) (hne : input ≠ [])
    (hends : ∀ p, p ≤ input.length →
      (((prism.CommonPrefixSearch (input.drop p)).filter (fun m => m.length ≠ 0)).map
        (Syllabifier.endPosOf s input p)).Nodup)
    (hids : ∀ p, p ≤ input.length → ∀ m ∈ prism.CommonPrefixSearch (input.drop p),
      ((prism.QuerySpelling m.value).map Prod.fst).Nodup)
    (h : s.BuildSyllableGraph input prism {} = .ok (g, r)) :
    ∀ p t, g.vertices.find? p = some t →
      Relation.ReflTransGen g.hasEdge 0 p ∧ Relation.ReflTransGen g.hasEdge p r := by
  obtain ⟨st, good, inv, _, hb, pinv, hr, hvs, he, _, _⟩ :=
    Syllabifier.Build_fresh s input prism g r hne h
  have hR : ∀ a b sm, a < st.farthest →
      (Syllabifier.prune st.graph st.farthest).edge? a b = some sm → g.hasEdge a b := by
    intro a b sm ha hsm
    refine ⟨sm, ?_⟩
    rw [he, Syllabifier.complete_edge_other s input prism _ _ a b (Or.inl (by omega))]
    exact hsm
  intro p t hp
  rw [hvs] at hp
  have hg : p ∈ good := (pinv.good_iff p).mpr ⟨Nat.zero_le p, t, hp⟩
  refine ⟨Syllabifier.pruned_path_from_zero s input prism st inv hb good _ pinv hends hids
    g.hasEdge hR p p (le_refl p) hg, ?_⟩
  have hpf := Syllabifier.pruned_path_to_farthest st.graph _ st.farthest hb good _ pinv
    g.hasEdge hR (st.farthest - p) p (le_refl _) hg
  rcases Syllabifier.complete_cases s input prism
    (Syllabifier.prune st.graph st.farthest) st.farthest with ⟨_, h2⟩ | ⟨_, h2 | h2⟩
  · rw [h2] at hr
    rw [hr]; exact hpf
  · rw [h2.2.1] at hr
    rw [hr]; exact hpf
  · rw [h2.2.1] at hr
    rw [hr]
    exact Relation.ReflTransGen.tail hpf ⟨_, by rw [he]; exact h2.2.2⟩

/-- Claim C2, amended, on the input `xian`: the vertices 0, 2 and 4 all lie on a path
from 0 to 4. -/
theorem C2_vertices_on_path_witness :
    Examples.xian ≠ [] ∧
    (∀ p, p ≤ Examples.xian.length →
      (((Examples.xianPrism.CommonPrefixSearch (Examples.xian.drop p)).filter
        (fun m => m.length ≠ 0)).map
        (Syllabifier.endPosOf ⟨[Examples.apostrophe], false, false⟩ Examples.xian p)).Nodup) ∧
    (∀ p, p ≤ Examples.xian.length →
      ∀ m ∈ Examples.xianPrism.CommonPrefixSearch (Examples.xian.drop p),
        ((Examples.xianPrism.QuerySpelling m.value).map Prod.fst).Nodup) ∧
    Syllabifier.BuildSyllableGraph ⟨[Examples.apostrophe], false, false⟩ Examples.xian
      Examples.xianPrism {} = .ok (Examples.xianGraph, 4) ∧
    ∀ p t, Examples.xianGraph.vertices.find? p = some t →
      Relation.ReflTransGen Examples.xianGraph.hasEdge 0 p ∧
      Relation.ReflTransGen Examples.xianGraph.hasEdge p 4 :=
  ⟨by decide, by decide, by decide, rfl,
    C2_vertices_on_path ⟨[Examples.apostrophe], false, false⟩ Examples.xian Examples.xianPrism
      Examples.xianGraph 4 (by decide) (by decide) (by decide) rfl⟩

/-- Claim C3. After `Transpose` on a graph with empty indices (and well-formed maps of
edges), for every start `i` and syllable id `sid`: `sid` is a key of `indices[i]` if and
only if some edge `edges[i][j]` contains `sid`, and the list `indices[i][sid]` holds, for
each such `j` once (in descending order of `j`), the properties stored at
`edges[i][j][sid]`. -/
theorem C3_transpose (g : SyllableGraph) (hidx : g.indices = []) (hwf : g.EdgesWF)
    (i : Nat) (sid : SyllableId) :
    ((∃ l, (Syllabifier.Transpose g).index? i sid = some l) ↔
      ∃ j sm props, g.edge? i j = some sm ∧ sm.find? sid = some props) ∧
    ∀ l, (Syllabifier.Transpose g).index? i sid = some l →
      l = ((g.edges.find? i).getD []).reverse.filterMap (fun e => e.2.find? sid) := by
  rw [Syllabifier.Transpose_index? g hidx hwf i sid]
  constructor
  · constructor
    · rintro ⟨l, hl⟩
      split at hl
      · cases hl
      · rename_i hne
        cases hrow : g.edges.find? i with
        | none => rw [hrow] at hne; exact absurd rfl hne
        | some row =>
          rw [hrow, Option.getD_some] at hne
          cases hfm : row.reverse.filterMap (fun e => Map.find? e.2 sid) with
          | nil => exact absurd hfm hne
          | cons p rest =>
            have hp : p ∈ row.reverse.filterMap (fun e => Map.find? e.2 sid) := by
              rw [hfm]; exact List.mem_cons_self _ _
            obtain ⟨e, he, hep⟩ := List.mem_filterMap.mp hp
            have he' : (e.1, e.2) ∈ row := List.mem_reverse.mp he
            have hrowwf : Map.WF row := (hwf.2 (i, row) (Map.mem_of_find? hrow)).1
            refine ⟨e.1, e.2, p, ?_, hep⟩
            rw [SyllableGraph.edge?_of_row g i e.1 row hrow]
            exact Map.find?_of_mem hrowwf he'
    · rintro ⟨j, sm, props, hsm, hprops⟩
      obtain ⟨row, hrow, hj⟩ := (SyllableGraph.edge?_eq_some g i j sm).mp hsm
      have hmem : props ∈ ((g.edges.find? i).getD []).reverse.filterMap
          (fun e => Map.find? e.2 sid) := by
        rw [hrow, Option.getD_some]
        exact List.mem_filterMap.mpr ⟨(j, sm), List.mem_reverse.mpr (Map.mem_of_find? hj), hprops⟩
      have hne : ((g.edges.find? i).getD []).reverse.filterMap
          (fun e => Map.find? e.2 sid) ≠ [] := by
        intro hnil
        rw [hnil] at hmem
        cases hmem
      rw [if_neg hne]
      exact ⟨_, rfl⟩
  · intro l hl
    split at hl
    · cases hl
    · injection hl with hl
      exact hl.symm

/-- Claim C3 on the edges of the graph of `xian`, start 0 and syllable 2: the index
lists the one spelling found on the edge `0 → 4`. -/
theorem C3_transpose_witness :
    ({ Examples.xianGraph with indices := [] } : SyllableGraph).indices = [] ∧
    ({ Examples.xianGraph with indices := [] } : SyllableGraph).EdgesWF ∧
    ((∃ l, (Syllabifier.Transpose { Examples.xianGraph with indices := [] }).index? 0 2 =
        some l) ↔
      ∃ j sm props, ({ Examples.xianGraph with indices := [] } : SyllableGraph).edge? 0 j =
        some sm ∧ sm.find? 2 = some props) ∧
    ∀ l, (Syllabifier.Transpose { Examples.xianGraph with indices := [] }).index? 0 2 = some l →
      l = ((({ Examples.xianGraph with indices := [] } : SyllableGraph).edges.find? 0).getD
        []).reverse.filterMap (fun e => e.2.find? 2) :=
  have hwf : ({ Examples.xianGraph with indices := [] } : SyllableGraph).EdgesWF := by
    unfold SyllableGraph.EdgesWF Map.WF
    decide
  ⟨rfl, hwf, C3_transpose { Examples.xianGraph with indices := [] } rfl hwf 0 2⟩

end Rime

namespace Rime
open SpellingType

theorem getD_length_pred (out : List Char) (c : Char) (h : out.getLast? = some c) :
    out.getD (out.length - 1) default = c := by
  induction out with
  | nil => simp at h
  | cons a l ih =>
    cases l with
    | nil =>
      simp at h
      simp [h]
    | cons b l =>
      rw [List.getLast?_cons_cons] at h
      have := ih h
      simp only [List.length_cons, Nat.add_sub_cancel] at this ⊢
      simpa [List.getD_cons_succ] using this

theorem resize_append (out extra : List Char) : resize (out ++ extra) out.length = out := by
  unfold resize
  simp

theorem sizeSub_of_le {a b : Nat} (h : b ≤ a) : sizeSub a b = a - b := by
  unfold sizeSub
  rw [if_pos h]

theorem SpellsFrom_le (g : SyllableGraph) (E : Nat) (code : Code) :
    ∀ (p : Nat) (qs : List Nat), SpellsFrom g E code p qs → p ≤ E := by
  induction code with
  | nil =>
    intro p qs h
    cases qs with
    | nil => exact le_of_eq h
    | cons q qs => exact absurd h (by simp [SpellsFrom])
  | cons sid rest ih =>
    intro p qs h
    cases qs with
    | nil => exact absurd h (by simp [SpellsFrom])
    | cons q qs =>
      obtain ⟨h1, _, h3⟩ := h
      have := ih q qs h3
      omega

theorem delimitRow_spec (input D : List Char) (g : SyllableGraph) (E : Nat)
    (sid : SyllableId) (rest : Code) (pos depth : Nat)
    (next : Nat → List Char → Except Fault (Bool × List Char))
    (hD : D ≠ [])
    (hnext : DelimitSpec input D g E rest (depth + 1) next)
    (ys : List (Nat × SpellingMap)) (hys : ∀ y ∈ ys, pos < y.1 ∧ pos ≤ input.length)
    (out : List Char) :
    ∃ b out', delimitRow input D E sid pos depth next ys out = .ok (b, out') ∧
      (b = false → out' = out ∧
        ∀ y ∈ ys, (∃ props, Map.find? y.2 sid = some props) →
          ¬ ∃ qs, SpellsFrom g E rest y.1 qs) ∧
      (b = true → ∃ ys1 y ys2, ys = ys1 ++ y :: ys2 ∧
        (∀ y' ∈ ys1, (∃ props, Map.find? y'.2 sid = some props) →
          ¬ ∃ qs, SpellsFrom g E rest y'.1 qs) ∧
        (∃ props, Map.find? y.2 sid = some props) ∧
        ∃ qs, SpellsFrom g E rest y.1 qs ∧
          out' = joinSegments input D depth pos (y.1 :: qs) out) := by
  induction ys with
  | nil =>
    refine ⟨false, out, rfl, ?_, ?_⟩
    · intro _
      exact ⟨rfl, by simp⟩
    · intro h; cases h
  | cons y ys ih =>
    have hys' : ∀ y ∈ ys, pos < y.1 ∧ pos ≤ input.length :=
      fun y' hy' => hys y' (List.mem_cons_of_mem _ hy')
    obtain ⟨b, out', e, hf, ht⟩ := ih hys'
    obtain ⟨hy, hpos⟩ := hys y (List.mem_cons_self _ _)
    -- what skipping `y` gives
    have skip : (∀ (_ : ∃ props, Map.find? y.2 sid = some props),
          ¬ ∃ qs, SpellsFrom g E rest y.1 qs) →
        delimitRow input D E sid pos depth next (y :: ys) out =
          delimitRow input D E sid pos depth next ys out →
        ∃ b out', delimitRow input D E sid pos depth next (y :: ys) out = .ok (b, out') ∧
          (b = false → out' = out ∧
            ∀ y' ∈ y :: ys, (∃ props, Map.find? y'.2 sid = some props) →
              ¬ ∃ qs, SpellsFrom g E rest y'.1 qs) ∧
          (b = true → ∃ ys1 y0 ys2, y :: ys = ys1 ++ y0 :: ys2 ∧
            (∀ y' ∈ ys1, (∃ props, Map.find? y'.2 sid = some props) →
              ¬ ∃ qs, SpellsFrom g E rest y'.1 qs) ∧
            (∃ props, Map.find? y0.2 sid = some props) ∧
            ∃ qs, SpellsFrom g E rest y0.1 qs ∧
              out' = joinSegments input D depth pos (y0.1 :: qs) out) := by
      intro hno heq
      refine ⟨b, out', heq.trans e, ?_, ?_⟩
      · intro hb
        refine ⟨(hf hb).1, ?_⟩
        intro y' hy'
        rcases List.mem_cons.mp hy' with h | h
        · subst h; exact hno
        · exact (hf hb).2 y' h
      · intro hb
        obtain ⟨ys1, y0, ys2, h1, h2, h3⟩ := ht hb
        refine ⟨y :: ys1, y0, ys2, by rw [h1]; rfl, ?_, h3⟩
        intro y' hy'
        rcases List.mem_cons.mp hy' with h | h
        · subst h; exact hno
        · exact h2 y' h
    by_cases hE : E < y.1
    · apply skip
      · rintro _ ⟨qs, hqs⟩
        have := SpellsFrom_le g E rest y.1 qs hqs
        omega
      · simp only [delimitRow, if_pos hE]
    · cases hfind : Map.find? y.2 sid with
      | none =>
        apply skip
        · rintro ⟨props, hp⟩
          rw [hfind] at hp; cases hp
        · simp only [delimitRow, if_neg hE, hfind]
      | some props =>
        -- the text appended for this edge
        obtain ⟨d, ds, hDd⟩ : ∃ d ds, D = d :: ds := by
          cases D with
          | nil => exact absurd rfl hD
          | cons d ds => exact ⟨d, ds, rfl⟩
        have hsub : substr input pos (sizeSub y.1 pos) =
            .ok ((input.drop pos).take (y.1 - pos)) := by
          unfold substr
          rw [if_neg (by omega), sizeSub_of_le (le_of_lt hy)]
        have hcond : (0 < depth ∧ 0 < out.length ∧ out.getD (out.length - 1) default ∉ D) ↔
            (0 < depth ∧ (match out.getLast? with
              | some c => !D.contains c
              | none => false) = true) := by
          cases hl : out.getLast? with
          | none =>
            have : out = [] := List.getLast?_eq_none_iff.mp hl
            subst this
            simp
          | some c =>
            have hne : out ≠ [] := by
              intro h0; subst h0; simp at hl
            have hlen : 0 < out.length := List.length_pos.mpr hne
            rw [getD_length_pred out c hl]
            simp [hlen]
        let out1 : List Char :=
          if 0 < depth ∧ (match out.getLast? with
              | some c => !D.contains c
              | none => false) = true then out ++ D.take 1 else out
        have hpre : ∃ extra, out1 ++ (input.drop pos).take (y.1 - pos) = out ++ extra := by
          simp only [out1]
          split
          · exact ⟨D.take 1 ++ (input.drop pos).take (y.1 - pos), by simp⟩
          · exact ⟨_, rfl⟩
        obtain ⟨b2, out2, e2, hf2, ht2⟩ :=
          hnext y.1 (out1 ++ (input.drop pos).take (y.1 - pos))
        have hstep : delimitRow input D E sid pos depth next (y :: ys) out =
            match next y.1 (out1 ++ (input.drop pos).take (y.1 - pos)) with
            | .error e => .error e
            | .ok (true, output2) => .ok (true, output2)
            | .ok (false, output2) =>
              delimitRow input D E sid pos depth next ys (resize output2 out.length) := by
          simp only [delimitRow, if_neg hE, hfind]
          by_cases hc : 0 < depth ∧ 0 < out.length ∧ out.getD (out.length - 1) default ∉ D
          · rw [if_pos hc]
            have h1 : out1 = out ++ [d] := by
              simp only [out1]
              rw [if_pos (hcond.mp hc), hDd]
              rfl
            rw [h1]
            have h2 : D.head? = some d := by rw [hDd]; rfl
            simp only [h2, hsub]
          · rw [if_neg hc]
            have h1 : out1 = out := by
              simp only [out1]
              rw [if_neg (fun h => hc (hcond.mpr h))]
            rw [h1]
            simp only [hsub]
        cases b2 with
        | true =>
          obtain ⟨qs, hqs, hout2⟩ := ht2 rfl
          refine ⟨true, out2, ?_, ?_, ?_⟩
          · rw [hstep, e2]
          · intro h; cases h
          · intro _
            refine ⟨[], y, ys, rfl, by simp, ⟨props, hfind⟩, qs, hqs, ?_⟩
            rw [hout2]
            rfl
        | false =>
          obtain ⟨hout2, hno⟩ := hf2 rfl
          apply skip
          · intro _
            exact hno
          · rw [hstep, e2, hout2]
            obtain ⟨extra, hx⟩ := hpre
            simp only []
            rw [hx, resize_append]

theorem delimitFrom_spec (input D : List Char) (g : SyllableGraph) (E : Nat)
    (hD : D ≠ []) (hg : g.ForwardWithin input.length) (code : Code) :
    ∀ depth, DelimitSpec input D g E code depth (delimitFrom input D g E code depth) := by
  induction code with
  | nil =>
    intro depth pos out
    refine ⟨decide (pos = E), out, rfl, ?_, ?_⟩
    · intro h
      refine ⟨rfl, ?_⟩
      rintro ⟨qs, hqs⟩
      cases qs with
      | nil =>
        have hq : pos = E := hqs
        exact absurd hq (of_decide_eq_false h)
      | cons q qs => exact hqs
    · intro h
      have hq : pos = E := of_decide_eq_true h
      exact ⟨[], hq, rfl⟩
  | cons sid rest ih =>
    intro depth pos out
    cases hz : Map.find? g.edges pos with
    | none =>
      refine ⟨false, out, ?_, ?_, ?_⟩
      · simp only [delimitFrom, hz]
      · intro _
        refine ⟨rfl, ?_⟩
        rintro ⟨qs, hqs⟩
        cases qs with
        | nil => exact hqs
        | cons q qs =>
          obtain ⟨_, ⟨sm, props, h1, _⟩, _⟩ := hqs
          obtain ⟨row, h2, _⟩ := (SyllableGraph.edge?_eq_some g pos q sm).mp h1
          rw [hz] at h2; cases h2
      · intro h; cases h
    | some z =>
      obtain ⟨hwf, hfwd⟩ := hg pos z hz
      obtain ⟨b, out', e, hf, ht⟩ :=
        delimitRow_spec input D g E sid rest pos depth _ hD (ih (depth + 1)) z.reverse
          (fun y hy => hfwd y.1 y.2 (Map.find?_of_mem hwf (List.mem_reverse.mp hy))) out
      refine ⟨b, out', ?_, ?_, ?_⟩
      · simp only [delimitFrom, hz]
        exact e
      · intro hb
        refine ⟨(hf hb).1, ?_⟩
        rintro ⟨qs, hqs⟩
        cases qs with
        | nil => exact hqs
        | cons q qs =>
          obtain ⟨_, ⟨sm, props, h1, h2⟩, h3⟩ := hqs
          obtain ⟨row, h4, h5⟩ := (SyllableGraph.edge?_eq_some g pos q sm).mp h1
          rw [hz] at h4
          injection h4 with h4
          subst h4
          have hmem : (q, sm) ∈ z.reverse := List.mem_reverse.mpr (Map.mem_of_find? h5)
          exact (hf hb).2 (q, sm) hmem ⟨props, h2⟩ ⟨qs, h3⟩
      · intro hb
        obtain ⟨ys1, y, ys2, h1, _, ⟨props, h3⟩, qs, h4, h5⟩ := ht hb
        have hy : y ∈ z := by
          apply List.mem_reverse.mp
          rw [h1]
          simp
        have hrow : Map.find? z y.1 = some y.2 := Map.find?_of_mem hwf hy
        refine ⟨y.1 :: qs, ⟨(hfwd y.1 y.2 hrow).1, ⟨y.2, props, ?_, h3⟩, h4⟩, h5⟩
        exact (SyllableGraph.edge?_eq_some g pos y.1 y.2).mpr ⟨z, hz, hrow⟩

end Rime

namespace Rime
open SpellingType
namespace Syllabifier

/-- The rows of the graph the completion step leaves are maps, when those of the
graph it was given are. -/
theorem complete_wfRow (s : Syllabifier) (input : List Char) (prism : Prism)
    (g : SyllableGraph) (f : Nat)
    (hw : ∀ p row, Map.find? g.edges p = some row → Map.WF row) :
    ∀ p row, Map.find? (complete s input prism g f).1.edges p = some row → Map.WF row := by
  intro p row h
  have hend : Map.WF ((Map.find? g.edges f).getD []) := by
    cases hf : Map.find? g.edges f with
    | none => exact Map.WF_nil
    | some r => exact hw f r hf
  unfold complete at h
  split at h
  · simp only at h
    split at h
    · exact hw p row h
    · split at h
      · simp only at h
        rw [Map.find?_set] at h
        split at h
        · injection h with h
          rw [← h]
          exact Map.WF_erase hend _
        · exact hw p row h
      · simp only at h
        rw [Map.find?_set] at h
        split at h
        · injection h with h
          rw [← h]
          exact Map.WF_set hend _ _
        · exact hw p row h
  · exact hw p row h

/-- A graph returned by `BuildSyllableGraph`, started on an empty graph, has its edges
going forward inside the input. -/
theorem Build_forwardWithin (s : Syllabifier) (input : List Char) (prism : Prism)
    (g : SyllableGraph) (r : Nat)
    (h : BuildSyllableGraph s input prism {} = .ok (g, r)) :
    g.ForwardWithin input.length := by
  by_cases hne : input = []
  · subst hne
    have h0 : BuildSyllableGraph s [] prism {} = .ok ({}, 0) := rfl
    have e := h0.symm.trans h
    injection e with e
    injection e with e1 _
    subst e1
    intro i row hrow
    cases hrow
  obtain ⟨st, good, inv, _, hb, pinv, _, _, hE, _, _⟩ := Build_fresh s input prism g r hne h
  obtain ⟨st', h1, _, h3⟩ := Build_ok s input prism {} g r hne h
  obtain ⟨inv', _⟩ := mainLoop_fresh s input prism _ st' h1
  have hedges : g.edges =
      (complete s input prism (prune st'.graph st'.farthest) st'.farthest).1.edges := by
    rw [h3]; rfl
  obtain ⟨good', pinv'⟩ := prune_inv st'.graph st'.farthest
    (Built_of_loop s input prism st' inv' (mainLoop_fresh s input prism _ st' h1).2)
  intro i row hrow
  refine ⟨?_, ?_⟩
  · rw [hedges] at hrow
    exact complete_wfRow s input prism _ _ pinv'.wfRow i row hrow
  · intro j sm hj
    have hedge : g.edge? i j = some sm :=
      (SyllableGraph.edge?_eq_some g i j sm).mpr ⟨row, hrow, hj⟩
    rw [hE] at hedge
    rcases final_edge s input prism _ _ _ _ good hb pinv i j sm hedge with
      ⟨hi, hj', hlt⟩ | h4
    · omega
    · obtain ⟨_, _, _, sm0, h5, _, _⟩ := PruneInv_edge_sub hb pinv i j sm h4
      obtain ⟨row0, hr1, hr2⟩ := (SyllableGraph.edge?_eq_some st.graph i j sm0).mp h5
      obtain ⟨m, _, hm, hi, hj', _, _⟩ := inv.prov i row0 j sm0 hr1 hr2
      rw [hj']
      exact ⟨endPosOf_gt s input i m hm, hi⟩

end Syllabifier
end Rime

namespace Rime
open SpellingType
namespace ScriptTranslation

theorem GetPreeditString_ok (t : ScriptTranslator) (self : ScriptTranslation)
    (cand : Candidate) (hD : t.delimiters_ ≠ [])
    (hg : self.syllable_graph_.ForwardWithin self.input_.length) :
    ∃ preedit, GetPreeditString t self cand = .ok preedit := by
  obtain ⟨b, out', e, _, _⟩ :=
    delimitFrom_spec self.input_ t.delimiters_ self.syllable_graph_
      (sizeSub cand.end_ self.start_) hD hg cand.entry.code 0
      (sizeSub cand.start self.start_) []
  unfold GetPreeditString DelimitSyllablesDfs
  simp only [if_neg (Nat.not_lt_zero _), List.drop_zero, e]
  cases b with
  | true => exact ⟨_, rfl⟩
  | false => exact ⟨_, rfl⟩

theorem Spell_ok (t : ScriptTranslator) (code : Code) (hD : t.delimiters_ ≠ []) :
    ∃ spelling, t.Spell code = .ok spelling := by
  unfold ScriptTranslator.Spell
  cases t.dict_ with
  | none => exact ⟨_, rfl⟩
  | some dict =>
    simp only
    cases dict.Decode code with
    | none => exact ⟨_, rfl⟩
    | some syllables =>
      simp only
      split
      · exact ⟨_, rfl⟩
      · cases hd : t.delimiters_ with
        | nil => exact absurd hd hD
        | cons d ds => exact ⟨_, rfl⟩

theorem GetOriginalSpelling_ok (t : ScriptTranslator) (cand : Candidate)
    (hD : t.delimiters_ ≠ []) : ∃ spelling, GetOriginalSpelling t cand = .ok spelling := by
  unfold GetOriginalSpelling
  split
  · exact Spell_ok t _ hD
  · exact ⟨_, rfl⟩

/-- Filling in the preedit and the comment changes nothing else of a candidate. -/
theorem fillPreeditAndComment_same (t : ScriptTranslator) (self : ScriptTranslation)
    (cand cand' : Candidate) (h : fillPreeditAndComment t self cand = .ok cand') :
    cand' = { cand with preedit := cand'.preedit, comment := cand'.comment } := by
  unfold fillPreeditAndComment at h
  have key : ∀ c1 : Candidate, c1 = { cand with preedit := c1.preedit, comment := c1.comment } →
      (if c1.comment.isEmpty then
        match GetOriginalSpelling t c1 with
        | .error e => Except.error e
        | .ok spelling =>
          if ¬ spelling.isEmpty ∧ spelling ≠ c1.preedit then
            Except.ok { c1 with comment := spelling }
          else Except.ok c1
      else Except.ok c1) = Except.ok cand' →
      cand' = { cand with preedit := cand'.preedit, comment := cand'.comment } := by
    intro c1 hc1 h2
    split at h2
    · split at h2
      · cases h2
      · split at h2
        · injection h2 with h2
          rw [← h2, hc1]
        · injection h2 with h2
          rw [← h2]
          exact hc1
    · injection h2 with h2
      rw [← h2]
      exact hc1
  split at h
  · cases h
  · rename_i cand1 heq
    split at heq
    · split at heq
      · cases heq
      · injection heq with heq
        exact key cand1 (by rw [← heq]) h
    · injection heq with heq
      exact key cand1 (by rw [← heq]) h

theorem fillPreeditAndComment_ok (t : ScriptTranslator) (self : ScriptTranslation)
    (cand : Candidate) (hD : t.delimiters_ ≠ [])
    (hg : self.syllable_graph_.ForwardWithin self.input_.length) :
    ∃ cand', fillPreeditAndComment t self cand = .ok cand' := by
  unfold fillPreeditAndComment
  have key : ∀ c1 : Candidate, ∃ cand',
      (if c1.comment.isEmpty then
        match GetOriginalSpelling t c1 with
        | .error e => Except.error e
        | .ok spelling =>
          if ¬ spelling.isEmpty ∧ spelling ≠ c1.preedit then
            Except.ok { c1 with comment := spelling }
          else Except.ok c1
      else Except.ok c1) = (Except.ok cand' : Except Fault Candidate) := by
    intro c1
    split
    · obtain ⟨sp, hsp⟩ := GetOriginalSpelling_ok t c1 hD
      rw [hsp]
      simp only
      split
      · exact ⟨_, rfl⟩
      · exact ⟨_, rfl⟩
    · exact ⟨_, rfl⟩
  by_cases hp : cand.preedit.isEmpty = true
  · obtain ⟨p, hp'⟩ := GetPreeditString_ok t self cand hD hg
    simp only [hp, if_true, hp']
    exact key { cand with preedit := p }
  · simp only [hp, if_false]
    exact key _

theorem CheckEmpty_fields (self : ScriptTranslation) :
    (CheckEmpty self).2.sentence_ = self.sentence_ ∧
    (CheckEmpty self).2.phrase_ = self.phrase_ ∧
    (CheckEmpty self).2.user_phrase_ = self.user_phrase_ ∧
    (CheckEmpty self).2.user_phrase_index_ = self.user_phrase_index_ ∧
    (CheckEmpty self).2.syllable_graph_ = self.syllable_graph_ ∧
    (CheckEmpty self).2.input_ = self.input_ ∧
    (CheckEmpty self).2.start_ = self.start_ ∧
    (CheckEmpty self).2.exhausted_ = (CheckEmpty self).1 :=
  ⟨rfl, rfl, rfl, rfl, rfl, rfl, rfl, rfl⟩

/-- The flag `CheckEmpty` computes is set exactly when both collectors are drained. -/
theorem CheckEmpty_iff (self : ScriptTranslation) :
    (CheckEmpty self).1 = true ↔ self.phraseDrained ∧ self.userPhraseDrained := by
  unfold CheckEmpty phraseDrained userPhraseDrained
  cases h1 : self.phrase_ with
  | none =>
    cases h2 : self.user_phrase_ with
    | none => simp
    | some u => cases u <;> simp
  | some p =>
    cases h2 : self.user_phrase_ with
    | none => cases p <;> simp
    | some u => cases p <;> cases u <;> simp

/-- A call of `Next` never queues a sentence. -/
theorem Next_sentence_none (self : ScriptTranslation) (h : self.sentence_ = none) :
    (Next self).2.sentence_ = none := by
  unfold Next
  split
  · exact h
  · rw [h]
    simp only
    rw [(CheckEmpty_fields _).1]
    repeat' split
    all_goals first | rfl | exact h

theorem afterNext_sentence_none (self : ScriptTranslation) (h : self.sentence_ = none) (n : Nat) :
    (self.afterNext n).sentence_ = none := by
  induction n generalizing self with
  | zero => exact h
  | succ n ih => exact ih _ (Next_sentence_none self h)

/-- The call of `Next` on a translation that is not exhausted and has a sentence. -/
theorem Next_of_sentence (self : ScriptTranslation) (s : Sentence)
    (hne : self.exhausted_ = false) (hs : self.sentence_ = some s) :
    Next self = (!(CheckEmpty { self with sentence_ := none }).1,
      (CheckEmpty { self with sentence_ := none }).2) := by
  unfold Next
  rw [hne, hs]
  rfl

end ScriptTranslation
end Rime

namespace Rime
open SpellingType
namespace ScriptTranslation

theorem user_phrase_code_length_pos (self : ScriptTranslation)
    (h : 0 < self.user_phrase_code_length) :
    ∃ b rest, self.user_phrase_ = some (b :: rest) ∧ b.1 = self.user_phrase_code_length := by
  unfold user_phrase_code_length at h ⊢
  cases hu : self.user_phrase_ with
  | none => rw [hu] at h; exact absurd h (by decide)
  | some u =>
    cases u with
    | nil => rw [hu] at h; exact absurd h (by decide)
    | cons b rest => exact ⟨b, rest, rfl, rfl⟩

theorem phrase_code_length_pos (self : ScriptTranslation)
    (h : 0 < self.phrase_code_length) :
    ∃ b rest, self.phrase_ = some (b :: rest) ∧ b.1 = self.phrase_code_length := by
  unfold phrase_code_length at h ⊢
  cases hu : self.phrase_ with
  | none => rw [hu] at h; exact absurd h (by decide)
  | some u =>
    cases u with
    | nil => rw [hu] at h; exact absurd h (by decide)
    | cons b rest => exact ⟨b, rest, rfl, rfl⟩

/-- The call of `Next` when no sentence is queued and the user-phrase bucket is
chosen. -/
theorem Next_user (self : ScriptTranslation) (hne : self.exhausted_ = false)
    (hs : self.sentence_ = none)
    (hc : 0 < self.user_phrase_code_length ∧
      self.phrase_code_length ≤ self.user_phrase_code_length)
    (b : Nat × DictEntryList) (rest : List (Nat × DictEntryList))
    (hu : self.user_phrase_ = some (b :: rest)) :
    (Next self).2 =
      (CheckEmpty (if b.2.length ≤ self.user_phrase_index_ + 1 then
          { self with user_phrase_ := some rest, user_phrase_index_ := 0 }
        else { self with user_phrase_index_ := self.user_phrase_index_ + 1 })).2 := by
  unfold Next
  rw [hne, hs]
  simp only [Bool.false_eq_true, if_false, if_pos hc, hu]

/-- The call of `Next` when no sentence is queued and the dict bucket is chosen. -/
theorem Next_dict (self : ScriptTranslation) (hne : self.exhausted_ = false)
    (hs : self.sentence_ = none)
    (hc : ¬ (0 < self.user_phrase_code_length ∧
      self.phrase_code_length ≤ self.user_phrase_code_length))
    (hp : 0 < self.phrase_code_length)
    (b : Nat × DictEntryIterator) (rest : List (Nat × DictEntryIterator))
    (hu : self.phrase_ = some (b :: rest)) :
    (Next self).2 =
      (CheckEmpty (if b.2.tail.isEmpty then { self with phrase_ := some rest }
        else { self with phrase_ := some ((b.1, b.2.tail) :: rest) })).2 := by
  unfold Next
  rw [hne, hs]
  simp only [Bool.false_eq_true, if_false, if_neg hc, if_pos hp, hu]

/-- The candidate `Peek` builds when no sentence is queued and the user-phrase bucket
is chosen, before its preedit and comment are filled in. -/
theorem Peek_user (t : ScriptTranslator) (self : ScriptTranslation)
    (hne : self.exhausted_ = false) (hs : self.sentence_ = none)
    (hc : 0 < self.user_phrase_code_length ∧
      self.phrase_code_length ≤ self.user_phrase_code_length)
    (b : Nat × DictEntryList) (rest : List (Nat × DictEntryList))
    (hu : self.user_phrase_ = some (b :: rest)) :
    Peek t self =
      match b.2.get? self.user_phrase_index_ with
      | none => .error .badIndex
      | some entry =>
        match fillPreeditAndComment t self
            { Phrase.new "phrase" self.start_
                (self.start_ + self.user_phrase_code_length) entry with
              quality := entry.weight + t.initial_quality_ +
                (if self.IsNormalSpelling then 1 / 2 else -(1 / 2)) } with
        | .error e => .error e
        | .ok cand1 => .ok (some cand1, self) := by
  unfold Peek
  rw [hne, hs]
  simp only [Bool.false_eq_true, if_false, if_pos hc, hu]
  cases b.2.get? self.user_phrase_index_ with
  | none => rfl
  | some entry => rfl

/-- The candidate `Peek` builds when no sentence is queued and the dict bucket is
chosen, before its preedit and comment are filled in. -/
theorem Peek_dict (t : ScriptTranslator) (self : ScriptTranslation)
    (hne : self.exhausted_ = false) (hs : self.sentence_ = none)
    (hc : ¬ (0 < self.user_phrase_code_length ∧
      self.phrase_code_length ≤ self.user_phrase_code_length))
    (hp : 0 < self.phrase_code_length)
    (b : Nat × DictEntryIterator) (rest : List (Nat × DictEntryIterator))
    (hu : self.phrase_ = some (b :: rest)) :
    Peek t self =
      match b.2.head? with
      | none => .error .nullDeref
      | some entry =>
        match fillPreeditAndComment t self
            { Phrase.new "phrase" self.start_
                (self.start_ + self.phrase_code_length) entry with
              quality := entry.weight + t.initial_quality_ +
                (if self.IsNormalSpelling then 0 else -1) } with
        | .error e => .error e
        | .ok cand1 => .ok (some cand1, self) := by
  unfold Peek
  rw [hne, hs]
  simp only [Bool.false_eq_true, if_false, if_neg hc, if_pos hp, hu]
  cases b.2.head? with
  | none => rfl
  | some entry => rfl

/-- The call of `Peek` on a translation that is not exhausted and has a sentence. -/
theorem Peek_of_sentence (t : ScriptTranslator) (self : ScriptTranslation) (s : Sentence)
    (hne : self.exhausted_ = false) (hs : self.sentence_ = some s) :
    Peek t self =
      match fillPreeditAndComment t self s with
      | .error e => .error e
      | .ok sentence1 => .ok (some sentence1, { self with sentence_ := some sentence1 }) := by
  unfold Peek
  rw [hne, hs]
  rfl

end ScriptTranslation
end Rime

namespace Rime
open SpellingType
namespace TableTranslator

theorem generatedFor_append (G : List (Nat × Sentence)) (e' : Nat) (new : Sentence) (e : Nat) :
    generatedFor (G ++ [(e', new)]) e =
      if e' = e then generatedFor G e ++ [new] else generatedFor G e := by
  unfold generatedFor
  by_cases h : e' = e
  · simp [List.filter_append, h]
  · simp [List.filter_append, h]

/-- What line 665 decides. -/
theorem installSentence_eq (S : Map Nat Sentence) (e : Nat) (new : Sentence) :
    ((Map.find? S e = none ∨ ∃ old, Map.find? S e = some old ∧ old.weight ≤ new.weight) →
      installSentence S e new = Map.set S e new) ∧
    (¬ (Map.find? S e = none ∨ ∃ old, Map.find? S e = some old ∧ old.weight ≤ new.weight) →
      installSentence S e new = S) := by
  unfold installSentence
  cases h : Map.find? S e with
  | none => simp
  | some old =>
    by_cases hw : old.weight ≤ new.weight
    · simp [hw]
    · simp [hw]

theorem install_inv (S : Map Nat Sentence) (G : List (Nat × Sentence)) (e' : Nat)
    (new : Sentence) (he : e' ≠ 0) (inv : BestInstalled S G) :
    BestInstalled (installSentence S e' new) (G ++ [(e', new)]) := by
  intro e
  rw [generatedFor_append]
  by_cases hee : e' = e
  · subst hee
    rw [if_pos rfl]
    obtain ⟨i1, i2⟩ := inv e'
    unfold installSentence
    cases h : Map.find? S e' with
    | none =>
      simp only
      rw [Map.find?_set, if_pos rfl]
      refine ⟨fun h0 => (by cases h0), ?_⟩
      intro s hs
      injection hs with hs
      subst hs
      right
      refine ⟨[], [], ?_, by simp, by simp⟩
      rw [i1 h]
    | some old =>
      rcases i2 old h with ⟨h0, _⟩ | ⟨l1, l2, hg, hl1, hl2⟩
      · exact absurd h0 he
      · by_cases hw : old.weight ≤ new.weight
        · simp only
          rw [if_pos hw, Map.find?_set, if_pos rfl]
          refine ⟨fun h0 => (by cases h0), ?_⟩
          intro s hs
          injection hs with hs
          subst hs
          right
          refine ⟨l1 ++ old :: l2, [], by rw [hg], ?_, by simp⟩
          intro x hx
          rcases List.mem_append.mp hx with hx | hx
          · exact le_trans (hl1 x hx) hw
          · rcases List.mem_cons.mp hx with hx | hx
            · rw [hx]; exact hw
            · exact le_trans (le_of_lt (hl2 x hx)) hw
        · simp only
          rw [if_neg hw, h]
          refine ⟨fun h0 => (by cases h0), ?_⟩
          intro s hs
          injection hs with hs
          subst hs
          right
          refine ⟨l1, l2 ++ [new], by rw [hg]; simp, hl1, ?_⟩
          intro x hx
          rcases List.mem_append.mp hx with hx | hx
          · exact hl2 x hx
          · rw [List.mem_singleton.mp hx]
            exact lt_of_not_le hw
  · rw [if_neg hee]
    have hfind : Map.find? (installSentence S e' new) e = Map.find? S e := by
      unfold installSentence
      cases h : Map.find? S e' with
      | none => simp only [Map.find?_set, if_neg hee]
      | some old =>
        simp only
        split
        · simp only [Map.find?_set, if_neg hee]
        · rfl
    rw [hfind]
    exact inv e

theorem extendSentences_inv (Extend : Sentence → DictEntry → Nat → Sentence) (start_pos : Nat)
    (entries : List (Option DictEntry)) (lens : List Nat) (hl : ∀ len ∈ lens, 0 < len) :
    ∀ (S : Map Nat Sentence) (G : List (Nat × Sentence)) r, BestInstalled S G →
      extendSentences Extend start_pos entries lens (S, G) = .ok r →
      BestInstalled r.1 r.2 := by
  induction lens with
  | nil =>
    intro S G r inv h
    injection h with h
    rw [← h]
    exact inv
  | cons len lens ih =>
    have hl' : ∀ len ∈ lens, 0 < len := fun x hx => hl x (List.mem_cons_of_mem _ hx)
    have hlen : 0 < len := hl len (List.mem_cons_self _ _)
    intro S G r inv h
    simp only [extendSentences] at h
    split at h
    · exact ih hl' S G r inv h
    · split at h
      · cases h
      · exact ih hl' _ _ r (install_inv S G _ _ (by omega) inv) h

theorem lookupAt_same (t : TableTranslator) (input : List Char) (fbc : Bool) (start_pos : Nat)
    (st st1 : SentenceState) (x : Option (List (Option DictEntry)))
    (h : lookupAt t input fbc start_pos st = .ok (st1, x)) :
    st1.sentences = st.sentences ∧ st1.generated = st.generated := by
  unfold lookupAt at h
  simp only at h
  split at h
  · split at h
    · split at h
      · injection h with h
        injection h with h1 _
        rw [← h1]
        exact ⟨rfl, rfl⟩
      · split at h
        · cases h
        · injection h with h
          injection h with h1 _
          rw [← h1]
          exact ⟨rfl, rfl⟩
    · injection h with h
      injection h with h1 _
      rw [← h1]
      exact ⟨rfl, rfl⟩
  · injection h with h
    injection h with h1 _
    rw [← h1]
    exact ⟨rfl, rfl⟩

/-- An induction principle for the loop over the start positions: what holds of the
sentences and of the record of the extensions at the start, and is kept by the
extension loop, holds at the end. -/
theorem makeSentencesFrom_induct (t : TableTranslator) (input : List Char) (fbc : Bool)
    (P : Map Nat Sentence → List (Nat × Sentence) → Prop)
    (hstep : ∀ start_pos entries S G r, P S G →
      extendSentences t.Extend start_pos entries
        (List.range' 1 (input.drop start_pos).length) (S, G) = .ok r → P r.1 r.2)
    (ps : List Nat) :
    ∀ st st', P st.sentences st.generated →
      makeSentencesFrom t input fbc ps st = .ok st' → P st'.sentences st'.generated := by
  induction ps with
  | nil =>
    intro st st' hP h
    injection h with h
    rw [← h]
    exact hP
  | cons p ps ih =>
    intro st st' hP h
    simp only [makeSentencesFrom] at h
    split at h
    · exact ih st st' hP h
    · split at h
      · cases h
      · rename_i st1 heq
        obtain ⟨h1, h2⟩ := lookupAt_same t input fbc p st st1 none heq
        exact ih st1 st' (by rw [h1, h2]; exact hP) h
      · rename_i st1 entries heq
        obtain ⟨h1, h2⟩ := lookupAt_same t input fbc p st st1 (some entries) heq
        split at h
        · cases h
        · rename_i r hr
          refine ih _ st' ?_ h
          exact hstep p entries st1.sentences st1.generated r (by rw [h1, h2]; exact hP) hr

theorem BestInstalled_init : BestInstalled [(0, emptySentence)] [] := by
  intro e
  refine ⟨fun _ => rfl, ?_⟩
  intro s hs
  left
  refine ⟨?_, rfl⟩
  by_contra hne
  have : (0 : Nat) ≠ e := fun h => hne h.symm
  simp [Map.find?, this] at hs

theorem MakeSentenceLoop_best (t : TableTranslator) (input : List Char) (st : SentenceState)
    (h : MakeSentenceLoop t input = .ok st) : BestInstalled st.sentences st.generated := by
  unfold MakeSentenceLoop at h
  refine makeSentencesFrom_induct t input _ BestInstalled ?_ _ _ st BestInstalled_init h
  intro start_pos entries S G r hP hr
  refine extendSentences_inv t.Extend start_pos entries _ ?_ S G r hP hr
  intro len hlen
  have := List.mem_range'_1.mp hlen
  omega

end TableTranslator
end Rime

namespace Rime
open SpellingType

/-- Claim C11. On the empty input `BuildSyllableGraph` returns 0 and hands back the
graph it was given, whatever the prism, the three knobs and the graph are: no vertex,
edge, index or length field is written. -/
theorem C11_empty_input (s : Syllabifier) (prism : Prism) (graph : SyllableGraph) :
    Syllabifier.BuildSyllableGraph s [] prism graph = .ok (graph, 0) := by
  rfl

/-- Claim C12. Every spelling stored on an edge `(i, j)` of the graph returned by
`BuildSyllableGraph`, started on an empty graph, has `end_pos = j`; this covers the
edges built by prefix matching and the completion edge. -/
theorem C12_end_pos (s : Syllabifier) (input : List Char) (prism : Prism)
    (g : SyllableGraph) (r : Nat)
    (h : Syllabifier.BuildSyllableGraph s input prism {} = .ok (g, r))
    (i j : Nat) (sm : SpellingMap) (hsm : g.edge? i j = some sm)
    (sid : SyllableId) (props : SpellingProperties) (hp : sm.find? sid = some props) :
    props.end_pos = j := by
  have hmem : (sid, props) ∈ sm := Map.mem_of_find? hp
  by_cases hne : input = []
  · subst hne
    have e : (g, r) = (({} : SyllableGraph), 0) := by
      have h0 : Syllabifier.BuildSyllableGraph s [] prism {} = .ok ({}, 0) := rfl
      have := h0.symm.trans h
      injection this with this
      exact this.symm
    injection e with e1 e2
    subst e1
    cases hsm
  obtain ⟨st, good, inv, _, hb, pinv, _, _, hE, _, _⟩ :=
    Syllabifier.Build_fresh s input prism g r hne h
  rw [hE] at hsm
  rcases Syllabifier.final_edge s input prism _ _ _ _ good hb pinv i j sm hsm with
    ⟨hi, hj, hlt⟩ | h1
  · subst hi; subst hj
    rcases Syllabifier.complete_cases s input prism (Syllabifier.prune st.graph st.farthest)
      st.farthest with ⟨_, h2⟩ | ⟨_, ⟨_, _, h2⟩ | ⟨_, _, h2⟩⟩
    · rw [h2, Syllabifier.PruneInv_no_edge_from hb pinv _ _ (le_refl _)] at hsm
      cases hsm
    · rw [h2] at hsm; cases hsm
    · rw [h2] at hsm
      injection hsm with hsm
      rw [← hsm, Syllabifier.PruneInv_no_edge_from hb pinv _ _ (le_refl _)] at hmem
      rcases Syllabifier.completeKeys_mem prism _ _ _ _ _ hmem with h3 | h3
      · cases h3
      · exact h3.2
  · obtain ⟨_, _, _, sm0, h2, h3, _⟩ := Syllabifier.PruneInv_edge_sub hb pinv i j sm h1
    obtain ⟨row, hr1, hr2⟩ := (SyllableGraph.edge?_eq_some st.graph i j sm0).mp h2
    obtain ⟨m, _, _, _, hj, hsm0, _⟩ := inv.prov i row j sm0 hr1 hr2
    rw [h3] at hmem
    have h4 := ((Syllabifier.mem_keepSpellings _ sm0 _).mp hmem).1
    rw [hsm0] at h4
    unfold Syllabifier.spellingsOf at h4
    rcases Syllabifier.collectSpellings_mem _ _ _ _ _ _ h4 with h5 | ⟨x, _, _, h5⟩
    · cases h5
    · injection h5 with _ h6
      rw [h6, hj]

end Rime

namespace Rime
open SpellingType

/-- Claim C13. On a graph whose edges go forward inside the input, and with a non-empty
string of delimiters, `DelimitSyllablesDfs(state, pos, 0)` returns, and it returns true
if and only if there are positions `pos < p1 < ... < pn = state.end_pos`, `n = |code|`,
such that every edge `(p_k, p_{k+1})` is in the graph and its spelling map contains
`code[k]`; for an empty code it returns true iff `pos = end_pos`. -/
theorem C13_dfs_iff_path (state : DelimitSyllableState) (pos : Nat)
    (hD : state.delimiters ≠ []) (hg : state.graph.ForwardWithin state.input.length) :
    ∃ b state', DelimitSyllablesDfs state pos 0 = .ok (b, state') ∧
      (b = true ↔ ∃ ps, SpellsFrom state.graph state.end_pos state.code pos ps) ∧
      (state.code = [] → (b = true ↔ pos = state.end_pos)) := by
  obtain ⟨b, out', e, hf, ht⟩ :=
    delimitFrom_spec state.input state.delimiters state.graph state.end_pos hD hg state.code 0
      pos state.output
  have hiff : b = true ↔ ∃ ps, SpellsFrom state.graph state.end_pos state.code pos ps := by
    constructor
    · intro hb
      obtain ⟨ps, h1, _⟩ := ht hb
      exact ⟨ps, h1⟩
    · intro hp
      cases b with
      | true => rfl
      | false => exact absurd hp (hf rfl).2
  refine ⟨b, { state with output := out' }, ?_, hiff, ?_⟩
  · unfold DelimitSyllablesDfs
    rw [if_neg (Nat.not_lt_zero _)]
    simp only [List.drop_zero, e]
  · intro hc
    rw [hiff, hc]
    constructor
    · rintro ⟨ps, hps⟩
      cases ps with
      | nil => exact hps
      | cons q qs => exact absurd hps (by simp [SpellsFrom])
    · intro hp
      exact ⟨[], hp⟩

/-- Claim C13 on the graph of `xian` and the code of the syllables `xi` and `an`, from
position 0 to position 4. -/
theorem C13_dfs_iff_path_witness :
    ([Examples.apostrophe] ≠ []) ∧ Examples.xianGraph.ForwardWithin Examples.xian.length ∧
    ∃ b state', DelimitSyllablesDfs
        { input := Examples.xian, delimiters := [Examples.apostrophe],
          graph := Examples.xianGraph, code := [1, 3], end_pos := 4, output := [] } 0 0 =
          .ok (b, state') ∧
      (b = true ↔ ∃ ps, SpellsFrom Examples.xianGraph 4 [1, 3] 0 ps) ∧
      (([1, 3] : Code) = [] → (b = true ↔ 0 = 4)) :=
  ⟨by decide,
    Syllabifier.Build_forwardWithin ⟨[Examples.apostrophe], false, false⟩ Examples.xian
      Examples.xianPrism Examples.xianGraph 4 rfl,
    C13_dfs_iff_path
      { input := Examples.xian, delimiters := [Examples.apostrophe],
        graph := Examples.xianGraph, code := [1, 3], end_pos := 4, output := [] } 0
      (by decide)
      (Syllabifier.Build_forwardWithin ⟨[Examples.apostrophe], false, false⟩ Examples.xian
        Examples.xianPrism Examples.xianGraph 4 rfl)⟩

/-- Claim C14. The preedit is never partial. With non-empty delimiters, on a graph whose
edges go forward inside the input, the search run by `GetPreeditString` returns; if it
fails, the output is what it was on entry, so empty when started empty, and
`GetPreeditString` yields the empty string; if it succeeds, the output is the text of
a path that spells the code: its segments `input[p_k, p_{k+1})` in order, with
`delimiters[0]` before a segment `k ≥ 1` exactly when the output so far is not empty and
does not end in a delimiter. -/
theorem C14_preedit_never_partial (t : ScriptTranslator) (self : ScriptTranslation)
    (cand : Candidate) (output : List Char) (hD : t.delimiters_ ≠ [])
    (hg : self.syllable_graph_.ForwardWithin self.input_.length) :
    ∃ b state', DelimitSyllablesDfs
        { input := self.input_, delimiters := t.delimiters_, graph := self.syllable_graph_,
          code := cand.entry.code, end_pos := sizeSub cand.end_ self.start_,
          output := output } (sizeSub cand.start self.start_) 0 = .ok (b, state') ∧
      (b = false → state'.output = output ∧
        (output = [] → ScriptTranslation.GetPreeditString t self cand = .ok [])) ∧
      (b = true →
        (∃ ps, SpellsFrom self.syllable_graph_ (sizeSub cand.end_ self.start_)
            cand.entry.code (sizeSub cand.start self.start_) ps ∧
          state'.output = joinSegments self.input_ t.delimiters_ 0
            (sizeSub cand.start self.start_) ps output) ∧
        (output = [] →
          ScriptTranslation.GetPreeditString t self cand =
            .ok (t.preedit_formatter_ state'.output))) := by
  obtain ⟨b, out', e, hf, ht⟩ :=
    delimitFrom_spec self.input_ t.delimiters_ self.syllable_graph_
      (sizeSub cand.end_ self.start_) hD hg cand.entry.code 0
      (sizeSub cand.start self.start_) output
  have hdfs : DelimitSyllablesDfs
        { input := self.input_, delimiters := t.delimiters_, graph := self.syllable_graph_,
          code := cand.entry.code, end_pos := sizeSub cand.end_ self.start_,
          output := output } (sizeSub cand.start self.start_) 0 =
      .ok (b,
        { input := self.input_, delimiters := t.delimiters_, graph := self.syllable_graph_,
          code := cand.entry.code, end_pos := sizeSub cand.end_ self.start_,
          output := out' }) := by
    unfold DelimitSyllablesDfs
    rw [if_neg (Nat.not_lt_zero _)]
    simp only [List.drop_zero, e]
  refine ⟨b, _, hdfs, ?_, ?_⟩
  · intro hb
    refine ⟨(hf hb).1, ?_⟩
    intro ho
    subst ho
    subst hb
    unfold ScriptTranslation.GetPreeditString
    simp only [hdfs]
  · intro hb
    refine ⟨ht hb, ?_⟩
    intro ho
    subst ho
    subst hb
    unfold ScriptTranslation.GetPreeditString
    simp only [hdfs]
    rfl

/-- Claim C14 on the graph of `xian` and a candidate whose code is the syllables `xi`
and `an`: the preedit is `xi'an`. -/
theorem C14_preedit_never_partial_witness :
    Examples.plainTranslator.delimiters_ ≠ [] ∧
    Examples.xianTranslation.syllable_graph_.ForwardWithin
      Examples.xianTranslation.input_.length ∧
    ∃ b state', DelimitSyllablesDfs
        { input := Examples.xianTranslation.input_,
          delimiters := Examples.plainTranslator.delimiters_,
          graph := Examples.xianTranslation.syllable_graph_,
          code := Examples.xiAn.entry.code,
          end_pos := sizeSub Examples.xiAn.end_ Examples.xianTranslation.start_,
          output := [] } (sizeSub Examples.xiAn.start Examples.xianTranslation.start_) 0 =
          .ok (b, state') ∧
      (b = false → state'.output = [] ∧
        (([] : List Char) = [] → ScriptTranslation.GetPreeditString Examples.plainTranslator
          Examples.xianTranslation Examples.xiAn = .ok [])) ∧
      (b = true →
        (∃ ps, SpellsFrom Examples.xianTranslation.syllable_graph_
            (sizeSub Examples.xiAn.end_ Examples.xianTranslation.start_)
            Examples.xiAn.entry.code
            (sizeSub Examples.xiAn.start Examples.xianTranslation.start_) ps ∧
          state'.output = joinSegments Examples.xianTranslation.input_
            Examples.plainTranslator.delimiters_ 0
            (sizeSub Examples.xiAn.start Examples.xianTranslation.start_) ps []) ∧
        (([] : List Char) = [] →
          ScriptTranslation.GetPreeditString Examples.plainTranslator
            Examples.xianTranslation Examples.xiAn =
            .ok (Examples.plainTranslator.preedit_formatter_ state'.output))) :=
  ⟨by decide,
    Syllabifier.Build_forwardWithin ⟨[Examples.apostrophe], false, false⟩ Examples.xian
      Examples.xianPrism Examples.xianGraph 4 rfl,
    C14_preedit_never_partial Examples.plainTranslator Examples.xianTranslation
      Examples.xiAn [] (by decide)
      (Syllabifier.Build_forwardWithin ⟨[Examples.apostrophe], false, false⟩ Examples.xian
        Examples.xianPrism Examples.xianGraph 4 rfl)⟩

end Rime

namespace Rime
open SpellingType

/-- Scanning a map from its largest key down, the first key below `o` is the greatest
key below `o`. -/
theorem find?_reverse_lt {β : Type} (m : Map Nat β) (hm : Map.WF m) (o : Nat) :
    (∀ x, List.find? (fun x => decide (x.1 < o)) m.reverse = some x →
      x ∈ m ∧ x.1 < o ∧ ∀ y ∈ m, y.1 < o → y.1 ≤ x.1) ∧
    (List.find? (fun x => decide (x.1 < o)) m.reverse = none → ∀ y ∈ m, ¬ y.1 < o) := by
  constructor
  · intro x hx
    obtain ⟨hp, as, bs, hl, has⟩ := List.find?_eq_some.mp hx
    have hl' : m = bs.reverse ++ x :: as.reverse := by
      have := congrArg List.reverse hl
      simpa using this
    have hpx : x.1 < o := of_decide_eq_true hp
    refine ⟨by rw [hl']; simp, hpx, ?_⟩
    intro y hy hyo
    rw [hl'] at hy hm
    unfold Map.WF Map.keys at hm
    rw [List.map_append, List.pairwise_append] at hm
    rcases List.mem_append.mp hy with h | h
    · have h1 : y.1 ∈ List.map Prod.fst bs.reverse := List.mem_map_of_mem _ h
      have h2 : x.1 ∈ List.map Prod.fst (x :: as.reverse) := by simp
      exact le_of_lt (hm.2.2 _ h1 _ h2)
    · rcases List.mem_cons.mp h with h | h
      · rw [h]
      · have := has y (List.mem_reverse.mp h)
        simp [hyo] at this
  · intro hn y hy hyo
    have := List.find?_eq_none.mp hn y (List.mem_reverse.mpr hy)
    simp [hyo] at this

/-- Scanning a map from its smallest key up, the first key above `o` is the least key
above `o`. -/
theorem find?_gt {β : Type} (m : Map Nat β) (hm : Map.WF m) (o : Nat) :
    (∀ x, List.find? (fun x => decide (o < x.1)) m = some x →
      x ∈ m ∧ o < x.1 ∧ ∀ y ∈ m, o < y.1 → x.1 ≤ y.1) ∧
    (List.find? (fun x => decide (o < x.1)) m = none → ∀ y ∈ m, ¬ o < y.1) := by
  constructor
  · intro x hx
    obtain ⟨hp, as, bs, hl, has⟩ := List.find?_eq_some.mp hx
    have hpx : o < x.1 := of_decide_eq_true hp
    refine ⟨by rw [hl]; simp, hpx, ?_⟩
    intro y hy hyo
    rw [hl] at hy hm
    unfold Map.WF Map.keys at hm
    rw [List.map_append, List.pairwise_append] at hm
    rcases List.mem_append.mp hy with h | h
    · have := has y h
      simp [hyo] at this
    · rcases List.mem_cons.mp h with h | h
      · rw [h]
      · have h1 : List.Pairwise (fun a b => a < b) (List.map Prod.fst (x :: bs)) := hm.2.1
        rw [List.map_cons, List.pairwise_cons] at h1
        exact le_of_lt (h1.1 _ (List.mem_map_of_mem _ h))
  · intro hn y hy hyo
    have := List.find?_eq_none.mp hn y hy
    simp [hyo] at this

/-- Claim C15. With `caret - start` the `size_t` difference the code computes (the
difference of the two numbers when the caret is at or after the start of the
translation), `PreviousStop(caret)` returns `start + p` for the greatest position `p` of
`graph.vertices` strictly less than `caret - start`, `NextStop(caret)` returns
`start + p` for the least position `p` strictly greater than `caret - start`, and each
returns `caret` when there is no such position. -/
theorem C15_stops (self : ScriptTranslation) (caret_pos : Nat)
    (hwf : Map.WF self.syllable_graph_.vertices) :
    (∀ p ∈ Map.keys self.syllable_graph_.vertices, p < sizeSub caret_pos self.start_ →
      (∀ q ∈ Map.keys self.syllable_graph_.vertices,
        q < sizeSub caret_pos self.start_ → q ≤ p) →
      self.PreviousStop caret_pos = self.start_ + p) ∧
    ((∀ p ∈ Map.keys self.syllable_graph_.vertices, ¬ p < sizeSub caret_pos self.start_) →
      self.PreviousStop caret_pos = caret_pos) ∧
    (∀ p ∈ Map.keys self.syllable_graph_.vertices, sizeSub caret_pos self.start_ < p →
      (∀ q ∈ Map.keys self.syllable_graph_.vertices,
        sizeSub caret_pos self.start_ < q → p ≤ q) →
      self.NextStop caret_pos = self.start_ + p) ∧
    ((∀ p ∈ Map.keys self.syllable_graph_.vertices, ¬ sizeSub caret_pos self.start_ < p) →
      self.NextStop caret_pos = caret_pos) ∧
    (self.start_ ≤ caret_pos → sizeSub caret_pos self.start_ = caret_pos - self.start_) := by
  have hkey : ∀ p, p ∈ Map.keys self.syllable_graph_.vertices ↔
      ∃ x ∈ self.syllable_graph_.vertices, x.1 = p := by
    intro p
    unfold Map.keys
    simp
  obtain ⟨hp1, hp2⟩ := find?_reverse_lt self.syllable_graph_.vertices hwf
    (sizeSub caret_pos self.start_)
  obtain ⟨hn1, hn2⟩ := find?_gt self.syllable_graph_.vertices hwf
    (sizeSub caret_pos self.start_)
  refine ⟨?_, ?_, ?_, ?_, fun hc => sizeSub_of_le hc⟩
  · intro p hp hlt hmax
    unfold ScriptTranslation.PreviousStop
    cases hf : List.find? (fun x => decide (x.1 < sizeSub caret_pos self.start_))
        self.syllable_graph_.vertices.reverse with
    | none =>
      obtain ⟨x, hx, rfl⟩ := (hkey p).mp hp
      exact absurd hlt (hp2 hf x hx)
    | some x =>
      obtain ⟨hx, hxo, hxmax⟩ := hp1 x hf
      obtain ⟨y, hy, rfl⟩ := (hkey p).mp hp
      have h1 : y.1 ≤ x.1 := hxmax y hy hlt
      have h2 : x.1 ≤ y.1 := hmax x.1 ((hkey x.1).mpr ⟨x, hx, rfl⟩) hxo
      simp only [hf]
      omega
  · intro hnone
    unfold ScriptTranslation.PreviousStop
    cases hf : List.find? (fun x => decide (x.1 < sizeSub caret_pos self.start_))
        self.syllable_graph_.vertices.reverse with
    | none => simp only [hf]
    | some x =>
      obtain ⟨hx, hxo, _⟩ := hp1 x hf
      exact absurd hxo (hnone x.1 ((hkey x.1).mpr ⟨x, hx, rfl⟩))
  · intro p hp hlt hmin
    unfold ScriptTranslation.NextStop
    cases hf : List.find? (fun x => decide (sizeSub caret_pos self.start_ < x.1))
        self.syllable_graph_.vertices with
    | none =>
      obtain ⟨x, hx, rfl⟩ := (hkey p).mp hp
      exact absurd hlt (hn2 hf x hx)
    | some x =>
      obtain ⟨hx, hxo, hxmin⟩ := hn1 x hf
      obtain ⟨y, hy, rfl⟩ := (hkey p).mp hp
      have h1 : x.1 ≤ y.1 := hxmin y hy hlt
      have h2 : y.1 ≤ x.1 := hmin x.1 ((hkey x.1).mpr ⟨x, hx, rfl⟩) hxo
      simp only [hf]
      omega
  · intro hnone
    unfold ScriptTranslation.NextStop
    cases hf : List.find? (fun x => decide (sizeSub caret_pos self.start_ < x.1))
        self.syllable_graph_.vertices with
    | none => simp only [hf]
    | some x =>
      obtain ⟨hx, hxo, _⟩ := hn1 x hf
      exact absurd hxo (hnone x.1 ((hkey x.1).mpr ⟨x, hx, rfl⟩))

end Rime

namespace Rime
open SpellingType

/-- Claim C16. In a ScriptTranslation that is not exhausted: with a sentence queued,
`Peek` returns that sentence (its preedit and comment filled in) and `Next` discards
it and leaves both collectors and the index as they are, after which no call of `Next`
queues a sentence again; with no sentence queued and `U`, `P` the keys of the current
user and dict buckets (0 when drained), if `U > 0` and `U ≥ P` then `Peek` builds its
candidate from the entry of the user bucket the index points to and `Next` moves the
index, or drops the bucket, and leaves the dict collector alone; otherwise, `P` being
positive, `Peek` builds its candidate from the first entry of the dict bucket and `Next`
steps the iterator of that bucket, or drops it, and leaves the user collector alone.
With positive keys and one collector not drained, `P` is positive in the second case. -/
theorem C16_sentence_first (t : ScriptTranslator) (self : ScriptTranslation)
    (hne : self.exhausted_ = false) :
    (∀ s, self.sentence_ = some s →
      (∀ r, ScriptTranslation.Peek t self = .ok r →
        ∃ s', r.1 = some s' ∧ s' = { s with preedit := s'.preedit, comment := s'.comment }) ∧
      (t.delimiters_ ≠ [] → self.syllable_graph_.ForwardWithin self.input_.length →
        ∃ r, ScriptTranslation.Peek t self = .ok r) ∧
      (self.Next).2.sentence_ = none ∧ (self.Next).2.phrase_ = self.phrase_ ∧
      (self.Next).2.user_phrase_ = self.user_phrase_ ∧
      (self.Next).2.user_phrase_index_ = self.user_phrase_index_ ∧
      ∀ n, (self.afterNext (n + 1)).sentence_ = none) ∧
    (self.sentence_ = none →
      (0 < self.user_phrase_code_length ∧
          self.phrase_code_length ≤ self.user_phrase_code_length →
        (self.Next).2.phrase_ = self.phrase_ ∧
        ∃ b rest, self.user_phrase_ = some (b :: rest) ∧
          b.1 = self.user_phrase_code_length ∧
          (self.Next).2.user_phrase_ =
            (if b.2.length ≤ self.user_phrase_index_ + 1 then some rest
              else self.user_phrase_) ∧
          (self.Next).2.user_phrase_index_ =
            (if b.2.length ≤ self.user_phrase_index_ + 1 then 0
              else self.user_phrase_index_ + 1) ∧
          (∀ r, ScriptTranslation.Peek t self = .ok r →
            ∃ cand, r.1 = some cand ∧ cand.type = "phrase" ∧ cand.start = self.start_ ∧
              cand.end_ = self.start_ + self.user_phrase_code_length ∧
              b.2.get? self.user_phrase_index_ = some cand.entry) ∧
          (t.delimiters_ ≠ [] → self.syllable_graph_.ForwardWithin self.input_.length →
            self.user_phrase_index_ < b.2.length →
            ∃ r, ScriptTranslation.Peek t self = .ok r)) ∧
      (¬ (0 < self.user_phrase_code_length ∧
          self.phrase_code_length ≤ self.user_phrase_code_length) →
        0 < self.phrase_code_length →
        (self.Next).2.user_phrase_ = self.user_phrase_ ∧
        (self.Next).2.user_phrase_index_ = self.user_phrase_index_ ∧
        ∃ b rest, self.phrase_ = some (b :: rest) ∧ b.1 = self.phrase_code_length ∧
          (self.Next).2.phrase_ =
            (if b.2.tail.isEmpty then some rest else some ((b.1, b.2.tail) :: rest)) ∧
          (∀ r, ScriptTranslation.Peek t self = .ok r →
            ∃ cand, r.1 = some cand ∧ cand.type = "phrase" ∧ cand.start = self.start_ ∧
              cand.end_ = self.start_ + self.phrase_code_length ∧
              b.2.head? = some cand.entry) ∧
          (t.delimiters_ ≠ [] → self.syllable_graph_.ForwardWithin self.input_.length →
            b.2 ≠ [] → ∃ r, ScriptTranslation.Peek t self = .ok r)) ∧
      (¬ (self.phraseDrained ∧ self.userPhraseDrained) →
        (∀ r, self.phrase_ = some r → ∀ b ∈ r, 0 < b.1) →
        (∀ r, self.user_phrase_ = some r → ∀ b ∈ r, 0 < b.1) →
        ¬ (0 < self.user_phrase_code_length ∧
          self.phrase_code_length ≤ self.user_phrase_code_length) →
        0 < self.phrase_code_length)) := by
  refine ⟨?_, ?_⟩
  · intro s hs
    have hnext := ScriptTranslation.Next_of_sentence self s hne hs
    have hpeek := ScriptTranslation.Peek_of_sentence t self s hne hs
    refine ⟨?_, ?_, ?_, ?_, ?_, ?_, ?_⟩
    · intro r hr
      rw [hpeek] at hr
      cases hf : ScriptTranslation.fillPreeditAndComment t self s with
      | error e => rw [hf] at hr; cases hr
      | ok s' =>
        rw [hf] at hr
        injection hr with hr
        rw [← hr]
        exact ⟨s', rfl, ScriptTranslation.fillPreeditAndComment_same t self s s' hf⟩
    · intro hD hg
      obtain ⟨s', hf⟩ := ScriptTranslation.fillPreeditAndComment_ok t self s hD hg
      rw [hpeek, hf]
      exact ⟨_, rfl⟩
    · rw [hnext]; rfl
    · rw [hnext]; rfl
    · rw [hnext]; rfl
    · rw [hnext]; rfl
    · intro n
      have h1 : (self.Next).2.sentence_ = none := by rw [hnext]; rfl
      exact ScriptTranslation.afterNext_sentence_none _ h1 n
  · intro hs
    refine ⟨?_, ?_, ?_⟩
    · intro hc
      obtain ⟨b, rest, hu, hb⟩ := ScriptTranslation.user_phrase_code_length_pos self hc.1
      have hnext := ScriptTranslation.Next_user self hne hs hc b rest hu
      have hpeek := ScriptTranslation.Peek_user t self hne hs hc b rest hu
      refine ⟨?_, b, rest, hu, hb, ?_, ?_, ?_, ?_⟩
      · rw [hnext]
        split <;> rfl
      · rw [hnext]
        split <;> rfl
      · rw [hnext]
        split <;> rfl
      · intro r hr
        rw [hpeek] at hr
        cases he : b.2.get? self.user_phrase_index_ with
        | none => rw [he] at hr; cases hr
        | some entry =>
          rw [he] at hr
          simp only at hr
          split at hr
          · cases hr
          · rename_i cand1 hf
            injection hr with hr
            rw [← hr]
            have := ScriptTranslation.fillPreeditAndComment_same t self _ cand1 hf
            refine ⟨cand1, rfl, ?_, ?_, ?_, ?_⟩
            · rw [this]; rfl
            · rw [this]; rfl
            · rw [this]; rfl
            · rw [this]; rfl
      · intro hD hg hi
        rw [hpeek]
        obtain ⟨entry, he⟩ : ∃ entry, b.2.get? self.user_phrase_index_ = some entry :=
          ⟨_, List.get?_eq_get hi⟩
        rw [he]
        simp only
        obtain ⟨c', hf⟩ := ScriptTranslation.fillPreeditAndComment_ok t self
          { Phrase.new "phrase" self.start_
              (self.start_ + self.user_phrase_code_length) entry with
            quality := entry.weight + t.initial_quality_ +
              (if self.IsNormalSpelling then 1 / 2 else -(1 / 2)) } hD hg
        rw [hf]
        exact ⟨_, rfl⟩
    · intro hc hp
      obtain ⟨b, rest, hu, hb⟩ := ScriptTranslation.phrase_code_length_pos self hp
      have hnext := ScriptTranslation.Next_dict self hne hs hc hp b rest hu
      have hpeek := ScriptTranslation.Peek_dict t self hne hs hc hp b rest hu
      refine ⟨?_, ?_, b, rest, hu, hb, ?_, ?_, ?_⟩
      · rw [hnext]
        split <;> rfl
      · rw [hnext]
        split <;> rfl
      · rw [hnext]
        split <;> rfl
      · intro r hr
        rw [hpeek] at hr
        cases he : b.2.head? with
        | none => rw [he] at hr; cases hr
        | some entry =>
          rw [he] at hr
          simp only at hr
          split at hr
          · cases hr
          · rename_i cand1 hf
            injection hr with hr
            rw [← hr]
            have := ScriptTranslation.fillPreeditAndComment_same t self _ cand1 hf
            refine ⟨cand1, rfl, ?_, ?_, ?_, ?_⟩
            · rw [this]; rfl
            · rw [this]; rfl
            · rw [this]; rfl
            · rw [this]; rfl
      · intro hD hg hb2
        rw [hpeek]
        obtain ⟨entry, he⟩ : ∃ entry, b.2.head? = some entry := by
          cases hl : b.2 with
          | nil => exact absurd hl hb2
          | cons e l => exact ⟨e, rfl⟩
        rw [he]
        simp only
        obtain ⟨c', hf⟩ := ScriptTranslation.fillPreeditAndComment_ok t self
          { Phrase.new "phrase" self.start_
              (self.start_ + self.phrase_code_length) entry with
            quality := entry.weight + t.initial_quality_ +
              (if self.IsNormalSpelling then 0 else -1) } hD hg
        rw [hf]
        exact ⟨_, rfl⟩
    · intro hnd hkp hku hc
      unfold ScriptTranslation.phraseDrained ScriptTranslation.userPhraseDrained at hnd
      unfold ScriptTranslation.user_phrase_code_length
        ScriptTranslation.phrase_code_length at hc
      unfold ScriptTranslation.phrase_code_length
      cases hp : self.phrase_ with
      | some p =>
        cases p with
        | cons b rest =>
          exact hkp _ hp b (List.mem_cons_self _ _)
        | nil =>
          rw [hp] at hnd hc
          cases hu : self.user_phrase_ with
          | none => rw [hu] at hnd; simp at hnd
          | some u =>
            cases u with
            | nil => rw [hu] at hnd; simp at hnd
            | cons b rest =>
              rw [hu] at hc
              have := hku _ hu b (List.mem_cons_self _ _)
              simp at hc
              omega
      | none =>
        rw [hp] at hnd hc
        cases hu : self.user_phrase_ with
        | none => rw [hu] at hnd; simp at hnd
        | some u =>
          cases u with
          | nil => rw [hu] at hnd; simp at hnd
          | cons b rest =>
            rw [hu] at hc
            have := hku _ hu b (List.mem_cons_self _ _)
            simp at hc
            omega

end Rime

namespace Rime
open SpellingType
namespace ScriptTranslation

/-- A call of `Next` changes neither the input nor the syllable graph. -/
theorem Next_graph (self : ScriptTranslation) :
    (self.Next).2.input_ = self.input_ ∧
    (self.Next).2.syllable_graph_ = self.syllable_graph_ := by
  unfold Next
  split
  · exact ⟨rfl, rfl⟩
  · split
    · exact ⟨rfl, rfl⟩
    · simp only
      rw [(CheckEmpty_fields _).2.2.2.2.2.1, (CheckEmpty_fields _).2.2.2.2.1]
      repeat' split
      all_goals exact ⟨rfl, rfl⟩

/-- A translation whose flag says whether both collectors are drained keeps such a flag
when `Next` is called. -/
theorem Next_flag (self : ScriptTranslation)
    (h : self.exhausted_ = true ↔ self.phraseDrained ∧ self.userPhraseDrained) :
    (self.Next).2.exhausted_ = true ↔
      (self.Next).2.phraseDrained ∧ (self.Next).2.userPhraseDrained := by
  have key : ∀ st : ScriptTranslation, (CheckEmpty st).2.exhausted_ = true ↔
      (CheckEmpty st).2.phraseDrained ∧ (CheckEmpty st).2.userPhraseDrained := by
    intro st
    exact CheckEmpty_iff st
  unfold Next
  split
  · exact h
  · split
    · exact key _
    · exact key _

end ScriptTranslation

/-- A translation that `Evaluate` rejects can hold a sentence: the lookup of the
dictionary finds a collector with no bucket and the poet makes a sentence for `xian`;
`Evaluate` returns false and leaves the translation exhausted, and `Peek` returns a
null pointer. -/
theorem Evaluate_rejects_sentence_only :
    ScriptTranslation.Evaluate Examples.sentenceOnlyTranslator
        (ScriptTranslation.new Examples.xian 0) Examples.emptyDictionary none =
      .ok (false, Examples.sentenceOnlyTranslation) ∧
    Examples.sentenceOnlyTranslation.exhausted_ = true ∧
    Examples.sentenceOnlyTranslation.sentence_ = some Examples.xiAnSentence ∧
    ScriptTranslation.Peek Examples.sentenceOnlyTranslator Examples.sentenceOnlyTranslation =
      .ok (none, Examples.sentenceOnlyTranslation) :=
  ⟨rfl, rfl, rfl, rfl⟩

end Rime

namespace Rime
open SpellingType

/-- Claim C18. `TableTranslation::PreferUserPhrase` is true iff the user iterator is
not exhausted and either the dict iterator is exhausted or it is not the case that the
dict head is a complete match while the user head is incomplete or constructed. When
both heads are complete matches and the user head is not constructed, `Peek` emits the
user entry and `Next` steps the user iterator only, so the dict entry comes later; when
the dict head is a complete match and the user head is constructed, `Peek` emits the
dict entry and `Next` leaves the user iterator alone. -/
theorem C18_prefer_user_phrase (self : TableTranslation) :
    (self.PreferUserPhrase = true ↔
      self.uter_ ≠ [] ∧
        (self.iter_ = [] ∨
          ¬ ((∃ i, self.iter_.head? = some i ∧ i.remaining_code_length = 0) ∧
            ∃ u, self.uter_.head? = some u ∧
              (u.remaining_code_length ≠ 0 ∨ is_constructed u = true)))) ∧
    (∀ i irest u urest options, self.iter_ = i :: irest → self.uter_ = u :: urest →
      self.options_ = some options → self.exhausted_ = false →
      i.remaining_code_length = 0 → u.remaining_code_length = 0 →
      is_constructed u = false →
      self.PreferUserPhrase = true ∧
      (∃ cand, self.Peek = .ok (some cand) ∧ cand.entry = u ∧ cand.type = "table") ∧
      (self.Next).2.iter_ = i :: irest ∧ (self.Next).2.uter_ = urest) ∧
    (∀ i irest u urest options, self.iter_ = i :: irest → self.uter_ = u :: urest →
      self.options_ = some options → self.exhausted_ = false →
      i.remaining_code_length = 0 → is_constructed u = true →
      self.PreferUserPhrase = false ∧
      (∃ cand, self.Peek = .ok (some cand) ∧ cand.entry = i ∧ cand.type = "table") ∧
      (self.Next).2.iter_ = irest ∧ (self.Next).2.uter_ = u :: urest) := by
  refine ⟨?_, ?_, ?_⟩
  · unfold TableTranslation.PreferUserPhrase
    cases hu : self.uter_ with
    | nil => simp
    | cons u urest =>
      cases hi : self.iter_ with
      | nil => simp
      | cons i irest =>
        by_cases hc : i.remaining_code_length = 0 ∧
            (u.remaining_code_length ≠ 0 ∨ is_constructed u = true)
        · simp only [if_pos hc]
          simp [hc.1, hc.2]
        · simp only [if_neg hc]
          simp only [ne_eq, reduceCtorEq, not_false_eq_true, List.head?_cons,
            Option.some.injEq, exists_eq_left', false_or, true_and]
          exact ⟨fun _ h => hc h, fun _ => trivial⟩
  · intro i irest u urest options hi hu ho hne hi0 hu0 hcu
    have hp : self.PreferUserPhrase = true := by
      unfold TableTranslation.PreferUserPhrase
      rw [hu, hi]
      simp only
      rw [if_neg]
      rintro ⟨_, h | h⟩
      · exact h hu0
      · rw [hcu] at h; cases h
    refine ⟨hp, ?_, ?_, ?_⟩
    · unfold TableTranslation.Peek
      simp only [hne, hp, TableTranslation.PreferedEntry, hu, ho, Bool.false_eq_true,
        if_false, if_true, List.head?_cons]
      exact ⟨_, rfl, rfl, by simp [Phrase.new, hu0]⟩
    · unfold TableTranslation.Next
      simp only [hne, hp, Bool.false_eq_true, if_false, if_true]
      exact hi
    · unfold TableTranslation.Next
      simp only [hne, hp, Bool.false_eq_true, if_false, if_true]
      show self.uter_.tail = urest
      rw [hu]
      rfl
  · intro i irest u urest options hi hu ho hne hi0 hcu
    have hp : self.PreferUserPhrase = false := by
      unfold TableTranslation.PreferUserPhrase
      rw [hu, hi]
      simp only
      rw [if_pos ⟨hi0, Or.inr hcu⟩]
    refine ⟨hp, ?_, ?_, ?_⟩
    · unfold TableTranslation.Peek
      simp only [hne, hp, TableTranslation.PreferedEntry, hi, ho, Bool.false_eq_true,
        if_false, List.head?_cons]
      exact ⟨_, rfl, rfl, by simp [Phrase.new, hi0]⟩
    · unfold TableTranslation.Next
      simp only [hne, hp, Bool.false_eq_true, if_false]
      show self.iter_.tail = irest
      rw [hi]
      rfl
    · unfold TableTranslation.Next
      simp only [hne, hp, Bool.false_eq_true, if_false]
      exact hu

/-- Claim C18 on a translation with one complete user entry and one complete dict
entry, and on one whose user entry is constructed. -/
theorem C18_prefer_user_phrase_witness :
    Examples.bothComplete.PreferUserPhrase = true ∧
    (∃ cand, Examples.bothComplete.Peek = .ok (some cand) ∧
      cand.entry = Examples.userEntry ∧ cand.type = "table") ∧
    (Examples.bothComplete.Next).2.iter_ = [Examples.tableEntry] ∧
    (Examples.bothComplete.Next).2.uter_ = [] ∧
    Examples.withConstructed.PreferUserPhrase = false ∧
    (∃ cand, Examples.withConstructed.Peek = .ok (some cand) ∧
      cand.entry = Examples.tableEntry ∧ cand.type = "table") :=
  have h1 := (C18_prefer_user_phrase Examples.bothComplete).2.1 Examples.tableEntry []
    Examples.userEntry [] Examples.plainOptions rfl rfl rfl rfl rfl rfl rfl
  have h2 := (C18_prefer_user_phrase Examples.withConstructed).2.2 Examples.tableEntry []
    Examples.constructedEntry [] Examples.plainOptions rfl rfl rfl rfl rfl rfl
  ⟨h1.1, h1.2.1, h1.2.2.1, h1.2.2.2, h2.1, h2.2.1⟩

/-- Claim C19, the failing input. The user dictionary holds a word for the key `a`, and
the lookup loop of lines 578-601 puts it into `entries[1]`; the dictionary is loaded and
its prism has no key that is a prefix of the input `a`. Line 634 then ends the iteration
for start position 0 before the extension loop: when `MakeSentence` is done no sentence
stands at position 1. Without the dictionary the same word is extended to position 1. -/
theorem C19_extension_skipped :
    (TableTranslator.lookupUserPhrases
        (fun key => Examples.abUserDictionary.LookupWords key false 0) false
        (fun _ => true) 0 ['a'] ['a', ' '] [' '] [1] ([none, none], [])).1 =
      [none, some Examples.wordA] ∧
    (∃ st, TableTranslator.MakeSentenceLoop Examples.abTranslator ['a'] = .ok st ∧
      Map.find? st.sentences 0 = some TableTranslator.emptySentence ∧
      Map.find? st.sentences 1 = none) ∧
    (∃ st, TableTranslator.MakeSentenceLoop Examples.abUserOnlyTranslator ['a'] = .ok st ∧
      Map.find? st.sentences 1 =
        some (Examples.appendEntry TableTranslator.emptySentence Examples.wordA 1)) :=
  ⟨rfl, ⟨_, rfl, rfl, rfl⟩, ⟨_, rfl, rfl⟩⟩

/-- Claim C20. In `TableTranslator::MakeSentence` a newly extended sentence is installed
at `end_pos` iff no sentence is there yet or the weight of the one installed is at most
its own. When the loop has ended, every position `e > 0` holds a sentence iff an
extension was generated for it, and the sentence it holds is one of the extensions
generated for `e`, no extension generated for `e` before it has a greater weight and
every extension generated for `e` after it has a smaller weight: it has the greatest
weight, and it is the latest of those that have it. -/
theorem C20_best_sentence (t : TableTranslator) (input : List Char) (st : SentenceState)
    (h : TableTranslator.MakeSentenceLoop t input = .ok st) :
    (∀ (sentences : Map Nat Sentence) (end_pos : Nat) (new_sentence : Sentence),
      ((Map.find? sentences end_pos = none ∨
          ∃ old, Map.find? sentences end_pos = some old ∧ old.weight ≤ new_sentence.weight) →
        TableTranslator.installSentence sentences end_pos new_sentence =
          Map.set sentences end_pos new_sentence) ∧
      (¬ (Map.find? sentences end_pos = none ∨
          ∃ old, Map.find? sentences end_pos = some old ∧ old.weight ≤ new_sentence.weight) →
        TableTranslator.installSentence sentences end_pos new_sentence = sentences)) ∧
    (∀ e, e ≠ 0 → (Map.find? st.sentences e = none ↔ generatedFor st.generated e = [])) ∧
    (∀ e s, e ≠ 0 → Map.find? st.sentences e = some s →
      ∃ l1 l2, generatedFor st.generated e = l1 ++ s :: l2 ∧
        (∀ x ∈ l1, x.weight ≤ s.weight) ∧ ∀ x ∈ l2, x.weight < s.weight) := by
  have inv := TableTranslator.MakeSentenceLoop_best t input st h
  refine ⟨TableTranslator.installSentence_eq, ?_, ?_⟩
  · intro e he
    constructor
    · exact (inv e).1
    · intro hg
      cases hf : Map.find? st.sentences e with
      | none => rfl
      | some s =>
        rcases (inv e).2 s hf with ⟨h0, _⟩ | ⟨l1, l2, h1, _⟩
        · exact absurd h0 he
        · rw [hg] at h1
          simp at h1
  · intro e s he hf
    rcases (inv e).2 s hf with ⟨h0, _⟩ | h1
    · exact absurd h0 he
    · exact h1

/-- Claim C20 on the input `ab` with the words `a`, `b` and `ab`: two extensions are
generated for position 2, and the heavier one, generated first, stays installed. -/
theorem C20_best_sentence_witness :
    ∃ st, TableTranslator.MakeSentenceLoop Examples.abUserOnlyTranslator ['a', 'b'] = .ok st ∧
      Map.find? st.sentences 2 =
        some (Examples.appendEntry TableTranslator.emptySentence Examples.wordAB 2) ∧
      generatedFor st.generated 2 =
        [Examples.appendEntry TableTranslator.emptySentence Examples.wordAB 2,
          Examples.appendEntry
            (Examples.appendEntry TableTranslator.emptySentence Examples.wordA 1)
            Examples.wordB 2] ∧
      ∃ l1 l2, generatedFor st.generated 2 =
          l1 ++ Examples.appendEntry TableTranslator.emptySentence Examples.wordAB 2 :: l2 ∧
        (∀ x ∈ l1, x.weight ≤
          (Examples.appendEntry TableTranslator.emptySentence Examples.wordAB 2).weight) ∧
        ∀ x ∈ l2, x.weight <
          (Examples.appendEntry TableTranslator.emptySentence Examples.wordAB 2).weight :=
  ⟨_, rfl, rfl, rfl,
    (C20_best_sentence Examples.abUserOnlyTranslator ['a', 'b'] _ rfl).2.2 2 _
      (by decide) rfl⟩

end Rime

namespace Rime
open SpellingType

/-- Claim C12 on the completion edge `0 → 3` of the graph built for `zho`. -/
theorem C12_end_pos_witness :
    Syllabifier.BuildSyllableGraph ⟨[Examples.apostrophe], true, false⟩ Examples.zho
      Examples.zhongPrism {} = .ok (Examples.zhoGraph, 3) ∧
    Examples.zhoGraph.edge? 0 3 =
      some [(7, { type := kCompletion, end_pos := 3, credibility := 1 * (1 / 2) })] ∧
    Map.find? [((7 : SyllableId),
        ({ type := kCompletion, end_pos := 3, credibility := 1 * (1 / 2) } :
          SpellingProperties))] 7 =
      some { type := kCompletion, end_pos := 3, credibility := 1 * (1 / 2) } ∧
    ({ type := kCompletion, end_pos := 3, credibility := 1 * (1 / 2) } :
      SpellingProperties).end_pos = 3 :=
  ⟨rfl, rfl, rfl,
    C12_end_pos ⟨[Examples.apostrophe], true, false⟩ Examples.zho Examples.zhongPrism
      Examples.zhoGraph 3 rfl 0 3 _ rfl 7 _ rfl⟩

/-- Claim C15 on a translation that starts at position 5 and has the vertices 0, 2 and
4, with the caret at position 8. -/
theorem C15_stops_witness :
    Map.WF Examples.shiftedTranslation.syllable_graph_.vertices ∧
    Examples.shiftedTranslation.PreviousStop 8 = 5 + 2 ∧
    Examples.shiftedTranslation.NextStop 8 = 5 + 4 :=
  have hwf : Map.WF Examples.shiftedTranslation.syllable_graph_.vertices := by
    unfold Map.WF
    decide
  have h := C15_stops Examples.shiftedTranslation 8 hwf
  ⟨hwf, h.1 2 (by decide) (by decide) (by decide),
    h.2.2.1 4 (by decide) (by decide) (by decide)⟩

/-- Claim C16 on a translation with a sentence queued and one bucket of code length 2
in each collector: the first `Next` drops the sentence, the second steps the
user-phrase collector. -/
theorem C16_sentence_first_witness :
    Examples.liveTranslation.exhausted_ = false ∧
    Examples.liveTranslation.sentence_ = some Examples.xiAnSentence ∧
    (∃ r, ScriptTranslation.Peek Examples.xiTranslator Examples.liveTranslation = .ok r) ∧
    (Examples.liveTranslation.Next).2.sentence_ = none ∧
    (Examples.liveTranslation.Next).2.phrase_ = Examples.liveTranslation.phrase_ ∧
    (Examples.liveTranslation.Next).2.user_phrase_ = Examples.liveTranslation.user_phrase_ ∧
    (Examples.liveTranslation.Next).2.exhausted_ = false ∧
    ((Examples.liveTranslation.Next).2.Next).2.phrase_ = Examples.liveTranslation.phrase_ ∧
    ((Examples.liveTranslation.Next).2.Next).2.user_phrase_ = some [] :=
  have hg : Examples.xianGraph.ForwardWithin Examples.xian.length :=
    Syllabifier.Build_forwardWithin ⟨[Examples.apostrophe], false, false⟩ Examples.xian
      Examples.xianPrism Examples.xianGraph 4 rfl
  have h1 := (C16_sentence_first Examples.xiTranslator Examples.liveTranslation rfl).1
    Examples.xiAnSentence rfl
  have h2 := ((C16_sentence_first Examples.xiTranslator (Examples.liveTranslation.Next).2
    rfl).2 rfl).1 (by decide)
  ⟨rfl, rfl, h1.2.1 (by decide) hg, h1.2.2.1, h1.2.2.2.1, h1.2.2.2.2.1, rfl, h2.1, rfl⟩

end Rime

namespace Rime
open SpellingType

/-- Claim C29. After `Transpose` on a graph with empty indices and well-formed maps of
edges, every edge of which carries properties whose `end_pos` is the end of the edge,
the `end_pos` values of the entries of `indices[i][sid]`, in list order, are strictly
decreasing. -/
theorem C29_index_end_pos_decreasing (g : SyllableGraph) (hidx : g.indices = [])
    (hwf : g.EdgesWF)
    (hend : ∀ start ∈ g.edges, ∀ e ∈ start.2, ∀ sp ∈ e.2, sp.2.end_pos = e.1)
    (i : Nat) (sid : SyllableId) (l : List SpellingProperties)
    (h : (Syllabifier.Transpose g).index? i sid = some l) :
    List.Pairwise (fun a b => b < a) (l.map (fun props => props.end_pos)) := by
  rw [Syllabifier.Transpose_index? g hidx hwf i sid] at h
  split at h
  · cases h
  · injection h with h
    subst h
    cases hrow : g.edges.find? i with
    | none => simp
    | some row =>
      simp only [Option.getD_some]
      have hirow : (i, row) ∈ g.edges := Map.mem_of_find? hrow
      have hrowwf : Map.WF row := (hwf.2 (i, row) hirow).1
      have hkeys : List.Pairwise (fun a b : Nat × SpellingMap => b.1 < a.1) row.reverse := by
        rw [List.pairwise_reverse]
        exact (List.pairwise_map.mp hrowwf)
      rw [List.pairwise_map, List.pairwise_filterMap]
      refine List.Pairwise.imp_of_mem ?_ hkeys
      intro a b hma hmb hab pa ha pb hb
      have ea : pa.end_pos = a.1 :=
        hend (i, row) hirow a (List.mem_reverse.mp hma) (sid, pa) (Map.mem_of_find? ha)
      have eb : pb.end_pos = b.1 :=
        hend (i, row) hirow b (List.mem_reverse.mp hmb) (sid, pb) (Map.mem_of_find? hb)
      rw [ea, eb]
      exact hab

/-- Claim C29 on the graph of `aaa`, start 0 and syllable 7: the index lists the
spelling that ends at 2 before the one that ends at 1. -/
theorem C29_index_end_pos_decreasing_witness :
    (Syllabifier.Transpose { Examples.aaaGraph with indices := [] }).index? 0 7 =
      some [{ end_pos := 2 }, { end_pos := 1 }] ∧
    List.Pairwise (fun a b => b < a)
      (([{ end_pos := 2 }, { end_pos := 1 }] : List SpellingProperties).map
        (fun props => props.end_pos)) :=
  have hwf : ({ Examples.aaaGraph with indices := [] } : SyllableGraph).EdgesWF := by
    unfold SyllableGraph.EdgesWF Map.WF
    decide
  ⟨by rfl, C29_index_end_pos_decreasing { Examples.aaaGraph with indices := [] }
    rfl hwf (by decide) 0 7 _ (by rfl)⟩

end Rime

namespace Rime
open SpellingType

theorem delimitRow_greatest (input D : List Char) (g : SyllableGraph) (E : Nat)
    (sid : SyllableId) (rest : Code) (pos depth : Nat)
    (next : Nat → List Char → Except Fault (Bool × List Char))
    (hD : D ≠ [])
    (hnext : GreatestSpec input D g E rest (depth + 1) next)
    (ys : List (Nat × SpellingMap)) (hys : ∀ y ∈ ys, pos < y.1 ∧ pos ≤ input.length)
    (out : List Char) :
    ∃ b out', delimitRow input D E sid pos depth next ys out = .ok (b, out') ∧
      (b = false → out' = out ∧
        ∀ y ∈ ys, (∃ props, Map.find? y.2 sid = some props) →
          ¬ ∃ qs, SpellsFrom g E rest y.1 qs) ∧
      (b = true → ∃ ys1 y ys2, ys = ys1 ++ y :: ys2 ∧
        (∀ y' ∈ ys1, (∃ props, Map.find? y'.2 sid = some props) →
          ¬ ∃ qs, SpellsFrom g E rest y'.1 qs) ∧
        (∃ props, Map.find? y.2 sid = some props) ∧
        ∃ qs, GreatestPath g E rest y.1 qs ∧
          out' = joinSegments input D depth pos (y.1 :: qs) out) := by
  induction ys with
  | nil =>
    refine ⟨false, out, rfl, ?_, ?_⟩
    · intro _
      exact ⟨rfl, by simp⟩
    · intro h; cases h
  | cons y ys ih =>
    have hys' : ∀ y ∈ ys, pos < y.1 ∧ pos ≤ input.length :=
      fun y' hy' => hys y' (List.mem_cons_of_mem _ hy')
    obtain ⟨b, out', e, hf, ht⟩ := ih hys'
    obtain ⟨hy, hpos⟩ := hys y (List.mem_cons_self _ _)
    -- what skipping `y` gives
    have skip : (∀ (_ : ∃ props, Map.find? y.2 sid = some props),
          ¬ ∃ qs, SpellsFrom g E rest y.1 qs) →
        delimitRow input D E sid pos depth next (y :: ys) out =
          delimitRow input D E sid pos depth next ys out →
        ∃ b out', delimitRow input D E sid pos depth next (y :: ys) out = .ok (b, out') ∧
          (b = false → out' = out ∧
            ∀ y' ∈ y :: ys, (∃ props, Map.find? y'.2 sid = some props) →
              ¬ ∃ qs, SpellsFrom g E rest y'.1 qs) ∧
          (b = true → ∃ ys1 y0 ys2, y :: ys = ys1 ++ y0 :: ys2 ∧
            (∀ y' ∈ ys1, (∃ props, Map.find? y'.2 sid = some props) →
              ¬ ∃ qs, SpellsFrom g E rest y'.1 qs) ∧
            (∃ props, Map.find? y0.2 sid = some props) ∧
            ∃ qs, GreatestPath g E rest y0.1 qs ∧
              out' = joinSegments input D depth pos (y0.1 :: qs) out) := by
      intro hno heq
      refine ⟨b, out', heq.trans e, ?_, ?_⟩
      · intro hb
        refine ⟨(hf hb).1, ?_⟩
        intro y' hy'
        rcases List.mem_cons.mp hy' with h | h
        · subst h; exact hno
        · exact (hf hb).2 y' h
      · intro hb
        obtain ⟨ys1, y0, ys2, h1, h2, h3⟩ := ht hb
        refine ⟨y :: ys1, y0, ys2, by rw [h1]; rfl, ?_, h3⟩
        intro y' hy'
        rcases List.mem_cons.mp hy' with h | h
        · subst h; exact hno
        · exact h2 y' h
    by_cases hE : E < y.1
    · apply skip
      · rintro _ ⟨qs, hqs⟩
        have := SpellsFrom_le g E rest y.1 qs hqs
        omega
      · simp only [delimitRow, if_pos hE]
    · cases hfind : Map.find? y.2 sid with
      | none =>
        apply skip
        · rintro ⟨props, hp⟩
          rw [hfind] at hp; cases hp
        · simp only [delimitRow, if_neg hE, hfind]
      | some props =>
        -- the text appended for this edge
        obtain ⟨d, ds, hDd⟩ : ∃ d ds, D = d :: ds := by
          cases D with
          | nil => exact absurd rfl hD
          | cons d ds => exact ⟨d, ds, rfl⟩
        have hsub : substr input pos (sizeSub y.1 pos) =
            .ok ((input.drop pos).take (y.1 - pos)) := by
          unfold substr
          rw [if_neg (by omega), sizeSub_of_le (le_of_lt hy)]
        have hcond : (0 < depth ∧ 0 < out.length ∧ out.getD (out.length - 1) default ∉ D) ↔
            (0 < depth ∧ (match out.getLast? with
              | some c => !D.contains c
              | none => false) = true) := by
          cases hl : out.getLast? with
          | none =>
            have : out = [] := List.getLast?_eq_none_iff.mp hl
            subst this
            simp
          | some c =>
            have hne : out ≠ [] := by
              intro h0; subst h0; simp at hl
            have hlen : 0 < out.length := List.length_pos.mpr hne
            rw [getD_length_pred out c hl]
            simp [hlen]
        let out1 : List Char :=
          if 0 < depth ∧ (match out.getLast? with
              | some c => !D.contains c
              | none => false) = true then out ++ D.take 1 else out
        have hpre : ∃ extra, out1 ++ (input.drop pos).take (y.1 - pos) = out ++ extra := by
          simp only [out1]
          split
          · exact ⟨D.take 1 ++ (input.drop pos).take (y.1 - pos), by simp⟩
          · exact ⟨_, rfl⟩
        obtain ⟨b2, out2, e2, hf2, ht2⟩ :=
          hnext y.1 (out1 ++ (input.drop pos).take (y.1 - pos))
        have hstep : delimitRow input D E sid pos depth next (y :: ys) out =
            match next y.1 (out1 ++ (input.drop pos).take (y.1 - pos)) with
            | .error e => .error e
            | .ok (true, output2) => .ok (true, output2)
            | .ok (false, output2) =>
              delimitRow input D E sid pos depth next ys (resize output2 out.length) := by
          simp only [delimitRow, if_neg hE, hfind]
          by_cases hc : 0 < depth ∧ 0 < out.length ∧ out.getD (out.length - 1) default ∉ D
          · rw [if_pos hc]
            have h1 : out1 = out ++ [d] := by
              simp only [out1]
              rw [if_pos (hcond.mp hc), hDd]
              rfl
            rw [h1]
            have h2 : D.head? = some d := by rw [hDd]; rfl
            simp only [h2, hsub]
            try rfl
          · rw [if_neg hc]
            have h1 : out1 = out := by
              simp only [out1]
              rw [if_neg (fun h => hc (hcond.mpr h))]
            rw [h1]
            simp only [hsub]
            try rfl
        cases b2 with
        | true =>
          obtain ⟨qs, hqs, hout2⟩ := ht2 rfl
          refine ⟨true, out2, ?_, ?_, ?_⟩
          · rw [hstep, e2]
          · intro h; cases h
          · intro _
            refine ⟨[], y, ys, rfl, by simp, ⟨props, hfind⟩, qs, hqs, ?_⟩
            rw [hout2]
            rfl
        | false =>
          obtain ⟨hout2, hno⟩ := hf2 rfl
          apply skip
          · intro _
            exact hno
          · rw [hstep, e2, hout2]
            obtain ⟨extra, hx⟩ := hpre
            simp only []
            rw [hx, resize_append]

theorem delimitFrom_greatest (input D : List Char) (g : SyllableGraph) (E : Nat)
    (hD : D ≠ []) (hg : g.ForwardWithin input.length) (code : Code) :
    ∀ depth, GreatestSpec input D g E code depth (delimitFrom input D g E code depth) := by
  induction code with
  | nil =>
    intro depth pos out
    refine ⟨decide (pos = E), out, rfl, ?_, ?_⟩
    · intro h
      refine ⟨rfl, ?_⟩
      rintro ⟨qs, hqs⟩
      cases qs with
      | nil =>
        have hq : pos = E := hqs
        exact absurd hq (of_decide_eq_false h)
      | cons q qs => exact hqs
    · intro h
      have hq : pos = E := of_decide_eq_true h
      refine ⟨[], ⟨hq, ?_⟩, rfl⟩
      intro qs' hqs'
      cases qs' with
      | nil => exact Or.inl rfl
      | cons q qs => exact absurd hqs' (by simp [SpellsFrom])
  | cons sid rest ih =>
    intro depth pos out
    cases hz : Map.find? g.edges pos with
    | none =>
      refine ⟨false, out, ?_, ?_, ?_⟩
      · simp only [delimitFrom, hz]
      · intro _
        refine ⟨rfl, ?_⟩
        rintro ⟨qs, hqs⟩
        cases qs with
        | nil => exact hqs
        | cons q qs =>
          obtain ⟨_, ⟨sm, props, h1, _⟩, _⟩ := hqs
          obtain ⟨row, h2, _⟩ := (SyllableGraph.edge?_eq_some g pos q sm).mp h1
          rw [hz] at h2; cases h2
      · intro h; cases h
    | some z =>
      obtain ⟨hwf, hfwd⟩ := hg pos z hz
      obtain ⟨b, out', e, hf, ht⟩ :=
        delimitRow_greatest input D g E sid rest pos depth _ hD (ih (depth + 1)) z.reverse
          (fun y hy => hfwd y.1 y.2 (Map.find?_of_mem hwf (List.mem_reverse.mp hy))) out
      refine ⟨b, out', ?_, ?_, ?_⟩
      · simp only [delimitFrom, hz]
        exact e
      · intro hb
        refine ⟨(hf hb).1, ?_⟩
        rintro ⟨qs, hqs⟩
        cases qs with
        | nil => exact hqs
        | cons q qs =>
          obtain ⟨_, ⟨sm, props, h1, h2⟩, h3⟩ := hqs
          obtain ⟨row, h4, h5⟩ := (SyllableGraph.edge?_eq_some g pos q sm).mp h1
          rw [hz] at h4
          injection h4 with h4
          subst h4
          have hmem : (q, sm) ∈ z.reverse := List.mem_reverse.mpr (Map.mem_of_find? h5)
          exact (hf hb).2 (q, sm) hmem ⟨props, h2⟩ ⟨qs, h3⟩
      · intro hb
        obtain ⟨ys1, y, ys2, h1, hno, ⟨props, h3⟩, qs, h4, h5⟩ := ht hb
        have hy : y ∈ z := by
          apply List.mem_reverse.mp
          rw [h1]
          simp
        have hrow : Map.find? z y.1 = some y.2 := Map.find?_of_mem hwf hy
        refine ⟨y.1 :: qs, ⟨⟨(hfwd y.1 y.2 hrow).1, ⟨y.2, props, ?_, h3⟩, h4.1⟩, ?_⟩, h5⟩
        · exact (SyllableGraph.edge?_eq_some g pos y.1 y.2).mpr ⟨z, hz, hrow⟩
        · intro qs' hqs'
          cases qs' with
          | nil => exact absurd hqs' (by simp [SpellsFrom])
          | cons q qs0 =>
            obtain ⟨_, ⟨sm, props', e1, e2⟩, e3⟩ := hqs'
            obtain ⟨row, e4, e5⟩ := (SyllableGraph.edge?_eq_some g pos q sm).mp e1
            rw [hz] at e4
            injection e4 with e4
            subst e4
            have hmem : (q, sm) ∈ z.reverse := List.mem_reverse.mpr (Map.mem_of_find? e5)
            have hdec : List.Pairwise (fun a b : Nat × SpellingMap => b.1 < a.1) z.reverse := by
              rw [List.pairwise_reverse]
              exact List.pairwise_map.mp hwf
            rw [h1] at hmem hdec
            rcases List.mem_append.mp hmem with hm | hm
            · exact absurd ⟨qs0, e3⟩ (hno (q, sm) hm ⟨props', e2⟩)
            · rcases List.mem_cons.mp hm with hm | hm
              · have hq : q = y.1 := by rw [← hm]
                subst hq
                rcases h4.2 qs0 e3 with h6 | h6
                · left; rw [h6]
                · right; exact List.Lex.cons h6
              · right
                have := (List.pairwise_cons.mp (List.pairwise_append.mp hdec).2.1).1 (q, sm) hm
                exact List.Lex.rel this

/-- Claim C30. On a graph whose edges go forward inside the input, and with a non-empty
string of delimiters, when `DelimitSyllablesDfs(state, pos, 0)` succeeds, the output it
leaves is the text of a path `pos < p1 < ... < pn = end_pos` that spells the code, and
the sequence `(p1, ..., pn)` of that path is the lexicographically greatest among all
the paths from `pos` that spell the code. -/
theorem C30_greatest_path (state : DelimitSyllableState) (pos : Nat)
    (hD : state.delimiters ≠ []) (hg : state.graph.ForwardWithin state.input.length)
    (state' : DelimitSyllableState)
    (h : DelimitSyllablesDfs state pos 0 = .ok (true, state')) :
    ∃ ps, SpellsFrom state.graph state.end_pos state.code pos ps ∧
      state'.output = joinSegments state.input state.delimiters 0 pos ps state.output ∧
      ∀ ps', SpellsFrom state.graph state.end_pos state.code pos ps' →
        ps' = ps ∨ List.Lex (fun a b : Nat => a < b) ps' ps := by
  obtain ⟨b, out', e, _, ht⟩ :=
    delimitFrom_greatest state.input state.delimiters state.graph state.end_pos hD hg
      state.code 0 pos state.output
  unfold DelimitSyllablesDfs at h
  rw [if_neg (Nat.not_lt_zero _)] at h
  simp only [List.drop_zero, e] at h
  injection h with h
  injection h with hb hs
  obtain ⟨ps, ⟨h1, h2⟩, h3⟩ := ht hb
  refine ⟨ps, h1, ?_, h2⟩
  rw [← hs]
  exact h3

/-- Claim C30 on the graph of `aaa` and the code of two syllables 7, which the paths
`(1, 3)` and `(2, 3)` both spell: the edge `0 → 2` is tried first and the text left is
that of the path `(2, 3)`. -/
theorem C30_greatest_path_witness :
    DelimitSyllablesDfs
        ⟨Examples.aaa, [Examples.apostrophe], Examples.aaaGraph, [7, 7], 3, []⟩ 0 0 =
      .ok (true, ⟨Examples.aaa, [Examples.apostrophe], Examples.aaaGraph, [7, 7], 3,
        ['a', 'a', Examples.apostrophe, 'a']⟩) ∧
    SpellsFrom Examples.aaaGraph 3 [7, 7] 0 [1, 3] ∧
    ∃ ps, SpellsFrom Examples.aaaGraph 3 [7, 7] 0 ps ∧
      ['a', 'a', Examples.apostrophe, 'a'] =
        joinSegments Examples.aaa [Examples.apostrophe] 0 0 ps [] ∧
      ∀ ps', SpellsFrom Examples.aaaGraph 3 [7, 7] 0 ps' →
        ps' = ps ∨ List.Lex (fun a b : Nat => a < b) ps' ps :=
  ⟨rfl, ⟨by decide, ⟨_, _, rfl, rfl⟩, by decide, ⟨_, _, rfl, rfl⟩, rfl⟩,
    C30_greatest_path
      ⟨Examples.aaa, [Examples.apostrophe], Examples.aaaGraph, [7, 7], 3, []⟩ 0
      (by decide)
      (Syllabifier.Build_forwardWithin ⟨[Examples.apostrophe], false, false⟩ Examples.aaa
        Examples.aaaPrism Examples.aaaGraph 3 rfl)
      ⟨Examples.aaa, [Examples.apostrophe], Examples.aaaGraph, [7, 7], 3,
        ['a', 'a', Examples.apostrophe, 'a']⟩
      rfl⟩

end Rime

namespace Rime
open SpellingType
namespace Syllabifier

theorem scanYs_top (e : Nat) (ys : EndVertexMap) (g : SyllableGraph) (p : Nat) (hp : e ≤ p) :
    (scanYs e ys g).vertices.find? p = g.vertices.find? p := by
  cases hr : (scanYs e ys g).vertices.find? p with
  | some t =>
    rcases scanYs_sound e ys g p t hr with h | ⟨_, _, h, _⟩
    · exact h.symm
    · omega
  | none =>
    cases hg : g.vertices.find? p with
    | none => rfl
    | some t =>
      rcases scanYs_keep e ys g p t hg with h | h <;> rw [hr] at h <;> cases h

theorem CheckOverlappedSpellings_top (g : SyllableGraph) (a e p : Nat) (hp : e ≤ p) :
    (CheckOverlappedSpellings g a e).vertices.find? p = g.vertices.find? p := by
  unfold CheckOverlappedSpellings
  cases g.edges.find? a with
  | none => rfl
  | some ys => exact scanYs_top e ys g p hp

theorem pruneEdges_top (L : SpellingType) (good : List Nat) (i f : Nat)
    (hgood : ∀ k ∈ good, k ≤ f) :
    ∀ (rest : List (Nat × SpellingMap)) (g : SyllableGraph),
      (pruneEdges L good i rest g).vertices.find? f = g.vertices.find? f := by
  intro rest
  induction rest with
  | nil => intro g; rfl
  | cons j rest ih =>
    intro g
    simp only [pruneEdges]
    by_cases hj : j.1 ∈ good
    · simp only [hj, not_true_eq_false, if_false]
      by_cases he : (pruneSpellings L j.2 kInvalidSpelling).1.isEmpty = true
      · rw [if_pos he, ih]
        rfl
      · rw [if_neg he, ih]
        split
        · rw [CheckOverlappedSpellings_top _ _ _ _ (hgood j.1 hj)]
          rfl
        · rfl
    · simp only [hj, not_false_eq_true, if_true]
      rw [ih]
      rfl

theorem pruneVertex_top (L : SpellingType) (i f : Nat) (g : SyllableGraph) (good : List Nat)
    (hi : i < f) (hgood : ∀ k ∈ good, k ≤ f) :
    (pruneVertex L i g good).1.vertices.find? f = g.vertices.find? f ∧
      ∀ k ∈ (pruneVertex L i g good).2, k ≤ f := by
  unfold pruneVertex
  have hif : i ≠ f := by omega
  split
  · exact ⟨rfl, hgood⟩
  · simp only
    split
    · refine ⟨?_, hgood⟩
      simp only [Map.find?_erase, Map.find?_insert, hif, if_false]
      rw [pruneEdges_top L good i f hgood]
    · refine ⟨?_, ?_⟩
      · simp only [Map.find?_insert, hif, if_false]
        rw [pruneEdges_top L good i f hgood]
      · intro k hk
        rcases List.mem_cons.mp hk with h | h
        · omega
        · exact hgood k h

theorem pruneLoop_top (L : SpellingType) (f : Nat) :
    ∀ (n : Nat) (g : SyllableGraph) (good : List Nat), n ≤ f → (∀ k ∈ good, k ≤ f) →
      (pruneLoop L n (g, good)).1.vertices.find? f = g.vertices.find? f := by
  intro n
  induction n with
  | zero => intro g good _ _; rfl
  | succ i ih =>
    intro g good hn hgood
    obtain ⟨h1, h2⟩ := pruneVertex_top L i f g good (by omega) hgood
    show (pruneLoop L i (pruneVertex L i g good)).1.vertices.find? f = _
    rw [← h1]
    exact ih _ _ (by omega) h2

/-- The pruning pass leaves the type of the farthest vertex as the construction loop
recorded it. -/
theorem prune_top (g : SyllableGraph) (f : Nat) (t : SpellingType)
    (h : g.vertices.find? f = some t) : (prune g f).vertices.find? f = some t := by
  unfold prune
  simp only
  rw [pruneLoop_top _ f f _ [f] (le_refl f)
    (by intro k hk; rw [List.mem_singleton.mp hk])]
  simp only [Map.find?_insert, if_true, h, Option.getD_some]

end Syllabifier

/-- Claim C28. With completion disabled, in the graph built from an empty graph for a
non-empty input, with `last_type` the larger of the type of the farthest vertex and
Fuzzy: every spelling left on an edge has a type no worse than `last_type`, and every
vertex left has a type no worse than `last_type` or is marked Ambiguous. -/
theorem C28_pruned_types (s : Syllabifier) (input : List Char) (prism : Prism)
    (g : SyllableGraph) (r : Nat) (hne : input ≠ []) (hc : s.enable_completion_ = false)
    (h : s.BuildSyllableGraph input prism {} = .ok (g, r)) :
    (∀ i j sm sp, g.edge? i j = some sm → sp ∈ sm →
      sp.2.type ≤ SpellingType.max ((g.vertices.find? r).getD kNormalSpelling)
        kFuzzySpelling) ∧
    (∀ p t, g.vertices.find? p = some t →
      t ≤ SpellingType.max ((g.vertices.find? r).getD kNormalSpelling) kFuzzySpelling ∨
        t = kAmbiguousSpelling) := by
  obtain ⟨st, good, inv, _, hb, pinv, hr, hvs, he, _, _⟩ :=
    Syllabifier.Build_fresh s input prism g r hne h
  have hcomp : Syllabifier.complete s input prism
      (Syllabifier.prune st.graph st.farthest) st.farthest =
        (Syllabifier.prune st.graph st.farthest, st.farthest) := by
    unfold Syllabifier.complete
    simp [hc]
  rw [hcomp] at hr he
  simp only at hr he
  obtain ⟨tf, htf⟩ := hb.far
  have hfar : g.vertices.find? r = st.graph.vertices.find? st.farthest := by
    rw [hvs, hr, Syllabifier.prune_top st.graph st.farthest tf htf, htf]
  rw [hfar]
  constructor
  · intro i j sm sp hsm hsp
    rw [he] at hsm
    obtain ⟨_, _, _, sm0, _, hk, _⟩ := Syllabifier.PruneInv_edge_sub hb pinv i j sm hsm
    rw [hk] at hsp
    have := ((Syllabifier.mem_keepSpellings _ sm0 sp).mp hsp).2
    simp only [SpellingType.lt_def, SpellingType.le_def] at *
    omega
  · intro p t hp
    rw [hvs] at hp
    obtain ⟨t0, ht0, ht⟩ := pinv.v_sub p t hp
    rcases ht with ht | ht
    · left
      rw [ht]
      have hg : p ∈ good := (pinv.good_iff p).mpr ⟨Nat.zero_le p, t, hp⟩
      by_cases hlt : p < st.farthest
      · obtain ⟨t1, ht1, h1, _⟩ := (pinv.good_char p (Nat.zero_le p) hlt).mp hg
        rw [ht0] at ht1
        injection ht1 with ht1
        rw [ht1]
        simp only [SpellingType.lt_def, SpellingType.le_def] at *
        omega
      · have hpf : p = st.farthest := by
          have := hb.vle p t0 ht0
          omega
        rw [hpf, htf] at ht0
        injection ht0 with ht0
        rw [htf, ← ht0]
        have := SpellingType.not_max_lt tf kFuzzySpelling
        simp only [Option.getD_some, SpellingType.lt_def, SpellingType.le_def] at *
        omega
    · exact Or.inr ht

/-- Claim C28 on the input `xian`: the farthest vertex 4 is Normal, `last_type` is Fuzzy,
the spellings left are Normal and the vertex 2 is marked Ambiguous. -/
theorem C28_pruned_types_witness :
    Examples.xian ≠ [] ∧
    Syllabifier.BuildSyllableGraph ⟨[Examples.apostrophe], false, false⟩ Examples.xian
      Examples.xianPrism {} = .ok (Examples.xianGraph, 4) ∧
    (∀ i j sm sp, Examples.xianGraph.edge? i j = some sm → sp ∈ sm →
      sp.2.type ≤ SpellingType.max ((Examples.xianGraph.vertices.find? 4).getD kNormalSpelling)
        kFuzzySpelling) ∧
    (∀ p t, Examples.xianGraph.vertices.find? p = some t →
      t ≤ SpellingType.max ((Examples.xianGraph.vertices.find? 4).getD kNormalSpelling)
        kFuzzySpelling ∨ t = kAmbiguousSpelling) :=
  ⟨by decide, rfl,
    C28_pruned_types ⟨[Examples.apostrophe], false, false⟩ Examples.xian Examples.xianPrism
      Examples.xianGraph 4 (by decide) rfl rfl⟩

end Rime

namespace Rime
open SpellingType

namespace Syllabifier

end Syllabifier
end Rime

namespace Rime
open SpellingType

theorem bestType_cons (sp : SyllableId × SpellingProperties) (rest : SpellingMap) :
    (bestType (sp :: rest)).toNat = min sp.2.type.toNat (bestType rest).toNat := by
  simp only [bestType]
  split
  · rename_i h
    rw [SpellingType.lt_def] at h
    omega
  · rename_i h
    rw [SpellingType.lt_def] at h
    omega

theorem bestType_le (sm : SpellingMap) (sp : SyllableId × SpellingProperties) (h : sp ∈ sm) :
    bestType sm ≤ sp.2.type := by
  induction sm with
  | nil => cases h
  | cons e sm ih =>
    rw [SpellingType.le_def, bestType_cons]
    rcases List.mem_cons.mp h with h1 | h1
    · rw [h1]; omega
    · have := ih h1
      rw [SpellingType.le_def] at this
      omega

theorem bestType_mem (sm : SpellingMap) (h : sm ≠ []) :
    ∃ sp ∈ sm, sp.2.type = bestType sm := by
  induction sm with
  | nil => exact absurd rfl h
  | cons e sm ih =>
    by_cases hlt : e.2.type < bestType sm
    · refine ⟨e, List.mem_cons_self _ _, ?_⟩
      simp only [bestType, hlt, if_true]
    · have hb : bestType (e :: sm) = bestType sm := by
        simp only [bestType, hlt, if_false]
      cases sm with
      | nil =>
        refine ⟨e, List.mem_cons_self _ _, ?_⟩
        rw [hb]
        apply SpellingType.toNat_inj
        have h5 := SpellingType.toNat_le_five e.2.type
        rw [SpellingType.lt_def] at hlt
        simp only [bestType] at hlt ⊢
        have : kInvalidSpelling.toNat = 5 := rfl
        omega
      | cons e' sm' =>
        obtain ⟨sp, h1, h2⟩ := ih (by simp)
        exact ⟨sp, List.mem_cons_of_mem _ h1, by rw [hb]; exact h2⟩

namespace Syllabifier

end Syllabifier
end Rime

namespace Rime
open SpellingType

end Rime

namespace Rime
open SpellingType

theorem ScriptTranslator.hasLongCode_iff (l : List DictEntry) :
    ScriptTranslator.hasLongCode l = true ↔ ∃ e ∈ l, 1 < e.code.length := by
  induction l with
  | nil => simp [ScriptTranslator.hasLongCode]
  | cons e rest ih =>
    simp only [ScriptTranslator.hasLongCode]
    by_cases h : 1 < e.code.length
    · simp only [h, if_true, true_iff]
      exact ⟨e, List.mem_cons_self _ _, h⟩
    · simp only [h, if_false, ih, List.mem_cons, exists_eq_or_imp, false_or]

theorem ScriptTranslator.updateElements_eq (l : List DictEntry) (calls : List MemoryCall) :
    ScriptTranslator.updateElements l calls =
      calls ++ l.map (fun e => MemoryCall.UpdateEntry e 0) := by
  induction l generalizing calls with
  | nil => simp [ScriptTranslator.updateElements]
  | cons e rest ih =>
    simp only [ScriptTranslator.updateElements, ih, List.map_cons, List.append_assoc,
      List.singleton_append]

/-- Claim C24. With a user dictionary, `ScriptTranslator::Memorize` returns true and its
calls are, in order: `UpdateEntry(e, 0)` for each element `e` of the commit if and only
if the commit has at least two elements and some element has a code longer than one
syllable (no call for an element otherwise), and then, once and last,
`UpdateEntry(commit_entry, 1)`. -/
theorem C24_memorize_updates (t : ScriptTranslator) (commit_entry : CommitEntry)
    (ud : UserDictionary) (h : t.user_dict_ = some ud) :
    ∃ updates, ScriptTranslator.Memorize t commit_entry =
        .ok (true, updates ++ [MemoryCall.UpdateEntry commit_entry.entry 1]) ∧
      ((2 ≤ commit_entry.elements.length ∧ ∃ e ∈ commit_entry.elements, 1 < e.code.length) →
        updates = commit_entry.elements.map (fun e => MemoryCall.UpdateEntry e 0)) ∧
      (¬ (2 ≤ commit_entry.elements.length ∧
          ∃ e ∈ commit_entry.elements, 1 < e.code.length) → updates = []) := by
  unfold ScriptTranslator.Memorize
  simp only [h]
  by_cases hc : 2 ≤ commit_entry.elements.length ∧
      ∃ e ∈ commit_entry.elements, 1 < e.code.length
  · have h1 : 1 < commit_entry.elements.length := hc.1
    have h2 := (ScriptTranslator.hasLongCode_iff commit_entry.elements).mpr hc.2
    refine ⟨commit_entry.elements.map (fun e => MemoryCall.UpdateEntry e 0), ?_,
      fun _ => rfl, fun hn => absurd hc hn⟩
    simp only [h1, if_true, h2, ScriptTranslator.updateElements_eq, List.nil_append]
  · refine ⟨[], ?_, fun hy => absurd hy hc, fun _ => rfl⟩
    by_cases h1 : 1 < commit_entry.elements.length
    · have h2 : ScriptTranslator.hasLongCode commit_entry.elements = false := by
        cases hx : ScriptTranslator.hasLongCode commit_entry.elements with
        | false => rfl
        | true =>
          exact absurd ⟨h1, (ScriptTranslator.hasLongCode_iff _).mp hx⟩ hc
      simp only [h1, if_true, h2, Bool.false_eq_true, if_false]
    · simp only [h1, if_false, Bool.false_eq_true]

/-- Claim C24 on a commit of two elements, one with a code of two syllables: both
elements are updated with 0, then the commit with 1. -/
theorem C24_memorize_updates_witness :
    Examples.xiTranslator.user_dict_ = some Examples.xiUserDictionary ∧
    ∃ updates, ScriptTranslator.Memorize Examples.xiTranslator Examples.commitLong =
        .ok (true, updates ++ [MemoryCall.UpdateEntry Examples.commitLong.entry 1]) ∧
      ((2 ≤ Examples.commitLong.elements.length ∧
          ∃ e ∈ Examples.commitLong.elements, 1 < e.code.length) →
        updates = Examples.commitLong.elements.map (fun e => MemoryCall.UpdateEntry e 0)) ∧
      (¬ (2 ≤ Examples.commitLong.elements.length ∧
          ∃ e ∈ Examples.commitLong.elements, 1 < e.code.length) → updates = []) :=
  ⟨rfl, C24_memorize_updates Examples.xiTranslator Examples.commitLong
    Examples.xiUserDictionary rfl⟩

end Rime

namespace Rime
open SpellingType

theorem encodedWithZero_append (a b : List MemoryCall) :
    encodedWithZero (a ++ b) = encodedWithZero a ++ encodedWithZero b := by
  induction a with
  | nil => rfl
  | cons c rest ih =>
    cases c with
    | UpdateEntry e n =>
      show encodedWithZero (rest ++ b) = encodedWithZero rest ++ encodedWithZero b
      exact ih
    | EncodePhrase p v =>
      show (if v = "0" then p :: encodedWithZero (rest ++ b) else encodedWithZero (rest ++ b)) =
        (if v = "0" then p :: encodedWithZero rest else encodedWithZero rest) ++
          encodedWithZero b
      rw [ih]
      split <;> rfl

theorem take_succ_of_get? {α : Type} (items : List α) (k : Nat) (it : α)
    (h : items.get? k = some it) : items.take (k + 1) = items.take k ++ [it] := by
  rw [List.take_succ]
  rw [List.get?_eq_getElem?] at h
  rw [h]
  rfl

theorem lastWords_succ (items : List CommitRecord) (k : Nat) (it : CommitRecord)
    (h : items.get? k = some it) : lastWords items (k + 1) = it.text ++ lastWords items k := by
  unfold lastWords
  rw [take_succ_of_get? items k it h]
  simp

theorem CommitRecord.isWord_iff (r : CommitRecord) :
    r.isWord = true ↔ ¬ (r.type ≠ "table" ∧ r.type ≠ "sentence") := by
  unfold CommitRecord.isWord
  simp only [Bool.or_eq_true, decide_eq_true_eq]
  tauto

namespace TableTranslator

theorem updateElements_zero (l : List DictEntry) (calls : List MemoryCall) :
    encodedWithZero (updateElements l calls) = encodedWithZero calls := by
  induction l generalizing calls with
  | nil => rfl
  | cons e rest ih =>
    simp only [updateElements]
    split <;> rw [ih, encodedWithZero_append] <;> simp [encodedWithZero]

/-- The walk over the history, from the item number `k` on (latest first), the phrase
so far being that of the last `k` items and not empty. -/
theorem encodeHistory_spec (distance : List Char → Nat) (max : Int)
    (items : List CommitRecord) :
    ∀ (rest done : List CommitRecord) (phrase : List Char) (calls : List MemoryCall) (n : Nat),
      items = done ++ rest → phrase = lastWords items done.length → phrase ≠ [] →
      rest.length ≤ n →
      encodedWithZero (encodeHistory distance max rest phrase calls) =
        encodedWithZero calls ++ phrasesFrom distance max items n (done.length + 1) := by
  intro rest
  induction rest with
  | nil =>
    intro done phrase calls n hitems _ _ _
    have hnone : items.get? done.length = none := by
      rw [hitems, List.append_nil]
      exact List.get?_eq_none.mpr (Nat.le_refl _)
    cases n with
    | zero => simp [encodeHistory, phrasesFrom]
    | succ n =>
      simp only [encodeHistory, phrasesFrom, Nat.add_sub_cancel, hnone, List.append_nil]
  | cons it rest ih =>
    intro done phrase calls n hitems hphrase hne hn
    have hsome : items.get? done.length = some it := by
      rw [hitems, List.get?_eq_getElem?, List.getElem?_append_right (Nat.le_refl _)]
      simp
    cases n with
    | zero => simp at hn
    | succ n =>
      simp only [phrasesFrom, Nat.add_sub_cancel, hsome]
      simp only [encodeHistory]
      by_cases hw : it.type ≠ "table" ∧ it.type ≠ "sentence"
      · have hw' : it.isWord = false := by
          cases hx : it.isWord with
          | false => rfl
          | true => exact absurd hw ((CommitRecord.isWord_iff it).mp hx)
        rw [if_pos hw]
        simp [hw']
      · have hw' : it.isWord = true := (CommitRecord.isWord_iff it).mpr hw
        rw [if_neg hw]
        have hemp : phrase.isEmpty = false := by
          cases phrase with
          | nil => exact absurd rfl hne
          | cons a l => rfl
        simp only [hemp, Bool.false_eq_true, if_false]
        have hlast : lastWords items (done.length + 1) = it.text ++ phrase := by
          rw [lastWords_succ items done.length it hsome, hphrase]
        by_cases hd : (distance (it.text ++ phrase) : Int) > max
        · rw [if_pos hd]
          have : ¬ (it.isWord = true ∧
              (distance (lastWords items (done.length + 1)) : Int) ≤ max) := by
            rw [hlast]
            intro h
            omega
          rw [if_neg this, List.append_nil]
        · rw [if_neg hd]
          have : it.isWord = true ∧
              (distance (lastWords items (done.length + 1)) : Int) ≤ max := by
            rw [hlast]
            exact ⟨hw', by omega⟩
          rw [if_pos this]
          have hstep := ih (done ++ [it]) (it.text ++ phrase)
            (calls ++ [MemoryCall.EncodePhrase (it.text ++ phrase) "0"]) n
            (by rw [hitems]; simp)
            (by rw [List.length_append]; exact hlast.symm)
            (by
              intro h0
              have := List.append_eq_nil.mp h0
              exact hne this.2)
            (by simp only [List.length_cons] at hn; omega)
          rw [hstep, encodedWithZero_append, hlast]
          simp [encodedWithZero]

/-- The phrases that the walk over the commit history encodes with `"0"`: those the
specification lists. -/
theorem encodeCommitHistory_spec (distance : List Char → Nat) (max : Int)
    (history : List CommitRecord) (calls : List MemoryCall)
    (htext : ∀ r ∈ history, r.text ≠ []) :
    encodedWithZero (encodeCommitHistory distance max history calls) =
      encodedWithZero calls ++ historyPhrases distance max history := by
  unfold encodeCommitHistory historyPhrases historyItems
  cases hrev : history.reverse with
  | nil => simp
  | cons it0 rest0 =>
    simp only
    have hmem : ∀ r ∈ it0 :: rest0, r.text ≠ [] := by
      intro r hr
      apply htext r
      rw [← List.mem_reverse, hrev]
      exact hr
    generalize hitems : (if it0.type = "punct" then rest0 else it0 :: rest0) = items
    have hsub : ∀ r ∈ items, r.text ≠ [] := by
      intro r hr
      rw [← hitems] at hr
      split at hr
      · exact hmem r (List.mem_cons_of_mem _ hr)
      · exact hmem r hr
    cases items with
    | nil => simp [encodeHistory]
    | cons it rest =>
      simp only [encodeHistory]
      by_cases hw : it.type ≠ "table" ∧ it.type ≠ "sentence"
      · have hw' : it.isWord = false := by
          cases hx : it.isWord with
          | false => rfl
          | true => exact absurd hw ((CommitRecord.isWord_iff it).mp hx)
        rw [if_pos hw]
        simp [hw']
      · have hw' : it.isWord = true := (CommitRecord.isWord_iff it).mpr hw
        rw [if_neg hw]
        simp only [List.isEmpty_nil, if_true, hw']
        have := encodeHistory_spec distance max (it :: rest) rest [it] it.text calls
          (it :: rest).length rfl (by simp [lastWords])
          (hsub it (List.mem_cons_self _ _)) (by simp)
        exact this

end TableTranslator

/-- The phrases the specification lists are those of `k`, `k + 1`, ..., each made of
words only and short enough, and the next one is not. -/
theorem phrasesFrom_spec (distance : List Char → Nat) (max : Int) (items : List CommitRecord) :
    ∀ n k, 1 ≤ k → items.length < k + n → (∀ r ∈ items.take (k - 1), r.isWord = true) →
      ∃ m, phrasesFrom distance max items n k = (List.range' k m).map (lastWords items) ∧
        (∀ j, k ≤ j → j < k + m →
          j ≤ items.length ∧ (∀ r ∈ items.take j, r.isWord = true) ∧
            (distance (lastWords items j) : Int) ≤ max) ∧
        ¬ (k + m ≤ items.length ∧ (∀ r ∈ items.take (k + m), r.isWord = true) ∧
            (distance (lastWords items (k + m)) : Int) ≤ max) := by
  intro n
  induction n with
  | zero =>
    intro k _ hlen _
    refine ⟨0, rfl, ?_, ?_⟩
    · intro j h1 h2; omega
    · rintro ⟨h1, _⟩; omega
  | succ n ih =>
    intro k hk hlen hwords
    simp only [phrasesFrom]
    cases hget : items.get? (k - 1) with
    | none =>
      have := List.get?_eq_none.mp hget
      refine ⟨0, rfl, ?_, ?_⟩
      · intro j h1 h2; omega
      · rintro ⟨h1, _⟩; omega
    | some it =>
      have hlt : k - 1 < items.length := by
        rcases Nat.lt_or_ge (k - 1) items.length with h1 | h1
        · exact h1
        · rw [List.get?_eq_none.mpr h1] at hget; cases hget
      have htake : items.take k = items.take (k - 1) ++ [it] := by
        have h1 : k = (k - 1) + 1 := by omega
        conv => lhs; rw [h1]
        exact take_succ_of_get? items (k - 1) it hget
      simp only
      by_cases hc : it.isWord = true ∧ (distance (lastWords items k) : Int) ≤ max
      · rw [if_pos hc]
        have hwords' : ∀ r ∈ items.take (k + 1 - 1), r.isWord = true := by
          intro r hr
          rw [Nat.add_sub_cancel, htake] at hr
          rcases List.mem_append.mp hr with h1 | h1
          · exact hwords r h1
          · rw [List.mem_singleton.mp h1]; exact hc.1
        obtain ⟨m, e1, e2, e3⟩ := ih (k + 1) (by omega) (by omega) hwords'
        refine ⟨m + 1, ?_, ?_, ?_⟩
        · rw [e1]
          simp [List.range'_succ]
        · intro j h1 h2
          by_cases hj : j = k
          · subst hj
            refine ⟨by omega, ?_, hc.2⟩
            simpa [Nat.add_sub_cancel] using hwords'
          · exact e2 j (by omega) (by omega)
        · have : k + (m + 1) = k + 1 + m := by omega
          rw [this]
          exact e3
      · rw [if_neg hc]
        refine ⟨0, rfl, ?_, ?_⟩
        · intro j h1 h2; omega
        · rintro ⟨_, h2, h3⟩
          apply hc
          refine ⟨h2 it ?_, h3⟩
          rw [Nat.add_zero, htake]
          simp

/-- Claim C23. With a user dictionary, a loaded encoder and `encode_commit_history`
set, on a commit history whose items have non-empty texts, the phrases that
`TableTranslator::Memorize` passes to `EncodePhrase(phrase, "0")` are, in this order,
the concatenations in history order of the last `k` items of the history (one trailing
`punct` item skipped) for `k = 2, 3, ..., n + 1`: for each of these `k` the last `k`
items all have type `table` or `sentence` and the concatenation has at most
`max_phrase_length` code points, and `k = n + 2` is the first for which an item is
missing or of another type or the concatenation is longer. -/
theorem C23_history_phrases (t : TableTranslator) (settings : TableTranslatorSettings)
    (distance : List Char → Nat) (history : List CommitRecord) (commit_entry : CommitEntry)
    (ud : UserDictionary) (encoder : UnityTableEncoder)
    (h1 : t.user_dict_ = some ud) (h2 : t.encoder_ = some encoder) (h3 : encoder.loaded = true)
    (h4 : settings.encode_commit_history_ = true) (htext : ∀ r ∈ history, r.text ≠ []) :
    encodedWithZero (TableTranslator.Memorize t settings distance history commit_entry).2 =
      historyPhrases distance settings.max_phrase_length_ history ∧
    ∃ n, historyPhrases distance settings.max_phrase_length_ history =
        (List.range' 2 n).map (lastWords (historyItems history)) ∧
      (∀ k, 2 ≤ k → k < 2 + n →
        k ≤ (historyItems history).length ∧
        (∀ r ∈ (historyItems history).take k, r.isWord = true) ∧
        (distance (lastWords (historyItems history) k) : Int) ≤ settings.max_phrase_length_) ∧
      ¬ (2 + n ≤ (historyItems history).length ∧
        (∀ r ∈ (historyItems history).take (2 + n), r.isWord = true) ∧
        (distance (lastWords (historyItems history) (2 + n)) : Int) ≤
          settings.max_phrase_length_) := by
  constructor
  · unfold TableTranslator.Memorize
    simp only [h1, h2, h3, h4, if_true]
    rw [TableTranslator.encodeCommitHistory_spec _ _ _ _ htext]
    split
    · rw [encodedWithZero_append, TableTranslator.updateElements_zero]
      simp [encodedWithZero]
    · rw [TableTranslator.updateElements_zero]
      simp [encodedWithZero]
  · unfold historyPhrases
    cases hitems : historyItems history with
    | nil =>
      refine ⟨0, rfl, ?_, ?_⟩
      · intro k a b; omega
      · rintro ⟨a, _⟩; simp at a
    | cons it rest =>
      simp only
      by_cases hw : it.isWord = true
      · rw [if_pos hw]
        exact phrasesFrom_spec distance settings.max_phrase_length_ (it :: rest)
          (it :: rest).length 2 (by omega) (by omega)
          (by
            intro r hr
            simp only [Nat.add_one_sub_one, List.take_succ_cons, List.take_zero,
              List.mem_singleton] at hr
            rw [hr]; exact hw)
      · rw [if_neg hw]
        refine ⟨0, rfl, ?_, ?_⟩
        · intro k a b; omega
        · rintro ⟨_, a, _⟩
          exact hw (a it (by simp))

/-- Claim C23 on a history that ends with the words `A`, `B`, `AB` and punctuation,
phrases of at most 3 code points: `BAB` is encoded, `ABAB` is too long. -/
theorem C23_history_phrases_witness :
    (TableTranslator.Memorize Examples.encodingTranslator Examples.historySettings
      List.length Examples.someHistory Examples.commitAB).2 =
      [MemoryCall.UpdateEntry Examples.wordA 1, MemoryCall.UpdateEntry Examples.wordB 1,
        MemoryCall.EncodePhrase ['A', 'B'] "1", MemoryCall.EncodePhrase ['B', 'A', 'B'] "0"] ∧
    encodedWithZero (TableTranslator.Memorize Examples.encodingTranslator
      Examples.historySettings List.length Examples.someHistory Examples.commitAB).2 =
      historyPhrases List.length Examples.historySettings.max_phrase_length_
        Examples.someHistory ∧
    ∃ n, historyPhrases List.length Examples.historySettings.max_phrase_length_
        Examples.someHistory =
        (List.range' 2 n).map (lastWords (historyItems Examples.someHistory)) ∧
      (∀ k, 2 ≤ k → k < 2 + n →
        k ≤ (historyItems Examples.someHistory).length ∧
        (∀ r ∈ (historyItems Examples.someHistory).take k, r.isWord = true) ∧
        ((lastWords (historyItems Examples.someHistory) k).length : Int) ≤
          Examples.historySettings.max_phrase_length_) ∧
      ¬ (2 + n ≤ (historyItems Examples.someHistory).length ∧
        (∀ r ∈ (historyItems Examples.someHistory).take (2 + n), r.isWord = true) ∧
        ((lastWords (historyItems Examples.someHistory) (2 + n)).length : Int) ≤
          Examples.historySettings.max_phrase_length_) :=
  ⟨by decide, C23_history_phrases Examples.encodingTranslator Examples.historySettings
    List.length Examples.someHistory Examples.commitAB Examples.abUserDictionary
    Examples.emptyEncoder rfl rfl rfl rfl (by decide)⟩

/-- Claim C23 fails on a history whose last item has an empty text. The last two items
are both of type `table` and their concatenation `A` has one code point, no more than
`max_phrase_length` = 3, so the claim has `A` encoded for `k = 2`; `Memorize` finds the
phrase still empty after the last item, takes `A` for the last word as well and encodes
nothing. -/
theorem C23_empty_text_counterexample :
    (∀ r ∈ (historyItems Examples.emptyLastHistory).take 2, r.isWord = true) ∧
    lastWords (historyItems Examples.emptyLastHistory) 2 = ['A'] ∧
    ((lastWords (historyItems Examples.emptyLastHistory) 2).length : Int) ≤
      Examples.historySettings.max_phrase_length_ ∧
    historyPhrases List.length Examples.historySettings.max_phrase_length_
      Examples.emptyLastHistory = [['A']] ∧
    encodedWithZero (TableTranslator.Memorize Examples.encodingTranslator
      Examples.historySettings List.length Examples.emptyLastHistory Examples.commitAB).2 =
      [] ∧
    encodedWithZero (TableTranslator.Memorize Examples.encodingTranslator
      Examples.historySettings List.length Examples.emptyLastHistory Examples.commitAB).2 ≠
      historyPhrases List.length Examples.historySettings.max_phrase_length_
        Examples.emptyLastHistory := by
  refine ⟨by decide, by decide, by decide, by decide, by decide, by decide⟩

end Rime

namespace Rime
open SpellingType

/-- Claim C21, the code at the input `abc'd` with the delimiter `'` and the syllable
lengths 2, 2, 1 (all positive, their sum the length of the input): the inner boundaries
are 2, after `b`, and 4, after the delimiter; the claim puts one space in, at 2, and
gives `ab c'd`; `PrepareSentence` tests the input byte at 4, which is `d`, for the
boundary 4, puts a second space in and leaves `ab c' d`. -/
theorem C21_space_after_delimiter :
    (∀ len ∈ Examples.threeWords.syllable_lengths, 0 < len) ∧
    Examples.threeWords.syllable_lengths.sum = Examples.abcQuoteD.length ∧
    spacedFrom Examples.abcQuoteD [Examples.apostrophe] Examples.threeWords.syllable_lengths 0 =
      ['a', 'b', ' ', 'c', Examples.apostrophe, 'd'] ∧
    SentenceTranslation.splitSyllables Examples.abcQuoteD [Examples.apostrophe]
      Examples.threeWords.syllable_lengths 0 Examples.abcQuoteD =
      .ok ['a', 'b', ' ', 'c', Examples.apostrophe, ' ', 'd'] ∧
    ∃ self, SentenceTranslation.PrepareSentence Examples.threeWordsTranslation = .ok self ∧
      (self.sentence_.map (fun s => s.preedit)) =
        some ['a', 'b', ' ', 'c', Examples.apostrophe, ' ', 'd'] :=
  ⟨by decide, by decide, by decide, by rfl, _, rfl, by rfl⟩

end Rime

namespace Rime
open SpellingType

theorem Map.getLast?_largest {β : Type} (m : Map Nat β) (hm : Map.WF m) (r : Nat × β)
    (h : m.getLast? = some r) :
    (∀ k ∈ Map.keys m, k ≤ r.1) ∧ Map.find? m r.1 = some r.2 := by
  have hmem : r ∈ m := List.mem_of_getLast?_eq_some h
  refine ⟨?_, Map.find?_of_mem hm hmem⟩
  obtain ⟨init, hinit⟩ : ∃ init, m = init ++ [r] := by
    have hne : m ≠ [] := by
      intro h0; rw [h0] at h; cases h
    refine ⟨m.dropLast, ?_⟩
    have h1 := List.dropLast_append_getLast hne
    have h2 : m.getLast hne = r := by
      rw [List.getLast?_eq_getLast _ hne] at h
      injection h
    rw [h2] at h1
    exact h1.symm
  intro k hk
  rw [hinit, Map.keys_append] at hk
  rcases List.mem_append.mp hk with h1 | h1
  · have hp : List.Pairwise (fun a b => a < b) (Map.keys init ++ Map.keys [r]) := by
      have := hm
      rw [hinit] at this
      unfold Map.WF at this
      rw [Map.keys_append] at this
      exact this
    have := (List.pairwise_append.mp hp).2.2 k h1 r.1 (by simp [Map.keys])
    omega
  · simp only [Map.keys, List.map_cons, List.map_nil, List.mem_singleton] at h1
    omega

theorem largestKey_le {β : Type} (m : Map Nat β) (hm : Map.WF m) :
    ∀ k ∈ Map.keys m, k ≤ largestKey m := by
  intro k hk
  unfold largestKey
  cases h : m.getLast? with
  | none =>
    have : m = [] := List.getLast?_eq_none_iff.mp h
    rw [this] at hk
    cases hk
  | some r => exact (Map.getLast?_largest m hm r h).1 k hk

namespace SentenceTranslation

theorem PreferUserPhrase_iff (self : SentenceTranslation) :
    self.PreferUserPhrase = true ↔
      0 < largestKey self.user_phrase_collector_ ∧
        largestKey self.collector_ ≤ largestKey self.user_phrase_collector_ := by
  unfold PreferUserPhrase
  simp only
  split
  · rename_i h; exact ⟨fun _ => h, fun _ => rfl⟩
  · rename_i h; exact ⟨fun h0 => (by cases h0), fun h1 => absurd h1 h⟩

theorem CheckEmpty_flag (self : SentenceTranslation) :
    ((CheckEmpty self).2.exhausted_ = true ↔
      self.sentence_ = none ∧ self.collector_ = [] ∧ self.user_phrase_collector_ = []) ∧
    (CheckEmpty self).1 = (CheckEmpty self).2.exhausted_ ∧
    (CheckEmpty self).2.sentence_ = self.sentence_ ∧
    (CheckEmpty self).2.collector_ = self.collector_ ∧
    (CheckEmpty self).2.user_phrase_collector_ = self.user_phrase_collector_ ∧
    (CheckEmpty self).2.user_phrase_index_ = self.user_phrase_index_ := by
  unfold CheckEmpty
  simp only [Bool.and_eq_true, Option.isNone_iff_eq_none, List.isEmpty_iff, and_assoc,
    and_self, and_true]

theorem getLast?_of_largestKey_pos {β : Type} (m : Map Nat β) (h : 0 < largestKey m) :
    ∃ r, m.getLast? = some r ∧ largestKey m = r.1 := by
  unfold largestKey at h ⊢
  cases hl : m.getLast? with
  | none => rw [hl] at h; simp at h
  | some r => exact ⟨r, rfl, rfl⟩

theorem getLast?_of_ne_nil {β : Type} (m : Map Nat β) (h : m ≠ []) :
    ∃ r, m.getLast? = some r ∧ largestKey m = r.1 := by
  unfold largestKey
  cases hl : m.getLast? with
  | none => exact absurd (List.getLast?_eq_none_iff.mp hl) h
  | some r => exact ⟨r, rfl, rfl⟩

end SentenceTranslation

/-- Claim C22. In a SentenceTranslation whose collectors are maps: the flag that
`CheckEmpty` sets, which every `Next` ends with, says exhausted exactly when the
sentence is gone and both collectors are empty; with a sentence, `Peek` returns it and
`Next` drops it and leaves the collectors alone; without one, the user-phrase collector
is preferred if and only if its largest code length `U` is positive and no less than the
largest `T` of the dict collector, and no code length of either collector exceeds that of
the bucket then taken; when preferred, `Peek` builds a candidate over `U` bytes from the
entry of the bucket of `U` that the index points to and `Next` moves the index, or
removes the bucket once the index passes its last entry; otherwise `Peek` builds a
candidate over `T` bytes from the first entry of the bucket of `T` and `Next` steps that
bucket, or removes it once its last entry has been passed. -/
theorem C22_sentence_then_longest (self : SentenceTranslation)
    (hwf1 : Map.WF self.collector_) (hwf2 : Map.WF self.user_phrase_collector_) :
    (((self.CheckEmpty).2.exhausted_ = true ↔
        self.sentence_ = none ∧ self.collector_ = [] ∧ self.user_phrase_collector_ = []) ∧
      ∀ r, self.Next = .ok r →
        r.1 = !r.2.exhausted_ ∧
        (r.2.exhausted_ = true ↔
          r.2.sentence_ = none ∧ r.2.collector_ = [] ∧ r.2.user_phrase_collector_ = [])) ∧
    (∀ s, self.sentence_ = some s →
      (self.exhausted_ = false → self.Peek = .ok (some s)) ∧
      ∃ r, self.Next = .ok r ∧ r.2.sentence_ = none ∧ r.2.collector_ = self.collector_ ∧
        r.2.user_phrase_collector_ = self.user_phrase_collector_ ∧
        r.2.user_phrase_index_ = self.user_phrase_index_) ∧
    (self.PreferUserPhrase = true ↔
      0 < largestKey self.user_phrase_collector_ ∧
        largestKey self.collector_ ≤ largestKey self.user_phrase_collector_) ∧
    (self.sentence_ = none → self.PreferUserPhrase = true →
      (∀ k, k ∈ Map.keys self.collector_ ∨ k ∈ Map.keys self.user_phrase_collector_ →
        k ≤ largestKey self.user_phrase_collector_) ∧
      ∃ bucket, Map.find? self.user_phrase_collector_
          (largestKey self.user_phrase_collector_) = some bucket ∧
        (self.exhausted_ = false → ∀ entry, bucket.get? self.user_phrase_index_ = some entry →
          ∃ cand, self.Peek = .ok (some cand) ∧ cand.entry = entry ∧ cand.type = "table" ∧
            cand.start = self.start_ ∧
            cand.end_ = self.start_ + largestKey self.user_phrase_collector_) ∧
        ∃ r, self.Next = .ok r ∧ r.2.sentence_ = none ∧ r.2.collector_ = self.collector_ ∧
          r.2.user_phrase_collector_ =
            (if bucket.length ≤ self.user_phrase_index_ + 1 then
              Map.erase self.user_phrase_collector_ (largestKey self.user_phrase_collector_)
            else self.user_phrase_collector_) ∧
          r.2.user_phrase_index_ =
            (if bucket.length ≤ self.user_phrase_index_ + 1 then 0
            else self.user_phrase_index_ + 1)) ∧
    (self.sentence_ = none → self.PreferUserPhrase = false → self.collector_ ≠ [] →
      (∀ k, k ∈ Map.keys self.collector_ ∨ k ∈ Map.keys self.user_phrase_collector_ →
        k ≤ largestKey self.collector_) ∧
      ∃ bucket, Map.find? self.collector_ (largestKey self.collector_) = some bucket ∧
        (self.exhausted_ = false → ∀ entry, bucket.head? = some entry →
          ∃ cand, self.Peek = .ok (some cand) ∧ cand.entry = entry ∧ cand.type = "table" ∧
            cand.start = self.start_ ∧
            cand.end_ = self.start_ + largestKey self.collector_) ∧
        ∃ r, self.Next = .ok r ∧ r.2.sentence_ = none ∧
          r.2.user_phrase_collector_ = self.user_phrase_collector_ ∧
          r.2.user_phrase_index_ = self.user_phrase_index_ ∧
          r.2.collector_ =
            (if bucket.tail.isEmpty then Map.erase self.collector_ (largestKey self.collector_)
            else Map.set self.collector_ (largestKey self.collector_) bucket.tail)) := by
  have hflag := SentenceTranslation.CheckEmpty_flag
  refine ⟨⟨(hflag self).1, ?_⟩, ?_, SentenceTranslation.PreferUserPhrase_iff self, ?_, ?_⟩
  · -- every Next ends with CheckEmpty
    intro r hr
    have key : ∃ self1, r = (!(SentenceTranslation.CheckEmpty self1).1,
        (SentenceTranslation.CheckEmpty self1).2) := by
      unfold SentenceTranslation.Next at hr
      cases hs : self.sentence_ with
      | some s =>
        simp only [hs] at hr
        injection hr with hr
        exact ⟨_, hr.symm⟩
      | none =>
        simp only [hs] at hr
        by_cases hp : self.PreferUserPhrase = true
        · simp only [hp, if_true] at hr
          cases hl : self.user_phrase_collector_.getLast? with
          | none => simp only [hl] at hr; cases hr
          | some b =>
            simp only [hl] at hr
            injection hr with hr
            exact ⟨_, hr.symm⟩
        · simp only [hp, Bool.false_eq_true, if_false] at hr
          cases hl : self.collector_.getLast? with
          | none => simp only [hl] at hr; cases hr
          | some b =>
            simp only [hl] at hr
            injection hr with hr
            exact ⟨_, hr.symm⟩
    obtain ⟨self1, rfl⟩ := key
    obtain ⟨f1, f2, f3, f4, f5, _⟩ := hflag self1
    simp only
    refine ⟨by rw [f2], ?_⟩
    rw [f1, f3, f4, f5]
  · intro s hs
    constructor
    · intro hne
      unfold SentenceTranslation.Peek
      simp only [hne, Bool.false_eq_true, if_false, hs]
    · unfold SentenceTranslation.Next
      simp only [hs]
      obtain ⟨_, _, f3, f4, f5, f6⟩ := hflag { self with sentence_ := none }
      exact ⟨_, rfl, f3, f4, f5, f6⟩
  · intro hs hp
    obtain ⟨hpos, hle⟩ := (SentenceTranslation.PreferUserPhrase_iff self).mp hp
    obtain ⟨b, hb, hkey⟩ := SentenceTranslation.getLast?_of_largestKey_pos _ hpos
    obtain ⟨_, hfind⟩ := Map.getLast?_largest _ hwf2 b hb
    constructor
    · rintro k (hk | hk)
      · exact Nat.le_trans (largestKey_le _ hwf1 k hk) hle
      · exact largestKey_le _ hwf2 k hk
    · refine ⟨b.2, by rw [hkey]; exact hfind, ?_, ?_⟩
      · intro hne entry hentry
        unfold SentenceTranslation.Peek
        simp only [hne, Bool.false_eq_true, if_false, hs, hp, if_true, hb, hentry]
        cases self.translator_ with
        | none => exact ⟨_, rfl, rfl, rfl, rfl, by rw [hkey]; rfl⟩
        | some tr => exact ⟨_, rfl, rfl, rfl, rfl, by rw [hkey]; rfl⟩
      · unfold SentenceTranslation.Next
        simp only [hs, hp, if_true, hb]
        by_cases hc : b.2.length ≤ self.user_phrase_index_ + 1
        · simp only [hc, if_true]
          refine ⟨_, rfl, ?_⟩
          simp [SentenceTranslation.CheckEmpty, hs, hkey]
        · simp only [hc, if_false]
          refine ⟨_, rfl, ?_⟩
          simp [SentenceTranslation.CheckEmpty, hs]
  · intro hs hp hne
    have hnot : ¬ (0 < largestKey self.user_phrase_collector_ ∧
        largestKey self.collector_ ≤ largestKey self.user_phrase_collector_) := by
      intro h
      rw [(SentenceTranslation.PreferUserPhrase_iff self).mpr h] at hp
      cases hp
    obtain ⟨b, hb, hkey⟩ := SentenceTranslation.getLast?_of_ne_nil _ hne
    obtain ⟨_, hfind⟩ := Map.getLast?_largest _ hwf1 b hb
    constructor
    · rintro k (hk | hk)
      · exact largestKey_le _ hwf1 k hk
      · have := largestKey_le _ hwf2 k hk
        omega
    · refine ⟨b.2, by rw [hkey]; exact hfind, ?_, ?_⟩
      · intro hne' entry hentry
        unfold SentenceTranslation.Peek
        simp only [hne', Bool.false_eq_true, if_false, hs, hp, hb, hentry]
        cases self.translator_ with
        | none => exact ⟨_, rfl, rfl, rfl, rfl, by rw [hkey]; rfl⟩
        | some tr => exact ⟨_, rfl, rfl, rfl, rfl, by rw [hkey]; rfl⟩
      · unfold SentenceTranslation.Next
        simp only [hs, hp, Bool.false_eq_true, if_false, hb]
        by_cases hc : b.2.tail.isEmpty = true
        · simp only [hc, if_true]
          refine ⟨_, rfl, ?_⟩
          simp [SentenceTranslation.CheckEmpty, hs, hkey]
        · simp only [hc, Bool.false_eq_true, if_false]
          refine ⟨_, rfl, ?_⟩
          simp [SentenceTranslation.CheckEmpty, hs, hkey]

/-- Claim C22 on a translation that holds a sentence, the dict bucket of length 2 and
the user buckets of lengths 1 and 2 (`Peek` returns the sentence, `Next` drops it), and
on the same translation without the sentence: the user bucket of length 2 is taken. -/
theorem C22_sentence_then_longest_witness :
    Map.WF Examples.sentenceAndWords.collector_ ∧
    Map.WF Examples.sentenceAndWords.user_phrase_collector_ ∧
    (∀ s, Examples.sentenceAndWords.sentence_ = some s →
      (Examples.sentenceAndWords.exhausted_ = false →
        Examples.sentenceAndWords.Peek = .ok (some s)) ∧
      ∃ r, Examples.sentenceAndWords.Next = .ok r ∧ r.2.sentence_ = none ∧
        r.2.collector_ = Examples.sentenceAndWords.collector_ ∧
        r.2.user_phrase_collector_ = Examples.sentenceAndWords.user_phrase_collector_ ∧
        r.2.user_phrase_index_ = Examples.sentenceAndWords.user_phrase_index_) ∧
    (Examples.wordsOnly.PreferUserPhrase = true ↔
      0 < largestKey Examples.wordsOnly.user_phrase_collector_ ∧
        largestKey Examples.wordsOnly.collector_ ≤
          largestKey Examples.wordsOnly.user_phrase_collector_) ∧
    (Examples.wordsOnly.sentence_ = none → Examples.wordsOnly.PreferUserPhrase = true →
      (∀ k, k ∈ Map.keys Examples.wordsOnly.collector_ ∨
          k ∈ Map.keys Examples.wordsOnly.user_phrase_collector_ →
        k ≤ largestKey Examples.wordsOnly.user_phrase_collector_) ∧
      ∃ bucket, Map.find? Examples.wordsOnly.user_phrase_collector_
          (largestKey Examples.wordsOnly.user_phrase_collector_) = some bucket ∧
        (Examples.wordsOnly.exhausted_ = false →
          ∀ entry, bucket.get? Examples.wordsOnly.user_phrase_index_ = some entry →
            ∃ cand, Examples.wordsOnly.Peek = .ok (some cand) ∧ cand.entry = entry ∧
              cand.type = "table" ∧ cand.start = Examples.wordsOnly.start_ ∧
              cand.end_ = Examples.wordsOnly.start_ +
                largestKey Examples.wordsOnly.user_phrase_collector_) ∧
        ∃ r, Examples.wordsOnly.Next = .ok r ∧ r.2.sentence_ = none ∧
          r.2.collector_ = Examples.wordsOnly.collector_ ∧
          r.2.user_phrase_collector_ =
            (if bucket.length ≤ Examples.wordsOnly.user_phrase_index_ + 1 then
              Map.erase Examples.wordsOnly.user_phrase_collector_
                (largestKey Examples.wordsOnly.user_phrase_collector_)
            else Examples.wordsOnly.user_phrase_collector_) ∧
          r.2.user_phrase_index_ =
            (if bucket.length ≤ Examples.wordsOnly.user_phrase_index_ + 1 then 0
            else Examples.wordsOnly.user_phrase_index_ + 1)) :=
  have hwf1 : Map.WF Examples.sentenceAndWords.collector_ := by
    unfold Map.WF
    decide
  have hwf2 : Map.WF Examples.sentenceAndWords.user_phrase_collector_ := by
    unfold Map.WF
    decide
  ⟨hwf1, hwf2, (C22_sentence_then_longest Examples.sentenceAndWords hwf1 hwf2).2.1,
    (C22_sentence_then_longest Examples.wordsOnly hwf1 hwf2).2.2.1,
    (C22_sentence_then_longest Examples.wordsOnly hwf1 hwf2).2.2.2.1⟩

end Rime

namespace Rime
open SpellingType

/-- Claim C25 fails for the table translator: without a dictionary, in eager mode,
`TableTranslator::Query` returns a translation of the entry that the user dictionary
holds for the code `a`. -/
theorem C25_table_query_counterexample :
    Examples.abUserOnlyTranslator.dict_ = none ∧
    TableTranslator.Query Examples.abUserOnlyTranslator Examples.plainSettings
      Examples.noFilter ['a'] 0 true =
      .ok (some ⟨.table
        (TableTranslation.newWith
          (some (Examples.abUserOnlyTranslator.options Examples.plainSettings)) ['a'] 0 1 ['a']
          [] [Examples.wordA])⟩) ∧
    TableTranslator.Query Examples.abUserOnlyTranslator Examples.plainSettings
      Examples.noFilter ['a'] 0 true ≠ .ok none :=
  ⟨rfl, rfl, fun h => by cases h⟩

theorem TableTranslator.lookupWords_fst (t : TableTranslator) (code : List Char)
    (enable_user_dict : Bool)
    (h : t.dict_ = none ∨ ∃ dict, t.dict_ = some dict ∧ dict.loaded = false) :
    (TableTranslator.lookupWords t code enable_user_dict).1 = [] := by
  unfold TableTranslator.lookupWords
  rcases h with h | ⟨dict, h, hl⟩
  · simp only [h]
  · simp only [h, hl, Bool.false_eq_true, if_false]

/-- Claim C25, amended. When its dictionary is absent or not loaded,
`ScriptTranslator::Query` returns null, whatever the user dictionary, the options and
the input are. `TableTranslator::Query` does not test its dictionary, it only leaves
out the lookup in it: in eager mode, with the charset filter and the two sentence
options off, it returns null when the segment lacks the tag or the user dictionary and
the encoder yield nothing for the code, and otherwise the translation of what they
yield. -/
theorem C25_query_without_dictionary :
    (∀ (t : ScriptTranslator) (IsUserDictDisabledFor : List Char → Bool) (input : List Char)
      (segment_start : Nat) (has_tag : Bool),
      (t.dict_ = none ∨ ∃ dict, t.dict_ = some dict ∧ dict.loaded = false) →
      ScriptTranslator.Query t IsUserDictDisabledFor input segment_start has_tag = .ok none) ∧
    (∀ (t : TableTranslator) (settings : TableTranslatorSettings)
      (filter : Translation → Bool × Option Candidate) (input : List Char)
      (segment_start : Nat) (has_tag : Bool),
      (t.dict_ = none ∨ ∃ dict, t.dict_ = some dict ∧ dict.loaded = false) →
      settings.enable_completion_ = false → t.enable_charset_filter_ = false →
      settings.enable_sentence_ = false → settings.sentence_over_completion_ = false →
      ∀ uter, uter = (TableTranslator.lookupWords t (trim_right input t.delimiters_)
          (TableTranslator.enable_user_dict t settings input)).2 →
        (has_tag = false ∨ uter = [] →
          TableTranslator.Query t settings filter input segment_start has_tag = .ok none) ∧
        (has_tag = true → uter ≠ [] →
          TableTranslator.Query t settings filter input segment_start has_tag =
            .ok (some ⟨.table
              (TableTranslation.newWith (some (t.options settings))
                (trim_right input t.delimiters_) segment_start
                (segment_start + input.length) input [] uter)⟩))) := by
  constructor
  · intro t f input segment_start has_tag h
    unfold ScriptTranslator.Query
    rcases h with h | ⟨dict, h, hl⟩
    · simp only [h]
    · simp only [h, hl, Bool.not_false, if_true]
  · intro t settings filter input segment_start has_tag hd hc hf hs hso uter huter
    have hiter := TableTranslator.lookupWords_fst t (trim_right input t.delimiters_)
      (TableTranslator.enable_user_dict t settings input) hd
    have hpair : TableTranslator.lookupWords t (trim_right input t.delimiters_)
        (TableTranslator.enable_user_dict t settings input) = ([], uter) :=
      Prod.ext hiter huter.symm
    have hprim : TableTranslator.primaryTranslation t settings filter input segment_start
        (TableTranslator.enable_user_dict t settings input) =
        if uter.isEmpty then none
        else some (.table (TableTranslation.newWith (some (t.options settings))
          (trim_right input t.delimiters_) segment_start (segment_start + input.length) input
          [] uter)) := by
      unfold TableTranslator.primaryTranslation
      simp only [hc, Bool.false_eq_true, if_false, hf, Bool.false_and, hpair]
      cases uter with
      | nil => rfl
      | cons a l => rfl
    unfold TableTranslator.Query
    rw [hprim]
    constructor
    · intro h
      by_cases ht : has_tag = true
      · rcases h with h | h
        · rw [h] at ht; cases ht
        · subst h
          simp [ht, hs, hso]
      · simp [ht]
    · intro ht hne
      cases uter with
      | nil => exact absurd rfl hne
      | cons a l =>
        simp only [ht, Bool.not_true, Bool.false_eq_true, if_false, hs, Bool.false_and, hso,
          List.isEmpty_cons]
        rfl

/-- Claim C25, amended, on `xiTranslator` and on `abTranslator`, both without their
dictionary: the script translator returns null for `xian`, the table translator a
translation of `wordA` for `a`. -/
theorem C25_query_without_dictionary_witness :
    ScriptTranslator.Query Examples.xiUserOnlyTranslator (fun _ => false) Examples.xian 0 true =
      .ok none ∧
    TableTranslator.Query Examples.abUserOnlyTranslator Examples.plainSettings
      Examples.noFilter ['a'] 0 true =
      .ok (some ⟨.table
        (TableTranslation.newWith
          (some (Examples.abUserOnlyTranslator.options Examples.plainSettings)) ['a'] 0 1 ['a']
          [] [Examples.wordA])⟩) :=
  ⟨C25_query_without_dictionary.1 Examples.xiUserOnlyTranslator (fun _ => false)
      Examples.xian 0 true (Or.inl rfl),
    (C25_query_without_dictionary.2 Examples.abUserOnlyTranslator Examples.plainSettings
      Examples.noFilter ['a'] 0 true (Or.inl rfl) rfl rfl rfl rfl [Examples.wordA] rfl).2 rfl
      (by decide)⟩

end Rime

namespace Rime
open SpellingType

theorem charDigit_digitChar (d : Nat) (h : d < 10) : charDigit (digitChar d) = some d := by
  interval_cases d <;> rfl

theorem digitChar_ne (d : Nat) (h : d < 10) :
    digitChar d ≠ ' ' ∧ digitChar d ≠ '-' := by
  interval_cases d <;> exact ⟨by decide, by decide⟩

theorem readDigits_cons_digit (d : Nat) (hd : d < 10) (rest : List Char) (acc : Nat) :
    readDigits (digitChar d :: rest) acc = readDigits rest (10 * acc + d) := by
  simp only [readDigits, charDigit_digitChar d hd]

theorem readDigits_append_digits (ds rest : List Char) (m : Nat)
    (h : ∀ tail, readDigits (ds ++ tail) 0 = readDigits tail m) (d : Nat) (hd : d < 10) :
    readDigits (ds ++ digitChar d :: rest) 0 = readDigits rest (10 * m + d) := by
  rw [h, readDigits_cons_digit d hd]

/-- The digits written for `n`: they are decimal digits, at least one, and read back
as `n`. -/
theorem writeDigits_spec :
    ∀ (fuel n : Nat) (acc : List Char), n < fuel →
      ∃ ds, writeDigits fuel n acc = ds ++ acc ∧ ds ≠ [] ∧
        (∀ c ∈ ds, ∃ d, d < 10 ∧ c = digitChar d) ∧
        ∀ tail, readDigits (ds ++ tail) 0 = readDigits tail n := by
  intro fuel
  induction fuel with
  | zero => intro n acc h; omega
  | succ fuel ih =>
    intro n acc hn
    have hd : n % 10 < 10 := Nat.mod_lt _ (by omega)
    simp only [writeDigits]
    by_cases h0 : n / 10 = 0
    · rw [if_pos h0]
      refine ⟨[digitChar (n % 10)], rfl, by simp, ?_, ?_⟩
      · intro c hc
        rw [List.mem_singleton.mp hc]
        exact ⟨n % 10, hd, rfl⟩
      · intro tail
        rw [List.singleton_append, readDigits_cons_digit _ hd]
        congr 1
        omega
    · rw [if_neg h0]
      obtain ⟨ds, e1, _, e3, e4⟩ := ih (n / 10) (digitChar (n % 10) :: acc) (by omega)
      refine ⟨ds ++ [digitChar (n % 10)], ?_, by simp, ?_, ?_⟩
      · rw [e1]; simp
      · intro c hc
        rcases List.mem_append.mp hc with h1 | h1
        · exact e3 c h1
        · rw [List.mem_singleton.mp h1]
          exact ⟨n % 10, hd, rfl⟩
      · intro tail
        rw [List.append_assoc, List.singleton_append,
          readDigits_append_digits ds tail (n / 10) e4 (n % 10) hd]
        congr 1
        omega

theorem writeNat_spec (n : Nat) :
    writeNat n ≠ [] ∧ (∀ c ∈ writeNat n, ∃ d, d < 10 ∧ c = digitChar d) ∧
      readDigits (writeNat n) 0 = some n := by
  obtain ⟨ds, e1, e2, e3, e4⟩ := writeDigits_spec (n + 1) n [] (by omega)
  unfold writeNat
  rw [e1, List.append_nil]
  refine ⟨e2, e3, ?_⟩
  have := e4 []
  rw [List.append_nil] at this
  rw [this]
  rfl

theorem writeNat_chars (n : Nat) : ∀ c ∈ writeNat n, ∃ d, d < 10 ∧ c = digitChar d :=
  (writeNat_spec n).2.1

theorem writeNat_ne_nil (n : Nat) : writeNat n ≠ [] := (writeNat_spec n).1

theorem readNat_writeNat (n : Nat) : readNat (writeNat n) = some n := by
  have hne := writeNat_ne_nil n
  have hemp : (writeNat n).isEmpty = false := by
    cases h : writeNat n with
    | nil => exact absurd h hne
    | cons a l => rfl
  unfold readNat
  rw [hemp]
  exact (writeNat_spec n).2.2

theorem readInt_writeInt (i : Int) : readInt (writeInt i) = some i := by
  unfold writeInt
  by_cases h : i < 0
  · rw [if_pos h]
    have : readInt ('-' :: writeNat i.natAbs) =
        match readNat (writeNat i.natAbs) with
        | some n => some (-(Int.ofNat n))
        | none => none := rfl
    rw [this, readNat_writeNat]
    simp only [Option.some.injEq, Int.ofNat_eq_coe]
    omega
  · rw [if_neg h]
    cases hw : writeNat i.natAbs with
    | nil => exact absurd hw (writeNat_ne_nil _)
    | cons c cs =>
      obtain ⟨d, hd, hc⟩ := writeNat_chars i.natAbs c (by rw [hw]; exact List.mem_cons_self _ _)
      have hminus : c ≠ '-' := by rw [hc]; exact (digitChar_ne d hd).2
      have : readInt (c :: cs) =
          match readNat (c :: cs) with
          | some n => some (Int.ofNat n)
          | none => none := by
        unfold readInt
        split
        · rename_i heq
          injection heq with h1 _
          exact absurd h1 hminus
        · rfl
      rw [this, ← hw, readNat_writeNat]
      simp only [Option.some.injEq, Int.ofNat_eq_coe]
      omega

theorem writeInt_no_blank (i : Int) : ' ' ∉ writeInt i := by
  have hn : ∀ n, ' ' ∉ writeNat n := by
    intro n hmem
    obtain ⟨d, hd, hc⟩ := writeNat_chars n ' ' hmem
    exact (digitChar_ne d hd).1 hc.symm
  unfold writeInt
  split
  · intro hmem
    rcases List.mem_cons.mp hmem with h1 | h1
    · exact absurd h1 (by decide)
    · exact hn _ h1
  · exact hn _

theorem writeNat_no_blank (n : Nat) : ' ' ∉ writeNat n := by
  intro hmem
  obtain ⟨d, hd, hc⟩ := writeNat_chars n ' ' hmem
  exact (digitChar_ne d hd).1 hc.symm

theorem splitFields_no_blank (a : List Char) (h : ' ' ∉ a) : splitFields a = [a] := by
  induction a with
  | nil => rfl
  | cons c cs ih =>
    have hc : c ≠ ' ' := fun h0 => h (by rw [h0]; exact List.mem_cons_self _ _)
    have hcs : ' ' ∉ cs := fun h0 => h (List.mem_cons_of_mem _ h0)
    simp only [splitFields, hc, if_false, ih hcs]

theorem splitFields_append (a b : List Char) (h : ' ' ∉ a) :
    splitFields (a ++ ' ' :: b) = a :: splitFields b := by
  induction a with
  | nil => simp [splitFields]
  | cons c cs ih =>
    have hc : c ≠ ' ' := fun h0 => h (by rw [h0]; exact List.mem_cons_self _ _)
    have hcs : ' ' ∉ cs := fun h0 => h (List.mem_cons_of_mem _ h0)
    have happ : splitFields (cs ++ ' ' :: b) = cs :: splitFields b := ih hcs
    show (if c = ' ' then [] :: splitFields (cs ++ ' ' :: b)
      else
        match splitFields (cs ++ ' ' :: b) with
        | [] => [[c]]
        | w :: ws => (c :: w) :: ws) = (c :: cs) :: splitFields b
    rw [if_neg hc, happ]

/-- The part of the round trip of a value that does not depend on how a double is
written: with `Pack` and `Unpack` as the specification describes them, the three fields
are split apart again and the texts of `commits` and `tick` read back; `dee` comes back
if its text, which the specification leaves open, has no blank in it and reads back
the double it was written from. -/
theorem Unpack_Pack_of_text (text : DoubleText) (v : UserDbValue)
    (hread : text.read (text.write v.dee) = some v.dee)
    (hblank : ' ' ∉ text.write v.dee) :
    UserDbValue.Unpack text (UserDbValue.Pack text v) = some v := by
  unfold UserDbValue.Unpack UserDbValue.Pack
  have h1 : ' ' ∉ ['c', '='] ++ writeInt v.commits := by
    intro hmem
    rcases List.mem_append.mp hmem with h | h
    · revert h; decide
    · exact writeInt_no_blank _ h
  have h2 : ' ' ∉ ['d', '='] ++ text.write v.dee := by
    intro hmem
    rcases List.mem_append.mp hmem with h | h
    · revert h; decide
    · exact hblank h
  have h3 : ' ' ∉ ['t', '='] ++ writeNat v.tick := by
    intro hmem
    rcases List.mem_append.mp hmem with h | h
    · revert h; decide
    · exact writeNat_no_blank _ h
  have hshape : ['c', '='] ++ writeInt v.commits ++ [' ', 'd', '='] ++ text.write v.dee ++
      [' ', 't', '='] ++ writeNat v.tick =
      (['c', '='] ++ writeInt v.commits) ++ ' ' :: ((['d', '='] ++ text.write v.dee) ++
        ' ' :: (['t', '='] ++ writeNat v.tick)) := by
    simp
  rw [hshape, splitFields_append _ _ h1, splitFields_append _ _ h2, splitFields_no_blank _ h3]
  have k1 : splitKeyValue ('c' :: '=' :: writeInt v.commits) =
      some (['c'], writeInt v.commits) := by
    simp [splitKeyValue]
  have k2 : splitKeyValue ('d' :: '=' :: text.write v.dee) =
      some (['d'], text.write v.dee) := by
    simp [splitKeyValue]
  have k3 : splitKeyValue ('t' :: '=' :: writeNat v.tick) =
      some (['t'], writeNat v.tick) := by
    simp [splitKeyValue]
  simp [UserDbValue.readFields, UserDbValue.readField, k1, k2, k3, readInt_writeInt,
    readNat_writeNat, hread]

/-- The value `(-3, 12, 2024)` is packed as `c=-3 d=12 t=2024`, a text for whole numbers
being taken for the double, and unpacked again. -/
theorem Unpack_Pack_someValue :
    UserDbValue.Pack Examples.wholeText Examples.someValue =
      ['c', '=', '-', '3', ' ', 'd', '=', '1', '2', ' ', 't', '=', '2', '0', '2', '4'] ∧
    UserDbValue.Unpack Examples.wholeText
      (UserDbValue.Pack Examples.wholeText Examples.someValue) = some Examples.someValue :=
  ⟨by decide, Unpack_Pack_of_text Examples.wholeText Examples.someValue (by decide) (by decide)⟩

end Rime

namespace Rime
open SpellingType

/-- Claim C36, the code at the input `abcde` with the delimiter `'` and the syllable
lengths 1, 1, 1, 1, 1 (all positive, their sum the length of the input): the loop of
`PrepareSentence` reads `input_` at 0, 2, 4 and 6, and 6 is beyond the five bytes of
the input; with the three spaces put in before it, the last syllable finds `pos` at 7. -/
theorem C36_read_beyond_input :
    (∀ len ∈ Examples.fiveLetters.syllable_lengths, 0 < len) ∧
    Examples.fiveLetters.syllable_lengths.sum = Examples.abcde.length ∧
    SentenceTranslation.readPositions Examples.abcde [Examples.apostrophe]
      Examples.fiveLetters.syllable_lengths 0 = [0, 2, 4, 6] ∧
    ¬ 6 < Examples.abcde.length ∧
    stringAt Examples.abcde 6 = .error .badIndex ∧
    SentenceTranslation.splitSyllables Examples.abcde [Examples.apostrophe]
      Examples.fiveLetters.syllable_lengths 0 Examples.abcde = .error .badIndex ∧
    SentenceTranslation.PrepareSentence Examples.fiveLettersTranslation = .error .badIndex :=
  ⟨by decide, by decide, by decide, by decide, rfl, by rfl, by rfl⟩

end Rime

namespace Rime
open SpellingType

theorem sum_take_mono (lens : List Nat) (j k : Nat) (h : j ≤ k) :
    (lens.take j).sum ≤ (lens.take k).sum := by
  induction lens generalizing j k with
  | nil => simp
  | cons len lens ih =>
    cases j with
    | zero => simp
    | succ j =>
      cases k with
      | zero => omega
      | succ k =>
        simp only [List.take_succ_cons, List.sum_cons]
        have := ih j k (by omega)
        omega

namespace SentenceSyllabification

theorem nextStopFrom_spec (caret : Nat) (lens : List Nat) (stop : Nat) :
    (∃ k, 1 ≤ k ∧ k ≤ lens.length ∧ caret < stop + (lens.take k).sum ∧
      nextStopFrom caret lens stop = stop + (lens.take k).sum ∧
      ∀ j, 1 ≤ j → j ≤ lens.length → caret < stop + (lens.take j).sum → k ≤ j) ∨
    ((∀ k, 1 ≤ k → k ≤ lens.length → stop + (lens.take k).sum ≤ caret) ∧
      nextStopFrom caret lens stop = caret) := by
  induction lens generalizing stop with
  | nil =>
    right
    refine ⟨?_, rfl⟩
    intro k h1 h2
    simp only [List.length_nil] at h2
    omega
  | cons len lens ih =>
    unfold nextStopFrom
    by_cases hc : caret < stop + len
    · left
      rw [if_pos hc]
      refine ⟨1, le_refl 1, by simp, by simpa using hc, by simp, ?_⟩
      intro j hj _ _
      exact hj
    · rw [if_neg hc]
      rcases ih (stop + len) with ⟨k, h1, h2, h3, h4, h5⟩ | ⟨h1, h2⟩
      · left
        refine ⟨k + 1, by omega, by simp only [List.length_cons]; omega, ?_, ?_, ?_⟩
        · simp only [List.take_succ_cons, List.sum_cons]
          omega
        · rw [h4]
          simp only [List.take_succ_cons, List.sum_cons]
          omega
        · intro j hj1 hj2 hj3
          cases j with
          | zero => omega
          | succ j =>
            simp only [List.take_succ_cons, List.sum_cons, List.length_cons] at hj2 hj3
            by_cases hj0 : j = 0
            · subst hj0
              simp at hj3
              omega
            · have := h5 j (by omega) (by omega) (by omega)
              omega
      · right
        refine ⟨?_, h2⟩
        intro k hk1 hk2
        cases k with
        | zero => omega
        | succ k =>
          simp only [List.take_succ_cons, List.sum_cons, List.length_cons] at hk2 ⊢
          by_cases hk0 : k = 0
          · subst hk0
            simp
            omega
          · have := h1 k (by omega) (by omega)
            omega

theorem previousStopFrom_spec (caret : Nat) (lens : List Nat) (stop : Nat) (h : stop < caret) :
    (∃ k, k < lens.length ∧ previousStopFrom caret lens stop = stop + (lens.take k).sum ∧
      stop + (lens.take k).sum < caret ∧ caret ≤ stop + (lens.take (k + 1)).sum) ∨
    (stop + lens.sum < caret ∧ previousStopFrom caret lens stop = caret) := by
  induction lens generalizing stop with
  | nil =>
    right
    exact ⟨by simpa using h, rfl⟩
  | cons len lens ih =>
    unfold previousStopFrom
    by_cases hc : caret ≤ stop + len
    · left
      rw [if_pos hc]
      exact ⟨0, by simp, by simp, by simpa using h, by simpa using hc⟩
    · rw [if_neg hc]
      rcases ih (stop + len) (by omega) with ⟨k, h1, h2, h3, h4⟩ | ⟨h1, h2⟩
      · left
        refine ⟨k + 1, by simp only [List.length_cons]; omega, ?_, ?_, ?_⟩
        · rw [h2]
          simp only [List.take_succ_cons, List.sum_cons]
          omega
        · simp only [List.take_succ_cons, List.sum_cons]
          omega
        · simp only [List.take_succ_cons, List.sum_cons] at h4 ⊢
          omega
      · right
        refine ⟨?_, h2⟩
        simp only [List.sum_cons]
        omega

end SentenceSyllabification

/-- Claim C31. For a live sentence with start `s` and boundaries `b_k`, `k ≤ n`:
`NextStop(caret)` is the least boundary `b_k`, `1 ≤ k ≤ n`, that is greater than the
caret, and the caret itself when there is none; `PreviousStop(caret)` is, for
`s < caret ≤ b_n`, the greatest of the boundaries `b_0, ..., b_(n-1)` that is less than
the caret, and the caret itself when `caret > b_n`; with the sentence released both
return the caret. -/
theorem C31_sentence_stops (sentence : Sentence) (caret : Nat) :
    ((∃ k, 1 ≤ k ∧ k ≤ sentence.syllable_lengths.length ∧ caret < sentence.boundary k) →
      ∃ k, 1 ≤ k ∧ k ≤ sentence.syllable_lengths.length ∧
        SentenceSyllabification.NextStop (some sentence) caret = sentence.boundary k ∧
        caret < sentence.boundary k ∧
        ∀ j, 1 ≤ j → j ≤ sentence.syllable_lengths.length → caret < sentence.boundary j →
          sentence.boundary k ≤ sentence.boundary j) ∧
    ((∀ k, 1 ≤ k → k ≤ sentence.syllable_lengths.length → sentence.boundary k ≤ caret) →
      SentenceSyllabification.NextStop (some sentence) caret = caret) ∧
    (sentence.start < caret → caret ≤ sentence.boundary sentence.syllable_lengths.length →
      ∃ k, k < sentence.syllable_lengths.length ∧
        SentenceSyllabification.PreviousStop (some sentence) caret = sentence.boundary k ∧
        sentence.boundary k < caret ∧
        ∀ j, j < sentence.syllable_lengths.length → sentence.boundary j < caret →
          sentence.boundary j ≤ sentence.boundary k) ∧
    (sentence.boundary sentence.syllable_lengths.length < caret →
      SentenceSyllabification.PreviousStop (some sentence) caret = caret) ∧
    SentenceSyllabification.PreviousStop none caret = caret ∧
    SentenceSyllabification.NextStop none caret = caret := by
  have hfull : sentence.boundary sentence.syllable_lengths.length =
      sentence.start + sentence.syllable_lengths.sum := by
    unfold Candidate.boundary
    rw [List.take_length]
  refine ⟨?_, ?_, ?_, ?_, rfl, rfl⟩
  · rintro ⟨k0, hk1, hk2, hk3⟩
    rcases SentenceSyllabification.nextStopFrom_spec caret sentence.syllable_lengths
      sentence.start with ⟨k, h1, h2, h3, h4, h5⟩ | ⟨h1, _⟩
    · refine ⟨k, h1, h2, h4, h3, ?_⟩
      intro j hj1 hj2 hj3
      have := sum_take_mono sentence.syllable_lengths k j (h5 j hj1 hj2 hj3)
      unfold Candidate.boundary
      omega
    · have := h1 k0 hk1 hk2
      unfold Candidate.boundary at hk3
      omega
  · intro hall
    rcases SentenceSyllabification.nextStopFrom_spec caret sentence.syllable_lengths
      sentence.start with ⟨k, h1, h2, h3, _, _⟩ | ⟨_, h2⟩
    · have := hall k h1 h2
      unfold Candidate.boundary at this
      omega
    · exact h2
  · intro hs hc
    rw [hfull] at hc
    rcases SentenceSyllabification.previousStopFrom_spec caret sentence.syllable_lengths
      sentence.start hs with ⟨k, h1, h2, h3, h4⟩ | ⟨h1, _⟩
    · refine ⟨k, h1, h2, h3, ?_⟩
      intro j _ hj2
      unfold Candidate.boundary at hj2 ⊢
      by_cases hjk : j ≤ k
      · have := sum_take_mono sentence.syllable_lengths j k hjk
        omega
      · have := sum_take_mono sentence.syllable_lengths (k + 1) j (by omega)
        omega
    · omega
  · intro hc
    rw [hfull] at hc
    rcases SentenceSyllabification.previousStopFrom_spec caret sentence.syllable_lengths
      sentence.start (by omega) with ⟨k, h1, _, _, h4⟩ | ⟨_, h2⟩
    · have := sum_take_mono sentence.syllable_lengths (k + 1)
        sentence.syllable_lengths.length (by omega)
      rw [List.take_length] at this
      omega
    · exact h2

/-- Claim C31 on the sentence that starts at 3 with syllables of lengths 2, 1 and 3
(boundaries 3, 5, 6, 9) and the caret at 6: the next stop is 9, the previous stop 5. -/
theorem C31_sentence_stops_witness :
    SentenceSyllabification.NextStop (some Examples.stopsSentence) 6 = 9 ∧
    SentenceSyllabification.PreviousStop (some Examples.stopsSentence) 6 = 5 ∧
    ∃ k, k < Examples.stopsSentence.syllable_lengths.length ∧
      SentenceSyllabification.PreviousStop (some Examples.stopsSentence) 6 =
        Examples.stopsSentence.boundary k ∧
      Examples.stopsSentence.boundary k < 6 ∧
      ∀ j, j < Examples.stopsSentence.syllable_lengths.length →
        Examples.stopsSentence.boundary j < 6 →
        Examples.stopsSentence.boundary j ≤ Examples.stopsSentence.boundary k :=
  ⟨by decide, by decide,
    (C31_sentence_stops Examples.stopsSentence 6).2.2.1 (by decide) (by decide)⟩

end Rime

namespace Rime
open SpellingType

/-- Claim C32. With completion disabled, in the graph built from an empty graph, with
`r` the farthest position, which the call returns: both ends of every edge are in the
vertices, every vertex other than `r` has an edge leaving it, and no edge leaves `r`. -/
theorem C32_no_dangling_edges (s : Syllabifier) (input : List Char) (prism : Prism)
    (g : SyllableGraph) (r : Nat) (hc : s.enable_completion_ = false)
    (h : s.BuildSyllableGraph input prism {} = .ok (g, r)) :
    (∀ i j, g.hasEdge i j →
      (∃ t, g.vertices.find? i = some t) ∧ ∃ t, g.vertices.find? j = some t) ∧
    (∀ p t, g.vertices.find? p = some t → p ≠ r → ∃ j, g.hasEdge p j) ∧
    (∀ j, ¬ g.hasEdge r j) := by
  by_cases hne : input = []
  · subst hne
    have hg : g = {} ∧ r = 0 := by
      have : s.BuildSyllableGraph [] prism {} = .ok ({}, 0) := rfl
      rw [this] at h
      injection h with h
      injection h with h1 h2
      exact ⟨h1.symm, h2.symm⟩
    obtain ⟨hg, hr⟩ := hg
    subst hg
    refine ⟨?_, ?_, ?_⟩
    · rintro i j ⟨sm, hsm⟩
      cases hsm
    · intro p t hp
      cases hp
    · rintro j ⟨sm, hsm⟩
      cases hsm
  · obtain ⟨st, good, inv, _, hb, pinv, hr, hvs, he, _, _⟩ :=
      Syllabifier.Build_fresh s input prism g r hne h
    have hcomp : Syllabifier.complete s input prism
        (Syllabifier.prune st.graph st.farthest) st.farthest =
        (Syllabifier.prune st.graph st.farthest, st.farthest) := by
      rcases Syllabifier.complete_cases s input prism
        (Syllabifier.prune st.graph st.farthest) st.farthest with ⟨_, h2⟩ | ⟨⟨h1, _⟩, _⟩
      · exact h2
      · rw [hc] at h1
        cases h1
    rw [hcomp] at hr he
    simp only at hr he
    have hedge : ∀ i j sm, g.edge? i j = some sm →
        i < st.farthest ∧ i ∈ good ∧ j ∈ good := by
      intro i j sm hsm
      rw [he] at hsm
      obtain ⟨h1, h2, h3, _⟩ := Syllabifier.PruneInv_edge_sub hb pinv i j sm hsm
      exact ⟨h1, h2, h3⟩
    refine ⟨?_, ?_, ?_⟩
    · rintro i j ⟨sm, hsm⟩
      obtain ⟨_, h2, h3⟩ := hedge i j sm hsm
      rw [hvs]
      exact ⟨((pinv.good_iff i).mp h2).2, ((pinv.good_iff j).mp h3).2⟩
    · intro p t hp hpr
      rw [hvs] at hp
      obtain ⟨t0, ht0, _⟩ := pinv.v_sub p t hp
      have hle := hb.vle p t0 ht0
      have hlt : p < st.farthest := by omega
      have hg : p ∈ good := (pinv.good_iff p).mpr ⟨Nat.zero_le p, t, hp⟩
      obtain ⟨_, _, _, j, sm0, hj, hsm0, hk⟩ := (pinv.good_char p (Nat.zero_le p) hlt).mp hg
      refine ⟨j, keepSpellings (SpellingType.max
        ((st.graph.vertices.find? st.farthest).getD kNormalSpelling) kFuzzySpelling) sm0, ?_⟩
      rw [he]
      exact (pinv.mid_e p j _ (Nat.zero_le p) hlt).mpr ⟨hg, hj, sm0, hsm0, rfl, hk⟩
    · rintro j ⟨sm, hsm⟩
      obtain ⟨h1, _, _⟩ := hedge r j sm hsm
      omega

/-- Claim C32 on the graph of `xian`, built with completion disabled: the vertices are
0, 2 and 4, the edges `0 → 2`, `0 → 4` and `2 → 4`. -/
theorem C32_no_dangling_edges_witness :
    Syllabifier.BuildSyllableGraph ⟨[Examples.apostrophe], false, false⟩ Examples.xian
      Examples.xianPrism {} = .ok (Examples.xianGraph, 4) ∧
    (∀ i j, Examples.xianGraph.hasEdge i j →
      (∃ t, Examples.xianGraph.vertices.find? i = some t) ∧
        ∃ t, Examples.xianGraph.vertices.find? j = some t) ∧
    (∀ p t, Examples.xianGraph.vertices.find? p = some t → p ≠ 4 →
      ∃ j, Examples.xianGraph.hasEdge p j) ∧
    (∀ j, ¬ Examples.xianGraph.hasEdge 4 j) :=
  ⟨rfl, C32_no_dangling_edges ⟨[Examples.apostrophe], false, false⟩ Examples.xian
    Examples.xianPrism Examples.xianGraph 4 rfl rfl⟩

end Rime

namespace Rime
open SpellingType

theorem Map.length_le_of_keys_le {β : Type} (m : Map Nat β) (hm : Map.WF m) (n : Nat)
    (h : ∀ k ∈ Map.keys m, k ≤ n) : m.length ≤ n + 1 := by
  have hnd : (Map.keys m).Nodup := by
    unfold Map.WF at hm
    exact hm.imp (fun hab => Nat.ne_of_lt hab)
  have hsub : Map.keys m ⊆ List.range (n + 1) := by
    intro k hk
    rw [List.mem_range]
    have := h k hk
    omega
  have := (hnd.subperm hsub).length_le
  rw [List.length_range] at this
  unfold Map.keys at this
  rw [List.length_map] at this
  exact this

namespace Syllabifier

/-- A visit of a position already recorded only pops the queue; a visit of a new
position records it, and looks no further than the end of the input. -/
theorem visit_vertices (s : Syllabifier) (input : List Char) (prism : Prism)
    (st : LoopState) (v : Vertex) (q : VertexQueue) (st1 : LoopState)
    (h : visit s input prism st v q = .ok st1) :
    ((∃ t, st.graph.vertices.find? v.1 = some t) → st1 = { st with queue := q }) ∧
    (st.graph.vertices.find? v.1 = none →
      st1.graph.vertices = Map.insert st.graph.vertices v.1 v.2 ∧ v.1 ≤ input.length) := by
  unfold visit at h
  constructor
  · rintro ⟨t, ht⟩
    rw [ht] at h
    simp only [Option.isSome_some, if_true] at h
    injection h with h
    exact h.symm
  · intro hn
    rw [hn] at h
    simp only [Option.isSome_none, Bool.false_eq_true, if_false] at h
    by_cases hv : v.1 > input.length
    · rw [if_pos hv] at h
      cases h
    · rw [if_neg hv] at h
      refine ⟨?_, by omega⟩
      split at h
      · injection h with h
        rw [← h]
      · injection h with h
        rw [← h]

theorem visit_wfVertices (s : Syllabifier) (input : List Char) (prism : Prism)
    (st : LoopState) (v : Vertex) (q : VertexQueue) (st1 : LoopState)
    (hwf : Map.WF st.graph.vertices)
    (h : visit s input prism st v q = .ok st1) : Map.WF st1.graph.vertices := by
  obtain ⟨h1, h2⟩ := visit_vertices s input prism st v q st1 h
  cases hf : st.graph.vertices.find? v.1 with
  | some t =>
    rw [h1 ⟨t, hf⟩]
    exact hwf
  | none =>
    rw [(h2 hf).1]
    exact Map.WF_insert hwf _ _

end Syllabifier

/-- Claim C35. With a prism whose matches are no longer than what remains of the
input, `BuildSyllableGraph` returns, on any graph. A visit of a position already
recorded does nothing but pop the queue, and a visit of a new position, the only kind
that searches the prism, adds the position to the vertices and finds it inside the
input. In the state the construction loop ends in when started on an empty graph, the
queue is empty, every edge goes strictly forward and ends inside the input, and the
vertices are distinct positions of the input, so at most `|input| + 1` of them. -/
theorem C35_build_terminates (s : Syllabifier) (input : List Char) (prism : Prism)
    (hprism : ∀ p, p ≤ input.length → ∀ m ∈ prism.CommonPrefixSearch (input.drop p),
      p + m.length ≤ input.length) :
    (∀ graph, ∃ g r, s.BuildSyllableGraph input prism graph = .ok (g, r)) ∧
    (∀ st v q st1, Syllabifier.visit s input prism st v q = .ok st1 →
      ((∃ t, st.graph.vertices.find? v.1 = some t) → st1 = { st with queue := q }) ∧
      (st.graph.vertices.find? v.1 = none →
        st1.graph.vertices = Map.insert st.graph.vertices v.1 v.2 ∧
          v.1 ≤ input.length)) ∧
    ∃ st, Syllabifier.mainLoop s input prism (Syllabifier.loopBound input prism)
        { graph := {}, queue := [(0, kNormalSpelling)], farthest := 0 } = .ok st ∧
      st.queue = [] ∧
      (∀ i j, st.graph.hasEdge i j → i < j ∧ j ≤ input.length) ∧
      (∀ p t, st.graph.vertices.find? p = some t → p ≤ input.length) ∧
      Map.WF st.graph.vertices ∧
      st.graph.vertices.length ≤ input.length + 1 := by
  refine ⟨fun graph => Syllabifier.Build_returns s input prism graph hprism,
    fun st v q st1 h => Syllabifier.visit_vertices s input prism st v q st1 h, ?_⟩
  obtain ⟨st, h1, h2⟩ := Syllabifier.mainLoop_terminates s input prism hprism {}
  obtain ⟨inv, hq⟩ := Syllabifier.mainLoop_fresh s input prism _ st h1
  have hb := Syllabifier.Built_of_loop s input prism st inv hq
  have hwf : Map.WF st.graph.vertices :=
    (Syllabifier.mainLoop_induct s input prism (fun st => Map.WF st.graph.vertices)
      (fun st v q st1 hi _ hv => Syllabifier.visit_wfVertices s input prism st v q st1 hi hv)
      _ _ st Map.WF_nil h1).1
  have hv : ∀ p t, st.graph.vertices.find? p = some t → p ≤ input.length := by
    intro p t hp
    have := hb.vle p t hp
    omega
  refine ⟨st, h1, hq, ?_, hv, hwf, ?_⟩
  · rintro i j ⟨sm, hsm⟩
    obtain ⟨row, hrow, hj⟩ := (SyllableGraph.edge?_eq_some st.graph i j sm).mp hsm
    have hjk : j ∈ Map.keys row := (Map.mem_keys_iff row j).mpr ⟨sm, hj⟩
    obtain ⟨t, ht⟩ := hb.tgt i row j hrow hjk
    exact ⟨hb.fwd i row j hrow hjk, hv j t ht⟩
  · apply Map.length_le_of_keys_le _ hwf
    intro k hk
    obtain ⟨t, ht⟩ := (Map.mem_keys_iff _ k).mp hk
    exact hv k t ht

/-- Claim C35 on the input `xian`: the call returns and the construction loop ends with
an empty queue, edges that go forward and at most five vertices. -/
theorem C35_build_terminates_witness :
    (∀ p, p ≤ Examples.xian.length →
      ∀ m ∈ Examples.xianPrism.CommonPrefixSearch (Examples.xian.drop p),
        p + m.length ≤ Examples.xian.length) ∧
    (∀ graph, ∃ g r, Syllabifier.BuildSyllableGraph ⟨[Examples.apostrophe], false, false⟩
      Examples.xian Examples.xianPrism graph = .ok (g, r)) ∧
    ∃ st, Syllabifier.mainLoop ⟨[Examples.apostrophe], false, false⟩ Examples.xian
        Examples.xianPrism (Syllabifier.loopBound Examples.xian Examples.xianPrism)
        { graph := {}, queue := [(0, kNormalSpelling)], farthest := 0 } = .ok st ∧
      st.queue = [] ∧
      (∀ i j, st.graph.hasEdge i j → i < j ∧ j ≤ Examples.xian.length) ∧
      (∀ p t, st.graph.vertices.find? p = some t → p ≤ Examples.xian.length) ∧
      Map.WF st.graph.vertices ∧
      st.graph.vertices.length ≤ Examples.xian.length + 1 :=
  ⟨by decide,
    (C35_build_terminates ⟨[Examples.apostrophe], false, false⟩ Examples.xian
      Examples.xianPrism (by decide)).1,
    (C35_build_terminates ⟨[Examples.apostrophe], false, false⟩ Examples.xian
      Examples.xianPrism (by decide)).2.2⟩

end Rime

namespace Rime
open SpellingType

namespace TableTranslation

/-- One step of the stream of a translation that is not drained: the candidate `Peek`
builds is made of the head of one iterator, `Next` drops that head, and when the entry
does not match the whole code the head of the other iterator does not either. -/
theorem peek_next_cases (self : TableTranslation) (o : TranslatorOptions)
    (ho : self.options_ = some o)
    (hflag : self.exhausted_ = (self.iter_.isEmpty && self.uter_.isEmpty))
    (hne : self.iter_ ≠ [] ∨ self.uter_ ≠ []) :
    ∃ e c, self.Peek = .ok (some c) ∧
      c.type = (if e.remaining_code_length = 0 then "table" else "completion") ∧
      ((self.iter_ = e :: (self.Next).2.iter_ ∧ (self.Next).2.uter_ = self.uter_ ∧
          (e.remaining_code_length ≠ 0 → ∀ u ∈ self.uter_.head?, u.remaining_code_length ≠ 0)) ∨
        (self.uter_ = e :: (self.Next).2.uter_ ∧ (self.Next).2.iter_ = self.iter_ ∧
          (e.remaining_code_length ≠ 0 →
            ∀ i ∈ self.iter_.head?, i.remaining_code_length ≠ 0))) ∧
      (self.Next).2.options_ = some o ∧
      (self.Next).2.exhausted_ =
        ((self.Next).2.iter_.isEmpty && (self.Next).2.uter_.isEmpty) := by
  obtain ⟨options_, input_, start_, end_, preedit_, iter_, uter_, exhausted_⟩ := self
  simp only at ho hflag hne
  subst ho
  have hex : exhausted_ = false := by
    rw [hflag]
    rcases hne with h | h
    · cases iter_ with
      | nil => exact absurd rfl h
      | cons i is => rfl
    · cases uter_ with
      | nil => exact absurd rfl h
      | cons u us => cases iter_ <;> rfl
  subst hex
  cases uter_ with
  | nil =>
    cases iter_ with
    | nil => simp at hne
    | cons i is =>
      refine ⟨i, _, rfl, ?_, Or.inl ⟨rfl, rfl, ?_⟩, rfl, rfl⟩
      · by_cases hr : i.remaining_code_length = 0 <;> simp [Phrase.new, hr]
      · intro _ u hu
        cases hu
  | cons u us =>
    cases iter_ with
    | nil =>
      refine ⟨u, _, rfl, ?_, Or.inr ⟨rfl, rfl, ?_⟩, rfl, rfl⟩
      · by_cases hr : u.remaining_code_length = 0 <;> simp [Phrase.new, hr]
      · intro _ i hi
        cases hi
    | cons i is =>
      by_cases hc : i.remaining_code_length = 0 ∧
          (u.remaining_code_length ≠ 0 ∨ is_constructed u = true)
      · have hp : PreferUserPhrase
            { options_ := some o, input_ := input_, start_ := start_, end_ := end_,
              preedit_ := preedit_, iter_ := i :: is, uter_ := u :: us,
              exhausted_ := false } = false := by
          unfold PreferUserPhrase
          simp only [if_pos hc]
        refine ⟨i, ?_⟩
        unfold Peek Next
        simp only [hp, PreferedEntry, Bool.false_eq_true, if_false, List.head?_cons,
          List.tail_cons]
        refine ⟨_, rfl, ?_, Or.inl ⟨rfl, rfl, ?_⟩, rfl, rfl⟩
        · by_cases hr : i.remaining_code_length = 0 <;> simp [Phrase.new, hr]
        · intro hr
          exact absurd hc.1 hr
      · have hp : PreferUserPhrase
            { options_ := some o, input_ := input_, start_ := start_, end_ := end_,
              preedit_ := preedit_, iter_ := i :: is, uter_ := u :: us,
              exhausted_ := false } = true := by
          unfold PreferUserPhrase
          simp only [if_neg hc]
        refine ⟨u, ?_⟩
        unfold Peek Next
        simp only [hp, PreferedEntry, Bool.false_eq_true, if_false, if_true, List.head?_cons,
          List.tail_cons]
        refine ⟨_, rfl, ?_, Or.inr ⟨rfl, rfl, ?_⟩, rfl, rfl⟩
        · by_cases hr : u.remaining_code_length = 0 <;> simp [Phrase.new, hr]
        · intro hr j hj
          simp only [List.head?_cons, Option.mem_def, Option.some.injEq] at hj
          subst hj
          intro hj0
          exact hc ⟨hj0, Or.inl hr⟩

theorem candidates_spec (o : TranslatorOptions) :
    ∀ (n : Nat) (self : TableTranslation), self.options_ = some o →
      self.exhausted_ = (self.iter_.isEmpty && self.uter_.isEmpty) →
      self.iter_.length + self.uter_.length = n →
      ExactFirst self.iter_ → ExactFirst self.uter_ →
      ∃ cs, (∀ fuel, n < fuel → candidates fuel self = .ok cs) ∧ cs.length = n ∧
        (∀ c ∈ cs, (c.type = "table" ∧
            ∃ e ∈ self.iter_ ++ self.uter_, e.remaining_code_length = 0) ∨
          c.type = "completion") ∧
        cs.Pairwise (fun a b => a.type = "completion" → b.type ≠ "table") := by
  intro n
  induction n with
  | zero =>
    intro self ho hflag hn _ _
    have h1 : self.iter_ = [] := List.eq_nil_of_length_eq_zero (by omega)
    have h2 : self.uter_ = [] := List.eq_nil_of_length_eq_zero (by omega)
    have hex : self.exhausted_ = true := by rw [hflag, h1, h2]; rfl
    refine ⟨[], ?_, rfl, ?_, List.Pairwise.nil⟩
    · intro fuel hf
      cases fuel with
      | zero => omega
      | succ fuel =>
        unfold candidates Peek
        rw [hex]
        rfl
    · intro c hc
      cases hc
  | succ n ih =>
    intro self ho hflag hn hi hu
    have hne : self.iter_ ≠ [] ∨ self.uter_ ≠ [] := by
      by_contra hcon
      push_neg at hcon
      rw [hcon.1, hcon.2] at hn
      simp at hn
    obtain ⟨e, c, hpeek, hct, hcase, ho', hflag'⟩ := peek_next_cases self o ho hflag hne
    have hlen : (self.Next).2.iter_.length + (self.Next).2.uter_.length = n := by
      rcases hcase with ⟨h1, h2, _⟩ | ⟨h1, h2, _⟩
      · rw [h1, List.length_cons] at hn
        rw [h2]
        omega
      · rw [h1, List.length_cons] at hn
        rw [h2]
        omega
    have hi' : ExactFirst (self.Next).2.iter_ := by
      rcases hcase with ⟨h1, _, _⟩ | ⟨_, h2, _⟩
      · unfold ExactFirst at hi ⊢
        rw [h1] at hi
        exact (List.pairwise_cons.mp hi).2
      · rw [h2]; exact hi
    have hu' : ExactFirst (self.Next).2.uter_ := by
      rcases hcase with ⟨_, h2, _⟩ | ⟨h1, _, _⟩
      · rw [h2]; exact hu
      · unfold ExactFirst at hu ⊢
        rw [h1] at hu
        exact (List.pairwise_cons.mp hu).2
    obtain ⟨cs, hcs, hcl, hall, hpw⟩ := ih (self.Next).2 ho' hflag' hlen hi' hu'
    -- what is left holds no exact match once an inexact one has been emitted
    have hrest : e.remaining_code_length ≠ 0 →
        ∀ e' ∈ (self.Next).2.iter_ ++ (self.Next).2.uter_, e'.remaining_code_length ≠ 0 := by
      intro he e' he'
      have hsorted : ∀ l : DictEntryIterator, ExactFirst l →
          (∀ x ∈ l.head?, x.remaining_code_length ≠ 0) →
          ∀ x ∈ l, x.remaining_code_length ≠ 0 := by
        intro l hl hh x hx
        cases l with
        | nil => cases hx
        | cons y ys =>
          have hy : y.remaining_code_length ≠ 0 := hh y rfl
          rcases List.mem_cons.mp hx with h | h
          · rw [h]; exact hy
          · exact (List.pairwise_cons.mp hl).1 x h hy
      rcases hcase with ⟨h1, h2, h3⟩ | ⟨h1, h2, h3⟩
      · rcases List.mem_append.mp he' with h | h
        · unfold ExactFirst at hi
          rw [h1] at hi
          exact (List.pairwise_cons.mp hi).1 e' h he
        · rw [h2] at h
          exact hsorted self.uter_ hu (h3 he) e' h
      · rcases List.mem_append.mp he' with h | h
        · rw [h2] at h
          exact hsorted self.iter_ hi (h3 he) e' h
        · unfold ExactFirst at hu
          rw [h1] at hu
          exact (List.pairwise_cons.mp hu).1 e' h he
    have hsub : ∀ e' ∈ (self.Next).2.iter_ ++ (self.Next).2.uter_,
        e' ∈ self.iter_ ++ self.uter_ := by
      intro e' he'
      rcases hcase with ⟨h1, h2, _⟩ | ⟨h1, h2, _⟩
      · rw [h1, ← h2]
        rcases List.mem_append.mp he' with h | h
        · exact List.mem_append_left _ (List.mem_cons_of_mem _ h)
        · exact List.mem_append_right _ h
      · rw [h1, ← h2]
        rcases List.mem_append.mp he' with h | h
        · exact List.mem_append_left _ h
        · exact List.mem_append_right _ (List.mem_cons_of_mem _ h)
    have hemem : e ∈ self.iter_ ++ self.uter_ := by
      rcases hcase with ⟨h1, _, _⟩ | ⟨h1, _, _⟩
      · rw [h1]; exact List.mem_append_left _ (List.mem_cons_self _ _)
      · rw [h1]; exact List.mem_append_right _ (List.mem_cons_self _ _)
    refine ⟨c :: cs, ?_, by rw [List.length_cons, hcl], ?_, ?_⟩
    · intro fuel hf
      cases fuel with
      | zero => omega
      | succ fuel =>
        unfold candidates
        rw [hpeek]
        simp only [hcs fuel (by omega)]
    · intro c' hc'
      rcases List.mem_cons.mp hc' with h | h
      · rw [h, hct]
        by_cases hr : e.remaining_code_length = 0
        · left
          exact ⟨by simp [hr], e, hemem, hr⟩
        · right
          simp [hr]
      · rcases hall c' h with ⟨h1, e', he', h2⟩ | h1
        · exact Or.inl ⟨h1, e', hsub e' he', h2⟩
        · exact Or.inr h1
    · rw [List.pairwise_cons]
      refine ⟨?_, hpw⟩
      intro c' hc' hcomp hc't
      have hr : e.remaining_code_length ≠ 0 := by
        intro hr
        rw [hct, if_pos hr] at hcomp
        exact absurd hcomp (by decide)
      rcases hall c' hc' with ⟨_, e', he', h2⟩ | h1
      · exact hrest hr e' he' h2
      · rw [h1] at hc't
        exact absurd hc't (by decide)

end TableTranslation

/-- Claim C33. For the translation that the constructor of `TableTranslation` makes of
a dict iterator and a user iterator, each of which lists every entry with
`remaining_code_length == 0` before any entry with `remaining_code_length != 0`: the
stream of `Peek` and `Next` yields one candidate for every entry of the two iterators
and then ends, each candidate is of type `table` or `completion`, and no candidate of
type `completion` comes before a candidate of type `table`. -/
theorem C33_table_before_completion (options : TranslatorOptions) (input : List Char)
    (start end_ : Nat) (preedit : List Char) (iter uter : DictEntryIterator)
    (hi : ExactFirst iter) (hu : ExactFirst uter) :
    ∃ cs, (∀ fuel, iter.length + uter.length < fuel →
        TableTranslation.candidates fuel
          (TableTranslation.newWith (some options) input start end_ preedit iter uter) =
          .ok cs) ∧
      cs.length = iter.length + uter.length ∧
      (∀ c ∈ cs, c.type = "table" ∨ c.type = "completion") ∧
      cs.Pairwise (fun a b => a.type = "completion" → b.type ≠ "table") := by
  obtain ⟨cs, h1, h2, h3, h4⟩ := TableTranslation.candidates_spec options
    (iter.length + uter.length)
    (TableTranslation.newWith (some options) input start end_ preedit iter uter)
    rfl rfl rfl hi hu
  refine ⟨cs, h1, h2, ?_, h4⟩
  intro c hc
  rcases h3 c hc with ⟨h, _⟩ | h
  · exact Or.inl h
  · exact Or.inr h

/-- Claim C33 on a dict iterator that holds `wordAB`, then an entry for a longer code,
and a user iterator that holds `wordA`. -/
theorem C33_table_before_completion_witness :
    ExactFirst [Examples.wordAB, Examples.wordFar] ∧ ExactFirst [Examples.wordA] ∧
    ∃ cs, (∀ fuel, [Examples.wordAB, Examples.wordFar].length + [Examples.wordA].length < fuel →
        TableTranslation.candidates fuel
          (TableTranslation.newWith (some Examples.plainOptions) ['a', 'b'] 0 2 ['a', 'b']
            [Examples.wordAB, Examples.wordFar] [Examples.wordA]) = .ok cs) ∧
      cs.length = [Examples.wordAB, Examples.wordFar].length + [Examples.wordA].length ∧
      (∀ c ∈ cs, c.type = "table" ∨ c.type = "completion") ∧
      cs.Pairwise (fun a b => a.type = "completion" → b.type ≠ "table") :=
  ⟨by unfold ExactFirst; decide, by unfold ExactFirst; decide,
    C33_table_before_completion Examples.plainOptions ['a', 'b'] 0 2 ['a', 'b']
      [Examples.wordAB, Examples.wordFar] [Examples.wordA]
      (by unfold ExactFirst; decide) (by unfold ExactFirst; decide)⟩

end Rime

namespace Rime
open SpellingType

theorem bucketEntries_cons (b : Nat × List DictEntry) (rest : List (Nat × List DictEntry)) :
    bucketEntries (b :: rest) = b.2.map (fun e => (b.1, e)) ++ bucketEntries rest := by
  simp [bucketEntries]

theorem mem_bucketEntries (buckets : List (Nat × List DictEntry)) (q : Nat × DictEntry)
    (h : q ∈ bucketEntries buckets) : ∃ b ∈ buckets, q.1 = b.1 := by
  induction buckets with
  | nil => simp [bucketEntries] at h
  | cons b rest ih =>
    rw [bucketEntries_cons] at h
    rcases List.mem_append.mp h with h1 | h1
    · obtain ⟨e, _, he⟩ := List.mem_map.mp h1
      exact ⟨b, List.mem_cons_self _ _, by rw [← he]⟩
    · obtain ⟨b', hb', hq⟩ := ih h1
      exact ⟨b', List.mem_cons_of_mem _ hb', hq⟩

theorem ProperBuckets_tail {b : Nat × List DictEntry} {rest : List (Nat × List DictEntry)}
    (h : ProperBuckets (b :: rest)) : ProperBuckets rest :=
  ⟨(List.pairwise_cons.mp h.1).2, fun b' hb' => h.2 b' (List.mem_cons_of_mem _ hb')⟩

theorem ProperBuckets_head_max {b : Nat × List DictEntry}
    {rest : List (Nat × List DictEntry)} (h : ProperBuckets (b :: rest)) :
    ∀ b' ∈ b :: rest, b'.1 ≤ b.1 := by
  intro b' hb'
  rcases List.mem_cons.mp hb' with h1 | h1
  · rw [h1]
  · exact Nat.le_of_lt ((List.pairwise_cons.mp h.1).1 b' h1)

theorem ProperBuckets_step {b : Nat × List DictEntry} {rest : List (Nat × List DictEntry)}
    (h : ProperBuckets (b :: rest)) (l : List DictEntry) (hl : l ≠ []) :
    ProperBuckets ((b.1, l) :: rest) := by
  refine ⟨?_, ?_⟩
  · rw [List.pairwise_cons]
    exact ⟨(List.pairwise_cons.mp h.1).1, (List.pairwise_cons.mp h.1).2⟩
  · intro b' hb'
    rcases List.mem_cons.mp hb' with h1 | h1
    · rw [h1]
      exact ⟨(h.2 b (List.mem_cons_self _ _)).1, hl⟩
    · exact h.2 b' (List.mem_cons_of_mem _ h1)

theorem bucketEntries_le (buckets : List (Nat × List DictEntry)) (h : ProperBuckets buckets)
    (q : Nat × DictEntry) (hq : q ∈ bucketEntries buckets) :
    ∀ b ∈ buckets.head?, q.1 ≤ b.1 := by
  intro b hb
  cases buckets with
  | nil => cases hb
  | cons b0 rest =>
    simp only [List.head?_cons, Option.mem_def, Option.some.injEq] at hb
    subst hb
    obtain ⟨b', hb', hq'⟩ := mem_bucketEntries _ q hq
    rw [hq']
    exact ProperBuckets_head_max h b' hb'

namespace ScriptTranslation

theorem phraseBuckets_cons (self : ScriptTranslation) (b : Nat × DictEntryIterator)
    (rest : List (Nat × DictEntryIterator)) :
    self.phraseBuckets = b :: rest ↔ self.phrase_ = some (b :: rest) := by
  unfold phraseBuckets
  cases self.phrase_ with
  | none => simp
  | some l => simp

theorem userBuckets_cons (self : ScriptTranslation) (b : Nat × DictEntryList)
    (rest : List (Nat × DictEntryList)) :
    self.userBuckets = b :: rest ↔ self.user_phrase_ = some (b :: rest) := by
  unfold userBuckets
  cases self.user_phrase_ with
  | none => simp
  | some l => simp

theorem phraseBuckets_nil (self : ScriptTranslation) :
    self.phraseBuckets = [] ↔ self.phraseDrained := by
  unfold phraseBuckets phraseDrained
  cases self.phrase_ with
  | none => simp
  | some l => simp

theorem userBuckets_nil (self : ScriptTranslation) :
    self.userBuckets = [] ↔ self.userPhraseDrained := by
  unfold userBuckets userPhraseDrained
  cases self.user_phrase_ with
  | none => simp
  | some l => simp

theorem phrase_code_length_eq (self : ScriptTranslation) :
    self.phrase_code_length = (self.phraseBuckets.head?.map Prod.fst).getD 0 := by
  unfold phrase_code_length phraseBuckets
  cases self.phrase_ with
  | none => rfl
  | some l => cases l <;> rfl

theorem user_phrase_code_length_eq (self : ScriptTranslation) :
    self.user_phrase_code_length = (self.userBuckets.head?.map Prod.fst).getD 0 := by
  unfold user_phrase_code_length userBuckets
  cases self.user_phrase_ with
  | none => rfl
  | some l => cases l <;> rfl

theorem Next_start (self : ScriptTranslation) : (self.Next).2.start_ = self.start_ := by
  unfold Next
  split
  · rfl
  · split
    · rfl
    · simp only
      rw [(CheckEmpty_fields _).2.2.2.2.2.2.1]
      repeat' split
      all_goals rfl

theorem afterNext_add (self : ScriptTranslation) (m n : Nat) :
    self.afterNext (m + n) = (self.afterNext m).afterNext n := by
  induction m generalizing self with
  | zero => rw [Nat.zero_add]; rfl
  | succ m ih =>
    rw [Nat.succ_add]
    exact ih (self.Next).2

/-- A translation that has passed all its entries is exhausted. -/
theorem Ready_done (self : ScriptTranslation) (h : self.Ready) (hr : self.remaining = []) :
    self.exhausted_ = true := by
  unfold remaining at hr
  obtain ⟨h1, h2⟩ := List.append_eq_nil.mp hr
  rw [h.flag, ← phraseBuckets_nil, ← userBuckets_nil]
  constructor
  · cases hP : self.phraseBuckets with
    | nil => rfl
    | cons b rest =>
      exfalso
      rw [hP, bucketEntries_cons] at h1
      have hb := (h.phrase.2 b (by rw [hP]; exact List.mem_cons_self _ _)).2
      cases hl : b.2 with
      | nil => exact hb hl
      | cons e es => rw [hl] at h1; simp at h1
  · cases hU : self.userBuckets with
    | nil => rfl
    | cons b rest =>
      exfalso
      have hi := h.index b (by rw [hU]; rfl)
      rw [hU, bucketEntries_cons] at h2
      have : ((b.2.map (fun e => (b.1, e)) ++ bucketEntries rest).drop
          self.user_phrase_index_).length = 0 := by rw [h2]; rfl
      rw [List.length_drop, List.length_append, List.length_map] at this
      omega

end ScriptTranslation
end Rime

namespace Rime
open SpellingType

theorem drop_bucketEntries (b : Nat × List DictEntry) (rest : List (Nat × List DictEntry))
    (idx : Nat) (entry : DictEntry) (hi : b.2.get? idx = some entry) :
    (bucketEntries (b :: rest)).drop idx =
      (b.1, entry) :: (bucketEntries (b :: rest)).drop (idx + 1) ∧
    (b.2.length ≤ idx + 1 → (bucketEntries (b :: rest)).drop (idx + 1) = bucketEntries rest) := by
  have hlt : idx < b.2.length := by
    rcases Nat.lt_or_ge idx b.2.length with h | h
    · exact h
    · rw [List.get?_eq_none.mpr h] at hi
      cases hi
  rw [bucketEntries_cons]
  constructor
  · have hget : (b.2.map (fun e => (b.1, e)) ++ bucketEntries rest).get? idx =
        some (b.1, entry) := by
      rw [List.get?_eq_getElem?, List.getElem?_append_left (by rw [List.length_map]; exact hlt),
        List.getElem?_map, ← List.get?_eq_getElem?, hi]
      rfl
    have hlen : idx < (b.2.map (fun e => (b.1, e)) ++ bucketEntries rest).length := by
      rw [List.length_append, List.length_map]
      omega
    rw [List.drop_eq_getElem_cons hlen]
    congr 1
    have := List.getElem?_eq_getElem hlen
    rw [List.get?_eq_getElem?] at hget
    rw [this] at hget
    injection hget
  · intro hle
    have hlen : (b.2.map (fun e => (b.1, e))).length = idx + 1 := by
      rw [List.length_map]
      omega
    rw [List.drop_append_eq_append_drop, List.drop_of_length_le (Nat.le_of_eq hlen), hlen,
      Nat.sub_self]
    rfl

namespace ScriptTranslation

/-- One step of a translation that still has entries to pass: `Peek` builds a phrase
candidate of one of them, of the greatest code length left, and `Next` passes it. -/
theorem Ready_step (t : ScriptTranslator) (self : ScriptTranslation) (h : self.Ready)
    (hne : self.remaining ≠ []) :
    ∃ p, self.remaining.Perm (p :: (self.Next).2.remaining) ∧
      (∀ q ∈ (self.Next).2.remaining, q.1 ≤ p.1) ∧
      self.exhausted_ = false ∧
      (∀ r, Peek t self = .ok r →
        ∃ c, r.1 = some c ∧ c.type = "phrase" ∧ c.start = self.start_ ∧
          c.end_ = self.start_ + p.1 ∧ c.entry = p.2) ∧
      (t.delimiters_ ≠ [] → self.syllable_graph_.ForwardWithin self.input_.length →
        ∃ r, Peek t self = .ok r) ∧
      (self.Next).2.Ready := by
  have hflagN := Next_flag self h.flag
  -- the candidate that `Peek` makes of a phrase built from an entry
  have hfill : ∀ (cand : Candidate) (P : Except Fault (Option Candidate × ScriptTranslation)),
      P = (match fillPreeditAndComment t self cand with
        | .error e => .error e
        | .ok cand1 => .ok (some cand1, self)) →
      (∀ r, P = .ok r → ∃ c, r.1 = some c ∧ c.type = cand.type ∧ c.start = cand.start ∧
        c.end_ = cand.end_ ∧ c.entry = cand.entry) ∧
      (t.delimiters_ ≠ [] → self.syllable_graph_.ForwardWithin self.input_.length →
        ∃ r, P = .ok r) := by
    intro cand P hP
    constructor
    · intro r hr
      rw [hP] at hr
      cases hf : fillPreeditAndComment t self cand with
      | error e => rw [hf] at hr; cases hr
      | ok c =>
        rw [hf] at hr
        injection hr with hr
        have hs := fillPreeditAndComment_same t self cand c hf
        refine ⟨c, by rw [← hr], ?_, ?_, ?_, ?_⟩
        all_goals rw [hs]
    · intro hD hg
      obtain ⟨c, hc⟩ := fillPreeditAndComment_ok t self cand hD hg
      rw [hP, hc]
      exact ⟨_, rfl⟩
  by_cases hc : 0 < self.user_phrase_code_length ∧
      self.phrase_code_length ≤ self.user_phrase_code_length
  · -- the user bucket is taken
    obtain ⟨b, rest, hu, hb⟩ := user_phrase_code_length_pos self hc.1
    have hU : self.userBuckets = b :: rest := (userBuckets_cons self b rest).mpr hu
    have hi : self.user_phrase_index_ < b.2.length := h.index b (by rw [hU]; rfl)
    have hget : b.2.get? self.user_phrase_index_ = some (b.2.get ⟨_, hi⟩) :=
      List.get?_eq_get hi
    have hex : self.exhausted_ = false := by
      cases he : self.exhausted_ with
      | false => rfl
      | true =>
        have := (userBuckets_nil self).mpr (h.flag.mp he).2
        rw [hU] at this
        cases this
    have hN := Next_user self hex h.sentence hc b rest hu
    have hP := Peek_user t self hex h.sentence hc b rest hu
    rw [hget] at hP
    obtain ⟨hd1, hd2⟩ := drop_bucketEntries b rest self.user_phrase_index_ _ hget
    have hpl : ∀ q ∈ bucketEntries self.phraseBuckets, q.1 ≤ b.1 := by
      intro q hq
      cases hPh : self.phraseBuckets with
      | nil => rw [hPh] at hq; simp [bucketEntries] at hq
      | cons b0 rest0 =>
        have h1 := bucketEntries_le _ h.phrase q hq b0 (by rw [hPh]; rfl)
        have h2 := phrase_code_length_eq self
        rw [hPh] at h2
        simp only [List.head?_cons, Option.map, Option.getD] at h2
        omega
    have hul : ∀ q ∈ bucketEntries (b :: rest), q.1 ≤ b.1 := by
      intro q hq
      obtain ⟨b', hb', hq'⟩ := mem_bucketEntries _ q hq
      rw [hq']
      exact ProperBuckets_head_max (hU ▸ h.user) b' hb'
    refine ⟨(b.1, b.2.get ⟨_, hi⟩), ?_, ?_, hex, ?_, ?_, ?_⟩
    · -- the entries left
      by_cases hlen : b.2.length ≤ self.user_phrase_index_ + 1
      · have hr : (self.Next).2.remaining =
            bucketEntries self.phraseBuckets ++ bucketEntries rest := by
          rw [hN, if_pos hlen]
          rfl
        rw [hr]
        unfold remaining
        rw [hU, hd1, hd2 hlen]
        exact List.perm_middle
      · have hr : (self.Next).2.remaining =
            bucketEntries self.phraseBuckets ++
              (bucketEntries (b :: rest)).drop (self.user_phrase_index_ + 1) := by
          rw [hN, if_neg hlen]
          unfold remaining userBuckets phraseBuckets
          simp only [(CheckEmpty_fields _).2.1, (CheckEmpty_fields _).2.2.1,
            (CheckEmpty_fields _).2.2.2.1, hu, Option.getD_some]
        rw [hr]
        unfold remaining
        rw [hU, hd1]
        exact List.perm_middle
    · intro q hq
      have hq' : q ∈ bucketEntries self.phraseBuckets ∨ q ∈ bucketEntries (b :: rest) := by
        by_cases hlen : b.2.length ≤ self.user_phrase_index_ + 1
        · have hr : (self.Next).2.remaining =
              bucketEntries self.phraseBuckets ++ bucketEntries rest := by
            rw [hN, if_pos hlen]
            rfl
          rw [hr] at hq
          rcases List.mem_append.mp hq with h1 | h1
          · exact Or.inl h1
          · right
            rw [bucketEntries_cons]
            exact List.mem_append_right _ h1
        · have hr : (self.Next).2.remaining =
              bucketEntries self.phraseBuckets ++
                (bucketEntries (b :: rest)).drop (self.user_phrase_index_ + 1) := by
            rw [hN, if_neg hlen]
            unfold remaining userBuckets phraseBuckets
            simp only [(CheckEmpty_fields _).2.1, (CheckEmpty_fields _).2.2.1,
              (CheckEmpty_fields _).2.2.2.1, hu, Option.getD_some]
          rw [hr] at hq
          rcases List.mem_append.mp hq with h1 | h1
          · exact Or.inl h1
          · exact Or.inr (List.mem_of_mem_drop h1)
      rcases hq' with h1 | h1
      · exact hpl q h1
      · exact hul q h1
    · intro r hr
      obtain ⟨c, h1, h2, h3, h4, h5⟩ := (hfill _ _ hP).1 r hr
      refine ⟨c, h1, h2, h3, ?_, h5⟩
      rw [h4, ← hb]
      rfl
    · exact (hfill _ _ hP).2
    · refine ⟨Next_sentence_none self h.sentence, hflagN, ?_, ?_, ?_⟩
      · have : (self.Next).2.phraseBuckets = self.phraseBuckets := by
          rw [hN]
          unfold phraseBuckets
          rw [(CheckEmpty_fields _).2.1]
          split <;> rfl
        rw [this]
        exact h.phrase
      · by_cases hlen : b.2.length ≤ self.user_phrase_index_ + 1
        · have : (self.Next).2.userBuckets = rest := by
            rw [hN, if_pos hlen]
            rfl
          rw [this]
          exact ProperBuckets_tail (hU ▸ h.user)
        · have : (self.Next).2.userBuckets = self.userBuckets := by
            rw [hN, if_neg hlen]
            rfl
          rw [this]
          exact h.user
      · by_cases hlen : b.2.length ≤ self.user_phrase_index_ + 1
        · have h1 : (self.Next).2.userBuckets = rest := by
            rw [hN, if_pos hlen]
            rfl
          have h2 : (self.Next).2.user_phrase_index_ = 0 := by
            rw [hN, if_pos hlen]
            rfl
          rw [h1, h2]
          intro b' hb'
          have hmem : b' ∈ rest := List.mem_of_mem_head? hb'
          have := ((ProperBuckets_tail (hU ▸ h.user)).2 b' hmem).2
          exact List.length_pos.mpr this
        · have h1 : (self.Next).2.userBuckets = b :: rest := by
            rw [hN, if_neg hlen, ← hU]
            rfl
          have h2 : (self.Next).2.user_phrase_index_ = self.user_phrase_index_ + 1 := by
            rw [hN, if_neg hlen]
            rfl
          rw [h1, h2]
          intro b' hb'
          simp only [List.head?_cons, Option.mem_def, Option.some.injEq] at hb'
          subst hb'
          omega
  · -- the dict bucket is taken
    have hPne : self.phraseBuckets ≠ [] := by
      intro hP0
      apply hc
      have hpl0 : self.phrase_code_length = 0 := by
        rw [phrase_code_length_eq, hP0]
        rfl
      cases hU : self.userBuckets with
      | nil =>
        exfalso
        apply hne
        unfold remaining
        rw [hP0, hU]
        simp [bucketEntries]
      | cons bu restu =>
        have : self.user_phrase_code_length = bu.1 := by
          rw [user_phrase_code_length_eq, hU]
          rfl
        have := (h.user.2 bu (by rw [hU]; exact List.mem_cons_self _ _)).1
        omega
    obtain ⟨b, rest, hPh⟩ : ∃ b rest, self.phraseBuckets = b :: rest := by
      cases hP0 : self.phraseBuckets with
      | nil => exact absurd hP0 hPne
      | cons b rest => exact ⟨b, rest, rfl⟩
    have hph : self.phrase_ = some (b :: rest) := (phraseBuckets_cons self b rest).mp hPh
    have hpl : self.phrase_code_length = b.1 := by
      rw [phrase_code_length_eq, hPh]
      rfl
    have hbpos := h.phrase.2 b (by rw [hPh]; exact List.mem_cons_self _ _)
    have hp : 0 < self.phrase_code_length := by rw [hpl]; exact hbpos.1
    obtain ⟨e, es, hbe⟩ : ∃ e es, b.2 = e :: es := by
      cases hl : b.2 with
      | nil => exact absurd hl hbpos.2
      | cons e es => exact ⟨e, es, rfl⟩
    have hex : self.exhausted_ = false := by
      cases he : self.exhausted_ with
      | false => rfl
      | true =>
        have := (phraseBuckets_nil self).mpr (h.flag.mp he).1
        rw [hPh] at this
        cases this
    have hN := Next_dict self hex h.sentence hc hp b rest hph
    have hP := Peek_dict t self hex h.sentence hc hp b rest hph
    rw [hbe] at hP hN
    simp only [List.head?_cons, List.tail_cons] at hP hN
    have hrem : self.remaining = (b.1, e) :: (self.Next).2.remaining := by
      unfold remaining
      rw [hPh, bucketEntries_cons, hbe]
      cases es with
      | nil =>
        rw [hN]
        rfl
      | cons e2 es2 =>
        rw [hN]
        unfold phraseBuckets userBuckets
        simp only [List.isEmpty_cons, Bool.false_eq_true, if_false,
          (CheckEmpty_fields _).2.1, (CheckEmpty_fields _).2.2.1,
          (CheckEmpty_fields _).2.2.2.1, Option.getD_some, bucketEntries_cons,
          List.map_cons, List.cons_append, List.append_assoc]
    have hNU : (self.Next).2.userBuckets = self.userBuckets ∧
        (self.Next).2.user_phrase_index_ = self.user_phrase_index_ := by
      rw [hN]
      cases es <;> exact ⟨rfl, rfl⟩
    have hNP : (self.Next).2.phraseBuckets =
        (if es.isEmpty then rest else (b.1, es) :: rest) := by
      rw [hN]
      cases es <;> rfl
    refine ⟨(b.1, e), ?_, ?_, hex, ?_, ?_, ?_⟩
    · rw [hrem]
    · intro q hq
      unfold remaining at hq
      rcases List.mem_append.mp hq with h1 | h1
      · obtain ⟨b', hb', hq'⟩ := mem_bucketEntries _ q h1
        rw [hq']
        rw [hNP] at hb'
        have hmax := ProperBuckets_head_max (hPh ▸ h.phrase)
        split at hb'
        · exact hmax b' (List.mem_cons_of_mem _ hb')
        · rcases List.mem_cons.mp hb' with h2 | h2
          · rw [h2]
          · exact hmax b' (List.mem_cons_of_mem _ h2)
      · rw [hNU.1] at h1
        have h2 := List.mem_of_mem_drop h1
        cases hU : self.userBuckets with
        | nil => rw [hU] at h2; simp [bucketEntries] at h2
        | cons bu restu =>
          have h3 := bucketEntries_le _ h.user q h2 bu (by rw [hU]; rfl)
          have h4 : self.user_phrase_code_length = bu.1 := by
            rw [user_phrase_code_length_eq, hU]
            rfl
          have h5 := (h.user.2 bu (by rw [hU]; exact List.mem_cons_self _ _)).1
          have h6 : ¬ (0 < bu.1 ∧ b.1 ≤ bu.1) := by
            rw [← h4, ← hpl]
            exact hc
          show q.1 ≤ b.1
          omega
    · intro r hr
      obtain ⟨c, h1, h2, h3, h4, h5⟩ := (hfill _ _ hP).1 r hr
      refine ⟨c, h1, h2, h3, ?_, h5⟩
      rw [h4, ← hpl]
      rfl
    · exact (hfill _ _ hP).2
    · refine ⟨Next_sentence_none self h.sentence, hflagN, ?_, ?_, ?_⟩
      · rw [hNP]
        cases es with
        | nil => exact ProperBuckets_tail (hPh ▸ h.phrase)
        | cons e2 es2 =>
          exact ProperBuckets_step (hPh ▸ h.phrase) (e2 :: es2) (by simp)
      · rw [hNU.1]
        exact h.user
      · rw [hNU.1, hNU.2]
        exact h.index

end ScriptTranslation
end Rime

namespace Rime
open SpellingType

namespace ScriptTranslation

theorem phrases_spec (t : ScriptTranslator) :
    ∀ (M : Nat) (self : ScriptTranslation), self.Ready → self.remaining.length = M →
      ∃ emitted : List (Nat × DictEntry), emitted.Perm self.remaining ∧
        emitted.Pairwise (fun a b => b.1 ≤ a.1) ∧
        (∀ k p, emitted.get? k = some p →
          (self.afterNext k).exhausted_ = false ∧ (self.afterNext k).sentence_ = none ∧
          (∀ r, Peek t (self.afterNext k) = .ok r →
            ∃ c, r.1 = some c ∧ c.type = "phrase" ∧ c.start = self.start_ ∧
              c.end_ = self.start_ + p.1 ∧ c.entry = p.2) ∧
          (t.delimiters_ ≠ [] → self.syllable_graph_.ForwardWithin self.input_.length →
            ∃ r, Peek t (self.afterNext k) = .ok r)) ∧
        (self.afterNext M).exhausted_ = true := by
  intro M
  induction M with
  | zero =>
    intro self h hM
    have hr : self.remaining = [] := List.eq_nil_of_length_eq_zero hM
    refine ⟨[], by rw [hr], List.Pairwise.nil, ?_, Ready_done self h hr⟩
    intro k p hk
    cases hk
  | succ M ih =>
    intro self h hM
    have hne : self.remaining ≠ [] := by
      intro h0
      rw [h0] at hM
      cases hM
    obtain ⟨p, hperm, hle, hex, hpeek, hret, hready⟩ := Ready_step t self h hne
    have hlen : (self.Next).2.remaining.length = M := by
      have := hperm.length_eq
      rw [List.length_cons] at this
      omega
    obtain ⟨emitted, h1, h2, h3, h4⟩ := ih (self.Next).2 hready hlen
    refine ⟨p :: emitted, ?_, ?_, ?_, h4⟩
    · exact ((List.Perm.cons p h1).trans hperm.symm)
    · rw [List.pairwise_cons]
      exact ⟨fun q hq => hle q (h1.subset hq), h2⟩
    · intro k q hk
      cases k with
      | zero =>
        simp only [List.get?_cons_zero, Option.some.injEq] at hk
        subst hk
        exact ⟨hex, h.sentence, hpeek, hret⟩
      | succ k =>
        simp only [List.get?_cons_succ] at hk
        obtain ⟨a1, a2, a3, a4⟩ := h3 k q hk
        have hs := Next_start self
        obtain ⟨hi, hg⟩ := Next_graph self
        rw [hs] at a3
        rw [hi, hg] at a4
        exact ⟨a1, a2, a3, a4⟩

end ScriptTranslation

/-- Claim C34. For a ScriptTranslation with its flag as `CheckEmpty` leaves it and its
index at 0, whose collectors have only positive keys and non-empty buckets (the keys of
the buckets still to come strictly decreasing, as the reverse iterators run): there is
a list of the entries of the buckets of both collectors, each with the key of its
bucket, every entry once, in an order of non-increasing keys, such that after the call
of `Next` that passes the sentence, if one is queued, the `k`-th further state is not
exhausted and `Peek` builds there a phrase candidate of the `k`-th entry of the list, that
ends at `start + key`; and once as many further calls of `Next` have been made as
there are entries, the translation is exhausted. -/
theorem C34_phrases_longest_first (t : ScriptTranslator) (self : ScriptTranslation)
    (hflag : self.exhausted_ = true ↔ self.phraseDrained ∧ self.userPhraseDrained)
    (hP : ProperBuckets self.phraseBuckets) (hU : ProperBuckets self.userBuckets)
    (hidx : self.user_phrase_index_ = 0) :
    ∃ emitted : List (Nat × DictEntry),
      emitted.Perm (bucketEntries self.phraseBuckets ++ bucketEntries self.userBuckets) ∧
      emitted.length =
        (bucketEntries self.phraseBuckets).length + (bucketEntries self.userBuckets).length ∧
      emitted.Pairwise (fun a b => b.1 ≤ a.1) ∧
      (∀ k p, emitted.get? k = some p →
        (self.afterNext (self.sentenceCalls + k)).exhausted_ = false ∧
        (self.afterNext (self.sentenceCalls + k)).sentence_ = none ∧
        (∀ r, ScriptTranslation.Peek t (self.afterNext (self.sentenceCalls + k)) = .ok r →
          ∃ c, r.1 = some c ∧ c.type = "phrase" ∧ c.start = self.start_ ∧
            c.end_ = self.start_ + p.1 ∧ c.entry = p.2) ∧
        (t.delimiters_ ≠ [] → self.syllable_graph_.ForwardWithin self.input_.length →
          ∃ r, ScriptTranslation.Peek t (self.afterNext (self.sentenceCalls + k)) = .ok r)) ∧
      (self.afterNext (self.sentenceCalls + emitted.length)).exhausted_ = true := by
  have hrem : self.remaining =
      bucketEntries self.phraseBuckets ++ bucketEntries self.userBuckets := by
    unfold ScriptTranslation.remaining
    rw [hidx, List.drop_zero]
  have hindex : ∀ st : ScriptTranslation, st.userBuckets = self.userBuckets →
      st.user_phrase_index_ = 0 → ∀ b ∈ st.userBuckets.head?, st.user_phrase_index_ < b.2.length := by
    intro st h1 h2 b hb
    rw [h2]
    rw [h1] at hb
    exact List.length_pos.mpr (hU.2 b (List.mem_of_mem_head? hb)).2
  -- the state from which the phrase candidates are drawn
  have key : ∀ st : ScriptTranslation, st.Ready → st.remaining = self.remaining →
      st.start_ = self.start_ → st.syllable_graph_ = self.syllable_graph_ →
      st.input_ = self.input_ → self.afterNext self.sentenceCalls = st →
      ∃ emitted : List (Nat × DictEntry),
        emitted.Perm (bucketEntries self.phraseBuckets ++ bucketEntries self.userBuckets) ∧
        emitted.length =
          (bucketEntries self.phraseBuckets).length +
            (bucketEntries self.userBuckets).length ∧
        emitted.Pairwise (fun a b => b.1 ≤ a.1) ∧
        (∀ k p, emitted.get? k = some p →
          (self.afterNext (self.sentenceCalls + k)).exhausted_ = false ∧
          (self.afterNext (self.sentenceCalls + k)).sentence_ = none ∧
          (∀ r, ScriptTranslation.Peek t (self.afterNext (self.sentenceCalls + k)) = .ok r →
            ∃ c, r.1 = some c ∧ c.type = "phrase" ∧ c.start = self.start_ ∧
              c.end_ = self.start_ + p.1 ∧ c.entry = p.2) ∧
          (t.delimiters_ ≠ [] → self.syllable_graph_.ForwardWithin self.input_.length →
            ∃ r, ScriptTranslation.Peek t (self.afterNext (self.sentenceCalls + k)) =
              .ok r)) ∧
        (self.afterNext (self.sentenceCalls + emitted.length)).exhausted_ = true := by
    intro st hready h1 h2 h3 h4 h5
    obtain ⟨emitted, e1, e2, e3, e4⟩ :=
      ScriptTranslation.phrases_spec t st.remaining.length st hready rfl
    have hl : emitted.length = st.remaining.length := e1.length_eq
    refine ⟨emitted, ?_, ?_, e2, ?_, ?_⟩
    · rw [← hrem, ← h1]; exact e1
    · rw [hl, h1, hrem, List.length_append]
    · intro k p hk
      rw [ScriptTranslation.afterNext_add, h5]
      have := e3 k p hk
      rw [h2, h3, h4] at this
      exact this
    · rw [ScriptTranslation.afterNext_add, h5, hl]
      exact e4
  cases hs : self.sentence_ with
  | none =>
    have hcalls : self.sentenceCalls = 0 := by
      unfold ScriptTranslation.sentenceCalls
      rw [hs]
      rfl
    exact key self ⟨hs, hflag, hP, hU, hindex self rfl hidx⟩ rfl rfl rfl rfl
      (by rw [hcalls]; rfl)
  | some s =>
    have hcalls : self.sentenceCalls = 1 := by
      unfold ScriptTranslation.sentenceCalls
      rw [hs]
      rfl
    cases hex : self.exhausted_ with
    | true =>
      -- both collectors are drained: no phrase candidate, and `Next` does nothing
      obtain ⟨d1, d2⟩ := hflag.mp hex
      have hp0 : self.phraseBuckets = [] := (ScriptTranslation.phraseBuckets_nil self).mpr d1
      have hu0 : self.userBuckets = [] := (ScriptTranslation.userBuckets_nil self).mpr d2
      have hnext : (self.Next).2 = self := by
        unfold ScriptTranslation.Next
        rw [hex]
        rfl
      refine ⟨[], ?_, ?_, List.Pairwise.nil, ?_, ?_⟩
      · rw [hp0, hu0]
        simp [bucketEntries]
      · rw [hp0, hu0]
        simp [bucketEntries]
      · intro k p hk
        cases hk
      · rw [hcalls]
        show (ScriptTranslation.afterNext (self.Next).2 0).exhausted_ = true
        rw [hnext]
        exact hex
    | false =>
      have hnext := ScriptTranslation.Next_of_sentence self s hex hs
      have hst : self.afterNext self.sentenceCalls =
          (ScriptTranslation.CheckEmpty { self with sentence_ := none }).2 := by
        rw [hcalls]
        show (self.Next).2 = _
        rw [hnext]
      refine key (ScriptTranslation.CheckEmpty { self with sentence_ := none }).2
        ⟨rfl, ?_, hP, hU, hindex _ rfl hidx⟩ ?_ rfl rfl rfl hst
      · exact ScriptTranslation.CheckEmpty_iff { self with sentence_ := none }
      · rfl

/-- Claim C34 on a translation for `xian` with a sentence queued, the dict buckets of
the keys 4 (one entry) and 2 (two entries) and the user bucket of the key 2 (one
entry). -/
theorem C34_phrases_longest_first_witness :
    ∃ emitted : List (Nat × DictEntry),
      emitted.Perm (bucketEntries Examples.threeBuckets.phraseBuckets ++
        bucketEntries Examples.threeBuckets.userBuckets) ∧
      emitted.length =
        (bucketEntries Examples.threeBuckets.phraseBuckets).length +
          (bucketEntries Examples.threeBuckets.userBuckets).length ∧
      emitted.Pairwise (fun a b => b.1 ≤ a.1) ∧
      (∀ k p, emitted.get? k = some p →
        (Examples.threeBuckets.afterNext (Examples.threeBuckets.sentenceCalls + k)).exhausted_ =
          false ∧
        (Examples.threeBuckets.afterNext (Examples.threeBuckets.sentenceCalls + k)).sentence_ =
          none ∧
        (∀ r, ScriptTranslation.Peek Examples.xiTranslator
            (Examples.threeBuckets.afterNext (Examples.threeBuckets.sentenceCalls + k)) =
            .ok r →
          ∃ c, r.1 = some c ∧ c.type = "phrase" ∧ c.start = Examples.threeBuckets.start_ ∧
            c.end_ = Examples.threeBuckets.start_ + p.1 ∧ c.entry = p.2) ∧
        (Examples.xiTranslator.delimiters_ ≠ [] →
          Examples.threeBuckets.syllable_graph_.ForwardWithin
            Examples.threeBuckets.input_.length →
          ∃ r, ScriptTranslation.Peek Examples.xiTranslator
            (Examples.threeBuckets.afterNext (Examples.threeBuckets.sentenceCalls + k)) =
            .ok r)) ∧
      (Examples.threeBuckets.afterNext
        (Examples.threeBuckets.sentenceCalls + emitted.length)).exhausted_ = true :=
  C34_phrases_longest_first Examples.xiTranslator Examples.threeBuckets
    ⟨fun h => (by cases h), fun h => (by rcases h.1 with h1 | h1 <;> cases h1)⟩
    ⟨by simp [ScriptTranslation.phraseBuckets, Examples.threeBuckets],
      by simp [ScriptTranslation.phraseBuckets, Examples.threeBuckets]⟩
    ⟨by simp [ScriptTranslation.userBuckets, Examples.threeBuckets, Examples.liveTranslation],
      by simp [ScriptTranslation.userBuckets, Examples.threeBuckets, Examples.liveTranslation]⟩
    rfl

end Rime
